import Mathlib

/-!
# Two-pass assembler: verification development

A shallow embedding of the assembler's line validator (`parser.c`,
`string_utils.c`), its specification tables (`assembler.c`), symbol table
(`symbol_table.c`), two passes (`passes.c`), machine-word encoder and
output writers (`machine_coder.c`, `file_utils.c`) and of the stages `main`
runs for one input file (`assembler.c`), followed by theorems about them.

Conventions of the embedding:

* a C string is the list of its characters before the terminating NUL;
* `int` arithmetic on values that come from the source text or are packed
  into words is arithmetic on `Int` wrapped to 32 bits (`wrap32`);
* the counters `IC`, `DC` (`unsigned int`) are natural numbers, and symbol
  addresses, which are sums and differences of these counters, are integers
  without wrap-around: they count words of images held in memory and stay
  far below `2^31`;
* the global error counter `n_errors` is threaded explicitly: a function that
  may report an error takes the counter and returns the new counter next to
  its result. Diagnostics printed with `printf` are not modelled, and
  parameters that only feed a diagnostic (`op_name` and `operand_name` of
  `_validate_operand`, `line_num` of `_validate_directive`) are left out;
* an argument array `args` with its count `n_args` is a list, `n_args` being
  its length;
* the successive calls of `strtok` on one buffer are modelled by passing on
  the text that is left to scan;
* the globals the two passes work on are the fields of one state record,
  `AsmState`, passed to and returned by every function that touches them;
* an output file is the list of the records written to it (the numbers and
  the label of each line), not their rendering by `fprintf`; whether `fopen`
  returns a stream is a parameter of each writer;
* an input file is the list of the lines `fgets` reads from it; the failure
  branches of `malloc` and `realloc` and the calls of `free` are not
  modelled;
* a store past the end of an allocated buffer is undefined behaviour, and a
  function that makes one returns `none`: this is the case of `parse_line`
  for a line with more argument tokens than the `MAX_LINE_LEN` pointers of
  `args`, and of `add_parsed_line` when `n_lines` is a positive multiple of
  `INPUT_BATCH_SIZE`; the loops of `main` that call them are undefined from
  that round on;
* the counters that live on from one input file to the next (those
  `reset_counters` assigns, and `n_symbol_refs`) are the fields of a second
  record, `Globals`, threaded through the round of `main` for one file
  (`main_iteration`).
-/

set_option autoImplicit false

namespace Assembler

/-! ## Machine integers -/

/-- Value of a C `int` after 32-bit two's-complement wrap-around. -/
def wrap32 (x : Int) : Int := (x + 2147483648) % 4294967296 - 2147483648

/-- C `a + b` on `int`. -/
def add32 (a b : Int) : Int := wrap32 (a + b)

/-- C `a << k` on `int` (multiplication by `2^k`, wrapped). -/
def shl32 (a : Int) (k : Nat) : Int := wrap32 (a * 2 ^ k)

/-! ## Enumerations of `assembler.h` -/

/-- Relocation flag `LinkerInfo` (A-R-E bits). -/
inductive LinkerInfo where
  | Linker_UNK
  | Linker_E
  | Linker_R
  | Linker_A
  deriving DecidableEq, Repr

/-- Numeric value of a `LinkerInfo` enumerator. -/
def LinkerInfo.toInt : LinkerInfo → Int
  | .Linker_UNK => 0
  | .Linker_E => 1
  | .Linker_R => 2
  | .Linker_A => 4

/-- Addressing modes `AddrMode`. -/
inductive AddrMode where
  | IMMEDIATE
  | DIRECT
  | RELATIVE
  | REGISTER
  deriving DecidableEq, Repr

/-- Numeric value of an `AddrMode` enumerator. -/
def AddrMode.toInt : AddrMode → Int
  | .IMMEDIATE => 0
  | .DIRECT => 1
  | .RELATIVE => 2
  | .REGISTER => 3

/-- Index of an `AddrMode` enumerator into a mode bit array. -/
def AddrMode.toNat : AddrMode → Nat
  | .IMMEDIATE => 0
  | .DIRECT => 1
  | .RELATIVE => 2
  | .REGISTER => 3

/-- Instruction word fields (`struct Instruction`). -/
structure Instruction where
  opcode : Int
  arg_1_mode : AddrMode
  reg_1 : Int
  arg_2_mode : AddrMode
  reg_2 : Int
  funct : Int
  linker_info : LinkerInfo
  deriving DecidableEq, Repr

/-- Operand word fields (`struct Operand`). -/
structure Operand where
  value : Int
  linker_info : LinkerInfo
  deriving DecidableEq, Repr

/-! ## Machine-word encoder (`machine_coder.c`) -/

/-- Converts a number to 2's complement over 24 bits (`twos_comp`). -/
def twos_comp (val : Int) : Int :=
  if val < 0 then add32 (shl32 1 24) val else val

/-- Encodes an instruction word (`encode_instruction`). -/
def encode_instruction (instruction : Instruction) : Int :=
  add32 (add32 (add32 (add32 (add32 (add32
    (shl32 instruction.opcode 18)
    (shl32 instruction.arg_1_mode.toInt 16))
    (shl32 instruction.reg_1 13))
    (shl32 instruction.arg_2_mode.toInt 11))
    (shl32 instruction.reg_2 8))
    (shl32 instruction.funct 3))
    instruction.linker_info.toInt

/-- Encodes an operand word (`encode_operand`). -/
def encode_operand (operand : Operand) : Int :=
  add32 (twos_comp (shl32 operand.value 3)) operand.linker_info.toInt

/-- The seven fields read back from a packed instruction word. -/
structure UnpackedWord where
  opcode : Int
  arg_1_mode : Int
  reg_1 : Int
  arg_2_mode : Int
  reg_2 : Int
  funct : Int
  linker_info : Int
  deriving DecidableEq, Repr

/-- Unpacking by the documented bit layout: flag = bits 0-2, funct = bits 3-7,
second register = bits 8-10, second mode = bits 11-12, first register =
bits 13-15, first mode = bits 16-17, opcode = bits 18 and up. This is the
reader side of the layout contract; the assembler itself has no decoder. -/
def unpack_layout (w : Int) : UnpackedWord :=
  { opcode := w / 2 ^ 18
    arg_1_mode := (w / 2 ^ 16) % 4
    reg_1 := (w / 2 ^ 13) % 8
    arg_2_mode := (w / 2 ^ 11) % 4
    reg_2 := (w / 2 ^ 8) % 8
    funct := (w / 2 ^ 3) % 32
    linker_info := w % 8 }

/-! ## Strings and character classes (`string_utils.c`, `<ctype.h>`)

The program never calls `setlocale`, so the `<ctype.h>` predicates are those
of the "C" locale. -/

/-- A C string: its characters up to the terminating NUL. -/
abbrev Str := List Char

/-- C `isalpha` in the "C" locale. -/
def isalpha (c : Char) : Bool :=
  (65 ≤ c.toNat && c.toNat ≤ 90) || (97 ≤ c.toNat && c.toNat ≤ 122)

/-- C `isdigit`. -/
def isdigit (c : Char) : Bool := 48 ≤ c.toNat && c.toNat ≤ 57

/-- C `isalnum` in the "C" locale. -/
def isalnum (c : Char) : Bool := isalpha c || isdigit c

/-- C `isprint` in the "C" locale. -/
def isprint (c : Char) : Bool := 32 ≤ c.toNat && c.toNat ≤ 126

/-- C `isspace` in the "C" locale: space, `\t`, `\n`, `\v`, `\f`, `\r`. -/
def isspace (c : Char) : Bool := c.toNat = 32 || (9 ≤ c.toNat && c.toNat ≤ 13)

/-- Second loop of `trim`: trailing whitespace is cut while `end > start`, so
the first character is never removed. -/
def trim_end : Str → Str
  | [] => []
  | c :: cs => c :: (cs.reverse.dropWhile isspace).reverse

/-- Trims leading and trailing whitespace (`trim`, on a non-NULL string). -/
def trim (str : Str) : Str := trim_end (str.dropWhile isspace)

/-- Counts the occurrences of `c` in `str` (`count_char`). -/
def count_char (str : Str) (c : Char) : Nat := str.count c

/-- Whether the string is alphanumeric (`is_alnum`). -/
def is_alnum (str : Str) : Bool := str.all isalnum

/-- Whether `str` from `start_idx` on is a valid integer representation
(`is_integer`): a sign is skipped at `start_idx` only, every other character
must be a digit. -/
def is_integer (str : Str) (start_idx : Nat) : Bool :=
  match str.drop start_idx with
  | [] => true
  | c :: cs => (c = '+' || c = '-' || isdigit c) && cs.all isdigit

/-- Whether the string is printable (`is_printable`). -/
def is_printable (str : Str) : Bool := str.all isprint

/-- Substring `[start_idx, end_idx)` of `str` (`get_substr`). -/
def get_substr (str : Str) (start_idx end_idx : Nat) : Str :=
  (str.drop start_idx).take (end_idx - start_idx)

/-- One call of C `strtok` on the text `s` still to be scanned: leading
delimiters are skipped; if nothing is left the result is NULL (`none`),
otherwise the token runs up to the next delimiter and the scan resumes after
that delimiter. Returns the token and the text left for the next call. -/
def strtok (s : Str) (delims : Str) : Option (Str × Str) :=
  match s.dropWhile (fun c => delims.contains c) with
  | [] => none
  | c :: cs =>
    some ((c :: cs).takeWhile (fun x => !delims.contains x),
      ((c :: cs).dropWhile (fun x => !delims.contains x)).drop 1)

/-! ## Specification tables (`assembler.c`) -/

/-- Name and id of a register. -/
structure Register where
  name : Str
  id : Int
  deriving DecidableEq, Repr

/-- The 8 predefined registers. -/
def registers : List Register :=
  [⟨"r0".toList, 0⟩, ⟨"r1".toList, 1⟩, ⟨"r2".toList, 2⟩, ⟨"r3".toList, 3⟩,
   ⟨"r4".toList, 4⟩, ⟨"r5".toList, 5⟩, ⟨"r6".toList, 6⟩, ⟨"r7".toList, 7⟩]

/-- Argument types used by the directives (`DirectiveArgType`). -/
inductive DirectiveArgType where
  | LABEL
  | INT
  | STRING
  deriving DecidableEq, Repr

/-- Specification of a directive. -/
structure Directive where
  name : Str
  n_args : Int
  arg_type : DirectiveArgType
  deriving DecidableEq, Repr

/-- The 4 assembler directives. -/
def directives : List Directive :=
  [⟨".string".toList, 1, .STRING⟩,
   ⟨".data".toList, 999999, .INT⟩,
   ⟨".entry".toList, 1, .LABEL⟩,
   ⟨".extern".toList, 1, .LABEL⟩]

/-- Specification of an operation: name, opcode, funct, number of arguments
and the two addressing-mode bit arrays (source, destination). -/
structure Op where
  name : Str
  opcode : Int
  funct : Int
  n_args : Int
  arg_1_modes : List Int
  arg_2_modes : List Int
  deriving DecidableEq, Repr

/-- The 16 instruction operations. -/
def ops : List Op :=
  [⟨"mov".toList, 0, 0, 2, [1, 1, 0, 1], [0, 1, 0, 1]⟩,
   ⟨"cmp".toList, 1, 0, 2, [1, 1, 0, 1], [1, 1, 0, 1]⟩,
   ⟨"add".toList, 2, 1, 2, [1, 1, 0, 1], [0, 1, 0, 1]⟩,
   ⟨"sub".toList, 2, 2, 2, [1, 1, 0, 1], [0, 1, 0, 1]⟩,
   ⟨"lea".toList, 4, 0, 2, [0, 1, 0, 0], [0, 1, 0, 1]⟩,
   ⟨"clr".toList, 5, 1, 1, [0, 0, 0, 0], [0, 1, 0, 1]⟩,
   ⟨"not".toList, 5, 2, 1, [0, 0, 0, 0], [0, 1, 0, 1]⟩,
   ⟨"inc".toList, 5, 3, 1, [0, 0, 0, 0], [0, 1, 0, 1]⟩,
   ⟨"dec".toList, 5, 4, 1, [0, 0, 0, 0], [0, 1, 0, 1]⟩,
   ⟨"jmp".toList, 9, 1, 1, [0, 0, 0, 0], [0, 1, 1, 0]⟩,
   ⟨"bne".toList, 9, 2, 1, [0, 0, 0, 0], [0, 1, 1, 0]⟩,
   ⟨"jsr".toList, 9, 3, 1, [0, 0, 0, 0], [0, 1, 1, 0]⟩,
   ⟨"red".toList, 12, 0, 1, [0, 0, 0, 0], [0, 1, 0, 1]⟩,
   ⟨"prn".toList, 13, 0, 1, [0, 0, 0, 0], [1, 1, 0, 1]⟩,
   ⟨"rts".toList, 14, 0, 0, [0, 0, 0, 0], [0, 0, 0, 0]⟩,
   ⟨"stop".toList, 15, 0, 0, [0, 0, 0, 0], [0, 0, 0, 0]⟩]

/-- Finds a register id by name; -1 if there is none (`get_register`). -/
def get_register (reg_name : Str) : Int :=
  match registers.find? (fun r => decide (reg_name = r.name)) with
  | some r => r.id
  | none => -1

/-- Fetches directive info by name; NULL if invalid (`get_directive`). -/
def get_directive (directive_name : Str) : Option Directive :=
  directives.find? (fun d => decide (d.name = directive_name))

/-- Finds op info by name; NULL if invalid (`get_op`). -/
def get_op (op : Str) : Option Op :=
  ops.find? (fun o => decide (o.name = op))

/-! ## Addressing-mode detection (`passes.c`) -/

/-- Detects the `AddrMode` of an argument (`get_addr_mode`). On the empty
string `str[0]` is the terminating NUL, which is neither marker. -/
def get_addr_mode (str : Str) : AddrMode :=
  if str.head? = some '#' then .IMMEDIATE
  else if str.head? = some '&' then .RELATIVE
  else if get_register str ≠ -1 then .REGISTER
  else .DIRECT

/-! ## Line validator (`parser.c`) -/

/-- Maximum length of a label (`MAX_LABEL_LEN`). -/
def MAX_LABEL_LEN : Nat := 31

/-- Maximum length of an input line (`MAX_LINE_LEN`). -/
def MAX_LINE_LEN : Nat := 80

/-- A parsed input line (`struct ParsedLine`). -/
structure ParsedLine where
  line_num : Int
  label : Option Str
  op : Option Str
  directive : Option Str
  n_args : Int
  args : List Str
  deriving DecidableEq, Repr

/-- Checks label validity (`_validate_label`): returns the verdict and the
new error counter. -/
def _validate_label (label : Str) (n_errors : Int) : Bool × Int :=
  if !(match label.head? with | some c => isalpha c | none => false) || !is_alnum label then
    (false, n_errors + 1)
  else if label.length > MAX_LABEL_LEN then
    (false, n_errors + 1)
  else if get_register label ≠ -1 then
    (false, n_errors + 1)
  else if (get_op label).isSome then
    (false, n_errors + 1)
  else if (get_directive label).isSome then
    (false, n_errors + 1)
  else
    (true, n_errors)

/-- Checks validity of an integer argument (`_validate_int`). -/
def _validate_int (arg : Str) (start_idx : Nat) (n_errors : Int) : Bool × Int :=
  if !is_integer arg start_idx then (false, n_errors + 1) else (true, n_errors)

/-- Checks validity of a string argument (`_validate_string`). -/
def _validate_string (arg : Str) (n_errors : Int) : Bool × Int :=
  if arg.length < 2 || arg.head? ≠ some '"' || arg.getLast? ≠ some '"' then
    (false, n_errors + 1)
  else if count_char arg '"' > 2 then
    (false, n_errors + 1)
  else if !is_printable arg then
    (false, n_errors + 1)
  else
    (true, n_errors)

/-- Validates one argument of a directive against the directive's argument
type: the body of the `for` loop of `_validate_directive`. -/
def validate_directive_arg (arg_type : DirectiveArgType) (arg : Str) (n_errors : Int) :
    Bool × Int :=
  match arg_type with
  | .LABEL => _validate_label arg n_errors
  | .INT => _validate_int arg 0 n_errors
  | .STRING => _validate_string arg n_errors

/-- The `for` loop of `_validate_directive`: stops at the first invalid
argument. -/
def validate_directive_args (arg_type : DirectiveArgType) :
    List Str → Int → Bool × Int
  | [], n_errors => (true, n_errors)
  | arg :: rest, n_errors =>
    match validate_directive_arg arg_type arg n_errors with
    | (false, e) => (false, e)
    | (true, e) => validate_directive_args arg_type rest e

/-- Checks a directive and its arguments (`_validate_directive`); `n_args` is
the number of entries of `args`. -/
def _validate_directive (directive_name : Str) (args : List Str) (n_errors : Int) :
    Bool × Int :=
  match get_directive directive_name with
  | none => (false, n_errors + 1)
  | some directive =>
    if (args.length : Int) = 0 || (args.length : Int) > directive.n_args then
      (false, n_errors + 1)
    else
      validate_directive_args directive.arg_type args n_errors

/-- Whether the mode bit array allows `mode` (`valid_addr_modes[mode]`). -/
def mode_allowed (valid_addr_modes : List Int) (mode : AddrMode) : Bool :=
  valid_addr_modes.getD mode.toNat 0 ≠ 0

/-- Checks validity of an operand: addressing mode and value
(`_validate_operand`). -/
def _validate_operand (operand : Str) (valid_addr_modes : List Int) (n_errors : Int) :
    Bool × Int :=
  let mode := get_addr_mode operand
  if !mode_allowed valid_addr_modes mode then
    (false, n_errors + 1)
  else
    match mode with
    | .IMMEDIATE => _validate_int operand 1 n_errors
    | .DIRECT => _validate_label operand n_errors
    | .RELATIVE => _validate_label (get_substr operand 1 operand.length) n_errors
    | .REGISTER => (true, n_errors)

/-- Checks an op and its arguments, both their number and their addressing
modes (`_validate_op`); `n_args` is the number of entries of `args`. The last
argument is checked first, with `arg_2_modes`. -/
def _validate_op (op_name : Str) (args : List Str) (n_errors : Int) : Bool × Int :=
  match get_op op_name with
  | none => (false, n_errors + 1)
  | some op =>
    if (args.length : Int) ≠ op.n_args then
      (false, n_errors + 1)
    else if args.length ≥ 1 then
      match _validate_operand (args.getD (args.length - 1) []) op.arg_2_modes n_errors with
      | (false, e) => (false, e)
      | (true, e) =>
        if args.length = 2 then
          match _validate_operand (args.getD 0 []) op.arg_1_modes e with
          | (false, e2) => (false, e2)
          | (true, e2) => (true, e2)
        else (true, e)
    else (true, n_errors)

/-- The loop of `check_comma_formatting`: spaces are ignored, a second comma
in a row fails, any other character resets the count. -/
def comma_loop : Str → Nat → Bool
  | [], _ => true
  | c :: cs, n_commas =>
    if c = ' ' then comma_loop cs n_commas
    else if c = ',' then
      if n_commas + 1 > 1 then false else comma_loop cs (n_commas + 1)
    else comma_loop cs 0

/-- Checks there are no consecutive commas and no dangling comma at the start
or end (`check_comma_formatting`). -/
def check_comma_formatting (arg_input_str : Str) : Bool :=
  if arg_input_str.head? = some ',' || arg_input_str.getLast? = some ',' then false
  else comma_loop arg_input_str 0

/-- The `while` loop of `parse_line` reading the arguments one by one with
`strtok(..., ", \t")`, each trimmed; every call consumes at least one
character, so `fuel` above the length of the text is never exhausted. -/
def split_args_loop : Nat → Str → List Str
  | 0, _ => []
  | fuel + 1, s =>
    match strtok s ", \t".toList with
    | none => []
    | some (tok, rest) => trim tok :: split_args_loop fuel rest

/-- The argument tokens of a comma-separated argument text, in the order the
`while` loop of `parse_line` reads them. The loop stores each token with
`args[n_args++] = next_arg` and tests no bound: whether the tokens fit the
buffer `args` is decided in `parse_line`. -/
def split_args (arg_input : Str) : List Str :=
  split_args_loop (arg_input.length + 1) arg_input

/-- The argument text: `trim(strtok(NULL, ""))`, the remaining part of the
line, NULL when nothing is left. -/
def get_arg_input (rest : Str) : Option Str :=
  (strtok rest []).map (fun p => trim p.1)

/-- Whether the argument text is taken whole as one string argument: the
command is `.string`, or the text starts and ends with a double quote. -/
def is_string_input (token : Str) (arg_input : Str) : Bool :=
  token = ".string".toList || (arg_input.head? = some '"' && arg_input.getLast? = some '"')

/-- Arguments, number of commas and comma-formatting verdict read from the
argument text ("Get args" block of `parse_line`), as they are when the
tokens fit the buffer `args`. -/
def read_args (token : Str) (arg_input : Option Str) : List Str × Nat × Bool :=
  match arg_input with
  | none => ([], 0, false)
  | some a =>
    if is_string_input token a then ([a], 0, false)
    else (split_args a, count_char a ',', !check_comma_formatting a)

/-- Validation of the command by its kind: a token starting with `.` is a
directive, anything else an op. -/
def validate_command (token : Str) (args : List Str) (n_errors : Int) : Bool × Int :=
  if token.head? = some '.' then _validate_directive token args n_errors
  else _validate_op token args n_errors

/-- The final comma test of `parse_line`:
`bad_commas |= (n_args == 0 && n_commas != 0) || (n_args > 0 && n_commas != n_args - 1)`. -/
def comma_count_bad (n_args : Nat) (n_commas : Nat) : Bool :=
  (n_args = 0 && n_commas ≠ 0) || (n_args > 0 && (n_commas : Int) ≠ (n_args : Int) - 1)

/-- Second half of `parse_line`, from "Get args" to the end: reads the
arguments, validates the command, applies the comma test and builds the
record. `token` is the op or directive name and `rest` the text `strtok` has
not scanned yet. -/
def parse_command (line_num : Int) (label : Option Str) (token : Str) (rest : Str)
    (n_errors : Int) : Option ParsedLine × Int :=
  match read_args token (get_arg_input rest) with
  | (args, n_commas, bad_commas) =>
    match validate_command token args n_errors with
    | (false, e) => (none, e)
    | (true, e) =>
      let bad := bad_commas || comma_count_bad args.length n_commas
      let e2 := if bad then e + 1 else e
      let is_dir : Bool := token.head? = some '.'
      (some { line_num := line_num
              label := label
              op := if is_dir then none else some token
              directive := if is_dir then some token else none
              n_args := args.length
              args := args }, e2)

/-- Outcome of the first half of `parse_line`. -/
inductive LineHead where
  /-- An empty or comment line: NULL is returned, no error. -/
  | blank
  /-- NULL is returned with the error counter given. -/
  | failed (n_errors : Int)
  /-- An op/directive token was found. -/
  | command (label : Option Str) (token : Str) (rest : Str) (n_errors : Int)
  deriving DecidableEq, Repr

/-- First half of `parse_line`, up to the "No op or directive given" test:
strips the newline, trims, skips blank and comment lines, checks the length,
reads the optional label and the op/directive token. The first `strtok` call
cannot return NULL, the line being trimmed and not empty; the C code does not
test for it, and the embedding returns NULL there. -/
def parse_head (line : Str) (n_errors : Int) : LineHead :=
  let line := trim (line.takeWhile (fun c => c ≠ '\n'))
  if line.length = 0 || line.head? = some ';' then .blank
  else
    let e := if line.length > MAX_LINE_LEN then n_errors + 1 else n_errors
    match strtok line " \t".toList with
    | none => .failed e
    | some (token, rest) =>
      if token.getLast? = some ':' then
        let label := get_substr token 0 (token.length - 1)
        match _validate_label label e with
        | (false, e2) => .failed e2
        | (true, e2) =>
          match strtok rest " \t".toList with
          | none => .failed (e2 + 1)
          | some (token2, rest2) => .command (some label) (trim token2) rest2 e2
      else .command none token rest e

/-- Parses and checks one input line (`parse_line`): the record, or NULL, and
the new error counter. The tokens of the argument text are stored in `args`,
allocated at the start with `malloc(sizeof(char*) * MAX_LINE_LEN)`; a line
longer than `MAX_LINE_LEN` is only counted as an error and parsed all the
same, so with more than `MAX_LINE_LEN` tokens the loop stores past the end
of `args`: undefined behaviour, `none`. -/
def parse_line (line_num : Int) (line : Str) (n_errors : Int) :
    Option (Option ParsedLine × Int) :=
  match parse_head line n_errors with
  | .blank => some (none, n_errors)
  | .failed e => some (none, e)
  | .command label token rest e =>
    if (read_args token (get_arg_input rest)).1.length ≤ MAX_LINE_LEN then
      some (parse_command line_num label token rest e)
    else none

/-! ## Integer parsing (`string_utils.c`) -/

/-- C `a * b` on `int`. -/
def mul32 (a b : Int) : Int := wrap32 (a * b)

/-- One digit step of the loop of `get_int_value`, on `(value, power_of_10)`:
`value += (str[i] - '0') * power_of_10; power_of_10 *= 10`. -/
def int_value_step (acc : Int × Int) (c : Char) : Int × Int :=
  (add32 acc.1 (mul32 ((c.toNat : Int) - 48) acc.2), mul32 acc.2 10)

/-- Converts a (pos/neg) integer string, read from `start_idx`, to an `int`
(`get_int_value`). The loop runs backwards from the last character in
increasing powers of ten; at `start_idx` a sign character sets the sign
instead of adding a digit. -/
def get_int_value (str : Str) (start_idx : Nat) : Int :=
  if !is_integer str start_idx then 0
  else
    match str.drop start_idx with
    | [] => 0
    | c :: cs =>
      let acc := cs.reverse.foldl int_value_step (0, 1)
      if c = '+' || c = '-' then
        mul32 acc.1 (if c = '-' then -1 else 1)
      else
        mul32 (int_value_step acc c).1 1

/-! ## Symbol table (`symbol_table.h`, `symbol_table.c`) -/

/-- Whether a symbol refers to code or data (`SymType`). -/
inductive SymType where
  | TYPE_UNK
  | TYPE_CODE
  | TYPE_DATA
  deriving DecidableEq, Repr

/-- Numeric value of a `SymType` enumerator. -/
def SymType.toInt : SymType → Int
  | .TYPE_UNK => 0
  | .TYPE_CODE => 1
  | .TYPE_DATA => 2

/-- Location class of a symbol (`SymLoc`). -/
inductive SymLoc where
  | LOC_UNK
  | LOC_ENTRY
  | LOC_EXTERNAL
  deriving DecidableEq, Repr

/-- Kinds of words of the output arrays (`WordType`). -/
inductive WordType where
  | INSTRUCTION
  | OPERAND
  | DATA
  deriving DecidableEq, Repr

/-- Numeric value of a `WordType` enumerator. -/
def WordType.toInt : WordType → Int
  | .INSTRUCTION => 0
  | .OPERAND => 1
  | .DATA => 2

/-- A symbol (`struct Symbol`); the `next` pointer is the list structure of
the table. -/
structure Symbol where
  label : Str
  address : Int
  type : SymType
  loc : SymLoc
  deriving DecidableEq, Repr

/-- A label reference stored in pass 1 for pass 2 (`struct SymbolInfo`). -/
structure SymbolInfo where
  line_num : Int
  IC : Nat
  label : Str
  addrMode : AddrMode
  deriving DecidableEq, Repr

/-- A word of the code image with its tag: `code_image[i]` (the union `Code`)
together with `word_types[i]`, which the program always writes together. -/
inductive Code where
  | instruction (i : Instruction)
  | operand (o : Operand)
  deriving DecidableEq, Repr

/-- The tag `word_types[i]` of a written slot. -/
def Code.word_type : Code → WordType
  | .instruction _ => .INSTRUCTION
  | .operand _ => .OPERAND

/-- A C array indexed from 0; a slot never written holds `none`. -/
abbrev Arr (α : Type) := Nat → Option α

/-- A freshly allocated array. -/
def Arr.empty {α : Type} : Arr α := fun _ => none

/-- The array after `a[i] = v`. -/
def Arr.set {α : Type} (a : Arr α) (i : Nat) (v : α) : Arr α :=
  fun j => if j = i then some v else a j

/-- The instruction image starts at this address (`MEM_START_ADDRESS`). -/
def MEM_START_ADDRESS : Nat := 100

/-- The per-file state of the assembler stages: the globals of
`assembler.c`, `machine_coder.c` and `symbol_table.c` that the two passes read
and write. `symbol_references` holds the entries `0 .. i_symbol_ref - 1` of
the C array, so `i_symbol_ref` is its length. -/
structure AsmState where
  n_errors : Int
  line_num : Int
  symbol_table : List Symbol
  IC : Nat
  DC : Nat
  code_image : Arr Code
  data_image : Arr Int
  symbol_references : List SymbolInfo

/-- The state after `reset_counters`, `init_code_image`, `init_data_image`,
`init_word_types` and `init_symbol_refs`, with the symbol table empty. -/
def init_state : AsmState :=
  { n_errors := 0
    line_num := 0
    symbol_table := []
    IC := MEM_START_ADDRESS
    DC := 0
    code_image := Arr.empty
    data_image := Arr.empty
    symbol_references := [] }

/-- The symbol of the table with this label, the first one in list order
(`_get_symbol`). -/
def _get_symbol (symbol_table : List Symbol) (label : Str) : Option Symbol :=
  symbol_table.find? (fun s => decide (s.label = label))

/-- Symbol table needs to know the current IC (`get_IC`). -/
def get_IC (st : AsmState) : Nat := st.IC

/-- Symbol table needs to know the current DC (`get_DC`). -/
def get_DC (st : AsmState) : Nat := st.DC

/-- Adds a new symbol at the tail of the list (`add_symbol`): 0 and one more
error if the label already exists, otherwise 1. -/
def add_symbol (st : AsmState) (label : Str) (type : SymType) (loc : SymLoc) :
    Bool × AsmState :=
  if (_get_symbol st.symbol_table label).isSome then
    (false, { st with n_errors := st.n_errors + 1 })
  else
    let address : Int :=
      if loc = .LOC_EXTERNAL then 0
      else if type = .TYPE_CODE then (get_IC st : Int)
      else (get_DC st : Int)
    (true, { st with
      symbol_table := st.symbol_table ++
        [{ label := label, address := address, type := type, loc := loc }] })

/-- Looks a symbol up (`lookup_symbol`): NULL and one more error if it is
not found. -/
def lookup_symbol (st : AsmState) (label : Str) : Option Symbol × AsmState :=
  match _get_symbol st.symbol_table label with
  | none => (none, { st with n_errors := st.n_errors + 1 })
  | some symbol => (some symbol, st)

/-- Shifts the addresses of data symbols by IC (`shift_data_addresses`). The
test is `symbol->type == (int)DATA`, with `DATA` the `WordType` enumerator. -/
def shift_data_addresses (st : AsmState) : AsmState :=
  { st with
    symbol_table := st.symbol_table.map (fun symbol =>
      if symbol.type.toInt = WordType.DATA.toInt then
        { symbol with address := symbol.address + (get_IC st : Int) }
      else symbol) }

/-- Applies `f` to the first element of the list satisfying `p`: a write
through the pointer returned by `_get_symbol`. -/
def update_first (p : Symbol → Bool) (f : Symbol → Symbol) : List Symbol → List Symbol
  | [] => []
  | s :: rest => if p s then f s :: rest else s :: update_first p f rest

/-- Marks the symbol named by an `.entry` directive (`update_entry_symbol`). -/
def update_entry_symbol (st : AsmState) (label : Str) : AsmState :=
  match lookup_symbol st label with
  | (none, st2) => st2
  | (some _, st2) =>
    { st2 with
      symbol_table := update_first (fun s => decide (s.label = label))
        (fun s => { s with loc := .LOC_ENTRY }) st2.symbol_table }

/-! ## Code and data images (`machine_coder.c`) -/

/-- Adds an instruction word to the code image (`add_instruction`), at index
`IC - MEM_START_ADDRESS`, with the flag A. -/
def add_instruction (st : AsmState) (opcode : Int) (addrMode_1 : AddrMode) (reg_1 : Int)
    (addrMod_2 : AddrMode) (reg_2 : Int) (funct : Int) : AsmState :=
  { st with
    code_image := st.code_image.set (st.IC - MEM_START_ADDRESS)
      (.instruction
        { opcode := opcode
          arg_1_mode := addrMode_1
          reg_1 := reg_1
          arg_2_mode := addrMod_2
          reg_2 := reg_2
          funct := funct
          linker_info := .Linker_A })
    IC := st.IC + 1 }

/-- Adds an operand word to the code image (`add_operand`). -/
def add_operand (st : AsmState) (value : Int) (linker_info : LinkerInfo) : AsmState :=
  { st with
    code_image := st.code_image.set (st.IC - MEM_START_ADDRESS)
      (.operand { value := value, linker_info := linker_info })
    IC := st.IC + 1 }

/-- Adds a data word to the data image (`add_data`). -/
def add_data (st : AsmState) (data : Int) : AsmState :=
  { st with data_image := st.data_image.set st.DC data, DC := st.DC + 1 }

/-- Fills in an operand word whose address and linker info were missing
(`edit_operand`). Nothing is written when the symbol is not found (one more
error) or the slot is not tagged OPERAND. -/
def edit_operand (st : AsmState) (ic : Nat) (label : Str) (mode : AddrMode) : AsmState :=
  match lookup_symbol st label with
  | (none, st2) => st2
  | (some symbol, st2) =>
    match st2.code_image (ic - MEM_START_ADDRESS) with
    | some (.operand _) =>
      match mode with
      | .DIRECT =>
        { st2 with
          code_image := st2.code_image.set (ic - MEM_START_ADDRESS)
            (.operand
              { value := symbol.address
                linker_info := if symbol.loc = .LOC_EXTERNAL then .Linker_E else .Linker_R }) }
      | .RELATIVE =>
        { st2 with
          code_image := st2.code_image.set (ic - MEM_START_ADDRESS)
            (.operand
              { value := symbol.address - (ic : Int) + 1
                linker_info := .Linker_A }) }
      | _ => st2
    | _ => st2

/-! ## The two passes (`passes.c`) -/

/-- Adds an operand word for a non-register argument (`handle_operand`). For
RELATIVE the `&` prefix is removed and control falls through to DIRECT. -/
def handle_operand (st : AsmState) (arg : Str) (addr_mod : AddrMode) : AsmState :=
  match addr_mod with
  | .IMMEDIATE => add_operand st (get_int_value arg 1) .Linker_A
  | .RELATIVE =>
    add_operand
      { st with
        symbol_references := st.symbol_references ++
          [{ line_num := st.line_num
             IC := get_IC st
             label := get_substr arg 1 arg.length
             addrMode := addr_mod }] }
      0 .Linker_UNK
  | .DIRECT =>
    add_operand
      { st with
        symbol_references := st.symbol_references ++
          [{ line_num := st.line_num
             IC := get_IC st
             label := arg
             addrMode := addr_mod }] }
      0 .Linker_UNK
  | .REGISTER => st

/-- The locals of `handle_op` set by its argument loop. -/
structure OpArgs where
  arg_1 : Option Str
  addr_mod_1 : AddrMode
  reg_1 : Int
  arg_2 : Option Str
  addr_mod_2 : AddrMode
  reg_2 : Int
  deriving DecidableEq, Repr

/-- The locals of `handle_op` before its argument loop. -/
def OpArgs.init : OpArgs :=
  { arg_1 := none, addr_mod_1 := .IMMEDIATE, reg_1 := 0
    arg_2 := none, addr_mod_2 := .IMMEDIATE, reg_2 := 0 }

/-- One round of the argument loop of `handle_op`, for argument `i_arg`. -/
def op_arg_step (n_args : Nat) (acc : OpArgs) (i_arg : Nat) (arg : Str) : OpArgs :=
  let mode := get_addr_mode arg
  if i_arg = 0 ∧ n_args = 2 then
    { acc with
      arg_1 := some arg
      addr_mod_1 := mode
      reg_1 := if mode = .REGISTER then get_register arg else acc.reg_1 }
  else
    { acc with
      arg_2 := some arg
      addr_mod_2 := mode
      reg_2 := if mode = .REGISTER then get_register arg else acc.reg_2 }

/-- The argument loop of `handle_op` from argument `i_arg` on. -/
def op_arg_loop (n_args : Nat) : OpArgs → Nat → List Str → OpArgs
  | acc, _, [] => acc
  | acc, i_arg, arg :: rest => op_arg_loop n_args (op_arg_step n_args acc i_arg arg) (i_arg + 1) rest

/-- The statement `if (parsed_line->label != NULL) add_symbol(parsed_line->label,
type, LOC_UNK);` of `handle_op` and `handle_directive`; the value returned
by `add_symbol` is not used. -/
def add_label_symbol (st : AsmState) (label : Option Str) (type : SymType) : AsmState :=
  match label with
  | some label => (add_symbol st label type .LOC_UNK).2
  | none => st

/-- Generates the instruction word and the operand words of an op line
(`handle_op`). The argument loop runs over `args`, whose length is
`n_args`. -/
def handle_op (st : AsmState) (parsed_line : ParsedLine) : AsmState :=
  let st1 := add_label_symbol st parsed_line.label .TYPE_CODE
  match get_op (parsed_line.op.getD []) with
  | none => st1
  | some op =>
    let a := op_arg_loop parsed_line.args.length OpArgs.init 0 parsed_line.args
    let st2 := add_instruction st1 op.opcode a.addr_mod_1 a.reg_1 a.addr_mod_2 a.reg_2 op.funct
    let st3 :=
      match a.arg_1 with
      | some arg_1 => handle_operand st2 arg_1 a.addr_mod_1
      | none => st2
    match a.arg_2 with
    | some arg_2 => handle_operand st3 arg_2 a.addr_mod_2
    | none => st3

/-- Enters numerical and string data into the data image and the symbol
table, and extern symbols into the symbol table (`handle_directive`). The
string loop runs over the characters between the quotes, `i` from 1 below
`strlen - 1`. -/
def handle_directive (st : AsmState) (parsed_line : ParsedLine) : AsmState :=
  let directive := parsed_line.directive.getD []
  if directive = ".data".toList ∨ directive = ".string".toList then
    let st1 := add_label_symbol st parsed_line.label .TYPE_DATA
    if directive = ".data".toList then
      parsed_line.args.foldl (fun s arg => add_data s (get_int_value arg 0)) st1
    else
      let str := parsed_line.args.getD 0 []
      add_data
        (((str.drop 1).take (str.length - 1 - 1)).foldl
          (fun s c => add_data s (c.toNat : Int)) st1)
        0
  else if directive = ".extern".toList then
    (add_symbol st (parsed_line.args.getD 0 []) .TYPE_UNK .LOC_EXTERNAL).2
  else st

/-- The body of the line loop of `first_pass`. -/
def first_pass_line (st : AsmState) (parsed_line : ParsedLine) : AsmState :=
  let st1 := { st with line_num := parsed_line.line_num }
  if parsed_line.op.isSome then handle_op st1 parsed_line
  else if parsed_line.directive.isSome then handle_directive st1 parsed_line
  else st1

/-- The first pass over the parsed lines (`first_pass`): the line loop
followed by the shift of the data addresses. -/
def first_pass (st : AsmState) (parsed_lines : List ParsedLine) : AsmState :=
  shift_data_addresses
    (parsed_lines.foldl first_pass_line { st with n_errors := 0, line_num := 0 })

/-- The body of the first loop of `second_pass`: `.entry` lines mark their
argument. -/
def second_pass_entry (st : AsmState) (parsed_line : ParsedLine) : AsmState :=
  let st1 := { st with line_num := parsed_line.line_num }
  if parsed_line.directive = some ".entry".toList then
    update_entry_symbol st1 (parsed_line.args.getD 0 [])
  else st1

/-- The body of the second loop of `second_pass`: one stored reference. -/
def second_pass_ref (st : AsmState) (symbol_info : SymbolInfo) : AsmState :=
  edit_operand { st with line_num := symbol_info.line_num }
    symbol_info.IC symbol_info.label symbol_info.addrMode

/-- The second pass (`second_pass`): the `.entry` loop over the parsed
lines, then the loop over the stored references (which `edit_operand` does
not change). -/
def second_pass (st : AsmState) (parsed_lines : List ParsedLine) : AsmState :=
  let st1 := parsed_lines.foldl second_pass_entry { st with line_num := 0, n_errors := 0 }
  st1.symbol_references.foldl second_pass_ref st1

/-! ## Output files (`file_utils.c`, `machine_coder.c`, `symbol_table.c`) -/

/-- Return filename with extension (`create_file_name`). -/
def create_file_name (base extension : Str) : Str := base ++ extension

/-- One word line of the object file: the address written by `write_address`
and the value written by `write_val`. The value is absent for a slot that was
never written, whose tag selects no `write_val` call. -/
structure WordLine where
  address : Int
  val : Option Int
  deriving DecidableEq, Repr

/-- The contents of an object file: the two numbers of the header line, then
the word lines in the order written. The decimal and hexadecimal rendering of
the numbers by `fprintf` is not part of the model. -/
structure ObjectFile where
  n_code : Nat
  n_data : Nat
  lines : List WordLine
  deriving DecidableEq, Repr

/-- A line of the `.ext` or `.ent` file: the label, then the address written
by `write_address`. -/
structure LabelLine where
  label : Str
  address : Int
  deriving DecidableEq, Repr

/-- The value written for a code slot, by the `switch` on its tag in
`write_object_file`. -/
def code_val (word : Option Code) : Option Int :=
  match word with
  | some (.instruction instruction) => some (encode_instruction instruction)
  | some (.operand operand) => some (encode_operand operand)
  | none => none

/-- One round of the code loop of `write_object_file`, for index `i`, on the
lines written so far and the local `address`. -/
def ob_code_step (st : AsmState) (acc : List WordLine × Int) (i : Nat) : List WordLine × Int :=
  (acc.1 ++ [{ address := acc.2, val := code_val (st.code_image i) }], acc.2 + 1)

/-- One round of the data loop of `write_object_file`, for index `i`. -/
def ob_data_step (st : AsmState) (acc : List WordLine × Int) (i : Nat) : List WordLine × Int :=
  (acc.1 ++ [{ address := acc.2, val := (st.data_image i).map twos_comp }], acc.2 + 1)

/-- Generates the machine code of the `.ob` file (`write_object_file`); `fp`
tells whether `fopen` returned a stream. The header, the code loop for
`i < IC - MEM_START_ADDRESS` and the data loop for `i < DC` share the local
`address`, which starts at `MEM_START_ADDRESS`. -/
def write_object_file (st : AsmState) (fp : Bool) : Option ObjectFile × AsmState :=
  if fp then
    let code := (List.range (st.IC - MEM_START_ADDRESS)).foldl (ob_code_step st)
      ([], (MEM_START_ADDRESS : Int))
    let data := (List.range st.DC).foldl (ob_data_step st) code
    (some { n_code := st.IC - MEM_START_ADDRESS, n_data := st.DC, lines := data.1 }, st)
  else (none, { st with n_errors := st.n_errors + 1 })

/-- One round of the loop of `write_ext_file`, for one stored reference, on
the lines written so far and the state (`lookup_symbol` counts an error for a
label it does not find). -/
def ext_step (acc : List LabelLine × AsmState) (symbol_ref : SymbolInfo) :
    List LabelLine × AsmState :=
  match lookup_symbol acc.2 symbol_ref.label with
  | (some symbol, st2) =>
    if symbol.loc = .LOC_EXTERNAL then
      (acc.1 ++ [{ label := symbol_ref.label, address := (symbol_ref.IC : Int) }], st2)
    else (acc.1, st2)
  | (none, st2) => (acc.1, st2)

/-- Generates the `.ext` file (`write_ext_file`); `fp` tells whether `fopen`
returned a stream. -/
def write_ext_file (st : AsmState) (fp : Bool) : Option (List LabelLine) × AsmState :=
  if fp then
    let r := st.symbol_references.foldl ext_step ([], st)
    (some r.1, r.2)
  else (none, { st with n_errors := st.n_errors + 1 })

/-- The walk of `export_entry_symbols` over the linked list: one line for
each symbol whose location is ENTRY. -/
def entry_lines : List Symbol → List LabelLine
  | [] => []
  | symbol :: next =>
    if symbol.loc = .LOC_ENTRY then
      { label := symbol.label, address := symbol.address } :: entry_lines next
    else entry_lines next

/-- Writes the symbol table to the `.ent` file (`export_entry_symbols`); `fp`
tells whether `fopen` returned a stream. -/
def export_entry_symbols (st : AsmState) (fp : Bool) : Option (List LabelLine) × AsmState :=
  if fp then (some (entry_lines st.symbol_table), st)
  else (none, { st with n_errors := st.n_errors + 1 })

/-! ## The driver (`assembler.c`) -/

/-- The three output files of one input file; a file that could not be
opened is absent. -/
structure OutputFiles where
  ob : Option ObjectFile
  ext : Option (List LabelLine)
  ent : Option (List LabelLine)
  deriving DecidableEq, Repr

/-- If no errors, the output files are generated (`create_output_files`):
the `.ob`, the `.ext` and the `.ent` file, in this order. `fopen` tells for
each path whether the file can be opened for writing. -/
def create_output_files (fopen : Str → Bool) (st : AsmState) (output_path : Str) :
    OutputFiles × AsmState :=
  let r1 := write_object_file st (fopen (create_file_name output_path ".ob".toList))
  let r2 := write_ext_file r1.2 (fopen (create_file_name output_path ".ext".toList))
  let r3 := export_entry_symbols r2.2 (fopen (create_file_name output_path ".ent".toList))
  ({ ob := r1.1, ext := r2.1, ent := r3.1 }, r3.2)

/-- The globals the pre-processing loop of `main` works on: the error
counter, the line number and the array of parsed lines. -/
structure ParseState where
  n_errors : Int
  line_num : Int
  parsed_lines : List ParsedLine
  deriving DecidableEq, Repr

/-- The number of records the array `parsed_lines` is first allocated for
(`INPUT_BATCH_SIZE`). -/
def INPUT_BATCH_SIZE : Nat := 1024

/-- Adds a new parsed line (`add_parsed_line`) to the array holding the
records `parsed_lines`, whose length is `n_lines`. With `n_lines == 0` the
array is allocated for `INPUT_BATCH_SIZE` pointers. When `n_lines` is a
positive multiple of `INPUT_BATCH_SIZE` the array is reallocated to
`sizeof(ParsedLine*) * (n_lines / INPUT_BATCH_SIZE) + 1` bytes, which is
less than the `n_lines + 1` pointers that the store `parsed_lines[n_lines++]`
needs: the store is past the end of the array, undefined behaviour, `none`.
Otherwise the record is stored at the end and 1 is returned. -/
def add_parsed_line (parsed_lines : List ParsedLine) (parsed_line : ParsedLine) :
    Option (List ParsedLine) :=
  if parsed_lines.length = 0 then some (parsed_lines ++ [parsed_line])
  else if parsed_lines.length % INPUT_BATCH_SIZE = 0 then none
  else some (parsed_lines ++ [parsed_line])

/-- The loop `while (fgets(line, sizeof(line), fp) != NULL)` of `main` over
the lines of the file, with `body` as its body: undefined as soon as a round
is. -/
def fgets_loop {σ : Type} (body : σ → Str → Option σ) : σ → List Str → Option σ
  | s, [] => some s
  | s, line :: rest =>
    match body s line with
    | none => none
    | some s2 => fgets_loop body s2 rest

/-- The body of the pre-processing loop of `main` for one line read by
`fgets`: `line_num++`, `parse_line`, and `add_parsed_line` for a record. -/
def main_parse_step (p : ParseState) (line : Str) : Option ParseState :=
  match parse_line (p.line_num + 1) line p.n_errors with
  | none => none
  | some (some parsed_line, e) =>
    match add_parsed_line p.parsed_lines parsed_line with
    | none => none
    | some parsed_lines =>
      some { n_errors := e, line_num := p.line_num + 1, parsed_lines := parsed_lines }
  | some (none, e) =>
    some { n_errors := e, line_num := p.line_num + 1, parsed_lines := p.parsed_lines }

/-- What `main` has done with one input file: the error counter when it
moves on to the next file, and the output files if `create_output_files` was
called. -/
structure FileResult where
  n_errors : Int
  output : Option OutputFiles
  deriving DecidableEq, Repr

/-- The stages of `main` that follow the pre-processing of one file, for the
state `st0` left by the four `init_` calls (their allocation-failure branch is
not modelled): `first_pass`, then `second_pass` unless the first pass counted
an error, then `create_output_files` unless the second pass counted one. -/
def main_passes (fopen : Str → Bool) (output_path : Str) (st0 : AsmState)
    (parsed_lines : List ParsedLine) : FileResult :=
  let st1 := first_pass st0 parsed_lines
  if st1.n_errors ≠ 0 then { n_errors := st1.n_errors, output := none }
  else
    let st2 := second_pass st1 parsed_lines
    if st2.n_errors = 0 then
      let r := create_output_files fopen st2 output_path
      { n_errors := r.2.n_errors, output := some r.1 }
    else { n_errors := st2.n_errors, output := none }

/-- The body of the file loop of `main` for an input file that could be
opened, given as the list of the lines `fgets` reads from it:
`reset_counters`, the pre-processing loop, and the later stages unless the
pre-processing counted an error; undefined when the pre-processing loop
is. -/
def main_file (fopen : Str → Bool) (output_path : Str) (lines : List Str) :
    Option FileResult :=
  match fgets_loop main_parse_step { n_errors := 0, line_num := 0, parsed_lines := [] }
      lines with
  | none => none
  | some p =>
    if p.n_errors ≠ 0 then some { n_errors := p.n_errors, output := none }
    else
      some (main_passes fopen output_path { init_state with line_num := p.line_num }
        p.parsed_lines)

/-! ## Counting ahead of the passes (`parser.c`) -/

/-- The number of instruction and operand words needed to encode the line
(`get_num_code_words`): one instruction word and one word for each argument
that is no register name, for an op line; the loop runs over `args`, whose
length is `n_args`. -/
def get_num_code_words (line : ParsedLine) : Int :=
  if line.op.isSome then
    line.args.foldl
      (fun n_code_words arg => if get_register arg = -1 then n_code_words + 1 else n_code_words)
      (0 + 1)
  else 0

/-- The number of data words needed to encode the line
(`get_num_data_words`): `n_args` for `.data`, and for `.string` the number of
characters of the argument minus the quotes plus the terminating zero. -/
def get_num_data_words (line : ParsedLine) : Int :=
  if line.directive = some ".data".toList then line.n_args
  else if line.directive = some ".string".toList then
    ((line.args.getD 0 []).length : Int) - 2 + 1
  else 0

/-- The number of symbol declarations in the line (`get_num_symbols`): a
label before an op or a `.data` / `.string` directive counts, the argument of
an `.extern` directive counts, a label before `.entry` or `.extern` does not
(the warning printed for it is not modelled). -/
def get_num_symbols (line : ParsedLine) : Int :=
  let is_label_declaration : Bool :=
    (line.label.isSome &&
      (line.op.isSome ||
        (decide (line.directive = some ".data".toList) ||
          decide (line.directive = some ".string".toList)))) ||
    decide (line.directive = some ".extern".toList)
  if is_label_declaration then 0 + 1 else 0

/-- The number of symbol references in the line (`get_num_symbol_refs`): the
arguments of an op line whose mode is DIRECT or RELATIVE. -/
def get_num_symbol_refs (line : ParsedLine) : Int :=
  if line.op.isSome then
    line.args.foldl
      (fun n_symbol_refs arg =>
        if get_addr_mode arg = .DIRECT ∨ get_addr_mode arg = .RELATIVE then n_symbol_refs + 1
        else n_symbol_refs)
      0
  else 0

/-! ## The driver from one input file to the next (`assembler.c`) -/

/-- The globals of `assembler.c` that `main` carries from one input file to
the next: the counters, and the array `parsed_lines`, of which the list holds
the entries `0 .. n_lines - 1`, so that `n_lines` is its length. -/
structure Globals where
  n_errors : Int
  line_num : Int
  parsed_lines : List ParsedLine
  n_symbols : Int
  n_code_words : Int
  n_data_words : Int
  i_symbol_ref : Int
  n_symbol_refs : Int
  deriving DecidableEq, Repr

/-- The global `n_lines`. -/
def Globals.n_lines (g : Globals) : Int := (g.parsed_lines.length : Int)

/-- The globals at program start, as their initialisers set them. -/
def Globals.start : Globals :=
  { n_errors := 0, line_num := 0, parsed_lines := [], n_symbols := 0, n_code_words := 0
    n_data_words := 0, i_symbol_ref := 0, n_symbol_refs := 0 }

/-- Resets the various counters before processing each file
(`reset_counters`): `n_errors`, `line_num`, `n_lines`, `n_symbols`,
`n_code_words`, `n_data_words` and `i_symbol_ref`; `n_symbol_refs` is not
assigned. -/
def reset_counters (g : Globals) : Globals :=
  { g with
    n_errors := 0
    line_num := 0
    parsed_lines := []
    n_symbols := 0
    n_code_words := 0
    n_data_words := 0
    i_symbol_ref := 0 }

/-- Frees the parsed lines after each input file is done
(`free_parsed_lines`): `n_lines` is set to 0. -/
def free_parsed_lines (g : Globals) : Globals := { g with parsed_lines := [] }

/-- Frees the stored references (`free_symbol_refs`): `i_symbol_ref` and
`n_symbol_refs` are set to 0. -/
def free_symbol_refs (g : Globals) : Globals := { g with i_symbol_ref := 0, n_symbol_refs := 0 }

/-- Frees all memory after each input file is done (`free_memory`):
`free_parsed_lines`, `free_mc_memory`, `free_symbol_table`,
`free_symbol_refs`; the second and the third change no counter. -/
def free_memory (g : Globals) : Globals := free_symbol_refs (free_parsed_lines g)

/-- The body of the pre-processing loop of `main` for one line read by
`fgets`, on all the globals: `line_num++`, `parse_line`, and for a record
`add_parsed_line` and the four counts. -/
def main_read_step (g : Globals) (line : Str) : Option Globals :=
  match parse_line (g.line_num + 1) line g.n_errors with
  | none => none
  | some (some parsed_line, e) =>
    match add_parsed_line g.parsed_lines parsed_line with
    | none => none
    | some parsed_lines =>
      some { g with
        n_errors := e
        line_num := g.line_num + 1
        parsed_lines := parsed_lines
        n_symbols := g.n_symbols + get_num_symbols parsed_line
        n_code_words := g.n_code_words + get_num_code_words parsed_line
        n_data_words := g.n_data_words + get_num_data_words parsed_line
        n_symbol_refs := g.n_symbol_refs + get_num_symbol_refs parsed_line }
  | some (none, e) => some { g with n_errors := e, line_num := g.line_num + 1 }

/-- The globals as a pass leaves them: the error counter, the line number
and the index of the next stored reference. -/
def after_pass (g : Globals) (st : AsmState) : Globals :=
  { g with
    n_errors := st.n_errors
    line_num := st.line_num
    i_symbol_ref := (st.symbol_references.length : Int) }

/-- The body of the file loop of `main`, on all the globals, for an input
file that could be opened, given as the list of the lines `fgets` reads from
it: the globals when `main` moves on to the next file, and the output files
if `create_output_files` was called. After a syntax error only
`free_parsed_lines` is called; after the passes, `free_memory`. Undefined
when the pre-processing loop is. -/
def main_iteration (fopen : Str → Bool) (output_path : Str) (g0 : Globals)
    (lines : List Str) : Option (Globals × Option OutputFiles) :=
  match fgets_loop main_read_step (reset_counters g0) lines with
  | none => none
  | some g =>
    if g.n_errors ≠ 0 then some (free_parsed_lines g, none)
    else
      let st1 := first_pass { init_state with line_num := g.line_num } g.parsed_lines
      if st1.n_errors ≠ 0 then some (free_memory (after_pass g st1), none)
      else
        let st2 := second_pass st1 g.parsed_lines
        if st2.n_errors = 0 then
          let r := create_output_files fopen st2 output_path
          some (free_memory (after_pass g r.2), some r.1)
        else some (free_memory (after_pass g st2), none)

/-! ## Vocabulary of the statements -/

/-- An ASCII letter. -/
def IsAsciiLetter (c : Char) : Prop := ('A' ≤ c ∧ c ≤ 'Z') ∨ ('a' ≤ c ∧ c ≤ 'z')

/-- An ASCII decimal digit. -/
def IsAsciiDigit (c : Char) : Prop := '0' ≤ c ∧ c ≤ '9'

/-- A printable ASCII character (space to tilde). -/
def IsPrintableAscii (c : Char) : Prop := ' ' ≤ c ∧ c ≤ '~'

/-- The 8 register names. -/
def register_names : List Str := registers.map (fun r => r.name)

/-- The 16 operation names. -/
def op_names : List Str := ops.map (fun o => o.name)

/-- The 4 directive names. -/
def directive_names : List Str := directives.map (fun d => d.name)

/-- A valid label: starts with a letter, is alphanumeric, has at most 31
characters and is no reserved word. -/
def ValidLabel (s : Str) : Prop :=
  (∃ c, s.head? = some c ∧ IsAsciiLetter c) ∧
    (∀ c ∈ s, IsAsciiLetter c ∨ IsAsciiDigit c) ∧
    s.length ≤ 31 ∧
    s ∉ register_names ∧ s ∉ op_names ∧ s ∉ directive_names

/-- A valid string literal: wrapped in one pair of double quotes, no other
double quote, printable characters only. -/
def ValidStringLiteral (s : Str) : Prop :=
  2 ≤ s.length ∧ s.head? = some '"' ∧ s.getLast? = some '"' ∧ s.count '"' = 2 ∧
    ∀ c ∈ s, IsPrintableAscii c

/-- The text without its sign: a leading `+` or `-` is dropped. -/
def drop_sign : Str → Str
  | [] => []
  | c :: cs => if c = '+' ∨ c = '-' then cs else c :: cs

/-- A valid signed integer: an optional `+` or `-` followed by one or more
decimal digits and nothing else. -/
def SignedInteger (s : Str) : Prop :=
  drop_sign s ≠ [] ∧ ∀ c ∈ drop_sign s, IsAsciiDigit c

/-- An optional `+` or `-` followed by decimal digits only, possibly by
none. -/
def SignedDigits (s : Str) : Prop :=
  ∀ c ∈ drop_sign s, IsAsciiDigit c

/-- An argument is well-formed for its addressing mode: the text after `#`
is a valid signed integer, a DIRECT argument is a valid label, the text after
`&` is a valid label, a register name needs nothing more. -/
def WellFormedFor (mode : AddrMode) (arg : Str) : Prop :=
  match mode with
  | .IMMEDIATE => SignedInteger (arg.drop 1)
  | .DIRECT => ValidLabel arg
  | .RELATIVE => ValidLabel (arg.drop 1)
  | .REGISTER => True

/-- An argument passes a mode mask: its detected mode is set in the mask and
it is well-formed for that mode. -/
def OperandOk (modes : List Int) (arg : Str) : Prop :=
  mode_allowed modes (get_addr_mode arg) = true ∧ WellFormedFor (get_addr_mode arg) arg

/-- The shape of an argument by addressing mode, with digits only (possibly
none) after the optional sign of an immediate. -/
def ShapeFor (mode : AddrMode) (arg : Str) : Prop :=
  match mode with
  | .IMMEDIATE => SignedDigits (arg.drop 1)
  | .DIRECT => ValidLabel arg
  | .RELATIVE => ValidLabel (arg.drop 1)
  | .REGISTER => True

/-- The detected mode of the argument is set in the mask and the argument
has the shape of that mode. -/
def OperandShape (modes : List Int) (arg : Str) : Prop :=
  mode_allowed modes (get_addr_mode arg) = true ∧ ShapeFor (get_addr_mode arg) arg

/-- An argument is valid for a directive's argument kind: a valid label, a
valid signed integer, a valid string literal. -/
def ArgValid (ty : DirectiveArgType) (a : Str) : Prop :=
  match ty with
  | .LABEL => ValidLabel a
  | .INT => SignedInteger a
  | .STRING => ValidStringLiteral a

/-- The shape of an argument by directive argument kind, with digits only
(possibly none) after the optional sign of an integer. -/
def ArgShape (ty : DirectiveArgType) (a : Str) : Prop :=
  match ty with
  | .LABEL => ValidLabel a
  | .INT => SignedDigits a
  | .STRING => ValidStringLiteral a

/-- A validator threads the error counter uniformly: its verdict does not
depend on the counter, an acceptance leaves the counter unchanged and a
rejection adds exactly one. -/
def CounterUniform (f : Int → Bool × Int) : Prop :=
  ∀ e, f e = ((f 0).1, if (f 0).1 then e else e + 1)

/-- The raw line with its newline (and what follows it) removed and the
whitespace at both ends stripped. -/
def strip_line (line : Str) : Str :=
  (((line.takeWhile (fun c => c ≠ '\n')).dropWhile isspace).reverse.dropWhile isspace).reverse

/-- The symbol tables the program can build: the empty table, and any table
obtained from a reachable one by `add_symbol`, `shift_data_addresses` or
`update_entry_symbol`, whatever the rest of the state is. -/
inductive SymReach : List Symbol → Prop where
  | empty : SymReach []
  | add (st : AsmState) (label : Str) (type : SymType) (loc : SymLoc) :
      SymReach st.symbol_table → SymReach (add_symbol st label type loc).2.symbol_table
  | shift (st : AsmState) :
      SymReach st.symbol_table → SymReach (shift_data_addresses st).symbol_table
  | entry (st : AsmState) (label : Str) :
      SymReach st.symbol_table → SymReach (update_entry_symbol st label).symbol_table

/-- The number written by a string of decimal digits: each character counts
its distance from `'0'` times the power of ten of its position. -/
def decimal_value : Str → Int
  | [] => 0
  | c :: cs => ((c.toNat : Int) - 48) * 10 ^ cs.length + decimal_value cs

/-- The number written by an optional sign followed by decimal digits. -/
def signed_decimal : Str → Int
  | [] => 0
  | c :: cs =>
    if c = '-' then -decimal_value cs
    else if c = '+' then decimal_value cs
    else decimal_value (c :: cs)

/-- The words of the code image in address order: the slots
`0 .. IC - MEM_START_ADDRESS - 1`; slot `k` is the word at address
`MEM_START_ADDRESS + k`. -/
def code_words (st : AsmState) : List (Option Code) :=
  (List.range (st.IC - MEM_START_ADDRESS)).map st.code_image

/-- The array after writing the words `ws` into consecutive slots from `i`. -/
def write_words (img : Arr Code) : Nat → List Code → Arr Code
  | _, [] => img
  | i, w :: ws => write_words (img.set i w) (i + 1) ws

/-- The operand word an argument stands for in pass 1: an immediate gives its
value with flag A, a DIRECT or RELATIVE label a zero placeholder with flag
UNK, a register no word. -/
def operand_word (arg : Str) : Option Code :=
  match get_addr_mode arg with
  | .IMMEDIATE => some (.operand { value := get_int_value arg 1, linker_info := .Linker_A })
  | .DIRECT => some (.operand { value := 0, linker_info := .Linker_UNK })
  | .RELATIVE => some (.operand { value := 0, linker_info := .Linker_UNK })
  | .REGISTER => none

/-- The deferred reference an argument stands for, when its operand word is
at address `addr`: the label (without `&` for RELATIVE), the line number
and the mode; none for an immediate or a register. -/
def operand_ref (line_num : Int) (addr : Nat) (arg : Str) : Option SymbolInfo :=
  match get_addr_mode arg with
  | .DIRECT => some { line_num := line_num, IC := addr, label := arg, addrMode := .DIRECT }
  | .RELATIVE =>
    some { line_num := line_num, IC := addr, label := arg.drop 1, addrMode := .RELATIVE }
  | _ => none

/-- The operand words of an argument list, in argument order. -/
def args_words (args : List Str) : List Code := args.filterMap operand_word

/-- The deferred references of an argument list whose first operand word is
at address `addr`, in argument order. -/
def args_refs (line_num : Int) : Nat → List Str → List SymbolInfo
  | _, [] => []
  | addr, a :: rest =>
    (operand_ref line_num addr a).toList ++
      args_refs line_num (addr + (operand_word a).toList.length) rest

/-- The register id an argument puts in the instruction word: its register
for the mode REGISTER, 0 otherwise. -/
def arg_reg (arg : Str) : Int :=
  if get_addr_mode arg = .REGISTER then get_register arg else 0

/-- The instruction word of an operation with at most two arguments: a
single argument fills the second-operand fields, two arguments fill the
first- and second-operand fields in order, unused fields are 0, and the
flag is A. -/
def op_instruction (op : Op) (args : List Str) : Instruction :=
  match args with
  | [a] =>
    { opcode := op.opcode
      arg_1_mode := .IMMEDIATE
      reg_1 := 0
      arg_2_mode := get_addr_mode a
      reg_2 := arg_reg a
      funct := op.funct
      linker_info := .Linker_A }
  | [a, b] =>
    { opcode := op.opcode
      arg_1_mode := get_addr_mode a
      reg_1 := arg_reg a
      arg_2_mode := get_addr_mode b
      reg_2 := arg_reg b
      funct := op.funct
      linker_info := .Linker_A }
  | _ =>
    { opcode := op.opcode
      arg_1_mode := .IMMEDIATE
      reg_1 := 0
      arg_2_mode := .IMMEDIATE
      reg_2 := 0
      funct := op.funct
      linker_info := .Linker_A }

/-- The stored references are consistent with the code image: the code
counter is at least `MEM_START_ADDRESS`, every stored reference holds the
address of an operand word written below the code counter, and the
addresses of the stored references increase. -/
def RefsOk (st : AsmState) : Prop :=
  MEM_START_ADDRESS ≤ st.IC ∧
  (∀ r ∈ st.symbol_references,
    MEM_START_ADDRESS ≤ r.IC ∧ r.IC < st.IC ∧
    ∃ o, st.code_image (r.IC - MEM_START_ADDRESS) = some (.operand o)) ∧
  st.symbol_references.Pairwise (fun a b => a.IC < b.IC)

/-- The record declares the label `L`: as the label of an op line or of a
`.data` or `.string` line, or as the argument of an `.extern` line. -/
def declares (pl : ParsedLine) (L : Str) : Prop :=
  (pl.op.isSome = true ∧ pl.label = some L) ∨
  (pl.op = none ∧
    (pl.directive = some ".data".toList ∨ pl.directive = some ".string".toList) ∧
    pl.label = some L) ∨
  (pl.op = none ∧ pl.directive = some ".extern".toList ∧ pl.args.getD 0 [] = L)

/-- The stored references whose label is no label of the symbol table. -/
def unresolved_refs (st : AsmState) : List SymbolInfo :=
  st.symbol_references.filter (fun r => (_get_symbol st.symbol_table r.label).isNone)

/-- The `.entry` records whose argument is no label of the symbol table. -/
def unresolved_entries (st : AsmState) (lines : List ParsedLine) : List ParsedLine :=
  lines.filter (fun pl =>
    decide (pl.directive = some ".entry".toList) &&
      (_get_symbol st.symbol_table (pl.args.getD 0 [])).isNone)

/-- The flags of the written words are in order: the code counter is at
least `MEM_START_ADDRESS`, every stored reference has the mode DIRECT or
RELATIVE, and every word below the code counter is an instruction word with
flag A, an operand word with flag A, or an operand word that a stored
reference addresses. -/
def WordsOk (st : AsmState) : Prop :=
  MEM_START_ADDRESS ≤ st.IC ∧
  (∀ r ∈ st.symbol_references, r.addrMode = .DIRECT ∨ r.addrMode = .RELATIVE) ∧
  ∀ k, k < st.IC - MEM_START_ADDRESS →
    (∃ i, st.code_image k = some (.instruction i) ∧ i.linker_info = .Linker_A) ∨
    (∃ o, st.code_image k = some (.operand o) ∧
      (o.linker_info = .Linker_A ∨
        ∃ r ∈ st.symbol_references, r.IC = MEM_START_ADDRESS + k))

/-- An example program with an external, a relative and a direct reference:
`.extern X`, `A: prn X`, `jmp &A`, `prn A`. -/
def example_flags : List ParsedLine :=
  [⟨1, none, none, some ".extern".toList, 1, ["X".toList]⟩,
   ⟨2, some "A".toList, some "prn".toList, none, 1, ["X".toList]⟩,
   ⟨3, none, some "jmp".toList, none, 1, ["&A".toList]⟩,
   ⟨4, none, some "prn".toList, none, 1, ["A".toList]⟩]

/-- The two-line source `MAIN: mov #5, r1`, `ADD: add r1, r1`, as `fgets`
reads it. -/
def example_two_ops : List Str :=
  ["MAIN: mov #5, r1\n".toList, "ADD: add r1, r1\n".toList]

/-- The records `parse_line` returns for the two lines of `example_two_ops`. -/
def example_two_ops_parsed : List ParsedLine :=
  [⟨1, some "MAIN".toList, some "mov".toList, none, 2, ["#5".toList, "r1".toList]⟩,
   ⟨2, some "ADD".toList, some "add".toList, none, 2, ["r1".toList, "r1".toList]⟩]

/-- The words of the data image in order: the slots `0 .. DC - 1`; after the
first pass slot `k` is the word at address `IC + k`. -/
def data_words (st : AsmState) : List (Option Int) :=
  (List.range st.DC).map st.data_image

/-- The label resolves to a symbol of the table whose location is EXTERNAL. -/
def is_external (t : List Symbol) (label : Str) : Bool :=
  match _get_symbol t label with
  | some s => decide (s.loc = .LOC_EXTERNAL)
  | none => false

/-- The arguments of the `.entry` records, in line order. -/
def entry_labels (lines : List ParsedLine) : List Str :=
  (lines.filter (fun pl => decide (pl.directive = some ".entry".toList))).map
    (fun pl => pl.args.getD 0 [])

/-- The symbol with its location set to ENTRY if its label is in `labels`. -/
def mark_entry (labels : List Str) (s : Symbol) : Symbol :=
  if s.label ∈ labels then { s with loc := .LOC_ENTRY } else s

/-- An example program with two `.entry` directives, in the reverse order of
the declarations: `.entry B`, `.entry A`, `A: stop`, `X: .data 5`, `B: stop`. -/
def example_entries : List ParsedLine :=
  [⟨1, none, none, some ".entry".toList, 1, ["B".toList]⟩,
   ⟨2, none, none, some ".entry".toList, 1, ["A".toList]⟩,
   ⟨3, some "A".toList, some "stop".toList, none, 0, []⟩,
   ⟨4, some "X".toList, none, some ".data".toList, 1, ["5".toList]⟩,
   ⟨5, some "B".toList, some "stop".toList, none, 0, []⟩]

/-- A call of one of the two functions that write to a symbol after its
insertion, made while the code counter and the data counter hold `ic` and
`dc`. -/
inductive TableCall where
  | shift (ic dc : Nat)
  | entry (ic dc : Nat) (label : Str)
  deriving DecidableEq, Repr

/-- The state after a call. -/
def TableCall.run (st : AsmState) : TableCall → AsmState
  | .shift ic dc => shift_data_addresses { st with IC := ic, DC := dc }
  | .entry ic dc label => update_entry_symbol { st with IC := ic, DC := dc } label

/-- The symbols an `.extern` directive adds keep the address 0: a symbol of
location EXTERNAL has the type UNKNOWN, and a symbol of type UNKNOWN has the
address 0. -/
def ExternZero (t : List Symbol) : Prop :=
  ∀ s ∈ t, (s.loc = .LOC_EXTERNAL → s.type = .TYPE_UNK) ∧ (s.type = .TYPE_UNK → s.address = 0)

/-- Decoding of an operand word by the documented layout: bits 3..23 read as
a 21-bit two's-complement number give the value, the low 3 bits the flag. -/
def decode_operand (x : Int) : Int × Int :=
  (if (x / 8) % 2 ^ 21 < 2 ^ 20 then (x / 8) % 2 ^ 21 else (x / 8) % 2 ^ 21 - 2 ^ 21, x % 8)

/-- The error counter, the line number and the parsed lines after the
pre-processing loop of `main` over the lines of a file; `none` when the loop
is undefined. -/
def preprocess (lines : List Str) : Option ParseState :=
  fgets_loop main_parse_step { n_errors := 0, line_num := 0, parsed_lines := [] } lines

/-- The error counter, the line number and the parsed lines among the
globals. -/
def Globals.to_parse (g : Globals) : ParseState :=
  { n_errors := g.n_errors, line_num := g.line_num, parsed_lines := g.parsed_lines }

/-- The sum of a count over a list of records. -/
def sum_over (f : ParsedLine → Int) (lines : List ParsedLine) : Int := (lines.map f).sum

/-- A validated record, as `parse_line` returns it: `n_args` is the number
of its arguments, and it carries either an op whose arguments `_validate_op`
accepts, or a directive, starting with a dot, whose arguments
`_validate_directive` accepts. -/
def Validated (pl : ParsedLine) : Prop :=
  pl.n_args = (pl.args.length : Int) ∧
  ((∃ name, pl.op = some name ∧ pl.directive = none ∧
      (_validate_op name pl.args 0).1 = true) ∨
    (∃ name, pl.op = none ∧ pl.directive = some name ∧
      (_validate_directive name pl.args 0).1 = true))
/-- A small source with a label reference, a string and a register operand:
`X: jmp X`, `S: .string "ab"`, `mov r1, A`, `A: .data 7, 8`. -/
def example_counts : List Str :=
  ["X: jmp X\n".toList, "S: .string \"ab\"\n".toList, "mov r1, A\n".toList,
   "A: .data 7, 8\n".toList]
/-- The records of `example_counts`. -/
def example_counts_parsed : List ParsedLine :=
  [⟨1, some "X".toList, some "jmp".toList, none, 1, ["X".toList]⟩,
   ⟨2, some "S".toList, none, some ".string".toList, 1, ["\"ab\"".toList]⟩,
   ⟨3, none, some "mov".toList, none, 2, ["r1".toList, "A".toList]⟩,
   ⟨4, some "A".toList, none, some ".data".toList, 2, ["7".toList, "8".toList]⟩]

/-- The record of `mov r1, A`, as `parse_line` stores it. -/
def example_label_pre : List ParsedLine :=
  [{ line_num := 1, label := none, op := some "mov".toList, directive := none,
     n_args := 2, args := ["r1".toList, "A".toList] }]
/-- The record of `A: .data 7, 8`. -/
def example_label_line : ParsedLine :=
  { line_num := 2, label := some "A".toList, op := none, directive := some ".data".toList,
    n_args := 2, args := ["7".toList, "8".toList] }
/-- The record of `stop`. -/
def example_label_post : List ParsedLine :=
  [{ line_num := 3, label := none, op := some "stop".toList, directive := none,
     n_args := 0, args := [] }]

/-- The record of `mov r1, r2`. -/
def example_relative_pre : List ParsedLine :=
  [{ line_num := 1, label := none, op := some "mov".toList, directive := none,
     n_args := 2, args := ["r1".toList, "r2".toList] }]
/-- The record of `jmp &END`. -/
def example_relative_line : ParsedLine :=
  { line_num := 2, label := none, op := some "jmp".toList, directive := none,
    n_args := 1, args := ["&END".toList] }
/-- The record of `END: stop`. -/
def example_relative_post : List ParsedLine :=
  [{ line_num := 3, label := some "END".toList, op := some "stop".toList, directive := none,
     n_args := 0, args := [] }]

/-! ## Theorems -/

theorem wrap32_of_range (x : Int) (h1 : -2147483648 ≤ x) (h2 : x < 2147483648) :
    wrap32 x = x := by
  unfold wrap32
  omega

theorem LinkerInfo.toInt_cases (f : LinkerInfo) :
    f.toInt = 0 ∨ f.toInt = 1 ∨ f.toInt = 2 ∨ f.toInt = 4 := by
  cases f <;> simp [LinkerInfo.toInt]

theorem AddrMode.toInt_range (m : AddrMode) : 0 ≤ m.toInt ∧ m.toInt ≤ 3 := by
  cases m <;> simp [AddrMode.toInt]

/-- Closed form of `encode_instruction` on in-range fields: no wrap-around
occurs and the word is the plain weighted sum of the fields. -/
theorem encode_instruction_eq (i : Instruction)
    (hop : 0 ≤ i.opcode ∧ i.opcode ≤ 15)
    (hr1 : 0 ≤ i.reg_1 ∧ i.reg_1 ≤ 7)
    (hr2 : 0 ≤ i.reg_2 ∧ i.reg_2 ≤ 7)
    (hf : 0 ≤ i.funct ∧ i.funct ≤ 31) :
    encode_instruction i =
      i.opcode * 262144 + i.arg_1_mode.toInt * 65536 + i.reg_1 * 8192 +
        i.arg_2_mode.toInt * 2048 + i.reg_2 * 256 + i.funct * 8 + i.linker_info.toInt := by
  have hm1 := AddrMode.toInt_range i.arg_1_mode
  have hm2 := AddrMode.toInt_range i.arg_2_mode
  have hl := LinkerInfo.toInt_cases i.linker_info
  unfold encode_instruction add32 shl32
  norm_num
  rw [wrap32_of_range (i.opcode * 262144) (by omega) (by omega),
    wrap32_of_range (i.arg_1_mode.toInt * 65536) (by omega) (by omega),
    wrap32_of_range (i.reg_1 * 8192) (by omega) (by omega),
    wrap32_of_range (i.arg_2_mode.toInt * 2048) (by omega) (by omega),
    wrap32_of_range (i.reg_2 * 256) (by omega) (by omega),
    wrap32_of_range (i.funct * 8) (by omega) (by omega)]
  rw [wrap32_of_range (i.opcode * 262144 + i.arg_1_mode.toInt * 65536) (by omega) (by omega)]
  rw [wrap32_of_range (i.opcode * 262144 + i.arg_1_mode.toInt * 65536 + i.reg_1 * 8192)
    (by omega) (by omega)]
  rw [wrap32_of_range (i.opcode * 262144 + i.arg_1_mode.toInt * 65536 + i.reg_1 * 8192 +
    i.arg_2_mode.toInt * 2048) (by omega) (by omega)]
  rw [wrap32_of_range (i.opcode * 262144 + i.arg_1_mode.toInt * 65536 + i.reg_1 * 8192 +
    i.arg_2_mode.toInt * 2048 + i.reg_2 * 256) (by omega) (by omega)]
  rw [wrap32_of_range (i.opcode * 262144 + i.arg_1_mode.toInt * 65536 + i.reg_1 * 8192 +
    i.arg_2_mode.toInt * 2048 + i.reg_2 * 256 + i.funct * 8) (by omega) (by omega)]
  rw [wrap32_of_range (i.opcode * 262144 + i.arg_1_mode.toInt * 65536 + i.reg_1 * 8192 +
    i.arg_2_mode.toInt * 2048 + i.reg_2 * 256 + i.funct * 8 + i.linker_info.toInt)
    (by omega) (by omega)]


/-- Closed form of `encode_operand` for a value that fits 21 signed bits. -/
theorem encode_operand_eq (o : Operand)
    (hlo : -1048576 ≤ o.value) (hhi : o.value < 1048576) :
    encode_operand o = (8 * o.value) % 16777216 + o.linker_info.toInt := by
  have hl := LinkerInfo.toInt_cases o.linker_info
  unfold encode_operand twos_comp add32 shl32
  norm_num
  rw [wrap32_of_range (o.value * 8) (by omega) (by omega)]
  split
  · rw [wrap32_of_range 16777216 (by omega) (by omega),
      wrap32_of_range (16777216 + o.value * 8) (by omega) (by omega),
      wrap32_of_range (16777216 + o.value * 8 + o.linker_info.toInt) (by omega) (by omega)]
    omega
  · rw [wrap32_of_range (o.value * 8 + o.linker_info.toInt) (by omega) (by omega)]
    omega

/-- C1: for every instruction with opcode in 0..15, register ids in 0..7 and
funct in 0..31 (the two addressing modes and the flag range over their
enumerations, i.e. 0..3 and 0,1,2,4), unpacking `encode_instruction` by the
documented bit layout gives back all seven fields. -/
theorem C1_encode_instruction_roundtrip (i : Instruction)
    (hop : 0 ≤ i.opcode ∧ i.opcode ≤ 15)
    (hr1 : 0 ≤ i.reg_1 ∧ i.reg_1 ≤ 7)
    (hr2 : 0 ≤ i.reg_2 ∧ i.reg_2 ≤ 7)
    (hf : 0 ≤ i.funct ∧ i.funct ≤ 31) :
    unpack_layout (encode_instruction i) =
      { opcode := i.opcode
        arg_1_mode := i.arg_1_mode.toInt
        reg_1 := i.reg_1
        arg_2_mode := i.arg_2_mode.toInt
        reg_2 := i.reg_2
        funct := i.funct
        linker_info := i.linker_info.toInt } := by
  have hm1 := AddrMode.toInt_range i.arg_1_mode
  have hm2 := AddrMode.toInt_range i.arg_2_mode
  have hl := LinkerInfo.toInt_cases i.linker_info
  rw [encode_instruction_eq i hop hr1 hr2 hf]
  unfold unpack_layout
  norm_num
  refine ⟨?_, ?_, ?_, ?_, ?_, ?_, ?_⟩ <;> omega

/-- Witness of C1 at `mov`-like fields (opcode 9, DIRECT/r3, REGISTER/r7,
funct 21, flag A). -/
theorem C1_encode_instruction_roundtrip_witness :
    unpack_layout (encode_instruction
        ⟨9, .DIRECT, 3, .REGISTER, 7, 21, .Linker_A⟩) =
      { opcode := 9, arg_1_mode := 1, reg_1 := 3, arg_2_mode := 3, reg_2 := 7,
        funct := 21, linker_info := 4 } :=
  C1_encode_instruction_roundtrip ⟨9, .DIRECT, 3, .REGISTER, 7, 21, .Linker_A⟩
    (by decide) (by decide) (by decide) (by decide)

/-- C2: the lowest three bits of every encoded word are the numeric
relocation flag (UNK = 0, E = 1, R = 2, A = 4): for an in-range instruction
`encode_instruction i % 8 = i.linker_info`, and for an operand whose value
lies in `-2^20 .. 2^20 - 1`, `encode_operand o % 8 = o.linker_info`. -/
theorem C2_low_bits_are_flag (i : Instruction) (o : Operand)
    (hop : 0 ≤ i.opcode ∧ i.opcode ≤ 15)
    (hr1 : 0 ≤ i.reg_1 ∧ i.reg_1 ≤ 7)
    (hr2 : 0 ≤ i.reg_2 ∧ i.reg_2 ≤ 7)
    (hf : 0 ≤ i.funct ∧ i.funct ≤ 31)
    (hlo : -(2 : Int) ^ 20 ≤ o.value) (hhi : o.value < (2 : Int) ^ 20) :
    (LinkerInfo.Linker_UNK.toInt = 0 ∧ LinkerInfo.Linker_E.toInt = 1 ∧
      LinkerInfo.Linker_R.toInt = 2 ∧ LinkerInfo.Linker_A.toInt = 4) ∧
    encode_instruction i % 8 = i.linker_info.toInt ∧
    encode_operand o % 8 = o.linker_info.toInt := by
  have hm1 := AddrMode.toInt_range i.arg_1_mode
  have hm2 := AddrMode.toInt_range i.arg_2_mode
  have hl := LinkerInfo.toInt_cases i.linker_info
  have hl2 := LinkerInfo.toInt_cases o.linker_info
  norm_num at hlo hhi
  refine ⟨⟨rfl, rfl, rfl, rfl⟩, ?_, ?_⟩
  · rw [encode_instruction_eq i hop hr1 hr2 hf]
    omega
  · rw [encode_operand_eq o hlo hhi]
    omega

/-- Witness of C2: an instruction word with flag A and an operand word
holding -1 with flag R. -/
theorem C2_low_bits_are_flag_witness :
    encode_instruction ⟨0, .IMMEDIATE, 0, .REGISTER, 1, 0, .Linker_A⟩ % 8 = 4 ∧
    encode_operand ⟨-1, .Linker_R⟩ % 8 = 2 :=
  (C2_low_bits_are_flag ⟨0, .IMMEDIATE, 0, .REGISTER, 1, 0, .Linker_A⟩ ⟨-1, .Linker_R⟩
    (by decide) (by decide) (by decide) (by decide) (by decide) (by decide)).2

/-- C3: for every operand value `v` with `-2^20 ≤ v < 2^20` and every flag
`f`, `encode_operand` returns `((8 * v) mod 2^24) + f`: the 21-bit two's
complement of `v` in bits 3..23 and the flag in bits 0..2; for negative `v`
this is `2^24 + 8 * v + f`. -/
theorem C3_encode_operand_value (v : Int) (f : LinkerInfo)
    (hlo : -(2 : Int) ^ 20 ≤ v) (hhi : v < (2 : Int) ^ 20) :
    encode_operand ⟨v, f⟩ = (8 * v) % 2 ^ 24 + f.toInt ∧
    (encode_operand ⟨v, f⟩ / 8) % 2 ^ 21 = v % 2 ^ 21 ∧
    encode_operand ⟨v, f⟩ % 8 = f.toInt ∧
    (v < 0 → encode_operand ⟨v, f⟩ = 2 ^ 24 + 8 * v + f.toInt) := by
  have hl := LinkerInfo.toInt_cases f
  norm_num at hlo hhi
  have h := encode_operand_eq ⟨v, f⟩ hlo hhi
  simp only at h
  rw [h]
  norm_num
  refine ⟨?_, ?_, ?_⟩
  · omega
  · omega
  · intro hv
    omega

/-- Witness of C3 at `v = -1`, flag A: the word is `0xFFFFFC`. -/
theorem C3_encode_operand_value_witness :
    encode_operand ⟨-1, .Linker_A⟩ = 16777212 := by
  have h := (C3_encode_operand_value (-1) .Linker_A (by decide) (by decide)).1
  rw [h]
  decide


/-! ### Character classes and table lookups -/

theorem isalpha_iff (c : Char) : isalpha c = true ↔ IsAsciiLetter c := by
  unfold isalpha IsAsciiLetter
  simp only [Bool.or_eq_true, Bool.and_eq_true, decide_eq_true_eq]
  exact Iff.rfl

theorem isdigit_iff (c : Char) : isdigit c = true ↔ IsAsciiDigit c := by
  unfold isdigit IsAsciiDigit
  simp only [Bool.and_eq_true, decide_eq_true_eq]
  exact Iff.rfl

theorem isprint_iff (c : Char) : isprint c = true ↔ IsPrintableAscii c := by
  unfold isprint IsPrintableAscii
  simp only [Bool.and_eq_true, decide_eq_true_eq]
  exact Iff.rfl

theorem isalnum_iff (c : Char) : isalnum c = true ↔ IsAsciiLetter c ∨ IsAsciiDigit c := by
  unfold isalnum
  rw [Bool.or_eq_true, isalpha_iff, isdigit_iff]

theorem is_alnum_iff (s : Str) :
    is_alnum s = true ↔ ∀ c ∈ s, IsAsciiLetter c ∨ IsAsciiDigit c := by
  unfold is_alnum
  rw [List.all_eq_true]
  exact forall₂_congr (fun c _ => isalnum_iff c)

theorem register_id_ne (r : Register) (h : r ∈ registers) : r.id ≠ -1 := by
  simp only [registers, List.mem_cons, List.mem_singleton, List.not_mem_nil, or_false] at h
  rcases h with h | h | h | h | h | h | h | h <;> subst h <;> decide

theorem get_register_eq_iff (s : Str) : get_register s = -1 ↔ s ∉ register_names := by
  unfold get_register register_names
  cases hf : registers.find? (fun r => decide (s = r.name)) with
  | none =>
    simp only [true_iff, List.mem_map, not_exists, not_and]
    intro r hr hname
    have := List.find?_eq_none.mp hf r hr
    simp [hname] at this
  | some r =>
    have hmem := List.mem_of_find?_eq_some hf
    have hp := List.find?_some hf
    simp only [decide_eq_true_eq] at hp
    constructor
    · intro h
      exact absurd h (register_id_ne r hmem)
    · intro h
      exact absurd (List.mem_map.mpr ⟨r, hmem, hp.symm⟩) h

theorem get_op_isSome_iff (s : Str) : (get_op s).isSome = true ↔ s ∈ op_names := by
  unfold get_op op_names
  rw [List.find?_isSome, List.mem_map]
  simp only [decide_eq_true_eq]

theorem get_directive_isSome_iff (s : Str) :
    (get_directive s).isSome = true ↔ s ∈ directive_names := by
  unfold get_directive directive_names
  rw [List.find?_isSome, List.mem_map]
  simp only [decide_eq_true_eq]

/-- Every reserved word (register, operation or directive name) has at most
7 characters. -/
theorem reserved_length_le (s : Str)
    (h : s ∈ register_names ∨ s ∈ op_names ∨ s ∈ directive_names) : s.length ≤ 7 := by
  simp only [register_names, registers, op_names, ops, directive_names, directives,
    List.map_cons, List.map_nil, List.mem_cons, List.mem_singleton, List.not_mem_nil,
    or_false] at h
  rcases h with h | h | h
  · rcases h with h | h | h | h | h | h | h | h <;> subst h <;> decide
  · rcases h with h | h | h | h | h | h | h | h | h | h | h | h | h | h | h | h <;>
      subst h <;> decide
  · rcases h with h | h | h | h <;> subst h <;> decide

/-- Verdict of `_validate_label`, independent of the error counter. -/
theorem validate_label_fst (s : Str) (e : Int) :
    (_validate_label s e).1 = true ↔ ValidLabel s := by
  unfold ValidLabel
  have hhead : (match s.head? with | some c => isalpha c | none => false) = true ↔
      ∃ c, s.head? = some c ∧ IsAsciiLetter c := by
    cases s with
    | nil => simp
    | cons a t => simp [isalpha_iff]
  rw [← hhead, ← is_alnum_iff, ← get_register_eq_iff, ← get_op_isSome_iff,
    ← get_directive_isSome_iff]
  unfold _validate_label MAX_LABEL_LEN
  by_cases h1 : (match s.head? with | some c => isalpha c | none => false) = true <;>
  by_cases h2 : is_alnum s = true <;>
  by_cases h3 : s.length > 31 <;>
  by_cases h4 : get_register s = -1 <;>
  by_cases h5 : (get_op s).isSome = true <;>
  by_cases h6 : (get_directive s).isSome = true <;>
  simp [h1, h2, h3, h4, h5, h6]
  all_goals omega

/-- Error accounting of `_validate_label`: a rejection adds exactly one to the
counter, an acceptance leaves it unchanged. -/
theorem validate_label_snd (s : Str) (e : Int) :
    (_validate_label s e).2 = if (_validate_label s e).1 then e else e + 1 := by
  unfold _validate_label
  split_ifs <;> simp_all

/-- C4: `_validate_label` accepts `s` iff `s` starts with an ASCII letter,
consists only of ASCII letters and digits, has length between 1 and 31 and is
none of the 8 register names, the 16 operation names or the 4 directive names;
every rejection adds exactly one to the error counter (an acceptance adds
nothing); so every 32-character label is rejected and every 31-character
alphanumeric label starting with a letter is accepted. -/
theorem C4_validate_label_iff :
    (∀ (s : Str) (e : Int),
      ((_validate_label s e).1 = true ↔
        ((∃ c, s.head? = some c ∧ IsAsciiLetter c) ∧
          (∀ c ∈ s, IsAsciiLetter c ∨ IsAsciiDigit c) ∧
          (1 ≤ s.length ∧ s.length ≤ 31) ∧
          s ∉ register_names ∧ s ∉ op_names ∧ s ∉ directive_names)) ∧
      ((_validate_label s e).1 = false → (_validate_label s e).2 = e + 1) ∧
      ((_validate_label s e).1 = true → (_validate_label s e).2 = e)) ∧
    (register_names.length = 8 ∧ op_names.length = 16 ∧ directive_names.length = 4) ∧
    (∀ (s : Str) (e : Int), s.length = 32 → _validate_label s e = (false, e + 1)) ∧
    (∀ (s : Str) (e : Int), s.length = 31 →
      (∃ c, s.head? = some c ∧ IsAsciiLetter c) →
      (∀ c ∈ s, IsAsciiLetter c ∨ IsAsciiDigit c) →
      _validate_label s e = (true, e)) := by
  refine ⟨?_, ⟨rfl, rfl, rfl⟩, ?_, ?_⟩
  · intro s e
    refine ⟨?_, ?_, ?_⟩
    · rw [validate_label_fst, ValidLabel]
      constructor
      · rintro ⟨h1, h2, h3, h4⟩
        refine ⟨h1, h2, ⟨?_, h3⟩, h4⟩
        obtain ⟨c, hc, _⟩ := h1
        cases s with
        | nil => simp at hc
        | cons a t => simp
      · rintro ⟨h1, h2, ⟨_, h3⟩, h4⟩
        exact ⟨h1, h2, h3, h4⟩
    · intro h
      rw [validate_label_snd, h]
      simp
    · intro h
      rw [validate_label_snd, h]
      simp
  · intro s e hlen
    have hfalse : (_validate_label s e).1 = false := by
      rw [← Bool.not_eq_true, validate_label_fst, ValidLabel]
      rintro ⟨_, _, h3, _⟩
      omega
    have hsnd := validate_label_snd s e
    rw [hfalse] at hsnd
    exact Prod.ext hfalse (by simpa using hsnd)
  · intro s e hlen hhead hall
    have htrue : (_validate_label s e).1 = true := by
      rw [validate_label_fst, ValidLabel]
      refine ⟨hhead, hall, by omega, ?_, ?_, ?_⟩
      · intro h
        have := reserved_length_le s (Or.inl h)
        omega
      · intro h
        have := reserved_length_le s (Or.inr (Or.inl h))
        omega
      · intro h
        have := reserved_length_le s (Or.inr (Or.inr h))
        omega
    have hsnd := validate_label_snd s e
    rw [htrue] at hsnd
    exact Prod.ext htrue (by simpa using hsnd)


/-! ### Operations -/

theorem get_substr_tail (s : Str) : get_substr s 1 s.length = s.drop 1 := by
  unfold get_substr
  apply List.take_of_length_le
  simp

theorem validate_int_fst (a : Str) (k : Nat) (e : Int) :
    (_validate_int a k e).1 = is_integer a k := by
  unfold _validate_int
  cases is_integer a k <;> simp

theorem validate_int_snd (a : Str) (k : Nat) (e : Int) :
    (_validate_int a k e).2 = if (_validate_int a k e).1 then e else e + 1 := by
  unfold _validate_int
  cases is_integer a k <;> simp

/-- What `is_integer` accepts: an optional sign at `start_idx`, then digits
only, possibly none. -/
theorem is_integer_iff (s : Str) (k : Nat) :
    is_integer s k = true ↔ SignedDigits (s.drop k) := by
  unfold is_integer SignedDigits
  cases s.drop k with
  | nil => simp [drop_sign]
  | cons c cs =>
    simp only [drop_sign]
    by_cases hs : c = '+' ∨ c = '-'
    · rw [if_pos hs]
      have hc : (decide (c = '+') || decide (c = '-') || isdigit c) = true := by
        rcases hs with h | h <;> simp [h]
      simp only [hc, Bool.true_and, List.all_eq_true]
      exact ⟨fun h x hx => (isdigit_iff x).mp (h x hx),
        fun h x hx => (isdigit_iff x).mpr (h x hx)⟩
    · rw [if_neg hs]
      have h1 : c ≠ '+' := fun h => hs (Or.inl h)
      have h2 : c ≠ '-' := fun h => hs (Or.inr h)
      simp only [h1, h2, decide_False, Bool.false_or, Bool.and_eq_true, List.all_eq_true,
        List.mem_cons, forall_eq_or_imp]
      exact ⟨fun h => ⟨(isdigit_iff c).mp h.1, fun x hx => (isdigit_iff x).mp (h.2 x hx)⟩,
        fun h => ⟨(isdigit_iff c).mpr h.1, fun x hx => (isdigit_iff x).mpr (h.2 x hx)⟩⟩

theorem signed_integer_digits (s : Str) (h : SignedInteger s) : SignedDigits s := h.2

theorem signed_digits_cases (s : Str) (h : SignedDigits s) :
    SignedInteger s ∨ drop_sign s = [] := by
  by_cases he : drop_sign s = []
  · exact Or.inr he
  · exact Or.inl ⟨he, h⟩

/-- Verdict of `_validate_operand`: the mode detected for the operand is set
in the mask and the operand has the shape of that mode. -/
theorem validate_operand_fst (a : Str) (modes : List Int) (e : Int) :
    (_validate_operand a modes e).1 = true ↔ OperandShape modes a := by
  unfold _validate_operand OperandShape
  cases hmode : get_addr_mode a <;>
    cases hm : mode_allowed modes _ <;>
    simp [hm, ShapeFor, validate_int_fst, validate_label_fst, get_substr_tail,
      is_integer_iff]

theorem operand_ok_shape (modes : List Int) (a : Str) (h : OperandOk modes a) :
    OperandShape modes a := by
  obtain ⟨h1, h2⟩ := h
  refine ⟨h1, ?_⟩
  cases hm : get_addr_mode a <;> rw [hm] at h2
  · exact signed_integer_digits _ h2
  · exact h2
  · exact h2
  · exact h2

theorem operand_shape_cases (modes : List Int) (a : Str) (h : OperandShape modes a) :
    OperandOk modes a ∨ (get_addr_mode a = .IMMEDIATE ∧ drop_sign (a.drop 1) = []) := by
  obtain ⟨h1, h2⟩ := h
  cases hm : get_addr_mode a
  · rw [hm] at h2
    rcases signed_digits_cases _ h2 with h3 | h3
    · left
      refine ⟨h1, ?_⟩
      rw [hm]
      exact h3
    · exact Or.inr ⟨rfl, h3⟩
  · left
    refine ⟨h1, ?_⟩
    rw [hm] at h2 ⊢
    exact h2
  · left
    refine ⟨h1, ?_⟩
    rw [hm] at h2 ⊢
    exact h2
  · left
    refine ⟨h1, ?_⟩
    rw [hm] at h2 ⊢
    exact h2

theorem validate_operand_snd (a : Str) (modes : List Int) (e : Int) :
    (_validate_operand a modes e).2 = if (_validate_operand a modes e).1 then e else e + 1 := by
  unfold _validate_operand
  cases hmode : get_addr_mode a <;>
    by_cases hm : mode_allowed modes (get_addr_mode a) = true <;>
    rw [hmode] at hm <;>
    simp [hm, validate_int_snd, validate_label_snd]

theorem get_op_of_mem (op : Op) (h : op ∈ ops) : get_op op.name = some op := by
  simp only [ops, List.mem_cons, List.mem_singleton, List.not_mem_nil, or_false] at h
  rcases h with h | h | h | h | h | h | h | h | h | h | h | h | h | h | h | h <;>
    subst h <;> decide

theorem op_n_args_le (op : Op) (h : op ∈ ops) : 0 ≤ op.n_args ∧ op.n_args ≤ 2 := by
  simp only [ops, List.mem_cons, List.mem_singleton, List.not_mem_nil, or_false] at h
  rcases h with h | h | h | h | h | h | h | h | h | h | h | h | h | h | h | h <;>
    subst h <;> decide

/-- Verdict of `_validate_op` on one argument. -/
theorem validate_op_one (op : Op) (a : Str) (e : Int)
    (hget : get_op op.name = some op) (hn : op.n_args = 1) :
    (_validate_op op.name [a] e).1 = true ↔ OperandShape op.arg_2_modes a := by
  rw [← validate_operand_fst a op.arg_2_modes e]
  unfold _validate_op
  simp only [hget, hn]
  rcases hv : _validate_operand a op.arg_2_modes e with ⟨b, e2⟩
  cases b <;> simp [hv]

/-- Verdict of `_validate_op` on two arguments. -/
theorem validate_op_two (op : Op) (a b : Str) (e : Int)
    (hget : get_op op.name = some op) (hn : op.n_args = 2) :
    (_validate_op op.name [a, b] e).1 = true ↔
      OperandShape op.arg_1_modes a ∧ OperandShape op.arg_2_modes b := by
  unfold _validate_op
  simp only [hget, hn]
  rcases hv : _validate_operand b op.arg_2_modes e with ⟨r2, e2⟩
  have h2 := validate_operand_fst b op.arg_2_modes e
  rw [hv] at h2
  rcases hw : _validate_operand a op.arg_1_modes e2 with ⟨r1, e3⟩
  have h1 := validate_operand_fst a op.arg_1_modes e2
  rw [hw] at h1
  simp only at h1 h2
  cases r2 <;> cases r1 <;> simp_all

/-- C5 does not hold as stated, because `is_integer` asks for no digit. For
every operation of the table given exactly its number of arguments,
`_validate_op` accepts no-argument operations, checks a single argument
against the second-operand (destination) mask `arg_2_modes`, and checks two
arguments against `arg_1_modes` (first) and `arg_2_modes` (second). It
accepts iff every argument's detected mode is set in its mask and the
argument has the shape of that mode, where the shape of an immediate is `#`,
an optional sign and digits only, possibly none. Every argument that is
well-formed for its mode (an immediate being `#` and a valid signed integer)
has that shape, and an argument of that shape is well-formed unless it is an
immediate without a digit: `prn #` and `cmp #-, r1` are accepted though `#`
and `#-` are not well-formed. The six examples of the claim come out as
stated: `lea #1, r1`, `mov r1, #5` and `jmp r1` are rejected and
`cmp r1, #5`, `prn #5`, `jmp &L` accepted. -/
theorem C5_validate_op_masks :
    (_validate_op "prn".toList ["#".toList] 0 = (true, 0) ∧
      ¬ OperandOk [1, 1, 0, 1] "#".toList) ∧
    (_validate_op "cmp".toList ["#-".toList, "r1".toList] 0 = (true, 0) ∧
      ¬ OperandOk [1, 1, 0, 1] "#-".toList) ∧
    ¬ (∀ op ∈ ops, ∀ (a : Str) (e : Int), op.n_args = 1 →
        ((_validate_op op.name [a] e).1 = true ↔ OperandOk op.arg_2_modes a)) ∧
    (∀ op ∈ ops, ∀ (args : List Str) (e : Int), (args.length : Int) = op.n_args →
      (args = [] → (_validate_op op.name args e).1 = true) ∧
      (∀ a, args = [a] →
        ((_validate_op op.name args e).1 = true ↔ OperandShape op.arg_2_modes a)) ∧
      (∀ a b, args = [a, b] →
        ((_validate_op op.name args e).1 = true ↔
          OperandShape op.arg_1_modes a ∧ OperandShape op.arg_2_modes b)) ∧
      args.length ≤ 2) ∧
    (∀ (modes : List Int) (a : Str), OperandOk modes a → OperandShape modes a) ∧
    (∀ (modes : List Int) (a : Str), OperandShape modes a →
      OperandOk modes a ∨ (get_addr_mode a = .IMMEDIATE ∧ drop_sign (a.drop 1) = [])) ∧
    (∀ e : Int,
      (_validate_op "lea".toList ["#1".toList, "r1".toList] e).1 = false ∧
      (_validate_op "mov".toList ["r1".toList, "#5".toList] e).1 = false ∧
      (_validate_op "jmp".toList ["r1".toList] e).1 = false ∧
      (_validate_op "cmp".toList ["r1".toList, "#5".toList] e).1 = true ∧
      (_validate_op "prn".toList ["#5".toList] e).1 = true ∧
      (_validate_op "jmp".toList ["&L".toList] e).1 = true) := by
  have hbad1 : ¬ OperandOk [1, 1, 0, 1] "#".toList := by
    intro h
    have h2 := h.2
    have hm : get_addr_mode "#".toList = .IMMEDIATE := by decide
    rw [hm] at h2
    exact h2.1 rfl
  have hbad2 : ¬ OperandOk [1, 1, 0, 1] "#-".toList := by
    intro h
    have h2 := h.2
    have hm : get_addr_mode "#-".toList = .IMMEDIATE := by decide
    rw [hm] at h2
    exact h2.1 rfl
  refine ⟨⟨by decide, hbad1⟩, ⟨by decide, hbad2⟩, ?_, ?_, operand_ok_shape,
    operand_shape_cases, ?_⟩
  · intro h
    have h1 := h ⟨"prn".toList, 13, 0, 1, [0, 0, 0, 0], [1, 1, 0, 1]⟩ (by decide)
      "#".toList 0 rfl
    exact hbad1 (h1.mp (by decide))
  · intro op hop args e hn
    have hget := get_op_of_mem op hop
    have hle := op_n_args_le op hop
    refine ⟨?_, ?_, ?_, by omega⟩
    · intro h
      subst h
      simp only [List.length_nil, Nat.cast_zero] at hn
      unfold _validate_op
      simp [hget, ← hn]
    · intro a h
      subst h
      exact validate_op_one op a e hget (by simpa using hn.symm)
    · intro a b h
      subst h
      exact validate_op_two op a b e hget (by simpa using hn.symm)
  · intro e
    refine ⟨?_, ?_, ?_, ?_, ?_, ?_⟩
    · have h := validate_op_two ⟨"lea".toList, 4, 0, 2, [0, 1, 0, 0], [0, 1, 0, 1]⟩
        "#1".toList "r1".toList e (by decide) rfl
      rw [← Bool.not_eq_true]
      intro hacc
      exact absurd (h.mp hacc).1.1 (by decide)
    · have h := validate_op_two ⟨"mov".toList, 0, 0, 2, [1, 1, 0, 1], [0, 1, 0, 1]⟩
        "r1".toList "#5".toList e (by decide) rfl
      rw [← Bool.not_eq_true]
      intro hacc
      exact absurd (h.mp hacc).2.1 (by decide)
    · have h := validate_op_one ⟨"jmp".toList, 9, 1, 1, [0, 0, 0, 0], [0, 1, 1, 0]⟩
        "r1".toList e (by decide) rfl
      rw [← Bool.not_eq_true]
      intro hacc
      exact absurd (h.mp hacc).1 (by decide)
    · exact (validate_op_two ⟨"cmp".toList, 1, 0, 2, [1, 1, 0, 1], [1, 1, 0, 1]⟩
        "r1".toList "#5".toList e (by decide) rfl).mpr
        ⟨(validate_operand_fst "r1".toList [1, 1, 0, 1] 0).mp (by decide),
          (validate_operand_fst "#5".toList [1, 1, 0, 1] 0).mp (by decide)⟩
    · exact (validate_op_one ⟨"prn".toList, 13, 0, 1, [0, 0, 0, 0], [1, 1, 0, 1]⟩
        "#5".toList e (by decide) rfl).mpr
        ((validate_operand_fst "#5".toList [1, 1, 0, 1] 0).mp (by decide))
    · exact (validate_op_one ⟨"jmp".toList, 9, 1, 1, [0, 0, 0, 0], [0, 1, 1, 0]⟩
        "&L".toList e (by decide) rfl).mpr
        ((validate_operand_fst "&L".toList [0, 1, 1, 0] 0).mp (by decide))

/-! ### Addressing modes -/

theorem register_names_head (t : Str) (h : t ∈ register_names) : t.head? = some 'r' := by
  simp only [register_names, registers, List.map_cons, List.map_nil, List.mem_cons,
    List.mem_singleton, List.not_mem_nil, or_false] at h
  rcases h with h | h | h | h | h | h | h | h <;> subst h <;> rfl

/-- C6: for every argument token `t` (the empty one included, whose first
character is the terminating NUL), `get_addr_mode` returns IMMEDIATE if `t`
starts with `#`, otherwise RELATIVE if it starts with `&`, otherwise REGISTER
if it is exactly one of `r0`..`r7`, otherwise DIRECT; each mode is returned
in exactly its own case, and REGISTER is returned iff `get_register t` is
not -1. -/
theorem C6_get_addr_mode_cases (t : Str) :
    get_addr_mode t =
      (if t.head? = some '#' then AddrMode.IMMEDIATE
       else if t.head? = some '&' then AddrMode.RELATIVE
       else if t ∈ register_names then AddrMode.REGISTER
       else AddrMode.DIRECT) ∧
    (get_addr_mode t = .IMMEDIATE ↔ t.head? = some '#') ∧
    (get_addr_mode t = .RELATIVE ↔ t.head? = some '&') ∧
    (get_addr_mode t = .REGISTER ↔ t ∈ register_names) ∧
    (get_addr_mode t = .DIRECT ↔
      t.head? ≠ some '#' ∧ t.head? ≠ some '&' ∧ t ∉ register_names) ∧
    (get_addr_mode t = .REGISTER ↔ get_register t ≠ -1) ∧
    register_names = ["r0".toList, "r1".toList, "r2".toList, "r3".toList, "r4".toList,
      "r5".toList, "r6".toList, "r7".toList] := by
  have hreg : get_register t ≠ -1 ↔ t ∈ register_names := by
    rw [Ne, get_register_eq_iff, not_not]
  have hhead : t ∈ register_names → t.head? ≠ some '#' ∧ t.head? ≠ some '&' := by
    intro h
    rw [register_names_head t h]
    exact ⟨by decide, by decide⟩
  unfold get_addr_mode
  by_cases h1 : t.head? = some '#'
  · have h3 : t ∉ register_names := fun h => (hhead h).1 h1
    simp [h1, h3, hreg]
    rfl
  · by_cases h2 : t.head? = some '&'
    · have h3 : t ∉ register_names := fun h => (hhead h).2 h2
      simp [h1, h2, h3, hreg]
      rfl
    · by_cases h3 : t ∈ register_names
      · simp [h1, h2, h3, hreg]
        rfl
      · simp [h1, h2, h3, hreg]
        rfl

/-! ### Directives and string literals -/

theorem count_quote_of_wrapped (s : Str) (hlen : 2 ≤ s.length)
    (hh : s.head? = some '"') (hl : s.getLast? = some '"') : 2 ≤ s.count '"' := by
  cases s with
  | nil => simp at hlen
  | cons a t =>
    simp only [List.head?_cons, Option.some.injEq] at hh
    subst hh
    cases t with
    | nil => simp at hlen
    | cons b u =>
      rw [List.getLast?_cons_cons] at hl
      have hmem : '"' ∈ b :: u := List.mem_of_getLast?_eq_some hl
      have hpos : 0 < (b :: u).count '"' := List.count_pos_iff.mpr hmem
      rw [List.count_cons_self]
      omega

/-- Verdict of `_validate_string`. -/
theorem validate_string_fst (s : Str) (e : Int) :
    (_validate_string s e).1 = true ↔ ValidStringLiteral s := by
  unfold _validate_string ValidStringLiteral count_char is_printable
  by_cases h1 : s.length < 2
  · simp only [h1, decide_True, Bool.true_or, if_true]
    constructor
    · intro h
      simp at h
    · rintro ⟨h, _⟩
      omega
  · by_cases h2 : s.head? = some '"'
    · by_cases h3 : s.getLast? = some '"'
      · have hc := count_quote_of_wrapped s (by omega) h2 h3
        by_cases h4 : s.count '"' > 2
        · simp only [h1, h2, h3, h4]
          simp
          intro _ h
          omega
        · have hall : (s.all isprint = true) ↔ ∀ c ∈ s, IsPrintableAscii c := by
            rw [List.all_eq_true]
            exact forall₂_congr (fun c _ => isprint_iff c)
          by_cases h5 : s.all isprint = true
          · simp only [h1, h2, h3, h4, h5]
            simp
            exact ⟨by omega, by omega, hall.mp h5⟩
          · simp only [h1, h2, h3, h4, h5]
            simp
            intro _ _
            have := mt hall.mpr h5
            push_neg at this
            exact this
      · simp [h1, h2, h3]
    · simp [h1, h2]

theorem validate_string_snd (s : Str) (e : Int) :
    (_validate_string s e).2 = if (_validate_string s e).1 then e else e + 1 := by
  unfold _validate_string
  split_ifs <;> simp_all


theorem validate_directive_arg_fst (ty : DirectiveArgType) (a : Str) (e : Int) :
    (validate_directive_arg ty a e).1 = true ↔ ArgShape ty a := by
  have hint := is_integer_iff a 0
  rw [List.drop_zero] at hint
  cases ty <;>
    simp [validate_directive_arg, ArgShape, validate_label_fst, validate_int_fst,
      validate_string_fst, hint]

theorem arg_valid_shape (ty : DirectiveArgType) (a : Str) (h : ArgValid ty a) :
    ArgShape ty a := by
  cases ty
  · exact h
  · exact signed_integer_digits a h
  · exact h

theorem arg_shape_cases (ty : DirectiveArgType) (a : Str) (h : ArgShape ty a) :
    ArgValid ty a ∨ (ty = .INT ∧ drop_sign a = []) := by
  cases ty
  · exact Or.inl h
  · rcases signed_digits_cases a h with h2 | h2
    · exact Or.inl h2
    · exact Or.inr ⟨rfl, h2⟩
  · exact Or.inl h

theorem validate_directive_arg_snd (ty : DirectiveArgType) (a : Str) (e : Int) :
    (validate_directive_arg ty a e).2 =
      if (validate_directive_arg ty a e).1 then e else e + 1 := by
  cases ty
  · exact validate_label_snd a e
  · exact validate_int_snd a 0 e
  · exact validate_string_snd a e

/-- The argument loop of `_validate_directive` accepts iff every argument
has the shape of the argument kind; on acceptance the counter is unchanged,
on rejection it grew by one. -/
theorem validate_directive_args_spec (ty : DirectiveArgType) (args : List Str) (e : Int) :
    ((validate_directive_args ty args e).1 = true ↔ ∀ a ∈ args, ArgShape ty a) ∧
    (validate_directive_args ty args e).2 =
      if (validate_directive_args ty args e).1 then e else e + 1 := by
  induction args with
  | nil => simp [validate_directive_args]
  | cons a rest ih =>
    have h1 := validate_directive_arg_fst ty a e
    have h2 := validate_directive_arg_snd ty a e
    unfold validate_directive_args
    rcases hv : validate_directive_arg ty a e with ⟨b, e2⟩
    rw [hv] at h1 h2
    cases b
    · simp only [Bool.false_eq_true, false_iff, if_false] at h1 h2
      simp only [Bool.false_eq_true, if_false, List.mem_cons, forall_eq_or_imp, false_iff,
        not_and]
      exact ⟨fun h => absurd h h1, h2⟩
    · simp only [true_iff, if_true] at h1 h2
      subst h2
      simp only [List.mem_cons, forall_eq_or_imp, h1, true_and]
      exact ih

theorem get_directive_of_mem (d : Directive) (h : d ∈ directives) :
    get_directive d.name = some d := by
  simp only [directives, List.mem_cons, List.mem_singleton, List.not_mem_nil, or_false] at h
  rcases h with h | h | h | h <;> subst h <;> decide

theorem get_directive_none (name : Str) (h : name ∉ directive_names) :
    get_directive name = none := by
  have := get_directive_isSome_iff name
  cases hg : get_directive name with
  | none => rfl
  | some d =>
    rw [hg] at this
    exact absurd (this.mp rfl) h

/-- C9 does not hold as stated, because `is_integer` asks for no digit.
`_validate_directive` rejects, returning 0 and adding exactly one error,
every directive whose name is not one of `.string`, `.data`, `.entry`,
`.extern`, and every known directive given zero arguments or more arguments
than its maximum (1 for `.string`, `.entry`, `.extern`; 999999 for `.data`).
With a legal count it accepts iff every argument has the shape of the
directive's argument kind, where the shape of an integer is an optional sign
and digits only, possibly none (and a rejection there again adds one error).
Every argument that is valid for the kind (an integer being a valid signed
integer) has that shape, and an argument of that shape is valid unless it is
an integer without a digit: `.data +` is accepted though `+` is no valid
integer. -/
theorem C9_validate_directive :
    (_validate_directive ".data".toList ["+".toList] 0 = (true, 0) ∧
      ¬ ArgValid .INT "+".toList) ∧
    ¬ (∀ (name : Str) (args : List Str) (e : Int), ∀ d ∈ directives, d.name = name →
        args.length ≠ 0 → (args.length : Int) ≤ d.n_args →
        ((_validate_directive name args e).1 = true ↔ ∀ a ∈ args, ArgValid d.arg_type a)) ∧
    (∀ (name : Str) (args : List Str) (e : Int),
      (name ∉ directive_names → _validate_directive name args e = (false, e + 1)) ∧
      (∀ d ∈ directives, d.name = name →
        (args.length = 0 ∨ (args.length : Int) > d.n_args) →
        _validate_directive name args e = (false, e + 1)) ∧
      (∀ d ∈ directives, d.name = name →
        args.length ≠ 0 → (args.length : Int) ≤ d.n_args →
        (((_validate_directive name args e).1 = true ↔
            ∀ a ∈ args, ArgShape d.arg_type a) ∧
          (_validate_directive name args e).2 =
            if (_validate_directive name args e).1 then e else e + 1))) ∧
    (∀ (ty : DirectiveArgType) (a : Str), ArgValid ty a → ArgShape ty a) ∧
    (∀ (ty : DirectiveArgType) (a : Str), ArgShape ty a →
      ArgValid ty a ∨ (ty = .INT ∧ drop_sign a = [])) ∧
    directives.map (fun d => (d.name, d.n_args, d.arg_type)) =
      [(".string".toList, 1, .STRING), (".data".toList, 999999, .INT),
        (".entry".toList, 1, .LABEL), (".extern".toList, 1, .LABEL)] := by
  have hbad : ¬ ArgValid .INT "+".toList := fun h => h.1 rfl
  refine ⟨⟨by decide, hbad⟩, ?_, ?_, arg_valid_shape, arg_shape_cases, rfl⟩
  · intro h
    have h1 := h ".data".toList ["+".toList] 0 ⟨".data".toList, 999999, .INT⟩ (by decide)
      rfl (by decide) (by decide)
    exact hbad (h1.mp (by decide) "+".toList (List.mem_singleton.mpr rfl))
  · intro name args e
    refine ⟨?_, ?_, ?_⟩
    · intro h
      unfold _validate_directive
      rw [get_directive_none name h]
    · intro d hd hname hcount
      have hget := get_directive_of_mem d hd
      rw [hname] at hget
      unfold _validate_directive
      rw [hget]
      have : ((args.length : Int) = 0 ∨ (args.length : Int) > d.n_args) := by
        rcases hcount with h | h
        · left
          exact_mod_cast h
        · right
          exact h
      simp only [Bool.or_eq_true, decide_eq_true_eq, this, if_true]
    · intro d hd hname hne hle
      have hget := get_directive_of_mem d hd
      rw [hname] at hget
      unfold _validate_directive
      rw [hget]
      have h0 : ¬ ((args.length : Int) = 0) := by
        intro h
        exact hne (by exact_mod_cast h)
      have h1 : ¬ ((args.length : Int) > d.n_args) := by omega
      simp only [Bool.or_eq_true, decide_eq_true_eq, h0, h1, or_self, if_false]
      exact validate_directive_args_spec d.arg_type args e

/-- C10: `_validate_string` accepts `s` iff `s` has at least 2 characters,
its first and last characters are double quotes, it contains exactly two
double quotes in all, and every character is printable ASCII; so the empty
literal (two quotes) is accepted, and a literal with an embedded quote, a
lone quote and every literal containing a tab are rejected. -/
theorem C10_validate_string_iff :
    (∀ (s : Str) (e : Int),
      (_validate_string s e).1 = true ↔
        (2 ≤ s.length ∧ s.head? = some '"' ∧ s.getLast? = some '"' ∧
          s.count '"' = 2 ∧ ∀ c ∈ s, IsPrintableAscii c)) ∧
    (∀ e : Int, (_validate_string ['"', '"'] e).1 = true) ∧
    (∀ e : Int, (_validate_string ['"', 'a', '"', 'b', '"'] e).1 = false) ∧
    (∀ e : Int, (_validate_string ['"'] e).1 = false) ∧
    (∀ (s : Str) (e : Int), '\t' ∈ s → (_validate_string s e).1 = false) := by
  refine ⟨?_, ?_, ?_, ?_, ?_⟩
  · intro s e
    rw [validate_string_fst, ValidStringLiteral]
  · intro e
    rw [validate_string_fst]
    refine ⟨by decide, rfl, rfl, by decide, ?_⟩
    intro c hc
    simp only [List.mem_cons, List.mem_singleton, List.not_mem_nil, or_false, or_self] at hc
    subst hc
    exact (isprint_iff '"').mp (by decide)
  · intro e
    rw [← Bool.not_eq_true, validate_string_fst]
    rintro ⟨_, _, _, h, _⟩
    revert h
    decide
  · intro e
    rw [← Bool.not_eq_true, validate_string_fst]
    rintro ⟨h, _⟩
    revert h
    decide
  · intro s e hmem
    rw [← Bool.not_eq_true, validate_string_fst]
    rintro ⟨_, _, _, _, h⟩
    have := (isprint_iff '\t').mpr (h '\t' hmem)
    revert this
    decide


/-! ### Tokenising the argument text -/

theorem strtok_cons_delim (d : Char) (s delims : Str) (h : delims.contains d = true) :
    strtok (d :: s) delims = strtok s delims := by
  unfold strtok
  rw [List.dropWhile_cons]
  simp only [h, if_true]

theorem strtok_cons_tok (c : Char) (s delims : Str) (h : delims.contains c = false) :
    strtok (c :: s) delims =
      some (c :: s.takeWhile (fun x => !delims.contains x),
        (s.dropWhile (fun x => !delims.contains x)).drop 1) := by
  have h2 : c ∉ delims := by simpa using h
  unfold strtok
  rw [List.dropWhile_cons]
  simp [h2, List.takeWhile_cons, List.dropWhile_cons]

theorem dropWhile_head_false (p : Char → Bool) (l : Str) :
    ∀ (d : Char) (b : Str), l.dropWhile p = d :: b → p d = false := by
  induction l with
  | nil =>
    intro d b h
    simp at h
  | cons a t ih =>
    intro d b h
    rw [List.dropWhile_cons] at h
    by_cases ha : p a = true
    · rw [if_pos ha] at h
      exact ih d b h
    · rw [if_neg ha] at h
      injection h with h1 h2
      subst h1
      simpa using ha

/-- Every successful `strtok` call consumes at least one character. -/
theorem strtok_rest_lt (delims : Str) (s : Str) :
    ∀ (tok rest : Str), strtok s delims = some (tok, rest) → rest.length < s.length := by
  induction s with
  | nil =>
    intro tok rest h
    simp [strtok] at h
  | cons c s ih =>
    intro tok rest h
    by_cases hc : delims.contains c = true
    · rw [strtok_cons_delim c s delims hc] at h
      have := ih tok rest h
      simp only [List.length_cons]
      omega
    · rw [strtok_cons_tok c s delims (by simpa using hc)] at h
      simp only [Option.some.injEq, Prod.mk.injEq] at h
      have hlen := (List.dropWhile_sublist (l := s) (fun x => !delims.contains x)).length_le
      rw [← h.2]
      simp only [List.length_drop, List.length_cons]
      omega

/-- The argument loop does not depend on the fuel once it exceeds the length
of the text: the loop as written in C (no fuel) is well defined. -/
theorem split_args_loop_fuel (f1 : Nat) :
    ∀ (f2 : Nat) (s : Str), s.length < f1 → s.length < f2 →
      split_args_loop f1 s = split_args_loop f2 s := by
  induction f1 with
  | zero =>
    intro f2 s h1
    omega
  | succ n ih =>
    intro f2 s h1 h2
    cases f2 with
    | zero => omega
    | succ m =>
      unfold split_args_loop
      cases hs : strtok s ", \t".toList with
      | none => rfl
      | some p =>
        obtain ⟨tok, rest⟩ := p
        have hlt := strtok_rest_lt ", \t".toList s tok rest hs
        simp only
        rw [ih m rest (by omega) (by omega)]

/-- One round of the argument loop. -/
theorem split_args_step (s : Str) :
    split_args s =
      match strtok s ", \t".toList with
      | none => []
      | some (tok, rest) => trim tok :: split_args rest := by
  unfold split_args
  rw [split_args_loop]
  cases hs : strtok s ", \t".toList with
  | none => rfl
  | some p =>
    obtain ⟨tok, rest⟩ := p
    have hlt := strtok_rest_lt ", \t".toList s tok rest hs
    simp only
    rw [split_args_loop_fuel s.length (rest.length + 1) rest hlt (by omega)]

theorem split_args_nil : split_args [] = [] := rfl

theorem CounterUniform.const_true : CounterUniform (fun e => (true, e)) := by
  intro e
  simp

theorem CounterUniform.const_false : CounterUniform (fun e => (false, e + 1)) := by
  intro e
  simp

/-- Running a second validator only after the first accepted keeps the
counter discipline. -/
theorem CounterUniform.seq (f g : Int → Bool × Int)
    (hf : CounterUniform f) (hg : CounterUniform g) :
    CounterUniform (fun e =>
      match f e with
      | (false, e2) => (false, e2)
      | (true, e2) => g e2) := by
  intro e
  have h1 := hf e
  have h0 := hf 0
  rcases hf0 : f 0 with ⟨b, e0⟩
  rw [hf0] at h1 h0
  cases b
  · simp only [Bool.false_eq_true, if_false] at h1
    simp only [h1, hf0]
    simp
  · simp only [if_true, Prod.mk.injEq, true_and] at h0
    subst h0
    simp only [if_true] at h1
    simp only [h1, hf0]
    exact hg e

theorem CounterUniform.of_fst_snd (f : Int → Bool × Int)
    (h1 : ∀ e, (f e).1 = (f 0).1)
    (h2 : ∀ e, (f e).2 = if (f e).1 then e else e + 1) : CounterUniform f := by
  intro e
  apply Prod.ext
  · exact h1 e
  · simp only
    rw [h2 e, h1 e]

theorem validate_label_uniform (s : Str) : CounterUniform (_validate_label s) :=
  CounterUniform.of_fst_snd _
    (fun e => Bool.eq_iff_iff.mpr ((validate_label_fst s e).trans (validate_label_fst s 0).symm))
    (validate_label_snd s)

theorem validate_int_uniform (s : Str) (k : Nat) : CounterUniform (_validate_int s k) :=
  CounterUniform.of_fst_snd _
    (fun e => (validate_int_fst s k e).trans (validate_int_fst s k 0).symm)
    (validate_int_snd s k)

theorem validate_string_uniform (s : Str) : CounterUniform (_validate_string s) :=
  CounterUniform.of_fst_snd _
    (fun e => Bool.eq_iff_iff.mpr
      ((validate_string_fst s e).trans (validate_string_fst s 0).symm))
    (validate_string_snd s)

theorem validate_operand_uniform (a : Str) (modes : List Int) :
    CounterUniform (_validate_operand a modes) := by
  intro e
  unfold _validate_operand
  by_cases hm : mode_allowed modes (get_addr_mode a) = true
  · simp only [hm, Bool.not_true, Bool.false_eq_true, if_false]
    cases get_addr_mode a
    · exact validate_int_uniform a 1 e
    · exact validate_label_uniform a e
    · exact validate_label_uniform _ e
    · simp
  · simp [hm]

theorem validate_directive_arg_uniform (ty : DirectiveArgType) (a : Str) :
    CounterUniform (validate_directive_arg ty a) := by
  cases ty
  · exact validate_label_uniform a
  · exact validate_int_uniform a 0
  · exact validate_string_uniform a

theorem validate_directive_args_uniform (ty : DirectiveArgType) (args : List Str) :
    CounterUniform (validate_directive_args ty args) := by
  induction args with
  | nil => exact CounterUniform.const_true
  | cons a rest ih =>
    have h := CounterUniform.seq _ _ (validate_directive_arg_uniform ty a) ih
    intro e
    have he := h e
    simp only at he
    unfold validate_directive_args
    exact he

theorem validate_directive_uniform (name : Str) (args : List Str) :
    CounterUniform (_validate_directive name args) := by
  intro e
  unfold _validate_directive
  cases get_directive name with
  | none => simp
  | some d =>
    simp only
    by_cases hc : (decide ((args.length : Int) = 0) ||
        decide ((args.length : Int) > d.n_args)) = true
    · simp only [if_pos hc]
      simp
    · simp only [if_neg hc]
      exact validate_directive_args_uniform d.arg_type args e

theorem validate_op_uniform (name : Str) (args : List Str) :
    CounterUniform (_validate_op name args) := by
  intro e
  unfold _validate_op
  cases get_op name with
  | none => simp
  | some op =>
    simp only
    by_cases h1 : (args.length : Int) ≠ op.n_args
    · simp only [if_pos h1]
      simp
    · simp only [if_neg h1]
      by_cases h2 : args.length ≥ 1
      · simp only [if_pos h2]
        by_cases h3 : args.length = 2
        · simp only [if_pos h3]
          exact CounterUniform.seq _ _
            (validate_operand_uniform (args.getD (args.length - 1) []) op.arg_2_modes)
            (CounterUniform.seq _ _
              (validate_operand_uniform (args.getD 0 []) op.arg_1_modes)
              CounterUniform.const_true) e
        · simp only [if_neg h3]
          exact CounterUniform.seq _ _
            (validate_operand_uniform (args.getD (args.length - 1) []) op.arg_2_modes)
            CounterUniform.const_true e
      · simp only [if_neg h2]
        simp

/-- Validation of a command either accepts and leaves the error counter
unchanged, or rejects and adds exactly one; the verdict does not depend on
the counter. -/
theorem validate_command_uniform (token : Str) (args : List Str) :
    CounterUniform (validate_command token args) := by
  intro e
  unfold validate_command
  by_cases hd : token.head? = some '.'
  · simp only [if_pos hd]
    exact validate_directive_uniform token args e
  · simp only [if_neg hd]
    exact validate_op_uniform token args e

/-- The first half of `parse_line` adds at most one error (line too long)
before it hands a command to the second half. -/
theorem parse_head_counter (line : Str) (e0 : Int) (label : Option Str) (token rest : Str)
    (e1 : Int) (h : parse_head line e0 = .command label token rest e1) :
    e0 ≤ e1 ∧ e1 ≤ e0 + 1 := by
  unfold parse_head at h
  simp only at h
  split at h
  · simp at h
  · split at h
    · simp at h
    · split at h
      · rename_i tk rs hs hcol
        split at h
        · simp at h
        · rename_i e2 hv
          have hsnd := validate_label_snd
            (get_substr tk 0 (tk.length - 1))
            (if (trim (List.takeWhile (fun c => decide (c ≠ '\n')) line)).length > MAX_LINE_LEN
              then e0 + 1 else e0)
          rw [hv] at hsnd
          simp only [if_true] at hsnd
          split at h
          · simp at h
          · simp only [LineHead.command.injEq] at h
            rw [← h.2.2.2, hsnd]
            split_ifs <;> omega
      · simp only [LineHead.command.injEq] at h
        rw [← h.2.2.2]
        split_ifs <;> omega

/-- C7 (evaluation at the failing input): the line `.data 1 2,<TAB>,3` has
two commas separated only by a tab, and no comma between `1` and `2`; yet
`check_comma_formatting` passes its argument text and `parse_line` returns a
3-argument record with the error counter unchanged. With a space in place of
the tab the same line gets an error. -/
theorem C7_tab_between_commas_accepted :
    check_comma_formatting "1 2,\t,3".toList = true ∧
    parse_line 1 ".data 1 2,\t,3\n".toList 0 =
      some (some { line_num := 1, label := none, op := none
                   directive := some ".data".toList
                   n_args := 3, args := ["1".toList, "2".toList, "3".toList] }, 0) ∧
    check_comma_formatting "1 2, ,3".toList = false ∧
    (parse_line 1 ".data 1 2, ,3\n".toList 0).map (fun r => r.2) = some 1 := by
  refine ⟨by decide, by decide, by decide, by decide⟩

/-- C11 (evaluation at the failing inputs): `is_integer` accepts a text
without any digit, so the operands `#` and `#-` and the `.data` argument `+`
pass `_validate_int` and `parse_line` returns a record for each of the lines
`prn #`, `prn #-` and `.data +` with the error counter unchanged; the value
read from each is 0. -/
theorem C11_integer_without_digits_accepted :
    (_validate_int "#".toList 1 0 = (true, 0) ∧
      _validate_int "#-".toList 1 0 = (true, 0) ∧
      _validate_int "+".toList 0 0 = (true, 0)) ∧
    parse_line 1 "prn #".toList 0 =
      some (some { line_num := 1, label := none, op := some "prn".toList, directive := none,
                   n_args := 1, args := ["#".toList] }, 0) ∧
    parse_line 1 "prn #-".toList 0 =
      some (some { line_num := 1, label := none, op := some "prn".toList, directive := none,
                   n_args := 1, args := ["#-".toList] }, 0) ∧
    parse_line 1 ".data +".toList 0 =
      some (some { line_num := 1, label := none, op := none
                   directive := some ".data".toList
                   n_args := 1, args := ["+".toList] }, 0) ∧
    (get_int_value "#".toList 1 = 0 ∧ get_int_value "#-".toList 1 = 0 ∧
      get_int_value "+".toList 0 = 0) := by
  refine ⟨⟨by decide, by decide, by decide⟩, by decide, by decide, by decide,
    ⟨by decide, by decide, by decide⟩⟩

/-! ### Blank and comment lines -/

theorem dropWhile_append_singleton (p : Char → Bool) (l : Str) (c : Char) (hc : p c = false) :
    (l ++ [c]).dropWhile p = l.dropWhile p ++ [c] := by
  induction l with
  | nil => simp [List.dropWhile_cons, hc]
  | cons a t ih =>
    simp only [List.cons_append, List.dropWhile_cons]
    split
    · exact ih
    · rfl

/-- `trim` removes exactly the whitespace at both ends. -/
theorem trim_eq (s : Str) :
    trim s = ((s.dropWhile isspace).reverse.dropWhile isspace).reverse := by
  unfold trim
  cases h : s.dropWhile isspace with
  | nil => rfl
  | cons c cs =>
    have hc : isspace c = false := dropWhile_head_false isspace s c cs h
    unfold trim_end
    rw [List.reverse_cons, dropWhile_append_singleton isspace cs.reverse c hc]
    simp

/-- C12: for every raw line that, once its newline and the surrounding
whitespace are removed, is empty or begins with `;`, `parse_line` returns no
record and leaves the error counter unchanged. -/
theorem C12_blank_or_comment_line (line_num : Int) (line : Str) (n_errors : Int)
    (h : strip_line line = [] ∨ (strip_line line).head? = some ';') :
    parse_line line_num line n_errors = some (none, n_errors) := by
  unfold strip_line at h
  rw [← trim_eq] at h
  unfold parse_line parse_head
  simp only
  have hc : (decide ((trim (line.takeWhile (fun c => c ≠ '\n'))).length = 0) ||
      decide ((trim (line.takeWhile (fun c => c ≠ '\n'))).head? = some ';')) = true := by
    rcases h with h | h
    · rw [h]
      rfl
    · rw [h]
      simp
  rw [if_pos hc]

/-- Witness of C12: a comment line with leading blanks, and a line of
blanks. -/
theorem C12_blank_or_comment_line_witness :
    parse_line 7 "  \t; a comment\n".toList 3 = some (none, 3) ∧
    parse_line 8 "   \n".toList 3 = some (none, 3) :=
  ⟨C12_blank_or_comment_line 7 "  \t; a comment\n".toList 3 (Or.inr (by decide)),
    C12_blank_or_comment_line 8 "   \n".toList 3 (Or.inl (by decide))⟩

/-! ### Symbol table -/

theorem get_symbol_isSome_iff (t : List Symbol) (label : Str) :
    (_get_symbol t label).isSome = true ↔ ∃ s ∈ t, s.label = label := by
  unfold _get_symbol
  rw [List.find?_isSome]
  simp only [decide_eq_true_eq]

theorem get_symbol_none_iff (t : List Symbol) (label : Str) :
    _get_symbol t label = none ↔ ∀ s ∈ t, s.label ≠ label := by
  unfold _get_symbol
  rw [List.find?_eq_none]
  simp only [decide_eq_true_eq]

theorem get_symbol_label (t : List Symbol) (label : Str) (s : Symbol)
    (h : _get_symbol t label = some s) : s.label = label ∧ s ∈ t := by
  unfold _get_symbol at h
  have h1 := List.find?_some h
  simp only [decide_eq_true_eq] at h1
  exact ⟨h1, List.mem_of_find?_eq_some h⟩

/-- Effect of `add_symbol` on a label that is already present. -/
theorem add_symbol_present (st : AsmState) (label : Str) (type : SymType) (loc : SymLoc)
    (h : ∃ s ∈ st.symbol_table, s.label = label) :
    add_symbol st label type loc = (false, { st with n_errors := st.n_errors + 1 }) := by
  unfold add_symbol
  rw [if_pos ((get_symbol_isSome_iff _ _).mpr h)]

/-- Effect of `add_symbol` on a new label. -/
theorem add_symbol_absent (st : AsmState) (label : Str) (type : SymType) (loc : SymLoc)
    (h : ∀ s ∈ st.symbol_table, s.label ≠ label) :
    add_symbol st label type loc =
      (true, { st with
        symbol_table := st.symbol_table ++
          [{ label := label
             address := if loc = .LOC_EXTERNAL then 0
               else if type = .TYPE_CODE then (st.IC : Int) else (st.DC : Int)
             type := type
             loc := loc }] }) := by
  unfold add_symbol
  have hn : ¬ ((_get_symbol st.symbol_table label).isSome = true) := by
    rw [get_symbol_isSome_iff]
    rintro ⟨s, hs, hl⟩
    exact h s hs hl
  rw [if_neg hn]
  rfl

theorem update_first_labels (p : Symbol → Bool) (f : Symbol → Symbol)
    (hf : ∀ s, (f s).label = s.label) (t : List Symbol) :
    (update_first p f t).map (fun s => s.label) = t.map (fun s => s.label) := by
  induction t with
  | nil => rfl
  | cons s rest ih =>
    unfold update_first
    split
    · simp [hf]
    · simp [ih]

theorem shift_labels (st : AsmState) :
    (shift_data_addresses st).symbol_table.map (fun s => s.label) =
      st.symbol_table.map (fun s => s.label) := by
  unfold shift_data_addresses
  simp only [List.map_map]
  apply List.map_congr_left
  intro s _
  simp only [Function.comp]
  split <;> rfl

theorem update_entry_symbol_absent (st : AsmState) (label : Str)
    (h : _get_symbol st.symbol_table label = none) :
    update_entry_symbol st label = { st with n_errors := st.n_errors + 1 } := by
  unfold update_entry_symbol lookup_symbol
  simp only [h]

theorem update_entry_symbol_present (st : AsmState) (label : Str) (s : Symbol)
    (h : _get_symbol st.symbol_table label = some s) :
    update_entry_symbol st label =
      { st with
        symbol_table := update_first (fun x => decide (x.label = label))
          (fun x => { x with loc := .LOC_ENTRY }) st.symbol_table } := by
  unfold update_entry_symbol lookup_symbol
  simp only [h]

theorem update_entry_labels (st : AsmState) (label : Str) :
    (update_entry_symbol st label).symbol_table.map (fun s => s.label) =
      st.symbol_table.map (fun s => s.label) := by
  cases h : _get_symbol st.symbol_table label with
  | none => rw [update_entry_symbol_absent st label h]
  | some s =>
    rw [update_entry_symbol_present st label s h]
    exact update_first_labels (fun x => decide (x.label = label))
      (fun x => { x with loc := .LOC_ENTRY }) (fun _ => rfl) st.symbol_table

/-- Labels of a reachable symbol table are pairwise distinct. -/
theorem symreach_nodup (t : List Symbol) (h : SymReach t) :
    (t.map (fun s => s.label)).Nodup := by
  induction h with
  | empty => simp
  | add st label type loc _ ih =>
    by_cases hp : ∃ s ∈ st.symbol_table, s.label = label
    · rw [add_symbol_present st label type loc hp]
      exact ih
    · have ha : ∀ s ∈ st.symbol_table, s.label ≠ label := by
        intro s hs hl
        exact hp ⟨s, hs, hl⟩
      rw [add_symbol_absent st label type loc ha]
      simp only [List.map_append, List.map_cons, List.map_nil]
      rw [List.nodup_append]
      refine ⟨ih, by simp, ?_⟩
      intro x hx hx2
      simp only [List.mem_singleton] at hx2
      subst hx2
      obtain ⟨s, hs, hl⟩ := List.mem_map.mp hx
      exact ha s hs hl
  | shift st _ ih =>
    rw [shift_labels]
    exact ih
  | entry st label _ ih =>
    rw [update_entry_labels]
    exact ih

/-- C13: for every symbol table and every label already present in it,
`add_symbol` returns failure, adds exactly one to the error counter and
leaves the table, like every other part of the state, unchanged (no
overwrite); consequently the labels of every table reachable by `add_symbol`
calls (and by the two other functions that write to the table) are pairwise
distinct. -/
theorem C13_add_symbol_duplicate :
    (∀ (st : AsmState) (label : Str) (type : SymType) (loc : SymLoc),
      (∃ s ∈ st.symbol_table, s.label = label) →
      add_symbol st label type loc = (false, { st with n_errors := st.n_errors + 1 }) ∧
      (add_symbol st label type loc).2.symbol_table = st.symbol_table) ∧
    (∀ t : List Symbol, SymReach t → (t.map (fun s => s.label)).Nodup) := by
  refine ⟨?_, symreach_nodup⟩
  intro st label type loc h
  rw [add_symbol_present st label type loc h]
  exact ⟨rfl, rfl⟩

/-- Witness of C13: declaring `MAIN` a second time, as data at another
counter value, fails and keeps the first declaration. -/
theorem C13_add_symbol_duplicate_witness :
    (add_symbol { init_state with
        symbol_table := [⟨"MAIN".toList, 100, .TYPE_CODE, .LOC_UNK⟩], IC := 103, DC := 4 }
      "MAIN".toList .TYPE_DATA .LOC_UNK).1 = false ∧
    (add_symbol { init_state with
        symbol_table := [⟨"MAIN".toList, 100, .TYPE_CODE, .LOC_UNK⟩], IC := 103, DC := 4 }
      "MAIN".toList .TYPE_DATA .LOC_UNK).2.symbol_table =
        [⟨"MAIN".toList, 100, .TYPE_CODE, .LOC_UNK⟩] ∧
    (add_symbol { init_state with
        symbol_table := [⟨"MAIN".toList, 100, .TYPE_CODE, .LOC_UNK⟩], IC := 103, DC := 4 }
      "MAIN".toList .TYPE_DATA .LOC_UNK).2.n_errors = 1 := by
  have h := (C13_add_symbol_duplicate.1 { init_state with
        symbol_table := [⟨"MAIN".toList, 100, .TYPE_CODE, .LOC_UNK⟩], IC := 103, DC := 4 }
      "MAIN".toList .TYPE_DATA .LOC_UNK ⟨_, List.mem_singleton.mpr rfl, rfl⟩)
  rw [h.1]
  exact ⟨rfl, rfl, rfl⟩

/-- C14: for every label not already in the table, `add_symbol` succeeds and
appends the new symbol as the last element, all earlier symbols and the rest
of the state unchanged; its address is 0 if the location is EXTERNAL,
otherwise the current code counter if the type is CODE, otherwise the
current data counter; a subsequent lookup of that label returns this symbol
without an error. -/
theorem C14_add_symbol_new (st : AsmState) (label : Str) (type : SymType) (loc : SymLoc)
    (h : ∀ s ∈ st.symbol_table, s.label ≠ label) :
    add_symbol st label type loc =
      (true, { st with
        symbol_table := st.symbol_table ++
          [{ label := label
             address := if loc = .LOC_EXTERNAL then 0
               else if type = .TYPE_CODE then (st.IC : Int) else (st.DC : Int)
             type := type
             loc := loc }] }) ∧
    lookup_symbol (add_symbol st label type loc).2 label =
      (some { label := label
              address := if loc = .LOC_EXTERNAL then 0
                else if type = .TYPE_CODE then (st.IC : Int) else (st.DC : Int)
              type := type
              loc := loc },
        (add_symbol st label type loc).2) := by
  rw [add_symbol_absent st label type loc h]
  refine ⟨rfl, ?_⟩
  unfold lookup_symbol _get_symbol
  simp only
  rw [List.find?_append, List.find?_eq_none.mpr (by simpa using h)]
  simp

/-- Witness of C14: `X` declared as data, with one symbol in the table, at
code counter 103 and data counter 4. -/
theorem C14_add_symbol_new_witness :
    (add_symbol { init_state with
        symbol_table := [⟨"MAIN".toList, 100, .TYPE_CODE, .LOC_UNK⟩], IC := 103, DC := 4 }
      "X".toList .TYPE_DATA .LOC_UNK).2.symbol_table =
        [⟨"MAIN".toList, 100, .TYPE_CODE, .LOC_UNK⟩, ⟨"X".toList, 4, .TYPE_DATA, .LOC_UNK⟩] := by
  have h := (C14_add_symbol_new { init_state with
        symbol_table := [⟨"MAIN".toList, 100, .TYPE_CODE, .LOC_UNK⟩], IC := 103, DC := 4 }
      "X".toList .TYPE_DATA .LOC_UNK (by decide)).1
  rw [h]
  rfl

/-! ### Frame properties of the first pass -/

/-- A projection that every step of a loop keeps is kept by the loop. -/
theorem foldl_keeps {σ α γ : Type} (g : σ → γ) (f : σ → α → σ)
    (h : ∀ s a, g (f s a) = g s) (l : List α) (s : σ) : g (l.foldl f s) = g s := by
  induction l generalizing s with
  | nil => rfl
  | cons a rest ih => rw [List.foldl_cons, ih, h]

/-- A reflexive and transitive relation between the states before and after
every step of a loop holds between the states before and after the loop. -/
theorem foldl_rel {σ α : Type} (R : σ → σ → Prop) (f : σ → α → σ)
    (hrefl : ∀ s, R s s) (htrans : ∀ a b c, R a b → R b c → R a c)
    (h : ∀ s a, R s (f s a)) (l : List α) (s : σ) : R s (l.foldl f s) := by
  induction l generalizing s with
  | nil => exact hrefl s
  | cons a rest ih => exact htrans _ _ _ (h s a) (ih (f s a))

theorem add_symbol_prefix (st : AsmState) (label : Str) (type : SymType) (loc : SymLoc) :
    st.symbol_table <+: (add_symbol st label type loc).2.symbol_table := by
  unfold add_symbol
  split
  · exact List.prefix_refl _
  · exact List.prefix_append _ _

theorem add_label_symbol_prefix (st : AsmState) (label : Option Str) (type : SymType) :
    st.symbol_table <+: (add_label_symbol st label type).symbol_table := by
  cases label with
  | none => exact List.prefix_refl _
  | some l => exact add_symbol_prefix st l type .LOC_UNK

theorem handle_operand_symbol_table (st : AsmState) (arg : Str) (m : AddrMode) :
    (handle_operand st arg m).symbol_table = st.symbol_table := by
  cases m <;> rfl

theorem handle_op_symbol_table (st : AsmState) (pl : ParsedLine) :
    (handle_op st pl).symbol_table =
      (add_label_symbol st pl.label .TYPE_CODE).symbol_table := by
  unfold handle_op
  simp only
  cases get_op (pl.op.getD []) with
  | none => rfl
  | some op =>
    simp only
    cases (op_arg_loop pl.args.length OpArgs.init 0 pl.args).arg_1 <;>
      cases (op_arg_loop pl.args.length OpArgs.init 0 pl.args).arg_2 <;>
      simp only [handle_operand_symbol_table, add_instruction]

theorem handle_directive_symbol_table (st : AsmState) (pl : ParsedLine) :
    (handle_directive st pl).symbol_table =
      (if pl.directive.getD [] = ".data".toList ∨ pl.directive.getD [] = ".string".toList then
        add_label_symbol st pl.label .TYPE_DATA
      else if pl.directive.getD [] = ".extern".toList then
        (add_symbol st (pl.args.getD 0 []) .TYPE_UNK .LOC_EXTERNAL).2
      else st).symbol_table := by
  unfold handle_directive
  simp only
  split
  · split
    · exact foldl_keeps (fun s : AsmState => s.symbol_table)
        (fun s arg => add_data s (get_int_value arg 0)) (fun _ _ => rfl) _ _
    · exact foldl_keeps (fun s : AsmState => s.symbol_table)
        (fun s (c : Char) => add_data s (c.toNat : Int)) (fun _ _ => rfl) _ _
  · rfl

/-- A line of the first pass only appends to the symbol table. -/
theorem first_pass_line_prefix (st : AsmState) (pl : ParsedLine) :
    st.symbol_table <+: (first_pass_line st pl).symbol_table := by
  unfold first_pass_line
  simp only
  generalize hst1 : ({ st with line_num := pl.line_num } : AsmState) = st1
  have ht : st.symbol_table = st1.symbol_table := by rw [← hst1]
  rw [ht]
  split
  · rw [handle_op_symbol_table]
    exact add_label_symbol_prefix _ _ _
  · split
    · rw [handle_directive_symbol_table]
      split
      · exact add_label_symbol_prefix _ _ _
      · split
        · exact add_symbol_prefix _ _ _ _
        · exact List.prefix_refl _
    · exact List.prefix_refl _

/-- The line loop of the first pass only appends to the symbol table: no
symbol already entered is changed before the loop ends. -/
theorem first_pass_loop_prefix (lines : List ParsedLine) (st : AsmState) :
    st.symbol_table <+: (lines.foldl first_pass_line st).symbol_table :=
  foldl_rel (fun a b : AsmState => a.symbol_table <+: b.symbol_table) first_pass_line
    (fun _ => List.prefix_refl _)
    (fun a b c (h1 : a.symbol_table <+: b.symbol_table)
      (h2 : b.symbol_table <+: c.symbol_table) => List.IsPrefix.trans h1 h2)
    first_pass_line_prefix lines st

/-- C15: `shift_data_addresses` adds the current code-counter value to the
address of every symbol of type DATA and leaves every symbol of type CODE or
UNKNOWN unchanged, as well as every symbol's label, type, location and
position in the table, and the rest of the state; `first_pass` invokes it
exactly once, after the loop over all records, and that loop itself never
changes a symbol already in the table. -/
theorem C15_shift_data_addresses :
    (∀ st : AsmState,
      shift_data_addresses st =
        { st with
          symbol_table := st.symbol_table.map (fun s =>
            if s.type = .TYPE_DATA then { s with address := s.address + (st.IC : Int) }
            else s) } ∧
      (shift_data_addresses st).symbol_table.length = st.symbol_table.length ∧
      ∀ (i : Nat) (s : Symbol), st.symbol_table[i]? = some s →
        ∃ s2, (shift_data_addresses st).symbol_table[i]? = some s2 ∧
          s2.label = s.label ∧ s2.type = s.type ∧ s2.loc = s.loc ∧
          (s.type = .TYPE_DATA → s2.address = s.address + (st.IC : Int)) ∧
          (s.type = .TYPE_CODE ∨ s.type = .TYPE_UNK → s2 = s)) ∧
    (∀ (st : AsmState) (lines : List ParsedLine),
      first_pass st lines =
        shift_data_addresses
          (lines.foldl first_pass_line { st with n_errors := 0, line_num := 0 }) ∧
      st.symbol_table <+:
        (lines.foldl first_pass_line { st with n_errors := 0, line_num := 0 }).symbol_table) := by
  have hshift : ∀ st : AsmState,
      shift_data_addresses st =
        { st with
          symbol_table := st.symbol_table.map (fun s =>
            if s.type = .TYPE_DATA then { s with address := s.address + (st.IC : Int) }
            else s) } := by
    intro st
    unfold shift_data_addresses get_IC
    congr 1
    apply List.map_congr_left
    intro s _
    cases hs : s.type <;> simp [SymType.toInt, WordType.toInt]
  constructor
  · intro st
    refine ⟨hshift st, ?_, ?_⟩
    · rw [hshift]
      simp
    · intro i s hi
      rw [hshift]
      simp only [List.getElem?_map, hi, Option.map_some']
      refine ⟨_, rfl, ?_⟩
      cases hs : s.type <;> simp [hs]
  · intro st lines
    exact ⟨rfl, first_pass_loop_prefix lines { st with n_errors := 0, line_num := 0 }⟩

/-! ### Entry symbols -/

theorem update_first_split (p : Symbol → Bool) (f : Symbol → Symbol)
    (pre : List Symbol) (s : Symbol) (post : List Symbol)
    (hpre : ∀ x ∈ pre, p x = false) (hs : p s = true) :
    update_first p f (pre ++ s :: post) = pre ++ f s :: post := by
  induction pre with
  | nil => simp [update_first, hs]
  | cons a rest ih =>
    have ha : p a = false := hpre a (List.mem_cons_self _ _)
    simp only [List.cons_append, update_first, ha, Bool.false_eq_true, if_false]
    exact congrArg (fun l => a :: l) (ih (fun x hx => hpre x (List.mem_cons_of_mem _ hx)))

theorem get_symbol_split (label : Str) (pre : List Symbol) (s : Symbol) (post : List Symbol)
    (hpre : ∀ x ∈ pre, x.label ≠ label) (hs : s.label = label) :
    _get_symbol (pre ++ s :: post) label = some s := by
  unfold _get_symbol
  rw [List.find?_append, List.find?_eq_none.mpr (by simpa using hpre)]
  simp [hs]

/-- C16 (counterexample): the program `.extern X` / `.entry X` passes
validation and the first pass, which enters `X` with type UNKNOWN and
location EXTERNAL; the second pass then records no error and flips this
symbol to ENTRY. -/
theorem C16_extern_symbol_marked_entry :
    parse_line 1 ".extern X".toList 0 =
      some (some ⟨1, none, none, some ".extern".toList, 1, ["X".toList]⟩, 0) ∧
    parse_line 2 ".entry X".toList 0 =
      some (some ⟨2, none, none, some ".entry".toList, 1, ["X".toList]⟩, 0) ∧
    (first_pass init_state
      [⟨1, none, none, some ".extern".toList, 1, ["X".toList]⟩,
       ⟨2, none, none, some ".entry".toList, 1, ["X".toList]⟩]).n_errors = 0 ∧
    (first_pass init_state
      [⟨1, none, none, some ".extern".toList, 1, ["X".toList]⟩,
       ⟨2, none, none, some ".entry".toList, 1, ["X".toList]⟩]).symbol_table =
        [⟨"X".toList, 0, .TYPE_UNK, .LOC_EXTERNAL⟩] ∧
    (second_pass
      (first_pass init_state
        [⟨1, none, none, some ".extern".toList, 1, ["X".toList]⟩,
         ⟨2, none, none, some ".entry".toList, 1, ["X".toList]⟩])
      [⟨1, none, none, some ".extern".toList, 1, ["X".toList]⟩,
       ⟨2, none, none, some ".entry".toList, 1, ["X".toList]⟩]).n_errors = 0 ∧
    (second_pass
      (first_pass init_state
        [⟨1, none, none, some ".extern".toList, 1, ["X".toList]⟩,
         ⟨2, none, none, some ".entry".toList, 1, ["X".toList]⟩])
      [⟨1, none, none, some ".extern".toList, 1, ["X".toList]⟩,
       ⟨2, none, none, some ".entry".toList, 1, ["X".toList]⟩]).symbol_table =
        [⟨"X".toList, 0, .TYPE_UNK, .LOC_ENTRY⟩] := by
  refine ⟨by decide, by decide, by decide, by decide, by decide, by decide⟩

/-- C16 (amended): for every `.entry L` record, the second pass records
exactly one error and changes nothing else if `L` is absent from the symbol
table; if `L` is present, it records no error and sets the location of the
symbol labelled `L` to ENTRY, whatever its type and former location, leaving
the other symbols and the rest of the state unchanged. A record that is not
an `.entry` directive changes nothing in this loop. -/
theorem C16_entry_marks_present_symbol (st : AsmState) (pl : ParsedLine)
    (h : pl.directive = some ".entry".toList) :
    ((∀ s ∈ st.symbol_table, s.label ≠ pl.args.getD 0 []) →
      second_pass_entry st pl =
        { st with line_num := pl.line_num, n_errors := st.n_errors + 1 }) ∧
    (∀ (pre : List Symbol) (s : Symbol) (post : List Symbol),
      st.symbol_table = pre ++ s :: post →
      (∀ x ∈ pre, x.label ≠ pl.args.getD 0 []) → s.label = pl.args.getD 0 [] →
      second_pass_entry st pl =
        { st with
          line_num := pl.line_num
          symbol_table := pre ++ { s with loc := .LOC_ENTRY } :: post }) ∧
    (∀ (st2 : AsmState) (pl2 : ParsedLine), pl2.directive ≠ some ".entry".toList →
      second_pass_entry st2 pl2 = { st2 with line_num := pl2.line_num }) := by
  refine ⟨?_, ?_, ?_⟩
  · intro habs
    unfold second_pass_entry
    simp only [h, if_true]
    exact update_entry_symbol_absent { st with line_num := pl.line_num } _
      ((get_symbol_none_iff _ _).mpr habs)
  · intro pre s post ht hpre hs
    unfold second_pass_entry
    simp only [h, if_true]
    have hget : _get_symbol st.symbol_table (pl.args.getD 0 []) = some s := by
      rw [ht]
      exact get_symbol_split _ pre s post hpre hs
    rw [update_entry_symbol_present { st with line_num := pl.line_num } _ s hget]
    simp only
    rw [ht, update_first_split _ _ pre s post (by simpa using hpre) (by simpa using hs)]
  · intro st2 pl2 hne
    unfold second_pass_entry
    simp only [hne, if_false]

/-- Witness of C16 (amended): `.entry X` on a table holding the extern
symbol `X`. -/
theorem C16_entry_marks_present_symbol_witness :
    second_pass_entry
        { init_state with symbol_table := [⟨"X".toList, 0, .TYPE_UNK, .LOC_EXTERNAL⟩] }
        ⟨2, none, none, some ".entry".toList, 1, ["X".toList]⟩ =
      { init_state with
        line_num := 2
        symbol_table := [] ++ [⟨"X".toList, 0, .TYPE_UNK, .LOC_ENTRY⟩] } :=
  (C16_entry_marks_present_symbol
    { init_state with symbol_table := [⟨"X".toList, 0, .TYPE_UNK, .LOC_EXTERNAL⟩] }
    ⟨2, none, none, some ".entry".toList, 1, ["X".toList]⟩ rfl).2.1
    [] ⟨"X".toList, 0, .TYPE_UNK, .LOC_EXTERNAL⟩ [] rfl (by simp) rfl

/-! ### The value of an integer argument -/

theorem wrap32_modEq (x : Int) : wrap32 x ≡ x [ZMOD 4294967296] := by
  unfold wrap32 Int.ModEq
  omega

theorem wrap32_congr (a b : Int) (h : a ≡ b [ZMOD 4294967296]) : wrap32 a = wrap32 b := by
  unfold Int.ModEq at h
  unfold wrap32
  omega

theorem wrap32_idem (x : Int) : wrap32 (wrap32 x) = wrap32 x :=
  wrap32_congr _ _ (wrap32_modEq x)

/-- The digit loop of `get_int_value`, run over a whole string from its last
character, yields the decimal value of the string and the next power of ten,
both wrapped to 32 bits. -/
theorem int_value_loop (ds : Str) :
    ds.reverse.foldl int_value_step (0, 1) =
      (wrap32 (decimal_value ds), wrap32 (10 ^ ds.length)) := by
  induction ds with
  | nil => decide
  | cons c cs ih =>
    rw [List.reverse_cons, List.foldl_append, ih]
    simp only [List.foldl_cons, List.foldl_nil, int_value_step, add32, mul32]
    refine Prod.ext ?_ ?_
    · simp only [decimal_value]
      apply wrap32_congr
      have h1 := wrap32_modEq (decimal_value cs)
      have h2 := wrap32_modEq (((c.toNat : Int) - 48) * wrap32 (10 ^ cs.length))
      have h3 : ((c.toNat : Int) - 48) * wrap32 (10 ^ cs.length) ≡
          ((c.toNat : Int) - 48) * 10 ^ cs.length [ZMOD 4294967296] :=
        Int.ModEq.mul_left _ (wrap32_modEq _)
      calc wrap32 (decimal_value cs) +
            wrap32 (((c.toNat : Int) - 48) * wrap32 (10 ^ cs.length))
          ≡ decimal_value cs + ((c.toNat : Int) - 48) * 10 ^ cs.length [ZMOD 4294967296] :=
            Int.ModEq.add h1 (h2.trans h3)
        _ = ((c.toNat : Int) - 48) * 10 ^ cs.length + decimal_value cs := by ring
    · simp only [List.length_cons]
      apply wrap32_congr
      calc wrap32 (10 ^ cs.length) * 10 ≡ 10 ^ cs.length * 10 [ZMOD 4294967296] :=
            Int.ModEq.mul_right _ (wrap32_modEq _)
        _ = 10 ^ (cs.length + 1) := by ring

/-- `get_int_value` on a text accepted by `is_integer` is the number written
by the text from `start_idx` on, wrapped to 32 bits. -/
theorem get_int_value_eq (str : Str) (start_idx : Nat)
    (h : is_integer str start_idx = true) :
    get_int_value str start_idx = wrap32 (signed_decimal (str.drop start_idx)) := by
  unfold get_int_value
  simp only [h, Bool.not_true, Bool.false_eq_true, if_false]
  cases hd : str.drop start_idx with
  | nil => decide
  | cons c cs =>
    simp only [int_value_loop, signed_decimal]
    by_cases hm : c = '-'
    · subst hm
      simp only [mul32, Bool.or_eq_true, decide_eq_true_eq, or_true, if_true]
      apply wrap32_congr
      calc wrap32 (decimal_value cs) * -1 ≡ decimal_value cs * -1 [ZMOD 4294967296] :=
            Int.ModEq.mul_right _ (wrap32_modEq _)
        _ = -decimal_value cs := by ring
    · by_cases hp : c = '+'
      · subst hp
        simp only [mul32, Bool.or_eq_true, decide_eq_true_eq, true_or, if_true]
        rw [if_neg hm, if_neg hm, mul_one, wrap32_idem]
      · simp only [hm, hp, Bool.or_eq_true, decide_eq_true_eq, or_self, if_false]
        have hl := int_value_loop (c :: cs)
        rw [List.reverse_cons, List.foldl_append, int_value_loop] at hl
        simp only [List.foldl_cons, List.foldl_nil] at hl
        rw [hl]
        simp only [mul32, mul_one, wrap32_idem]

/-! ### Words emitted by `handle_op` -/

theorem add_label_symbol_frame (st : AsmState) (label : Option Str) (type : SymType) :
    (add_label_symbol st label type).IC = st.IC ∧
    (add_label_symbol st label type).DC = st.DC ∧
    (add_label_symbol st label type).code_image = st.code_image ∧
    (add_label_symbol st label type).data_image = st.data_image ∧
    (add_label_symbol st label type).symbol_references = st.symbol_references ∧
    (add_label_symbol st label type).line_num = st.line_num := by
  cases label with
  | none => exact ⟨rfl, rfl, rfl, rfl, rfl, rfl⟩
  | some l =>
    unfold add_label_symbol add_symbol
    simp only
    split <;> exact ⟨rfl, rfl, rfl, rfl, rfl, rfl⟩

/-- An op accepted by `_validate_op` is in the table and has at most two
arguments. -/
theorem validate_op_accept (name : Str) (args : List Str) (e : Int)
    (h : (_validate_op name args e).1 = true) :
    ∃ op, get_op name = some op ∧ args.length ≤ 2 := by
  unfold _validate_op at h
  cases hg : get_op name with
  | none =>
    rw [hg] at h
    simp at h
  | some op =>
    refine ⟨op, rfl, ?_⟩
    rw [hg] at h
    simp only at h
    have hmem : op ∈ ops := List.mem_of_find?_eq_some hg
    have hle := op_n_args_le op hmem
    by_cases hn : (args.length : Int) ≠ op.n_args
    · rw [if_pos hn] at h
      simp at h
    · omega

/-- The state after `handle_op` on an op of the table with at most two
arguments: one instruction word then the operand words of the arguments are
written from slot `IC - 100` on, the references of the arguments are
appended, and the label, if any, is declared as code. -/
theorem handle_op_spec (st : AsmState) (pl : ParsedLine) (op : Op)
    (hop : get_op (pl.op.getD []) = some op) (hlen : pl.args.length ≤ 2)
    (hic : MEM_START_ADDRESS ≤ st.IC) :
    handle_op st pl =
      { add_label_symbol st pl.label .TYPE_CODE with
        IC := st.IC + 1 + (args_words pl.args).length
        code_image := write_words st.code_image (st.IC - MEM_START_ADDRESS)
          (.instruction (op_instruction op pl.args) :: args_words pl.args)
        symbol_references := st.symbol_references ++
          args_refs st.line_num (st.IC + 1) pl.args } := by
  obtain ⟨h1, h2, h3, h4, h5, h6⟩ := add_label_symbol_frame st pl.label .TYPE_CODE
  unfold handle_op
  simp only [hop]
  generalize add_label_symbol st pl.label .TYPE_CODE = st1 at *
  have hidx : st.IC + 1 - MEM_START_ADDRESS = st.IC - MEM_START_ADDRESS + 1 := by omega
  have hidx2 : st.IC + 1 + 1 - MEM_START_ADDRESS = st.IC - MEM_START_ADDRESS + 1 + 1 := by
    omega
  rcases hargs : pl.args with _ | ⟨a, _ | ⟨b, _ | ⟨c, rest⟩⟩⟩
  · simp [op_arg_loop, OpArgs.init, add_instruction, args_words, args_refs, write_words,
      op_instruction, h1, h3, h5]
  · cases hma : get_addr_mode a <;>
      simp [op_arg_loop, op_arg_step, OpArgs.init, add_instruction, handle_operand,
        add_operand, get_IC, args_words, args_refs, write_words, op_instruction, arg_reg,
        operand_word, operand_ref, hma, h1, h3, h5, h6, hidx, get_substr_tail]
  · cases hma : get_addr_mode a <;> cases hmb : get_addr_mode b <;>
      simp [op_arg_loop, op_arg_step, OpArgs.init, add_instruction, handle_operand,
        add_operand, get_IC, args_words, args_refs, write_words, op_instruction, arg_reg,
        operand_word, operand_ref, hma, hmb, h1, h3, h5, h6, hidx, hidx2, get_substr_tail]
  · rw [hargs] at hlen
    simp at hlen

theorem write_words_lt (ws : List Code) :
    ∀ (img : Arr Code) (i j : Nat), j < i → write_words img i ws j = img j := by
  induction ws with
  | nil =>
    intro img i j _
    rfl
  | cons w rest ih =>
    intro img i j hj
    unfold write_words
    rw [ih (img.set i w) (i + 1) j (by omega)]
    unfold Arr.set
    rw [if_neg (by omega)]

theorem write_words_at (ws : List Code) :
    ∀ (img : Arr Code) (i k : Nat), k < ws.length →
      write_words img i ws (i + k) = ws[k]? := by
  induction ws with
  | nil =>
    intro img i k hk
    simp at hk
  | cons w rest ih =>
    intro img i k hk
    unfold write_words
    cases k with
    | zero =>
      rw [write_words_lt rest (img.set i w) (i + 1) (i + 0) (by omega)]
      simp [Arr.set]
    | succ k =>
      have := ih (img.set i w) (i + 1) k (by simpa using hk)
      rw [show i + (k + 1) = i + 1 + k by omega, this]
      simp

/-- Writing words into consecutive slots from slot `n` appends them to the
first `n` words. -/
theorem map_write_words (ws : List Code) :
    ∀ (img : Arr Code) (n : Nat),
      (List.range (n + ws.length)).map (write_words img n ws) =
        (List.range n).map img ++ ws.map some := by
  induction ws with
  | nil =>
    intro img n
    simp [write_words]
  | cons w rest ih =>
    intro img n
    unfold write_words
    rw [show n + (w :: rest).length = n + 1 + rest.length by simp; omega]
    rw [ih (img.set n w) (n + 1), List.range_succ, List.map_append]
    simp only [List.map_cons, List.map_nil, List.append_assoc, List.singleton_append]
    congr 1
    · apply List.map_congr_left
      intro j hj
      have : j < n := List.mem_range.mp hj
      unfold Arr.set
      rw [if_neg (by omega)]
    · simp [Arr.set]

theorem code_words_handle_op (st : AsmState) (pl : ParsedLine) (op : Op)
    (hop : get_op (pl.op.getD []) = some op) (hlen : pl.args.length ≤ 2)
    (hic : MEM_START_ADDRESS ≤ st.IC) :
    code_words (handle_op st pl) =
      code_words st ++
        some (.instruction (op_instruction op pl.args)) :: (args_words pl.args).map some := by
  rw [handle_op_spec st pl op hop hlen hic]
  unfold code_words
  simp only
  have h := map_write_words (.instruction (op_instruction op pl.args) :: args_words pl.args)
    st.code_image (st.IC - MEM_START_ADDRESS)
  rw [show st.IC + 1 + (args_words pl.args).length - MEM_START_ADDRESS =
    st.IC - MEM_START_ADDRESS +
      (Code.instruction (op_instruction op pl.args) :: args_words pl.args).length by
    simp only [List.length_cons]; omega]
  rw [h]
  simp

/-- The references of an argument list point at placeholder words among the
words written for the list. -/
theorem args_refs_slots (line_num : Int) (args : List Str) :
    ∀ (addr : Nat) (r : SymbolInfo), r ∈ args_refs line_num addr args →
      addr ≤ r.IC ∧ r.IC < addr + (args_words args).length ∧
      (args_words args)[r.IC - addr]? =
        some (.operand { value := 0, linker_info := .Linker_UNK }) ∧
      r.line_num = line_num ∧ (r.addrMode = .DIRECT ∨ r.addrMode = .RELATIVE) := by
  induction args with
  | nil =>
    intro addr r hr
    simp [args_refs] at hr
  | cons a rest ih =>
    intro addr r hr
    unfold args_refs at hr
    rw [List.mem_append] at hr
    cases hm : get_addr_mode a with
    | IMMEDIATE =>
      have hw : operand_word a =
          some (.operand { value := get_int_value a 1, linker_info := .Linker_A }) := by
        simp [operand_word, hm]
      have hr0 : operand_ref line_num addr a = none := by simp [operand_ref, hm]
      rw [hr0, hw] at hr
      simp only [Option.toList_none, List.not_mem_nil, false_or, Option.toList_some,
        List.length_singleton] at hr
      obtain ⟨h1, h2, h3, h4⟩ := ih (addr + 1) r hr
      simp only [args_words] at h2 h3
      simp only [args_words, List.filterMap_cons, hw]
      refine ⟨by omega, by simp only [List.length_cons]; omega, ?_, h4⟩
      rw [show r.IC - addr = (r.IC - (addr + 1)) + 1 by omega, List.getElem?_cons_succ]
      exact h3
    | REGISTER =>
      have hw : operand_word a = none := by simp [operand_word, hm]
      have hr0 : operand_ref line_num addr a = none := by simp [operand_ref, hm]
      rw [hr0, hw] at hr
      simp only [Option.toList_none, List.not_mem_nil, false_or, List.length_nil,
        Nat.add_zero] at hr
      obtain ⟨h1, h2, h3, h4⟩ := ih addr r hr
      simp only [args_words, List.filterMap_cons, hw] at h2 h3 ⊢
      exact ⟨h1, h2, h3, h4⟩
    | DIRECT =>
      have hw : operand_word a =
          some (.operand { value := 0, linker_info := .Linker_UNK }) := by
        simp [operand_word, hm]
      have hr0 : operand_ref line_num addr a =
          some { line_num := line_num, IC := addr, label := a, addrMode := .DIRECT } := by
        simp [operand_ref, hm]
      rw [hr0, hw] at hr
      simp only [Option.toList_some, List.mem_singleton, List.length_singleton] at hr
      simp only [args_words, List.filterMap_cons, hw]
      rcases hr with hr | hr
      · subst hr
        simp
      · obtain ⟨h1, h2, h3, h4⟩ := ih (addr + 1) r hr
        simp only [args_words] at h2 h3
        refine ⟨by omega, by simp only [List.length_cons]; omega, ?_, h4⟩
        rw [show r.IC - addr = (r.IC - (addr + 1)) + 1 by omega, List.getElem?_cons_succ]
        exact h3
    | RELATIVE =>
      have hw : operand_word a =
          some (.operand { value := 0, linker_info := .Linker_UNK }) := by
        simp [operand_word, hm]
      have hr0 : operand_ref line_num addr a =
          some { line_num := line_num, IC := addr, label := a.drop 1,
                 addrMode := .RELATIVE } := by
        simp [operand_ref, hm]
      rw [hr0, hw] at hr
      simp only [Option.toList_some, List.mem_singleton, List.length_singleton] at hr
      simp only [args_words, List.filterMap_cons, hw]
      rcases hr with hr | hr
      · subst hr
        simp
      · obtain ⟨h1, h2, h3, h4⟩ := ih (addr + 1) r hr
        simp only [args_words] at h2 h3
        refine ⟨by omega, by simp only [List.length_cons]; omega, ?_, h4⟩
        rw [show r.IC - addr = (r.IC - (addr + 1)) + 1 by omega, List.getElem?_cons_succ]
        exact h3

theorem get_op_name (name : Str) (op : Op) (h : get_op name = some op) :
    op.name = name ∧ op ∈ ops := by
  unfold get_op at h
  have h1 := List.find?_some h
  simp only [decide_eq_true_eq] at h1
  exact ⟨h1, List.mem_of_find?_eq_some h⟩

/-- In an accepted op line, the text after `#` of every immediate argument
passes `is_integer`. -/
theorem validate_op_immediate (name : Str) (args : List Str) (e : Int)
    (h : (_validate_op name args e).1 = true) :
    ∀ a ∈ args, get_addr_mode a = .IMMEDIATE → is_integer a 1 = true := by
  obtain ⟨op, hop, hlen⟩ := validate_op_accept name args e h
  obtain ⟨hn, hmem⟩ := get_op_name name op hop
  subst hn
  have hcount : (args.length : Int) = op.n_args := by
    unfold _validate_op at h
    rw [hop] at h
    simp only at h
    by_contra hne
    rw [if_pos hne] at h
    simp at h
  intro a ha hm
  rcases args with _ | ⟨x, _ | ⟨y, _ | ⟨z, rest⟩⟩⟩
  · simp at ha
  · simp only [List.mem_singleton] at ha
    subst ha
    have hok := (validate_op_one op a e hop (by simpa using hcount.symm)).mp h
    have hw := hok.2
    rw [hm] at hw
    exact (is_integer_iff a 1).mpr hw
  · have hok := (validate_op_two op x y e hop (by simpa using hcount.symm)).mp h
    simp only [List.mem_cons, List.mem_singleton, List.not_mem_nil, or_false] at ha
    rcases ha with ha | ha
    · subst ha
      have hw := hok.1.2
      rw [hm] at hw
      exact (is_integer_iff a 1).mpr hw
    · subst ha
      have hw := hok.2.2
      rw [hm] at hw
      exact (is_integer_iff a 1).mpr hw
  · simp at hlen

/-- C17 as stated does not hold for an immediate outside the range of an
`int`: the line `prn #4294967301` passes validation, and `handle_op` emits for
it the operand word (value 5, flag A), where 4294967301 = 2^32 + 5 is the
number written after `#`. So it is not the case that every validated
immediate argument `#n` emits the value n. -/
theorem C17_immediate_out_of_int_range :
    parse_line 1 "prn #4294967301\n".toList 0 =
      some (some ⟨1, none, some "prn".toList, none, 1, ["#4294967301".toList]⟩, 0) ∧
    _validate_op "prn".toList ["#4294967301".toList] 0 = (true, 0) ∧
    signed_decimal ("#4294967301".toList.drop 1) = 4294967301 ∧
    code_words (handle_op init_state
      ⟨1, none, some "prn".toList, none, 1, ["#4294967301".toList]⟩) =
      [some (.instruction ⟨13, .IMMEDIATE, 0, .IMMEDIATE, 0, 0, .Linker_A⟩),
       some (.operand ⟨5, .Linker_A⟩)] ∧
    ¬ (∀ (name a : Str), (_validate_op name [a] 0).1 = true →
        get_addr_mode a = .IMMEDIATE →
        operand_word a =
          some (.operand { value := signed_decimal (a.drop 1), linker_info := .Linker_A })) := by
  refine ⟨by decide, by decide, by decide, by decide, ?_⟩
  intro h
  have h1 := h "prn".toList "#4294967301".toList (by decide) (by decide)
  revert h1
  decide

/-- C17 (amended): in pass 1, for every validated operation line,
`handle_op` emits exactly one instruction word followed by one operand word
per non-register argument in argument order (`args_words`) and appends the
deferred references of the arguments in argument order (`args_refs`): an
IMMEDIATE argument `#n` emits (value n wrapped to 32 bits, flag A) and no
reference; a DIRECT or RELATIVE argument emits (value 0, flag UNK) and
exactly one reference holding the address of that operand word, the label
without its `&` marker, the line number and the mode; a REGISTER argument
emits no word and no reference. The value emitted for `#n` is n itself when
n fits an `int` (`-2^31 ≤ n < 2^31`). The line number is the global
`line_num`, which `first_pass` sets to the record's line number before the
call. -/
theorem C17_handle_op_emits (st : AsmState) (pl : ParsedLine) (name : Str)
    (hname : pl.op = some name) (hval : (_validate_op name pl.args 0).1 = true)
    (hic : MEM_START_ADDRESS ≤ st.IC) :
    (∃ instr : Instruction,
      code_words (handle_op st pl) =
        code_words st ++ some (.instruction instr) :: (args_words pl.args).map some) ∧
    (handle_op st pl).IC = st.IC + 1 + (args_words pl.args).length ∧
    (handle_op st pl).symbol_references =
      st.symbol_references ++ args_refs st.line_num (st.IC + 1) pl.args ∧
    (∀ r ∈ args_refs st.line_num (st.IC + 1) pl.args,
      (handle_op st pl).code_image (r.IC - MEM_START_ADDRESS) =
        some (.operand { value := 0, linker_info := .Linker_UNK }) ∧
      st.IC < r.IC ∧ r.IC < (handle_op st pl).IC ∧ r.line_num = st.line_num) ∧
    (∀ a ∈ pl.args,
      (get_addr_mode a = .IMMEDIATE →
        operand_word a = some (.operand
          { value := wrap32 (signed_decimal (a.drop 1)), linker_info := .Linker_A }) ∧
        (-2147483648 ≤ signed_decimal (a.drop 1) → signed_decimal (a.drop 1) < 2147483648 →
          operand_word a = some (.operand
            { value := signed_decimal (a.drop 1), linker_info := .Linker_A })) ∧
        ∀ ln addr, operand_ref ln addr a = none) ∧
      (get_addr_mode a = .DIRECT →
        operand_word a = some (.operand { value := 0, linker_info := .Linker_UNK }) ∧
        ∀ ln addr, operand_ref ln addr a =
          some { line_num := ln, IC := addr, label := a, addrMode := .DIRECT }) ∧
      (get_addr_mode a = .RELATIVE →
        operand_word a = some (.operand { value := 0, linker_info := .Linker_UNK }) ∧
        ∀ ln addr, operand_ref ln addr a =
          some { line_num := ln, IC := addr, label := a.drop 1, addrMode := .RELATIVE }) ∧
      (get_addr_mode a = .REGISTER →
        operand_word a = none ∧ ∀ ln addr, operand_ref ln addr a = none)) ∧
    (∀ st0 : AsmState,
      first_pass_line st0 pl = handle_op { st0 with line_num := pl.line_num } pl) := by
  obtain ⟨op, hop, hlen⟩ := validate_op_accept name pl.args 0 hval
  have hop2 : get_op (pl.op.getD []) = some op := by
    rw [hname]
    exact hop
  have hspec := handle_op_spec st pl op hop2 hlen hic
  refine ⟨⟨_, code_words_handle_op st pl op hop2 hlen hic⟩, ?_, ?_, ?_, ?_, ?_⟩
  · rw [hspec]
  · rw [hspec]
  · intro r hr
    obtain ⟨h1, h2, h3, h4, _⟩ := args_refs_slots st.line_num pl.args (st.IC + 1) r hr
    rw [hspec]
    simp only
    refine ⟨?_, by omega, by omega, h4⟩
    have hk : r.IC - st.IC <
        (Code.instruction (op_instruction op pl.args) :: args_words pl.args).length := by
      simp only [List.length_cons]
      omega
    have := write_words_at _ st.code_image (st.IC - MEM_START_ADDRESS) (r.IC - st.IC) hk
    rw [show r.IC - MEM_START_ADDRESS = st.IC - MEM_START_ADDRESS + (r.IC - st.IC) by
      unfold MEM_START_ADDRESS at hic ⊢; omega, this]
    rw [show r.IC - st.IC = (r.IC - (st.IC + 1)) + 1 by omega, List.getElem?_cons_succ]
    exact h3
  · intro a ha
    refine ⟨?_, ?_, ?_, ?_⟩
    · intro hm
      have hint := validate_op_immediate name pl.args 0 hval a ha hm
      have hword : operand_word a = some (.operand
          { value := wrap32 (signed_decimal (a.drop 1)), linker_info := .Linker_A }) := by
        simp only [operand_word, hm]
        rw [get_int_value_eq a 1 hint]
      refine ⟨hword, ?_, ?_⟩
      · intro hlo hhi
        rw [hword, wrap32_of_range _ hlo hhi]
      · intro ln addr
        simp only [operand_ref, hm]
    · intro hm
      exact ⟨by simp only [operand_word, hm], fun ln addr => by simp only [operand_ref, hm]⟩
    · intro hm
      exact ⟨by simp only [operand_word, hm], fun ln addr => by simp only [operand_ref, hm]⟩
    · intro hm
      exact ⟨by simp only [operand_word, hm], fun ln addr => by simp only [operand_ref, hm]⟩
  · intro st0
    unfold first_pass_line
    simp only [hname, Option.isSome_some, if_true]

/-- Witness of C17: `cmp #-7, K` on line 4, at code counter 100: an
instruction word, the operand -7 with flag A, a placeholder for `K`, and one
reference to `K` at address 102. -/
theorem C17_handle_op_emits_witness :
    (handle_op { init_state with line_num := 4 }
      ⟨4, none, some "cmp".toList, none, 2, ["#-7".toList, "K".toList]⟩).symbol_references =
        [⟨4, 102, "K".toList, .DIRECT⟩] ∧
    args_words ["#-7".toList, "K".toList] =
      [.operand ⟨-7, .Linker_A⟩, .operand ⟨0, .Linker_UNK⟩] :=
  ⟨(C17_handle_op_emits { init_state with line_num := 4 }
      ⟨4, none, some "cmp".toList, none, 2, ["#-7".toList, "K".toList]⟩ "cmp".toList rfl
      (by decide) (by decide)).2.2.1.trans (by decide),
    by decide⟩

/-- C18: for every validated operation line the instruction word emitted at
the current code counter is `op_instruction`: with one argument it carries
the argument's addressing mode and register id in the second-operand fields
and has first-operand mode 0 and first register id 0; with no argument all
four operand fields are 0; a register id is nonzero only when the mode of
that operand is REGISTER; the word carries the flag A (numeric value 4). -/
theorem C18_instruction_word_fields (st : AsmState) (pl : ParsedLine) (name : Str)
    (hname : pl.op = some name) (hval : (_validate_op name pl.args 0).1 = true)
    (hic : MEM_START_ADDRESS ≤ st.IC) :
    ∃ op instr, get_op name = some op ∧
      (handle_op st pl).code_image (st.IC - MEM_START_ADDRESS) =
        some (.instruction instr) ∧
      instr.opcode = op.opcode ∧ instr.funct = op.funct ∧
      (∀ a, pl.args = [a] →
        instr.arg_1_mode.toInt = 0 ∧ instr.reg_1 = 0 ∧
        instr.arg_2_mode = get_addr_mode a ∧
        instr.reg_2 = (if get_addr_mode a = .REGISTER then get_register a else 0)) ∧
      (∀ a b, pl.args = [a, b] →
        instr.arg_1_mode = get_addr_mode a ∧
        instr.reg_1 = (if get_addr_mode a = .REGISTER then get_register a else 0) ∧
        instr.arg_2_mode = get_addr_mode b ∧
        instr.reg_2 = (if get_addr_mode b = .REGISTER then get_register b else 0)) ∧
      (pl.args = [] →
        instr.arg_1_mode.toInt = 0 ∧ instr.reg_1 = 0 ∧
        instr.arg_2_mode.toInt = 0 ∧ instr.reg_2 = 0) ∧
      (instr.reg_1 ≠ 0 → instr.arg_1_mode = .REGISTER) ∧
      (instr.reg_2 ≠ 0 → instr.arg_2_mode = .REGISTER) ∧
      instr.linker_info = .Linker_A ∧ instr.linker_info.toInt = 4 := by
  obtain ⟨op, hop, hlen⟩ := validate_op_accept name pl.args 0 hval
  have hop2 : get_op (pl.op.getD []) = some op := by
    rw [hname]
    exact hop
  refine ⟨op, op_instruction op pl.args, hop, ?_, ?_⟩
  · rw [handle_op_spec st pl op hop2 hlen hic]
    simp only
    have := write_words_at (.instruction (op_instruction op pl.args) :: args_words pl.args)
      st.code_image (st.IC - MEM_START_ADDRESS) 0 (by simp)
    simpa using this
  · rcases hargs : pl.args with _ | ⟨a, _ | ⟨b, _ | ⟨c, rest⟩⟩⟩
    · simp [op_instruction, AddrMode.toInt, LinkerInfo.toInt]
    · simp only [op_instruction, arg_reg, AddrMode.toInt, LinkerInfo.toInt]
      simp
      intro h1 _
      exact h1
    · simp only [op_instruction, arg_reg, LinkerInfo.toInt]
      simp
      constructor
      · intro h1 _
        exact h1
      · intro h1 _
        exact h1
    · rw [hargs] at hlen
      simp at hlen

/-- Witness of C18: `jmp &LOOP` at code counter 100 emits the word with
opcode 9, funct 1, second-operand mode RELATIVE and all other operand
fields 0. -/
theorem C18_instruction_word_fields_witness :
    ∃ op instr, get_op "jmp".toList = some op ∧
      (handle_op init_state
        ⟨1, none, some "jmp".toList, none, 1, ["&LOOP".toList]⟩).code_image
          (100 - MEM_START_ADDRESS) = some (.instruction instr) ∧
      instr.opcode = op.opcode ∧ instr.funct = op.funct ∧
      instr.linker_info = .Linker_A := by
  obtain ⟨op, instr, h1, h2, h3, h4, _, _, _, _, _, h5, _⟩ :=
    C18_instruction_word_fields init_state
      ⟨1, none, some "jmp".toList, none, 1, ["&LOOP".toList]⟩ "jmp".toList rfl
      (by decide) (by decide)
  exact ⟨op, instr, h1, h2, h3, h4, h5⟩

/-! ### Stored references and the code image -/

theorem refsok_of_eq (st st2 : AsmState) (h1 : st2.IC = st.IC)
    (h2 : st2.code_image = st.code_image)
    (h3 : st2.symbol_references = st.symbol_references) (h : RefsOk st) : RefsOk st2 := by
  unfold RefsOk at h ⊢
  rw [h1, h2, h3]
  exact h

/-- Writing a word at the code counter keeps the stored references
consistent. -/
theorem refsok_write (st : AsmState) (w : Code) (h : RefsOk st) :
    RefsOk { st with
      code_image := st.code_image.set (st.IC - MEM_START_ADDRESS) w
      IC := st.IC + 1 } := by
  obtain ⟨h1, h2, h3⟩ := h
  refine ⟨by simp only; omega, ?_, h3⟩
  intro r hr
  obtain ⟨ha, hb, o, ho⟩ := h2 r hr
  refine ⟨ha, by simp only; omega, o, ?_⟩
  simp only [Arr.set]
  rw [if_neg (by omega)]
  exact ho

theorem refsok_add_instruction (st : AsmState) (opcode : Int) (m1 : AddrMode) (r1 : Int)
    (m2 : AddrMode) (r2 : Int) (funct : Int) (h : RefsOk st) :
    RefsOk (add_instruction st opcode m1 r1 m2 r2 funct) :=
  refsok_write st _ h

theorem refsok_add_operand (st : AsmState) (v : Int) (f : LinkerInfo) (h : RefsOk st) :
    RefsOk (add_operand st v f) :=
  refsok_write st _ h

/-- Storing a reference to the word about to be written at the code counter,
then writing an operand word there, keeps the stored references
consistent. -/
theorem refsok_store (st : AsmState) (r : SymbolInfo) (v : Int) (f : LinkerInfo)
    (hr : r.IC = st.IC) (h : RefsOk st) :
    RefsOk (add_operand { st with symbol_references := st.symbol_references ++ [r] } v f) := by
  obtain ⟨h1, h2, h3⟩ := h
  refine ⟨by simp only [add_operand]; omega, ?_, ?_⟩
  · intro x hx
    simp only [add_operand, List.mem_append, List.mem_singleton] at hx ⊢
    rcases hx with hx | hx
    · obtain ⟨ha, hb, o, ho⟩ := h2 x hx
      refine ⟨ha, by omega, o, ?_⟩
      simp only [Arr.set]
      rw [if_neg (by omega)]
      exact ho
    · subst hx
      refine ⟨by omega, by omega, { value := v, linker_info := f }, ?_⟩
      simp only [Arr.set, hr, if_true]
  · simp only [add_operand]
    rw [List.pairwise_append]
    refine ⟨h3, List.pairwise_singleton _ _, ?_⟩
    intro a ha b hb
    simp only [List.mem_singleton] at hb
    subst hb
    rw [hr]
    exact (h2 a ha).2.1

theorem refsok_handle_operand (st : AsmState) (arg : Str) (m : AddrMode) (h : RefsOk st) :
    RefsOk (handle_operand st arg m) := by
  cases m
  · exact refsok_add_operand st _ _ h
  · exact refsok_store st _ _ _ rfl h
  · exact refsok_store st _ _ _ rfl h
  · exact h

theorem refsok_add_label_symbol (st : AsmState) (label : Option Str) (type : SymType)
    (h : RefsOk st) : RefsOk (add_label_symbol st label type) := by
  obtain ⟨h1, _, h3, _, h5, _⟩ := add_label_symbol_frame st label type
  exact refsok_of_eq st _ h1 h3 h5 h

theorem refsok_handle_op (st : AsmState) (pl : ParsedLine) (h : RefsOk st) :
    RefsOk (handle_op st pl) := by
  unfold handle_op
  simp only
  have h1 := refsok_add_label_symbol st pl.label .TYPE_CODE h
  cases get_op (pl.op.getD []) with
  | none => exact h1
  | some op =>
    simp only
    have h2 := refsok_add_instruction _ op.opcode
      (op_arg_loop pl.args.length OpArgs.init 0 pl.args).addr_mod_1
      (op_arg_loop pl.args.length OpArgs.init 0 pl.args).reg_1
      (op_arg_loop pl.args.length OpArgs.init 0 pl.args).addr_mod_2
      (op_arg_loop pl.args.length OpArgs.init 0 pl.args).reg_2 op.funct h1
    cases (op_arg_loop pl.args.length OpArgs.init 0 pl.args).arg_1 with
    | none =>
      cases (op_arg_loop pl.args.length OpArgs.init 0 pl.args).arg_2 with
      | none => exact h2
      | some a2 => exact refsok_handle_operand _ a2 _ h2
    | some a1 =>
      have h3 := refsok_handle_operand _ a1
        (op_arg_loop pl.args.length OpArgs.init 0 pl.args).addr_mod_1 h2
      cases (op_arg_loop pl.args.length OpArgs.init 0 pl.args).arg_2 with
      | none => exact h3
      | some a2 => exact refsok_handle_operand _ a2 _ h3

theorem add_symbol_frame (st : AsmState) (label : Str) (type : SymType) (loc : SymLoc) :
    (add_symbol st label type loc).2.IC = st.IC ∧
    (add_symbol st label type loc).2.code_image = st.code_image ∧
    (add_symbol st label type loc).2.symbol_references = st.symbol_references := by
  unfold add_symbol
  split <;> exact ⟨rfl, rfl, rfl⟩

theorem handle_directive_frame (st : AsmState) (pl : ParsedLine) :
    (handle_directive st pl).IC = st.IC ∧
    (handle_directive st pl).code_image = st.code_image ∧
    (handle_directive st pl).symbol_references = st.symbol_references := by
  obtain ⟨h1, _, h3, _, h5, _⟩ := add_label_symbol_frame st pl.label .TYPE_DATA
  unfold handle_directive
  simp only
  split
  · split
    · rw [← h1, ← h3, ← h5]
      exact ⟨foldl_keeps (fun s : AsmState => s.IC)
          (fun s arg => add_data s (get_int_value arg 0)) (fun _ _ => rfl) _ _,
        foldl_keeps (fun s : AsmState => s.code_image)
          (fun s arg => add_data s (get_int_value arg 0)) (fun _ _ => rfl) _ _,
        foldl_keeps (fun s : AsmState => s.symbol_references)
          (fun s arg => add_data s (get_int_value arg 0)) (fun _ _ => rfl) _ _⟩
    · rw [← h1, ← h3, ← h5]
      exact ⟨foldl_keeps (fun s : AsmState => s.IC)
          (fun s (c : Char) => add_data s (c.toNat : Int)) (fun _ _ => rfl) _ _,
        foldl_keeps (fun s : AsmState => s.code_image)
          (fun s (c : Char) => add_data s (c.toNat : Int)) (fun _ _ => rfl) _ _,
        foldl_keeps (fun s : AsmState => s.symbol_references)
          (fun s (c : Char) => add_data s (c.toNat : Int)) (fun _ _ => rfl) _ _⟩
  · split
    · exact add_symbol_frame st _ _ _
    · exact ⟨rfl, rfl, rfl⟩

theorem refsok_first_pass_line (st : AsmState) (pl : ParsedLine) (h : RefsOk st) :
    RefsOk (first_pass_line st pl) := by
  have h0 : RefsOk { st with line_num := pl.line_num } := refsok_of_eq st _ rfl rfl rfl h
  unfold first_pass_line
  simp only
  split
  · exact refsok_handle_op _ pl h0
  · split
    · obtain ⟨h1, h2, h3⟩ := handle_directive_frame { st with line_num := pl.line_num } pl
      exact refsok_of_eq _ _ h1 h2 h3 h0
    · exact h0

/-- After the first pass, started with no stored reference and the code
counter at or above `MEM_START_ADDRESS`, every stored reference holds the
address of an operand word, and the addresses increase. -/
theorem refsok_first_pass (st : AsmState) (lines : List ParsedLine)
    (hic : MEM_START_ADDRESS ≤ st.IC) (hrefs : st.symbol_references = []) :
    RefsOk (first_pass st lines) := by
  have h0 : RefsOk { st with n_errors := 0, line_num := 0 } := by
    refine ⟨hic, ?_, ?_⟩
    · intro r hr
      simp only [hrefs, List.not_mem_nil] at hr
    · simp only [hrefs, List.Pairwise.nil]
  have hloop : ∀ (l : List ParsedLine) (s : AsmState), RefsOk s →
      RefsOk (l.foldl first_pass_line s) := by
    intro l
    induction l with
    | nil =>
      intro s hs
      exact hs
    | cons pl rest ih =>
      intro s hs
      exact ih _ (refsok_first_pass_line s pl hs)
  unfold first_pass
  exact refsok_of_eq _ _ rfl rfl rfl (hloop lines _ h0)

/-! ### The second pass -/

/-- The word `edit_operand` writes for a found symbol. -/
theorem edit_operand_found (st : AsmState) (ic : Nat) (label : Str) (mode : AddrMode)
    (s : Symbol) (o : Operand)
    (hs : _get_symbol st.symbol_table label = some s)
    (ho : st.code_image (ic - MEM_START_ADDRESS) = some (.operand o)) :
    edit_operand st ic label mode =
      match mode with
      | .DIRECT =>
        { st with
          code_image := st.code_image.set (ic - MEM_START_ADDRESS)
            (.operand
              { value := s.address
                linker_info := if s.loc = .LOC_EXTERNAL then .Linker_E else .Linker_R }) }
      | .RELATIVE =>
        { st with
          code_image := st.code_image.set (ic - MEM_START_ADDRESS)
            (.operand { value := s.address - (ic : Int) + 1, linker_info := .Linker_A }) }
      | _ => st := by
  unfold edit_operand lookup_symbol
  simp only [hs, ho]

theorem edit_operand_frame (st : AsmState) (ic : Nat) (label : Str) (mode : AddrMode) :
    (edit_operand st ic label mode).symbol_table = st.symbol_table ∧
    (edit_operand st ic label mode).IC = st.IC ∧
    (edit_operand st ic label mode).symbol_references = st.symbol_references := by
  unfold edit_operand lookup_symbol
  cases _get_symbol st.symbol_table label with
  | none => exact ⟨rfl, rfl, rfl⟩
  | some s =>
    simp only
    cases hc : st.code_image (ic - MEM_START_ADDRESS) with
    | none => exact ⟨rfl, rfl, rfl⟩
    | some w =>
      cases w with
      | instruction i => exact ⟨rfl, rfl, rfl⟩
      | operand o => cases mode <;> exact ⟨rfl, rfl, rfl⟩

/-- `edit_operand` changes no slot but the one at index `ic - 100`, and an
operand word stays an operand word. -/
theorem edit_operand_slots (st : AsmState) (ic : Nat) (label : Str) (mode : AddrMode) :
    (∀ j, j ≠ ic - MEM_START_ADDRESS →
      (edit_operand st ic label mode).code_image j = st.code_image j) ∧
    (∀ j, (∃ o, st.code_image j = some (.operand o)) →
      ∃ o, (edit_operand st ic label mode).code_image j = some (.operand o)) := by
  unfold edit_operand lookup_symbol
  cases _get_symbol st.symbol_table label with
  | none => exact ⟨fun _ _ => rfl, fun _ h => h⟩
  | some s =>
    simp only
    cases hc : st.code_image (ic - MEM_START_ADDRESS) with
    | none => exact ⟨fun _ _ => rfl, fun _ h => h⟩
    | some w =>
      cases w with
      | instruction i => exact ⟨fun _ _ => rfl, fun _ h => h⟩
      | operand o =>
        cases mode
        · exact ⟨fun _ _ => rfl, fun _ h => h⟩
        · refine ⟨fun j hj => by simp only [Arr.set, if_neg hj], fun j h => ?_⟩
          simp only [Arr.set]
          split
          · exact ⟨_, rfl⟩
          · exact h
        · refine ⟨fun j hj => by simp only [Arr.set, if_neg hj], fun j h => ?_⟩
          simp only [Arr.set]
          split
          · exact ⟨_, rfl⟩
          · exact h
        · exact ⟨fun _ _ => rfl, fun _ h => h⟩

/-- The loop over the stored references leaves the symbol table, the code
counter and the stored references unchanged. -/
theorem refs_loop_frame (l : List SymbolInfo) (st : AsmState) :
    (l.foldl second_pass_ref st).symbol_table = st.symbol_table ∧
    (l.foldl second_pass_ref st).IC = st.IC ∧
    (l.foldl second_pass_ref st).symbol_references = st.symbol_references := by
  refine ⟨foldl_keeps (fun s : AsmState => s.symbol_table) second_pass_ref ?_ l st,
    foldl_keeps (fun s : AsmState => s.IC) second_pass_ref ?_ l st,
    foldl_keeps (fun s : AsmState => s.symbol_references) second_pass_ref ?_ l st⟩
  · intro s r
    exact (edit_operand_frame { s with line_num := r.line_num } r.IC r.label r.addrMode).1
  · intro s r
    exact (edit_operand_frame { s with line_num := r.line_num } r.IC r.label r.addrMode).2.1
  · intro s r
    exact (edit_operand_frame { s with line_num := r.line_num } r.IC r.label r.addrMode).2.2

/-- The loop over references leaves alone every slot that none of them
addresses. -/
theorem refs_loop_other (l : List SymbolInfo) :
    ∀ (st : AsmState) (j : Nat), (∀ x ∈ l, x.IC - MEM_START_ADDRESS ≠ j) →
      (l.foldl second_pass_ref st).code_image j = st.code_image j := by
  induction l with
  | nil =>
    intro st j _
    rfl
  | cons a rest ih =>
    intro st j h
    rw [List.foldl_cons, ih _ j (fun x hx => h x (List.mem_cons_of_mem _ hx))]
    exact (edit_operand_slots { st with line_num := a.line_num } a.IC a.label a.addrMode).1 j
      (fun hj => h a (List.mem_cons_self _ _) hj.symm)

/-- The word a reference is resolved to, given its symbol. -/
theorem refs_loop_resolves (l : List SymbolInfo) :
    ∀ (st : AsmState),
      (∀ r ∈ l, MEM_START_ADDRESS ≤ r.IC ∧
        ∃ o, st.code_image (r.IC - MEM_START_ADDRESS) = some (.operand o)) →
      l.Pairwise (fun a b => a.IC < b.IC) →
      ∀ r ∈ l, ∀ s, _get_symbol st.symbol_table r.label = some s →
        (r.addrMode = .DIRECT →
          (l.foldl second_pass_ref st).code_image (r.IC - MEM_START_ADDRESS) =
            some (.operand
              { value := s.address
                linker_info := if s.loc = .LOC_EXTERNAL then .Linker_E else .Linker_R })) ∧
        (r.addrMode = .RELATIVE →
          (l.foldl second_pass_ref st).code_image (r.IC - MEM_START_ADDRESS) =
            some (.operand
              { value := s.address - (r.IC : Int) + 1, linker_info := .Linker_A })) := by
  induction l with
  | nil =>
    intro st _ _ r hr
    simp at hr
  | cons a rest ih =>
    intro st hslots hpw r hr s hs
    rw [List.pairwise_cons] at hpw
    rw [List.foldl_cons]
    rcases List.mem_cons.mp hr with hra | hrr
    · subst hra
      obtain ⟨hge, o, ho⟩ := hslots r (List.mem_cons_self _ _)
      have hother : ∀ x ∈ rest, x.IC - MEM_START_ADDRESS ≠ r.IC - MEM_START_ADDRESS := by
        intro x hx
        have h1 := hpw.1 x hx
        have h2 := (hslots x (List.mem_cons_of_mem _ hx)).1
        omega
      rw [refs_loop_other rest _ _ hother]
      unfold second_pass_ref
      rw [edit_operand_found { st with line_num := r.line_num } r.IC r.label r.addrMode s o
        hs ho]
      constructor
      · intro hm
        rw [hm]
        simp [Arr.set]
      · intro hm
        rw [hm]
        simp [Arr.set]
    · have hfr := edit_operand_frame { st with line_num := a.line_num } a.IC a.label a.addrMode
      have hsl := edit_operand_slots { st with line_num := a.line_num } a.IC a.label a.addrMode
      apply ih (second_pass_ref st a) ?_ hpw.2 r hrr s ?_
      · intro x hx
        obtain ⟨hge, o, ho⟩ := hslots x (List.mem_cons_of_mem _ hx)
        exact ⟨hge, hsl.2 _ ⟨o, ho⟩⟩
      · unfold second_pass_ref
        rw [hfr.1]
        exact hs

theorem edit_operand_found_errors (st : AsmState) (ic : Nat) (label : Str) (mode : AddrMode)
    (s : Symbol) (hs : _get_symbol st.symbol_table label = some s) :
    (edit_operand st ic label mode).n_errors = st.n_errors := by
  unfold edit_operand lookup_symbol
  simp only [hs]
  cases hc : st.code_image (ic - MEM_START_ADDRESS) with
  | none => rfl
  | some w =>
    cases w with
    | instruction i => rfl
    | operand o => cases mode <;> rfl

theorem update_entry_symbol_frame (st : AsmState) (label : Str) :
    (update_entry_symbol st label).IC = st.IC ∧
    (update_entry_symbol st label).code_image = st.code_image ∧
    (update_entry_symbol st label).symbol_references = st.symbol_references := by
  cases h : _get_symbol st.symbol_table label with
  | none =>
    rw [update_entry_symbol_absent st label h]
    exact ⟨rfl, rfl, rfl⟩
  | some s =>
    rw [update_entry_symbol_present st label s h]
    exact ⟨rfl, rfl, rfl⟩

theorem second_pass_entry_frame (st : AsmState) (pl : ParsedLine) :
    (second_pass_entry st pl).IC = st.IC ∧
    (second_pass_entry st pl).code_image = st.code_image ∧
    (second_pass_entry st pl).symbol_references = st.symbol_references ∧
    (second_pass_entry st pl).symbol_table.map (fun s => s.label) =
      st.symbol_table.map (fun s => s.label) := by
  unfold second_pass_entry
  simp only
  split
  · obtain ⟨h1, h2, h3⟩ :=
      update_entry_symbol_frame { st with line_num := pl.line_num } (pl.args.getD 0 [])
    exact ⟨h1, h2, h3,
      update_entry_labels { st with line_num := pl.line_num } (pl.args.getD 0 [])⟩
  · exact ⟨rfl, rfl, rfl, rfl⟩

/-- The `.entry` loop of the second pass leaves the code counter, the code
image, the stored references and the labels of the symbol table unchanged. -/
theorem entry_loop_frame (lines : List ParsedLine) (st : AsmState) :
    (lines.foldl second_pass_entry st).IC = st.IC ∧
    (lines.foldl second_pass_entry st).code_image = st.code_image ∧
    (lines.foldl second_pass_entry st).symbol_references = st.symbol_references ∧
    (lines.foldl second_pass_entry st).symbol_table.map (fun s => s.label) =
      st.symbol_table.map (fun s => s.label) :=
  ⟨foldl_keeps (fun s : AsmState => s.IC) second_pass_entry
      (fun s pl => (second_pass_entry_frame s pl).1) lines st,
    foldl_keeps (fun s : AsmState => s.code_image) second_pass_entry
      (fun s pl => (second_pass_entry_frame s pl).2.1) lines st,
    foldl_keeps (fun s : AsmState => s.symbol_references) second_pass_entry
      (fun s pl => (second_pass_entry_frame s pl).2.2.1) lines st,
    foldl_keeps (fun s : AsmState => s.symbol_table.map (fun x => x.label)) second_pass_entry
      (fun s pl => (second_pass_entry_frame s pl).2.2.2) lines st⟩

/-- What the second pass leaves in the slot of a stored reference whose
label is in the symbol table, for a state with consistent references. -/
theorem second_pass_resolves (st1 : AsmState) (lines : List ParsedLine) (h : RefsOk st1) :
    ∀ r ∈ st1.symbol_references, ∀ s,
      _get_symbol (second_pass st1 lines).symbol_table r.label = some s →
      (r.addrMode = .DIRECT →
        (second_pass st1 lines).code_image (r.IC - MEM_START_ADDRESS) =
          some (.operand
            { value := s.address
              linker_info := if s.loc = .LOC_EXTERNAL then .Linker_E else .Linker_R })) ∧
      (r.addrMode = .RELATIVE →
        (second_pass st1 lines).code_image (r.IC - MEM_START_ADDRESS) =
          some (.operand
            { value := s.address - (r.IC : Int) + 1, linker_info := .Linker_A })) := by
  intro r hr s hs
  obtain ⟨_, h2, h3⟩ := h
  unfold second_pass at hs ⊢
  simp only at hs ⊢
  obtain ⟨e1, e2, e3, _⟩ :=
    entry_loop_frame lines { st1 with line_num := 0, n_errors := 0 }
  generalize lines.foldl second_pass_entry { st1 with line_num := 0, n_errors := 0 } = stE at *
  simp only at e1 e2 e3
  rw [(refs_loop_frame stE.symbol_references stE).1] at hs
  apply refs_loop_resolves stE.symbol_references stE ?_ ?_ r ?_ s hs
  · intro x hx
    rw [e3] at hx
    obtain ⟨ha, _, o, ho⟩ := h2 x hx
    exact ⟨ha, o, by rw [e2]; exact ho⟩
  · rw [e3]
    exact h3
  · rw [e3]
    exact hr

theorem add_symbol_mem (st : AsmState) (label : Str) (type : SymType) (loc : SymLoc) :
    label ∈ (add_symbol st label type loc).2.symbol_table.map (fun s => s.label) := by
  by_cases hp : ∃ s ∈ st.symbol_table, s.label = label
  · rw [add_symbol_present st label type loc hp]
    obtain ⟨s, hs, hl⟩ := hp
    exact List.mem_map.mpr ⟨s, hs, hl⟩
  · have ha : ∀ s ∈ st.symbol_table, s.label ≠ label := fun s hs hl => hp ⟨s, hs, hl⟩
    rw [add_symbol_absent st label type loc ha]
    simp

/-- A record that declares a label leaves it in the symbol table. -/
theorem first_pass_line_declares (st : AsmState) (pl : ParsedLine) (L : Str)
    (h : declares pl L) :
    L ∈ (first_pass_line st pl).symbol_table.map (fun s => s.label) := by
  unfold first_pass_line
  simp only
  rcases h with ⟨hop, hl⟩ | ⟨hop, hd, hl⟩ | ⟨hop, hd, ha⟩
  · rw [if_pos hop, handle_op_symbol_table, hl]
    exact add_symbol_mem _ L _ _
  · rw [hop]
    have hds : pl.directive.isSome = true := by
      rcases hd with hd | hd <;> rw [hd] <;> rfl
    simp only [Option.isSome_none, Bool.false_eq_true, if_false, hds, if_true]
    rw [handle_directive_symbol_table]
    have hc : pl.directive.getD [] = ".data".toList ∨
        pl.directive.getD [] = ".string".toList := by
      rcases hd with hd | hd
      · left
        rw [hd]
        rfl
      · right
        rw [hd]
        rfl
    rw [if_pos hc, hl]
    exact add_symbol_mem _ L _ _
  · rw [hop]
    have hds : pl.directive.isSome = true := by rw [hd]; rfl
    simp only [Option.isSome_none, Bool.false_eq_true, if_false, hds, if_true]
    rw [handle_directive_symbol_table, hd]
    have hc : ¬ ((some ".extern".toList).getD [] = ".data".toList ∨
        (some ".extern".toList).getD [] = ".string".toList) := by decide
    have hc2 : (some ".extern".toList).getD [] = ".extern".toList := rfl
    rw [if_neg hc, if_pos hc2, ha]
    exact add_symbol_mem _ L _ _

/-- Every label declared by a record is in the symbol table after the line
loop of the first pass, wherever the record stands. -/
theorem first_pass_loop_declares (lines : List ParsedLine) :
    ∀ (st : AsmState) (L : Str), (∃ pl ∈ lines, declares pl L) →
      L ∈ (lines.foldl first_pass_line st).symbol_table.map (fun s => s.label) := by
  induction lines with
  | nil =>
    intro st L h
    obtain ⟨pl, hpl, _⟩ := h
    simp at hpl
  | cons pl rest ih =>
    intro st L h
    obtain ⟨pl2, hpl2, hd⟩ := h
    rw [List.foldl_cons]
    rcases List.mem_cons.mp hpl2 with he | hr
    · subst he
      have h1 := first_pass_line_declares st pl2 L hd
      have h2 := first_pass_loop_prefix rest (first_pass_line st pl2)
      obtain ⟨s, hs, hl⟩ := List.mem_map.mp h1
      exact List.mem_map.mpr ⟨s, h2.subset hs, hl⟩
    · exact ih _ L ⟨pl2, hr, hd⟩

/-- Every label declared anywhere in the file is found in the symbol table
the second pass works on. -/
theorem declared_label_found (st0 : AsmState) (lines : List ParsedLine) (L : Str)
    (h : ∃ pl ∈ lines, declares pl L) :
    ∃ s, _get_symbol (second_pass (first_pass st0 lines) lines).symbol_table L = some s := by
  have h1 := first_pass_loop_declares lines { st0 with n_errors := 0, line_num := 0 } L h
  have h2 : L ∈ (first_pass st0 lines).symbol_table.map (fun s => s.label) := by
    unfold first_pass
    rw [shift_labels]
    exact h1
  have h3 : L ∈ (second_pass (first_pass st0 lines) lines).symbol_table.map
      (fun s => s.label) := by
    unfold second_pass
    simp only
    rw [(refs_loop_frame _ _).1, (entry_loop_frame lines _).2.2.2]
    exact h2
  obtain ⟨s, hs, hl⟩ := List.mem_map.mp h3
  have := (get_symbol_isSome_iff _ L).mpr ⟨s, hs, hl⟩
  exact Option.isSome_iff_exists.mp this

/-- C19: in pass 2, for every deferred reference in DIRECT mode whose label
is in the symbol table, `edit_operand` sets the operand word's value to the
symbol's final address and its flag to E if the symbol's location is
EXTERNAL, otherwise to R. Stated for the function itself and for a whole
run: after the two passes, started with the code counter at or above
`MEM_START_ADDRESS` and no stored reference, the slot of every such
reference holds that word. -/
theorem C19_direct_reference_resolved (st0 : AsmState) (lines : List ParsedLine)
    (hic : MEM_START_ADDRESS ≤ st0.IC) (hrefs : st0.symbol_references = []) :
    (∀ r ∈ (first_pass st0 lines).symbol_references, r.addrMode = .DIRECT →
      ∀ s, _get_symbol (second_pass (first_pass st0 lines) lines).symbol_table r.label =
          some s →
        (second_pass (first_pass st0 lines) lines).code_image (r.IC - MEM_START_ADDRESS) =
          some (.operand
            { value := s.address
              linker_info := if s.loc = .LOC_EXTERNAL then .Linker_E else .Linker_R })) ∧
    (∀ (st : AsmState) (ic : Nat) (label : Str) (s : Symbol) (o : Operand),
      _get_symbol st.symbol_table label = some s →
      st.code_image (ic - MEM_START_ADDRESS) = some (.operand o) →
      edit_operand st ic label .DIRECT =
        { st with
          code_image := st.code_image.set (ic - MEM_START_ADDRESS)
            (.operand
              { value := s.address
                linker_info := if s.loc = .LOC_EXTERNAL then .Linker_E else .Linker_R }) }) ∧
    (∀ (st : AsmState) (r : SymbolInfo),
      second_pass_ref st r =
        edit_operand { st with line_num := r.line_num } r.IC r.label r.addrMode) := by
  refine ⟨?_, ?_, fun _ _ => rfl⟩
  · intro r hr hm s hs
    exact (second_pass_resolves (first_pass st0 lines) lines
      (refsok_first_pass st0 lines hic hrefs) r hr s hs).1 hm
  · intro st ic label s o hs ho
    exact edit_operand_found st ic label .DIRECT s o hs ho

/-- Witness of C19: in `prn X` / `X: .data 3` the operand word of `prn`, at
address 101, is resolved to the final address 102 of `X` with flag R. -/
theorem C19_direct_reference_resolved_witness :
    (second_pass
      (first_pass init_state
        [⟨1, none, some "prn".toList, none, 1, ["X".toList]⟩,
         ⟨2, some "X".toList, none, some ".data".toList, 1, ["3".toList]⟩])
      [⟨1, none, some "prn".toList, none, 1, ["X".toList]⟩,
       ⟨2, some "X".toList, none, some ".data".toList, 1, ["3".toList]⟩]).code_image
        (101 - MEM_START_ADDRESS) =
      some (.operand ⟨102, .Linker_R⟩) :=
  (C19_direct_reference_resolved init_state
    [⟨1, none, some "prn".toList, none, 1, ["X".toList]⟩,
     ⟨2, some "X".toList, none, some ".data".toList, 1, ["3".toList]⟩]
    (by decide) rfl).1 ⟨1, 101, "X".toList, .DIRECT⟩ (by decide) rfl
    ⟨"X".toList, 102, .TYPE_DATA, .LOC_UNK⟩ (by decide)

/-- C20: for every program, every RELATIVE reference stored in pass 1 (as
`jmp &LOOP` stores one) to a label declared anywhere in the file, also after
the reference, is resolved in pass 2: the label is found in the symbol
table, so handling the reference records no error, and the operand word, at
address `r.IC`, gets the value (final address of the label - address of the
operand word + 1) with flag A. -/
theorem C20_relative_reference_resolved (st0 : AsmState) (lines : List ParsedLine)
    (hic : MEM_START_ADDRESS ≤ st0.IC) (hrefs : st0.symbol_references = []) :
    ∀ r ∈ (first_pass st0 lines).symbol_references, r.addrMode = .RELATIVE →
      (∃ pl ∈ lines, declares pl r.label) →
      ∃ s, _get_symbol (second_pass (first_pass st0 lines) lines).symbol_table r.label =
          some s ∧
        (second_pass (first_pass st0 lines) lines).code_image (r.IC - MEM_START_ADDRESS) =
          some (.operand
            { value := s.address - (r.IC : Int) + 1, linker_info := .Linker_A }) ∧
        (∀ st : AsmState,
          st.symbol_table = (second_pass (first_pass st0 lines) lines).symbol_table →
          (second_pass_ref st r).n_errors = st.n_errors) := by
  intro r hr hm hdecl
  obtain ⟨s, hs⟩ := declared_label_found st0 lines r.label hdecl
  refine ⟨s, hs, ?_, ?_⟩
  · exact (second_pass_resolves (first_pass st0 lines) lines
      (refsok_first_pass st0 lines hic hrefs) r hr s hs).2 hm
  · intro st hst
    unfold second_pass_ref
    exact edit_operand_found_errors { st with line_num := r.line_num } r.IC r.label r.addrMode
      s (by rw [← hs, ← hst])

/-- Witness of C20: in `jmp &LOOP` / `LOOP: stop` the reference precedes the
declaration; the operand word at address 101 is resolved against `LOOP`. -/
theorem C20_relative_reference_resolved_witness :
    ∃ s, _get_symbol
        (second_pass
          (first_pass init_state
            [⟨1, none, some "jmp".toList, none, 1, ["&LOOP".toList]⟩,
             ⟨2, some "LOOP".toList, some "stop".toList, none, 0, []⟩])
          [⟨1, none, some "jmp".toList, none, 1, ["&LOOP".toList]⟩,
           ⟨2, some "LOOP".toList, some "stop".toList, none, 0, []⟩]).symbol_table
        "LOOP".toList = some s ∧
      (second_pass
        (first_pass init_state
          [⟨1, none, some "jmp".toList, none, 1, ["&LOOP".toList]⟩,
           ⟨2, some "LOOP".toList, some "stop".toList, none, 0, []⟩])
        [⟨1, none, some "jmp".toList, none, 1, ["&LOOP".toList]⟩,
         ⟨2, some "LOOP".toList, some "stop".toList, none, 0, []⟩]).code_image
          (101 - MEM_START_ADDRESS) =
        some (.operand { value := s.address - ((101 : Nat) : Int) + 1,
                         linker_info := .Linker_A }) := by
  obtain ⟨s, h1, h2, _⟩ := C20_relative_reference_resolved init_state
    [⟨1, none, some "jmp".toList, none, 1, ["&LOOP".toList]⟩,
     ⟨2, some "LOOP".toList, some "stop".toList, none, 0, []⟩]
    (by decide) rfl ⟨1, 101, "LOOP".toList, .RELATIVE⟩ (by decide) rfl
    ⟨⟨2, some "LOOP".toList, some "stop".toList, none, 0, []⟩, by decide,
      Or.inl ⟨rfl, rfl⟩⟩
  exact ⟨s, h1, h2⟩

/-! ### Errors counted by the second pass -/

/-- Whether a label is found depends on the labels of the table only. -/
theorem get_symbol_isNone_congr (t t2 : List Symbol) (label : Str)
    (h : t2.map (fun s => s.label) = t.map (fun s => s.label)) :
    (_get_symbol t2 label).isNone = (_get_symbol t label).isNone := by
  have h1 := get_symbol_isSome_iff t label
  have h2 := get_symbol_isSome_iff t2 label
  have hmem : (∃ s ∈ t2, s.label = label) ↔ ∃ s ∈ t, s.label = label := by
    have e1 : (∃ s ∈ t2, s.label = label) ↔ label ∈ t2.map (fun s => s.label) := by
      simp [List.mem_map]
    have e2 : (∃ s ∈ t, s.label = label) ↔ label ∈ t.map (fun s => s.label) := by
      simp [List.mem_map]
    rw [e1, e2, h]
  cases ha : _get_symbol t label <;> cases hb : _get_symbol t2 label <;>
    simp [ha, hb] at h1 h2 ⊢
  · exact absurd (hmem.mp h2) (by simpa using h1)
  · exact absurd (hmem.mpr h1) (by simpa using h2)

theorem edit_operand_absent (st : AsmState) (ic : Nat) (label : Str) (mode : AddrMode)
    (h : _get_symbol st.symbol_table label = none) :
    edit_operand st ic label mode = { st with n_errors := st.n_errors + 1 } := by
  unfold edit_operand lookup_symbol
  simp only [h]

/-- The error counter after one round of the reference loop. -/
theorem second_pass_ref_errors (st : AsmState) (r : SymbolInfo) :
    (second_pass_ref st r).n_errors =
      st.n_errors + if (_get_symbol st.symbol_table r.label).isNone then 1 else 0 := by
  unfold second_pass_ref
  cases h : _get_symbol st.symbol_table r.label with
  | none =>
    rw [edit_operand_absent { st with line_num := r.line_num } r.IC r.label r.addrMode h]
    simp
  | some s =>
    rw [edit_operand_found_errors { st with line_num := r.line_num } r.IC r.label r.addrMode
      s h]
    simp

/-- The reference loop counts one error for each reference whose label is
not in the table. -/
theorem refs_loop_errors (l : List SymbolInfo) :
    ∀ st : AsmState,
      (l.foldl second_pass_ref st).n_errors =
        st.n_errors +
          ((l.filter (fun r => (_get_symbol st.symbol_table r.label).isNone)).length : Int) := by
  induction l with
  | nil =>
    intro st
    simp
  | cons a rest ih =>
    intro st
    rw [List.foldl_cons, ih, second_pass_ref_errors]
    have ht : (second_pass_ref st a).symbol_table = st.symbol_table :=
      (edit_operand_frame { st with line_num := a.line_num } a.IC a.label a.addrMode).1
    rw [ht, List.filter_cons]
    by_cases hc : (_get_symbol st.symbol_table a.label).isNone = true
    · simp only [hc, if_true, List.length_cons]
      push_cast
      omega
    · simp only [hc, if_false, Bool.false_eq_true]
      omega

/-- The error counter after one round of the `.entry` loop. -/
theorem second_pass_entry_errors (st : AsmState) (pl : ParsedLine) :
    (second_pass_entry st pl).n_errors =
      st.n_errors +
        if (decide (pl.directive = some ".entry".toList) &&
            (_get_symbol st.symbol_table (pl.args.getD 0 [])).isNone) = true then 1 else 0 := by
  unfold second_pass_entry
  simp only
  by_cases hd : pl.directive = some ".entry".toList
  · rw [if_pos hd]
    cases h : _get_symbol st.symbol_table (pl.args.getD 0 []) with
    | none =>
      rw [update_entry_symbol_absent { st with line_num := pl.line_num } _ h]
      simp [hd]
    | some s =>
      rw [update_entry_symbol_present { st with line_num := pl.line_num } _ s h]
      simp [hd]
  · rw [if_neg hd, decide_eq_false hd]
    simp

/-- The `.entry` loop counts one error for each `.entry` record whose
argument is not in the table. -/
theorem entry_loop_errors (lines : List ParsedLine) :
    ∀ st : AsmState,
      (lines.foldl second_pass_entry st).n_errors =
        st.n_errors + ((unresolved_entries st lines).length : Int) := by
  induction lines with
  | nil =>
    intro st
    simp [unresolved_entries]
  | cons pl rest ih =>
    intro st
    rw [List.foldl_cons, ih, second_pass_entry_errors]
    have hl := (second_pass_entry_frame st pl).2.2.2
    have hf : unresolved_entries (second_pass_entry st pl) rest = unresolved_entries st rest := by
      unfold unresolved_entries
      apply List.filter_congr
      intro x _
      rw [get_symbol_isNone_congr _ _ _ hl]
    rw [hf]
    unfold unresolved_entries
    rw [List.filter_cons]
    by_cases hc : (decide (pl.directive = some ".entry".toList) &&
        (_get_symbol st.symbol_table (pl.args.getD 0 [])).isNone) = true
    · simp only [hc, if_true, List.length_cons]
      push_cast
      omega
    · simp only [hc, if_false, Bool.false_eq_true]
      omega

/-- The error counter after the second pass: one error for each `.entry`
record and each stored reference whose label is not in the table. -/
theorem second_pass_errors (st : AsmState) (lines : List ParsedLine) :
    (second_pass st lines).n_errors =
      ((unresolved_entries st lines).length : Int) + ((unresolved_refs st).length : Int) := by
  unfold second_pass
  simp only
  rw [refs_loop_errors, entry_loop_errors]
  obtain ⟨_, _, e3, e4⟩ := entry_loop_frame lines { st with line_num := 0, n_errors := 0 }
  rw [e3]
  have hf : (List.filter (fun r : SymbolInfo =>
        (_get_symbol (lines.foldl second_pass_entry
          { st with line_num := 0, n_errors := 0 }).symbol_table r.label).isNone)
        st.symbol_references) = unresolved_refs st := by
    unfold unresolved_refs
    apply List.filter_congr
    intro x _
    rw [get_symbol_isNone_congr _ _ _ e4]
  simp only at hf ⊢
  rw [hf]
  have hu : unresolved_entries { st with line_num := 0, n_errors := 0 } lines =
      unresolved_entries st lines := rfl
  rw [hu]
  omega
/-- C21 as stated does not hold: the two-line source `jmp X`, `jmp X`, in
which `X` is declared nowhere, passes validation and the first pass without
an error, and the second pass ends with the error counter at 2, one
"unrecognized symbol" error for each of the two references. So it is not the
case that every program with an unresolved reference ends the second pass
with exactly one error. -/
theorem C21_two_references_two_errors :
    main_file (fun _ => true) "prog".toList ["jmp X\n".toList, "jmp X\n".toList] =
      some { n_errors := 2, output := none } ∧
    fgets_loop main_parse_step ⟨0, 0, []⟩ ["jmp X\n".toList, "jmp X\n".toList] =
      some ⟨0, 2, [⟨1, none, some "jmp".toList, none, 1, ["X".toList]⟩,
                   ⟨2, none, some "jmp".toList, none, 1, ["X".toList]⟩]⟩ ∧
    (first_pass init_state
      [⟨1, none, some "jmp".toList, none, 1, ["X".toList]⟩,
       ⟨2, none, some "jmp".toList, none, 1, ["X".toList]⟩]).n_errors = 0 ∧
    (second_pass
      (first_pass init_state
        [⟨1, none, some "jmp".toList, none, 1, ["X".toList]⟩,
         ⟨2, none, some "jmp".toList, none, 1, ["X".toList]⟩])
      [⟨1, none, some "jmp".toList, none, 1, ["X".toList]⟩,
       ⟨2, none, some "jmp".toList, none, 1, ["X".toList]⟩]).n_errors = 2 ∧
    ¬ (∀ lines : List ParsedLine,
        (first_pass init_state lines).n_errors = 0 →
        unresolved_refs (first_pass init_state lines) ≠ [] →
        (second_pass (first_pass init_state lines) lines).n_errors = 1) := by
  refine ⟨by decide, by decide, by decide, by decide, ?_⟩
  intro h
  exact absurd (h [⟨1, none, some "jmp".toList, none, 1, ["X".toList]⟩,
      ⟨2, none, some "jmp".toList, none, 1, ["X".toList]⟩] (by decide) (by decide))
    (by decide)

/-- C21 (amended): for every program whose first pass ends without an error
and leaves a deferred reference to a label that is not in the symbol table,
the second pass ends with one "unrecognized symbol" error counted for each
such reference and one for each `.entry` record naming a label that is not in
the table, so with at least one error; `main` then does not call
`create_output_files`, and moves on with that error count. -/
theorem C21_unresolved_references_counted (fopen : Str → Bool) (output_path : Str)
    (st0 : AsmState) (lines : List ParsedLine)
    (h1 : (first_pass st0 lines).n_errors = 0)
    (h : unresolved_refs (first_pass st0 lines) ≠ []) :
    (second_pass (first_pass st0 lines) lines).n_errors =
      ((unresolved_entries (first_pass st0 lines) lines).length : Int) +
        ((unresolved_refs (first_pass st0 lines)).length : Int) ∧
    1 ≤ (second_pass (first_pass st0 lines) lines).n_errors ∧
    (main_passes fopen output_path st0 lines).output = none ∧
    (main_passes fopen output_path st0 lines).n_errors =
      (second_pass (first_pass st0 lines) lines).n_errors := by
  have he := second_pass_errors (first_pass st0 lines) lines
  have hpos : 0 < (unresolved_refs (first_pass st0 lines)).length :=
    List.length_pos.mpr h
  have hge : 1 ≤ (second_pass (first_pass st0 lines) lines).n_errors := by
    rw [he]
    omega
  refine ⟨he, hge, ?_, ?_⟩
  · unfold main_passes
    simp only [h1, ne_eq, not_true_eq_false, if_false]
    rw [if_neg (by omega)]
  · unfold main_passes
    simp only [h1, ne_eq, not_true_eq_false, if_false]
    rw [if_neg (by omega)]

/-- Witness of C21 (amended): `mov X, Y` with neither label declared: two
errors, no output. -/
theorem C21_unresolved_references_counted_witness :
    (second_pass
      (first_pass init_state [⟨1, none, some "mov".toList, none, 2, ["X".toList, "Y".toList]⟩])
      [⟨1, none, some "mov".toList, none, 2, ["X".toList, "Y".toList]⟩]).n_errors = 2 ∧
    (main_passes (fun _ => true) "prog".toList init_state
      [⟨1, none, some "mov".toList, none, 2, ["X".toList, "Y".toList]⟩]).output = none := by
  have h := C21_unresolved_references_counted (fun _ => true) "prog".toList init_state
    [⟨1, none, some "mov".toList, none, 2, ["X".toList, "Y".toList]⟩] (by decide) (by decide)
  refine ⟨?_, h.2.2.1⟩
  rw [h.1]
  decide

/-! ### Flags of the words of the code image -/

theorem wordsok_of_eq (st st2 : AsmState) (h1 : st2.IC = st.IC)
    (h2 : st2.code_image = st.code_image)
    (h3 : st2.symbol_references = st.symbol_references) (h : WordsOk st) : WordsOk st2 := by
  unfold WordsOk at h ⊢
  rw [h1, h2, h3]
  exact h

/-- Writing a word with its flag in order at the code counter, the stored
references growing, keeps the flags in order. -/
theorem wordsok_write (st : AsmState) (w : Code) (refs : List SymbolInfo) (h : WordsOk st)
    (hsub : ∀ r ∈ st.symbol_references, r ∈ refs)
    (hmode : ∀ r ∈ refs, r.addrMode = .DIRECT ∨ r.addrMode = .RELATIVE)
    (hw : (∃ i, w = .instruction i ∧ i.linker_info = .Linker_A) ∨
      (∃ o, w = .operand o ∧ (o.linker_info = .Linker_A ∨ ∃ r ∈ refs, r.IC = st.IC))) :
    WordsOk { st with
      code_image := st.code_image.set (st.IC - MEM_START_ADDRESS) w
      IC := st.IC + 1
      symbol_references := refs } := by
  obtain ⟨h1, _, h3⟩ := h
  refine ⟨by simp only; omega, hmode, ?_⟩
  intro k hk
  simp only at hk ⊢
  by_cases hkk : k = st.IC - MEM_START_ADDRESS
  · simp only [Arr.set, hkk, if_true]
    rcases hw with ⟨i, hi, hA⟩ | ⟨o, ho, hA⟩
    · exact Or.inl ⟨i, by rw [hi], hA⟩
    · refine Or.inr ⟨o, by rw [ho], ?_⟩
      rcases hA with hA | ⟨r, hr, hrIC⟩
      · exact Or.inl hA
      · exact Or.inr ⟨r, hr, by omega⟩
  · simp only [Arr.set, if_neg hkk]
    rcases h3 k (by omega) with hi | ⟨o, ho, hA⟩
    · exact Or.inl hi
    · refine Or.inr ⟨o, ho, ?_⟩
      rcases hA with hA | ⟨r, hr, hrIC⟩
      · exact Or.inl hA
      · exact Or.inr ⟨r, hsub r hr, hrIC⟩

theorem wordsok_handle_operand (st : AsmState) (arg : Str) (m : AddrMode) (h : WordsOk st) :
    WordsOk (handle_operand st arg m) := by
  cases m
  · exact wordsok_write st _ st.symbol_references h (fun _ hr => hr) h.2.1
      (Or.inr ⟨_, rfl, Or.inl rfl⟩)
  · refine wordsok_write st _ _ h (fun r hr => List.mem_append_left _ hr) ?_
      (Or.inr ⟨_, rfl, Or.inr ⟨_, List.mem_append_right _ (List.mem_singleton.mpr rfl), rfl⟩⟩)
    intro r hr
    rcases List.mem_append.mp hr with hr | hr
    · exact h.2.1 r hr
    · rw [List.mem_singleton.mp hr]
      exact Or.inl rfl
  · refine wordsok_write st _ _ h (fun r hr => List.mem_append_left _ hr) ?_
      (Or.inr ⟨_, rfl, Or.inr ⟨_, List.mem_append_right _ (List.mem_singleton.mpr rfl), rfl⟩⟩)
    intro r hr
    rcases List.mem_append.mp hr with hr | hr
    · exact h.2.1 r hr
    · rw [List.mem_singleton.mp hr]
      exact Or.inr rfl
  · exact h

theorem wordsok_handle_op (st : AsmState) (pl : ParsedLine) (h : WordsOk st) :
    WordsOk (handle_op st pl) := by
  unfold handle_op
  simp only
  obtain ⟨e1, _, e3, _, e5, _⟩ := add_label_symbol_frame st pl.label .TYPE_CODE
  have h1 : WordsOk (add_label_symbol st pl.label .TYPE_CODE) := wordsok_of_eq st _ e1 e3 e5 h
  cases get_op (pl.op.getD []) with
  | none => exact h1
  | some op =>
    simp only
    have h2 : WordsOk (add_instruction (add_label_symbol st pl.label .TYPE_CODE) op.opcode
        (op_arg_loop pl.args.length OpArgs.init 0 pl.args).addr_mod_1
        (op_arg_loop pl.args.length OpArgs.init 0 pl.args).reg_1
        (op_arg_loop pl.args.length OpArgs.init 0 pl.args).addr_mod_2
        (op_arg_loop pl.args.length OpArgs.init 0 pl.args).reg_2 op.funct) :=
      wordsok_write _ _ _ h1 (fun _ hr => hr) h1.2.1 (Or.inl ⟨_, rfl, rfl⟩)
    cases (op_arg_loop pl.args.length OpArgs.init 0 pl.args).arg_1 with
    | none =>
      cases (op_arg_loop pl.args.length OpArgs.init 0 pl.args).arg_2 with
      | none => exact h2
      | some a2 => exact wordsok_handle_operand _ a2 _ h2
    | some a1 =>
      have h3 := wordsok_handle_operand _ a1
        (op_arg_loop pl.args.length OpArgs.init 0 pl.args).addr_mod_1 h2
      cases (op_arg_loop pl.args.length OpArgs.init 0 pl.args).arg_2 with
      | none => exact h3
      | some a2 => exact wordsok_handle_operand _ a2 _ h3

theorem wordsok_first_pass_line (st : AsmState) (pl : ParsedLine) (h : WordsOk st) :
    WordsOk (first_pass_line st pl) := by
  have h0 : WordsOk { st with line_num := pl.line_num } := wordsok_of_eq st _ rfl rfl rfl h
  unfold first_pass_line
  simp only
  split
  · exact wordsok_handle_op _ pl h0
  · split
    · obtain ⟨h1, h2, h3⟩ := handle_directive_frame { st with line_num := pl.line_num } pl
      exact wordsok_of_eq _ _ h1 h2 h3 h0
    · exact h0

/-- After the first pass, started with the code counter at
`MEM_START_ADDRESS` and no stored reference, the flags of the written words
are in order. -/
theorem wordsok_first_pass (st : AsmState) (lines : List ParsedLine)
    (hic : st.IC = MEM_START_ADDRESS) (hrefs : st.symbol_references = []) :
    WordsOk (first_pass st lines) := by
  have h0 : WordsOk { st with n_errors := 0, line_num := 0 } := by
    refine ⟨by simp only [hic]; exact Nat.le_refl _, ?_, ?_⟩
    · intro r hr
      simp only [hrefs, List.not_mem_nil] at hr
    · intro k hk
      simp only [hic, Nat.sub_self, Nat.not_lt_zero] at hk
  have hloop : ∀ (l : List ParsedLine) (s : AsmState), WordsOk s →
      WordsOk (l.foldl first_pass_line s) := by
    intro l
    induction l with
    | nil =>
      intro s hs
      exact hs
    | cons pl rest ih =>
      intro s hs
      exact ih _ (wordsok_first_pass_line s pl hs)
  unfold first_pass
  exact wordsok_of_eq _ _ rfl rfl rfl (hloop lines _ h0)

/-- The second pass leaves alone every slot that no stored reference
addresses. -/
theorem second_pass_other (st : AsmState) (lines : List ParsedLine) (j : Nat)
    (h : ∀ r ∈ st.symbol_references, r.IC - MEM_START_ADDRESS ≠ j) :
    (second_pass st lines).code_image j = st.code_image j := by
  unfold second_pass
  simp only
  obtain ⟨_, e2, e3, _⟩ := entry_loop_frame lines { st with line_num := 0, n_errors := 0 }
  rw [refs_loop_other _ _ j (by rw [e3]; exact h), e2]

theorem second_pass_frame (st : AsmState) (lines : List ParsedLine) :
    (second_pass st lines).IC = st.IC ∧
    (second_pass st lines).symbol_references = st.symbol_references ∧
    (second_pass st lines).symbol_table.map (fun s => s.label) =
      st.symbol_table.map (fun s => s.label) := by
  unfold second_pass
  simp only
  obtain ⟨e1, _, e3, e4⟩ := entry_loop_frame lines { st with line_num := 0, n_errors := 0 }
  obtain ⟨f1, f2, f3⟩ := refs_loop_frame
    (lines.foldl second_pass_entry { st with line_num := 0, n_errors := 0 }).symbol_references
    (lines.foldl second_pass_entry { st with line_num := 0, n_errors := 0 })
  exact ⟨by rw [f2, e1], by rw [f3, e3], by rw [f1, e4]⟩
/-- C22: for every sequence of line records, if the second pass run after
the first pass (started as `init_code_image` and `init_symbol_refs` leave the
state: code counter at `MEM_START_ADDRESS`, no stored reference) ends with
the error counter at zero, then every word of the code image below the code
counter is an instruction word with flag A or an operand word with flag A, R
or E: none carries the Unknown flag. -/
theorem C22_no_unknown_flag (st0 : AsmState) (lines : List ParsedLine)
    (hic : st0.IC = MEM_START_ADDRESS) (hrefs : st0.symbol_references = [])
    (herr : (second_pass (first_pass st0 lines) lines).n_errors = 0) :
    ∀ k, k < (second_pass (first_pass st0 lines) lines).IC - MEM_START_ADDRESS →
      (∃ i, (second_pass (first_pass st0 lines) lines).code_image k = some (.instruction i) ∧
        i.linker_info = .Linker_A) ∨
      (∃ o, (second_pass (first_pass st0 lines) lines).code_image k = some (.operand o) ∧
        (o.linker_info = .Linker_A ∨ o.linker_info = .Linker_R ∨
          o.linker_info = .Linker_E)) := by
  intro k hk
  have hw := wordsok_first_pass st0 lines hic hrefs
  have hr := refsok_first_pass st0 lines (by rw [hic]) hrefs
  obtain ⟨f1, f2, f3⟩ := second_pass_frame (first_pass st0 lines) lines
  rw [f1] at hk
  have he := second_pass_errors (first_pass st0 lines) lines
  rw [herr] at he
  have hnone : unresolved_refs (first_pass st0 lines) = [] := by
    apply List.eq_nil_of_length_eq_zero
    omega
  by_cases hex : ∃ r ∈ (first_pass st0 lines).symbol_references,
      r.IC - MEM_START_ADDRESS = k
  · obtain ⟨r, hrm, hrk⟩ := hex
    have hfound : (_get_symbol (first_pass st0 lines).symbol_table r.label).isNone = false := by
      cases hc : (_get_symbol (first_pass st0 lines).symbol_table r.label).isNone with
      | false => rfl
      | true =>
        have : r ∈ unresolved_refs (first_pass st0 lines) := by
          unfold unresolved_refs
          exact List.mem_filter.mpr ⟨hrm, hc⟩
        rw [hnone] at this
        simp at this
    have hfound2 :
        (_get_symbol (second_pass (first_pass st0 lines) lines).symbol_table r.label).isNone =
          false := by
      rw [get_symbol_isNone_congr _ _ _ f3]
      exact hfound
    cases hs : _get_symbol (second_pass (first_pass st0 lines) lines).symbol_table r.label with
    | none => simp [hs] at hfound2
    | some s =>
      have hres := second_pass_resolves (first_pass st0 lines) lines hr r hrm s hs
      rw [hrk] at hres
      rcases hw.2.1 r hrm with hm | hm
      · refine Or.inr ⟨_, hres.1 hm, ?_⟩
        by_cases hl : s.loc = .LOC_EXTERNAL
        · simp [hl]
        · simp [hl]
      · exact Or.inr ⟨_, hres.2 hm, Or.inl rfl⟩
  · have hno : ∀ r ∈ (first_pass st0 lines).symbol_references,
        r.IC - MEM_START_ADDRESS ≠ k := fun r hrm hrk => hex ⟨r, hrm, hrk⟩
    rw [second_pass_other _ _ k hno]
    rcases hw.2.2 k hk with hi | ⟨o, ho, hA⟩
    · exact Or.inl hi
    · rcases hA with hA | ⟨r, hrm, hrIC⟩
      · exact Or.inr ⟨o, ho, Or.inl hA⟩
      · exact absurd (by omega) (hno r hrm)

/-- Witness of C22: `.extern X`, `A: prn X`, `jmp &A`, `prn A` assemble
without an error; the word at address 101, the operand of the first `prn`,
is an operand word with flag A, R or E (it is E). -/
theorem C22_no_unknown_flag_witness :
    (∃ i, (second_pass (first_pass init_state example_flags) example_flags).code_image 1 =
        some (.instruction i) ∧ i.linker_info = .Linker_A) ∨
    (∃ o, (second_pass (first_pass init_state example_flags) example_flags).code_image 1 =
        some (.operand o) ∧
      (o.linker_info = .Linker_A ∨ o.linker_info = .Linker_R ∨
        o.linker_info = .Linker_E)) :=
  C22_no_unknown_flag init_state example_flags rfl rfl (by decide) 1 (by decide)

/-! ### Assembling small sources -/

/-- C23 as stated does not hold: assembling `MAIN: mov #5, r1` then
`ADD: add r1, r1` leaves the symbol `ADD` at address 102, so no symbol `ADD`
is at address 101: address 101 holds the operand word of `#5`. -/
theorem C23_second_label_not_at_101 :
    fgets_loop main_parse_step ⟨0, 0, []⟩ example_two_ops =
      some ⟨0, 2, example_two_ops_parsed⟩ ∧
    _get_symbol
      (second_pass (first_pass init_state example_two_ops_parsed)
        example_two_ops_parsed).symbol_table "ADD".toList =
      some ⟨"ADD".toList, 102, .TYPE_CODE, .LOC_UNK⟩ ∧
    ¬ (∃ s ∈ (second_pass (first_pass init_state example_two_ops_parsed)
          example_two_ops_parsed).symbol_table,
        s.label = "ADD".toList ∧ s.address = 101) ∧
    (second_pass (first_pass init_state example_two_ops_parsed)
      example_two_ops_parsed).code_image (101 - MEM_START_ADDRESS) =
        some (.operand ⟨5, .Linker_A⟩) := by
  refine ⟨by decide, by decide, by decide, by decide⟩

/-- C23 (amended): assembling the two-line source `MAIN: mov #5, r1` then
`ADD: add r1, r1` passes validation and both passes without an error and
produces exactly three code words: the instruction word of `mov` at address
100, the operand word of `#5` (value 5, flag A) at 101 and the instruction
word of `add` at 102; no data word and no deferred reference; the symbol
`MAIN` at address 100 and the symbol `ADD` at address 102, both of type CODE.
The object file holds the three encoded words at addresses 100, 101, 102. -/
theorem C23_two_line_program :
    fgets_loop main_parse_step ⟨0, 0, []⟩ example_two_ops =
      some ⟨0, 2, example_two_ops_parsed⟩ ∧
    (first_pass init_state example_two_ops_parsed).n_errors = 0 ∧
    (second_pass (first_pass init_state example_two_ops_parsed)
      example_two_ops_parsed).n_errors = 0 ∧
    code_words (second_pass (first_pass init_state example_two_ops_parsed)
      example_two_ops_parsed) =
      [some (.instruction ⟨0, .IMMEDIATE, 0, .REGISTER, 1, 0, .Linker_A⟩),
       some (.operand ⟨5, .Linker_A⟩),
       some (.instruction ⟨2, .REGISTER, 1, .REGISTER, 1, 1, .Linker_A⟩)] ∧
    (second_pass (first_pass init_state example_two_ops_parsed)
      example_two_ops_parsed).IC = 103 ∧
    (second_pass (first_pass init_state example_two_ops_parsed)
      example_two_ops_parsed).DC = 0 ∧
    (second_pass (first_pass init_state example_two_ops_parsed)
      example_two_ops_parsed).symbol_references = [] ∧
    (second_pass (first_pass init_state example_two_ops_parsed)
      example_two_ops_parsed).symbol_table =
      [⟨"MAIN".toList, 100, .TYPE_CODE, .LOC_UNK⟩, ⟨"ADD".toList, 102, .TYPE_CODE, .LOC_UNK⟩] ∧
    main_file (fun _ => true) "prog".toList example_two_ops =
      some { n_errors := 0
             output := some
               { ob := some { n_code := 3, n_data := 0,
                              lines := [⟨100, some 6404⟩, ⟨101, some 44⟩,
                                ⟨102, some 735500⟩] }
                 ext := some []
                 ent := some [] } } := by
  refine ⟨by decide, by decide, by decide, by decide, by decide, by decide, by decide,
    by decide, by decide⟩

/-! ### Data words -/

theorem data_words_add_data (st : AsmState) (v : Int) :
    data_words (add_data st v) = data_words st ++ [some v] := by
  unfold data_words add_data
  simp only [List.range_succ, List.map_append, List.map_cons, List.map_nil, Arr.set, if_true]
  congr 1
  apply List.map_congr_left
  intro i hi
  rw [List.mem_range] at hi
  simp only [Arr.set]
  rw [if_neg (by omega)]

/-- A loop of `add_data` calls appends its values in order and changes only
the data image and the data counter. -/
theorem add_data_loop {α : Type} (f : α → Int) (l : List α) :
    ∀ st : AsmState,
      data_words (l.foldl (fun s x => add_data s (f x)) st) =
        data_words st ++ l.map (fun x => some (f x)) ∧
      (l.foldl (fun s x => add_data s (f x)) st).DC = st.DC + l.length ∧
      (l.foldl (fun s x => add_data s (f x)) st).symbol_table = st.symbol_table ∧
      (l.foldl (fun s x => add_data s (f x)) st).n_errors = st.n_errors := by
  induction l with
  | nil =>
    intro st
    simp
  | cons a rest ih =>
    intro st
    obtain ⟨h1, h2, h3, h4⟩ := ih (add_data st (f a))
    rw [List.foldl_cons]
    refine ⟨?_, ?_, ?_, ?_⟩
    · rw [h1, data_words_add_data]
      simp
    · rw [h2]
      simp only [add_data, List.length_cons]
      omega
    · rw [h3]
      rfl
    · rw [h4]
      rfl
/-- C24 as stated does not hold for an argument outside the range of an
`int`: the line `.data 4294967301` passes validation, and the first pass
stores for it the data word 5, where 4294967301 = 2^32 + 5 is the number the
argument writes. So it is not the case that the data words of every
validated `.data` line hold its arguments. -/
theorem C24_data_value_out_of_int_range :
    parse_line 1 ".data 4294967301\n".toList 0 =
      some (some ⟨1, none, none, some ".data".toList, 1, ["4294967301".toList]⟩, 0) ∧
    signed_decimal "4294967301".toList = 4294967301 ∧
    data_words (first_pass init_state
      [⟨1, none, none, some ".data".toList, 1, ["4294967301".toList]⟩]) = [some 5] ∧
    (first_pass init_state
      [⟨1, none, none, some ".data".toList, 1, ["4294967301".toList]⟩]).n_errors = 0 ∧
    ¬ (∀ (st : AsmState) (pl : ParsedLine),
        pl.op = none → pl.directive = some ".data".toList → pl.label = none →
        (∀ a ∈ pl.args, is_integer a 0 = true) →
        data_words (first_pass_line st pl) =
          data_words st ++ pl.args.map (fun a => some (signed_decimal a))) := by
  refine ⟨by decide, by decide, by decide, by decide, ?_⟩
  intro h
  have h1 := h init_state ⟨1, none, none, some ".data".toList, 1, ["4294967301".toList]⟩
    rfl rfl rfl (by decide)
  revert h1
  decide

/-- C24 (amended): for every unlabelled `.data` record whose arguments pass
`is_integer`, the round of the first pass for it appends to the data image
exactly one word for each argument, in order, holding the number the argument
writes wrapped to 32 bits (the number itself when it fits an `int`,
`-2^31 ≤ a < 2^31`), advances the data counter by the number of arguments
and leaves the symbol table, the code counter and the error counter
unchanged. For the source line `.data 3, -1, 7`
the three words are 3, -1, 7, no symbol is created, and the object file holds
them as 0x000003, 0xFFFFFF and 0x000007 at addresses 100, 101, 102. -/
theorem C24_data_line_words :
    (∀ (st : AsmState) (pl : ParsedLine),
      pl.op = none → pl.directive = some ".data".toList → pl.label = none →
      (∀ a ∈ pl.args, is_integer a 0 = true) →
      data_words (first_pass_line st pl) =
        data_words st ++ pl.args.map (fun a => some (wrap32 (signed_decimal a))) ∧
      (∀ a ∈ pl.args, -2147483648 ≤ signed_decimal a → signed_decimal a < 2147483648 →
        wrap32 (signed_decimal a) = signed_decimal a) ∧
      (first_pass_line st pl).DC = st.DC + pl.args.length ∧
      (first_pass_line st pl).symbol_table = st.symbol_table ∧
      (first_pass_line st pl).IC = st.IC ∧
      (first_pass_line st pl).n_errors = st.n_errors) ∧
    (fgets_loop main_parse_step ⟨0, 0, []⟩ [".data 3, -1, 7\n".toList] =
        some ⟨0, 1, [⟨1, none, none, some ".data".toList, 3,
          ["3".toList, "-1".toList, "7".toList]⟩]⟩ ∧
      data_words (first_pass init_state
        [⟨1, none, none, some ".data".toList, 3, ["3".toList, "-1".toList, "7".toList]⟩]) =
        [some 3, some (-1), some 7] ∧
      (first_pass init_state
        [⟨1, none, none, some ".data".toList, 3,
          ["3".toList, "-1".toList, "7".toList]⟩]).symbol_table = [] ∧
      main_file (fun _ => true) "prog".toList [".data 3, -1, 7\n".toList] =
        some { n_errors := 0
               output := some
                 { ob := some { n_code := 0, n_data := 3,
                                lines := [⟨100, some 0x000003⟩, ⟨101, some 0xFFFFFF⟩,
                                          ⟨102, some 0x000007⟩] }
                   ext := some []
                   ent := some [] } }) := by
  refine ⟨?_, by decide, by decide, by decide, by decide⟩
  intro st pl hop hd hl hint
  have hstep : first_pass_line st pl =
      pl.args.foldl (fun s arg => add_data s (get_int_value arg 0))
        { st with line_num := pl.line_num } := by
    unfold first_pass_line handle_directive add_label_symbol
    simp [hop, hd, hl]
  rw [hstep]
  obtain ⟨h1, h2, h3, h4⟩ :=
    add_data_loop (fun arg => get_int_value arg 0) pl.args { st with line_num := pl.line_num }
  refine ⟨?_, ?_, h2, h3, ?_, h4⟩
  · rw [h1]
    congr 1
    apply List.map_congr_left
    intro a ha
    have := get_int_value_eq a 0 (hint a ha)
    simp only [List.drop_zero] at this
    rw [this]
  · intro a _ hlo hhi
    exact wrap32_of_range _ hlo hhi
  · exact foldl_keeps (fun s : AsmState => s.IC)
      (fun s arg => add_data s (get_int_value arg 0)) (fun _ _ => rfl) _ _

/-- Witness of C24: the record of `.data 3, -1, 7` at data counter 0. -/
theorem C24_data_line_words_witness :
    data_words (first_pass_line init_state
      ⟨1, none, none, some ".data".toList, 3, ["3".toList, "-1".toList, "7".toList]⟩) =
      [some 3, some (-1), some 7] := by
  have h := (C24_data_line_words.1 init_state
    ⟨1, none, none, some ".data".toList, 3, ["3".toList, "-1".toList, "7".toList]⟩
    rfl rfl rfl (by decide)).1
  rw [h]
  decide

theorem add_data_frame (st : AsmState) (v : Int) :
    (add_data st v).DC = st.DC + 1 ∧ (add_data st v).IC = st.IC ∧
    (add_data st v).symbol_table = st.symbol_table ∧
    (add_data st v).n_errors = st.n_errors :=
  ⟨rfl, rfl, rfl, rfl⟩

/-- C25 as stated does not hold for a label that is already declared: the
source `STR: stop`, `STR: .string "hi"` passes validation, and the first pass
leaves `STR` as the CODE symbol of the first line at address 100: the second
line adds no symbol of type DATA, counts one error, and still appends its
three data words. -/
theorem C25_redeclared_label_not_added :
    fgets_loop main_parse_step ⟨0, 0, []⟩
        ["STR: stop\n".toList, "STR: .string \"hi\"\n".toList] =
      some ⟨0, 2, [⟨1, some "STR".toList, some "stop".toList, none, 0, []⟩,
        ⟨2, some "STR".toList, none, some ".string".toList, 1, ["\"hi\"".toList]⟩]⟩ ∧
    (first_pass init_state
      [⟨1, some "STR".toList, some "stop".toList, none, 0, []⟩,
       ⟨2, some "STR".toList, none, some ".string".toList, 1,
        ["\"hi\"".toList]⟩]).symbol_table =
      [⟨"STR".toList, 100, .TYPE_CODE, .LOC_UNK⟩] ∧
    ¬ (∃ s ∈ (first_pass init_state
        [⟨1, some "STR".toList, some "stop".toList, none, 0, []⟩,
         ⟨2, some "STR".toList, none, some ".string".toList, 1,
          ["\"hi\"".toList]⟩]).symbol_table,
      s.label = "STR".toList ∧ s.type = .TYPE_DATA) ∧
    (first_pass init_state
      [⟨1, some "STR".toList, some "stop".toList, none, 0, []⟩,
       ⟨2, some "STR".toList, none, some ".string".toList, 1,
        ["\"hi\"".toList]⟩]).n_errors = 1 ∧
    data_words (first_pass init_state
      [⟨1, some "STR".toList, some "stop".toList, none, 0, []⟩,
       ⟨2, some "STR".toList, none, some ".string".toList, 1, ["\"hi\"".toList]⟩]) =
      [some 104, some 105, some 0] := by
  refine ⟨by decide, by decide, by decide, by decide, by decide⟩

/-- C25 (amended): for every record `L: .string "c1...cn"` (n ≥ 0), the round
of the first pass for it appends to the data image exactly n + 1 words, the
character codes of c1..cn in order followed by a terminating 0, and advances
the data counter by n + 1. If `L` is not yet in the symbol table, it appends
the symbol `L` with type DATA, location unknown and, as address, the value
the data counter held before the line, and counts no error; if `L` is already
in the table, the table is unchanged and one error is counted. For the source
line `STR: .string "hi"` the words are 104, 105, 0 and `STR` is added at data
counter 0 (address 100 after the shift that ends the first pass). -/
theorem C25_string_line_words (st : AsmState) (pl : ParsedLine) (L : Str) (cs : Str)
    (hop : pl.op = none) (hd : pl.directive = some ".string".toList)
    (hl : pl.label = some L) (ha : pl.args = [('"' :: cs) ++ ['"']]) :
    data_words (first_pass_line st pl) =
      data_words st ++ cs.map (fun c => some (c.toNat : Int)) ++ [some 0] ∧
    (first_pass_line st pl).DC = st.DC + cs.length + 1 ∧
    (first_pass_line st pl).IC = st.IC ∧
    (_get_symbol st.symbol_table L = none →
      (first_pass_line st pl).symbol_table =
        st.symbol_table ++ [⟨L, (st.DC : Int), .TYPE_DATA, .LOC_UNK⟩] ∧
      (first_pass_line st pl).n_errors = st.n_errors) ∧
    ((_get_symbol st.symbol_table L).isSome = true →
      (first_pass_line st pl).symbol_table = st.symbol_table ∧
      (first_pass_line st pl).n_errors = st.n_errors + 1) ∧
    (fgets_loop main_parse_step ⟨0, 0, []⟩ ["STR: .string \"hi\"\n".toList] =
        some ⟨0, 1, [⟨1, some "STR".toList, none, some ".string".toList, 1,
          ["\"hi\"".toList]⟩]⟩ ∧
      data_words (first_pass init_state
        [⟨1, some "STR".toList, none, some ".string".toList, 1, ["\"hi\"".toList]⟩]) =
        [some 104, some 105, some 0] ∧
      (first_pass init_state
        [⟨1, some "STR".toList, none, some ".string".toList, 1,
          ["\"hi\"".toList]⟩]).symbol_table =
        [⟨"STR".toList, 100, .TYPE_DATA, .LOC_UNK⟩]) := by
  have hchars : ((('"' :: cs) ++ ['"']).drop 1).take ((('"' :: cs) ++ ['"']).length - 1 - 1) =
      cs := by
    simp
  have hstep : first_pass_line st pl =
      add_data
        (cs.foldl (fun s (c : Char) => add_data s (c.toNat : Int))
          (add_label_symbol { st with line_num := pl.line_num } (some L) .TYPE_DATA)) 0 := by
    unfold first_pass_line handle_directive
    simp only [hop, hd, hl, ha, Option.isSome_none, Bool.false_eq_true, if_false,
      Option.isSome_some, if_true, Option.getD_some]
    rw [if_pos (Or.inr trivial), if_neg (by decide)]
    simp only [List.getD_cons_zero]
    rw [hchars]
  obtain ⟨f1, f2, _, f4, _, _⟩ :=
    add_label_symbol_frame { st with line_num := pl.line_num } (some L) .TYPE_DATA
  obtain ⟨h1, h2, h3, h4⟩ :=
    add_data_loop (fun c : Char => (c.toNat : Int)) cs
      (add_label_symbol { st with line_num := pl.line_num } (some L) .TYPE_DATA)
  have hdw : data_words (add_label_symbol { st with line_num := pl.line_num } (some L)
      .TYPE_DATA) = data_words st := by
    unfold data_words
    rw [f2, f4]
  refine ⟨?_, ?_, ?_, ?_, ?_, by decide, by decide, by decide⟩
  · rw [hstep, data_words_add_data, h1, hdw]
  · rw [hstep, (add_data_frame _ _).1, h2, f2]
  · rw [hstep, (add_data_frame _ _).2.1, foldl_keeps (fun s : AsmState => s.IC)
      (fun s (c : Char) => add_data s (c.toNat : Int)) (fun _ _ => rfl) _ _, f1]
  · intro hnone
    have hab := add_symbol_absent { st with line_num := pl.line_num } L .TYPE_DATA .LOC_UNK
      ((get_symbol_none_iff _ _).mp hnone)
    rw [hstep, (add_data_frame _ _).2.2.1, (add_data_frame _ _).2.2.2, h3, h4]
    unfold add_label_symbol
    simp only
    rw [hab]
    simp [get_DC]
  · intro hsome
    have hpr := add_symbol_present { st with line_num := pl.line_num } L .TYPE_DATA .LOC_UNK
      ((get_symbol_isSome_iff _ _).mp hsome)
    rw [hstep, (add_data_frame _ _).2.2.1, (add_data_frame _ _).2.2.2, h3, h4]
    unfold add_label_symbol
    simp only
    rw [hpr]
    exact ⟨rfl, rfl⟩

/-- Witness of C25 (amended): `STR: .string "hi"` at data counter 4, with
`STR` not yet declared. -/
theorem C25_string_line_words_witness :
    data_words (first_pass_line { init_state with DC := 4 }
      ⟨1, some "STR".toList, none, some ".string".toList, 1, ["\"hi\"".toList]⟩) =
      data_words { init_state with DC := 4 } ++ [some 104, some 105] ++ [some 0] ∧
    (first_pass_line { init_state with DC := 4 }
      ⟨1, some "STR".toList, none, some ".string".toList, 1,
        ["\"hi\"".toList]⟩).symbol_table =
      [⟨"STR".toList, 4, .TYPE_DATA, .LOC_UNK⟩] := by
  have h := C25_string_line_words { init_state with DC := 4 }
    ⟨1, some "STR".toList, none, some ".string".toList, 1, ["\"hi\"".toList]⟩
    "STR".toList "hi".toList rfl rfl rfl rfl
  exact ⟨h.1, (h.2.2.2.1 rfl).1⟩

/-! ### The object file -/

/-- C26 does not hold: the source `.data 16777216` passes validation and both
passes without an error, and the value written for its data word is
16777216 = 2^24, which `twos_comp` returns unchanged; `.data -16777217` is
written as -1, and `prn #2097152` has the operand word 16777220. So not
every value written to the object file of an accepted program lies in
`0 ≤ x < 2^24`. -/
theorem C26_data_word_exceeds_24_bits :
    main_file (fun _ => true) "prog".toList [".data 16777216\n".toList] =
      some { n_errors := 0
             output := some
               { ob := some { n_code := 0, n_data := 1, lines := [⟨100, some 16777216⟩] }
                 ext := some []
                 ent := some [] } } ∧
    twos_comp 16777216 = 2 ^ 24 ∧
    main_file (fun _ => true) "prog".toList [".data -16777217\n".toList] =
      some { n_errors := 0
             output := some
               { ob := some { n_code := 0, n_data := 1, lines := [⟨100, some (-1)⟩] }
                 ext := some []
                 ent := some [] } } ∧
    main_file (fun _ => true) "prog".toList ["prn #2097152\n".toList] =
      some { n_errors := 0
             output := some
               { ob := some { n_code := 2, n_data := 0,
                              lines := [⟨100, some 3407876⟩, ⟨101, some 16777220⟩] }
                 ext := some []
                 ent := some [] } } ∧
    ¬ (∀ (lines : List Str) (r : FileResult) (out : OutputFiles) (ob : ObjectFile),
        main_file (fun _ => true) "prog".toList lines = some r →
        r.output = some out →
        out.ob = some ob →
        ∀ l ∈ ob.lines, ∀ x, l.val = some x → 0 ≤ x ∧ x < 2 ^ 24) := by
  refine ⟨by decide, by decide, by decide, by decide, ?_⟩
  intro h
  have h1 := h [".data 16777216\n".toList]
    { n_errors := 0
      output := some
        { ob := some { n_code := 0, n_data := 1, lines := [⟨100, some 16777216⟩] }
          ext := some []
          ent := some [] } }
    { ob := some { n_code := 0, n_data := 1, lines := [⟨100, some 16777216⟩] }
      ext := some []
      ent := some [] }
    { n_code := 0, n_data := 1, lines := [⟨100, some 16777216⟩] }
    (by decide) rfl rfl ⟨100, some 16777216⟩ (List.mem_singleton.mpr rfl) 16777216 rfl
  exact absurd h1.2 (by decide)

/-- A loop that writes one line for each index below `n` and increments the
address: the lines written and the address reached. -/
theorem ob_loop (g : Nat → Option Int) (n : Nat) (acc : List WordLine × Int) :
    (List.range n).foldl
        (fun (a : List WordLine × Int) (i : Nat) =>
          (a.1 ++ [{ address := a.2, val := g i }], a.2 + 1)) acc =
      (acc.1 ++ (List.range n).map (fun i => { address := acc.2 + (i : Int), val := g i }),
        acc.2 + (n : Int)) := by
  induction n with
  | zero => simp
  | succ n ih =>
    rw [List.range_succ, List.foldl_append, ih]
    simp only [List.foldl_cons, List.foldl_nil, List.map_append, List.map_cons, List.map_nil,
      List.append_assoc]
    refine Prod.ext rfl ?_
    simp only
    push_cast
    omega

/-- The word lines `write_object_file` writes: the code slots from address
`MEM_START_ADDRESS` on, then the data slots. -/
theorem write_object_file_lines (st : AsmState) :
    write_object_file st true =
      (some
        { n_code := st.IC - MEM_START_ADDRESS
          n_data := st.DC
          lines :=
            (List.range (st.IC - MEM_START_ADDRESS)).map
              (fun i => { address := (MEM_START_ADDRESS : Int) + (i : Int)
                          val := code_val (st.code_image i) }) ++
            (List.range st.DC).map
              (fun i => { address :=
                            (MEM_START_ADDRESS : Int) + ((st.IC - MEM_START_ADDRESS : Nat) : Int) +
                              (i : Int)
                          val := (st.data_image i).map twos_comp }) }, st) := by
  unfold write_object_file
  simp only [if_true]
  have hc : ob_code_step st = fun (a : List WordLine × Int) (i : Nat) =>
      (a.1 ++ [{ address := a.2, val := code_val (st.code_image i) }], a.2 + 1) := rfl
  have hd : ob_data_step st = fun (a : List WordLine × Int) (i : Nat) =>
      (a.1 ++ [{ address := a.2, val := (st.data_image i).map twos_comp }], a.2 + 1) := rfl
  rw [hc, hd, ob_loop, ob_loop]
  simp

/-- C27: `write_object_file`, when the file can be opened and the code
counter is at or above `MEM_START_ADDRESS`, writes the header numbers
`IC - 100` and `DC` and then exactly `IC - 100 + DC` word lines; line number
`j` has the address `100 + j`, so the addresses are 100, 101, 102, ... with no
gap or repeat; the first `IC - 100` lines hold the encoded code words in slot
order (an instruction word by `encode_instruction`, an operand word by
`encode_operand`), the next `DC` lines the data words in slot order by
`twos_comp`, data word `k` at address `IC + k`; the state is unchanged. -/
theorem C27_object_file_layout (st : AsmState) (hic : MEM_START_ADDRESS ≤ st.IC) :
    ∃ ob : ObjectFile,
      write_object_file st true = (some ob, st) ∧
      ob.n_code = st.IC - MEM_START_ADDRESS ∧
      ob.n_data = st.DC ∧
      ob.lines.length = st.IC - MEM_START_ADDRESS + st.DC ∧
      ob.lines.map (fun l => l.address) =
        (List.range (st.IC - MEM_START_ADDRESS + st.DC)).map
          (fun j => ((MEM_START_ADDRESS + j : Nat) : Int)) ∧
      ob.lines.map (fun l => l.val) =
        (code_words st).map code_val ++ (data_words st).map (Option.map twos_comp) ∧
      (∀ k, k < st.IC - MEM_START_ADDRESS →
        ob.lines[k]? =
          some { address := ((MEM_START_ADDRESS + k : Nat) : Int)
                 val := code_val (st.code_image k) }) ∧
      (∀ k, k < st.DC →
        ob.lines[st.IC - MEM_START_ADDRESS + k]? =
          some { address := ((st.IC + k : Nat) : Int)
                 val := (st.data_image k).map twos_comp }) := by
  refine ⟨_, write_object_file_lines st, rfl, rfl, ?_, ?_, ?_, ?_, ?_⟩
  · simp
  · simp only [List.map_append, List.map_map]
    rw [List.range_add, List.map_append, List.map_map]
    congr 1
    apply List.map_congr_left
    intro i _
    simp only [Function.comp]
    push_cast
    omega
  · simp only [List.map_append, List.map_map, code_words, data_words]
    rfl
  · intro k hk
    rw [List.getElem?_append_left (by simpa using hk)]
    simp [hk]
  · intro k hk
    rw [List.getElem?_append_right (by simp)]
    simp only [List.length_map, List.length_range, Nat.add_sub_cancel_left]
    rw [List.getElem?_map, List.getElem?_range hk]
    simp only [Option.map_some']
    congr 2
    push_cast
    omega

/-- Witness of C27: the state after pass 1 and pass 2 of `prn #-1`,
`.data 3, -1`: two code words at 100 and 101, two data words at 102, 103. -/
theorem C27_object_file_layout_witness :
    ∃ ob : ObjectFile,
      write_object_file
        (second_pass (first_pass init_state
          [⟨1, none, some "prn".toList, none, 1, ["#-1".toList]⟩,
           ⟨2, none, none, some ".data".toList, 2, ["3".toList, "-1".toList]⟩])
          [⟨1, none, some "prn".toList, none, 1, ["#-1".toList]⟩,
           ⟨2, none, none, some ".data".toList, 2, ["3".toList, "-1".toList]⟩]) true =
        (some ob, second_pass (first_pass init_state
          [⟨1, none, some "prn".toList, none, 1, ["#-1".toList]⟩,
           ⟨2, none, none, some ".data".toList, 2, ["3".toList, "-1".toList]⟩])
          [⟨1, none, some "prn".toList, none, 1, ["#-1".toList]⟩,
           ⟨2, none, none, some ".data".toList, 2, ["3".toList, "-1".toList]⟩]) ∧
      ob.lines.map (fun l => l.address) = [100, 101, 102, 103] := by
  obtain ⟨ob, h1, _, _, _, h5, _⟩ := C27_object_file_layout
    (second_pass (first_pass init_state
      [⟨1, none, some "prn".toList, none, 1, ["#-1".toList]⟩,
       ⟨2, none, none, some ".data".toList, 2, ["3".toList, "-1".toList]⟩])
      [⟨1, none, some "prn".toList, none, 1, ["#-1".toList]⟩,
       ⟨2, none, none, some ".data".toList, 2, ["3".toList, "-1".toList]⟩]) (by decide)
  refine ⟨ob, h1, ?_⟩
  rw [h5]
  decide

/-! ### The external-reference file -/

/-- The lines written by the loop of `write_ext_file`: one for each
reference whose label resolves to an EXTERNAL symbol; the symbol table is
unchanged. -/
theorem ext_loop_lines (l : List SymbolInfo) :
    ∀ acc : List LabelLine × AsmState,
      (l.foldl ext_step acc).1 =
        acc.1 ++ (l.filter (fun r => is_external acc.2.symbol_table r.label)).map
          (fun r => { label := r.label, address := (r.IC : Int) }) ∧
      (l.foldl ext_step acc).2.symbol_table = acc.2.symbol_table := by
  induction l with
  | nil =>
    intro acc
    simp
  | cons a rest ih =>
    intro acc
    rw [List.foldl_cons]
    obtain ⟨h1, h2⟩ := ih (ext_step acc a)
    rw [h1, h2]
    unfold ext_step lookup_symbol is_external
    cases hs : _get_symbol acc.2.symbol_table a.label with
    | none => simp [hs]
    | some s =>
      by_cases hl : s.loc = .LOC_EXTERNAL
      · simp [hs, hl]
      · simp [hs, hl]

/-- The loop of `write_ext_file` leaves the state unchanged when every
label is found. -/
theorem ext_loop_state (l : List SymbolInfo) :
    ∀ acc : List LabelLine × AsmState,
      (∀ r ∈ l, (_get_symbol acc.2.symbol_table r.label).isNone = false) →
      (l.foldl ext_step acc).2 = acc.2 := by
  induction l with
  | nil =>
    intro acc _
    rfl
  | cons a rest ih =>
    intro acc h
    rw [List.foldl_cons]
    have hstep : (ext_step acc a).2 = acc.2 := by
      have ha := h a (List.mem_cons_self _ _)
      unfold ext_step lookup_symbol
      cases hs : _get_symbol acc.2.symbol_table a.label with
      | none => simp [hs] at ha
      | some s =>
        simp only
        split <;> rfl
    rw [ih (ext_step acc a) (by
      intro r hr
      rw [hstep]
      exact h r (List.mem_cons_of_mem _ hr)), hstep]

/-- An operand word stays an operand word through the reference loop. -/
theorem refs_loop_operand (l : List SymbolInfo) :
    ∀ (st : AsmState) (j : Nat), (∃ o, st.code_image j = some (.operand o)) →
      ∃ o, (l.foldl second_pass_ref st).code_image j = some (.operand o) := by
  induction l with
  | nil =>
    intro st j h
    exact h
  | cons a rest ih =>
    intro st j h
    rw [List.foldl_cons]
    exact ih _ j
      ((edit_operand_slots { st with line_num := a.line_num } a.IC a.label a.addrMode).2 j h)

/-- The second pass keeps the stored references consistent with the code
image. -/
theorem refsok_second_pass (st : AsmState) (lines : List ParsedLine) (h : RefsOk st) :
    RefsOk (second_pass st lines) := by
  obtain ⟨f1, f2, _⟩ := second_pass_frame st lines
  obtain ⟨h1, h2, h3⟩ := h
  refine ⟨by rw [f1]; exact h1, ?_, by rw [f2]; exact h3⟩
  intro r hr
  rw [f2] at hr
  obtain ⟨ha, hb, ho⟩ := h2 r hr
  refine ⟨ha, by rw [f1]; exact hb, ?_⟩
  unfold second_pass
  simp only
  obtain ⟨_, e2, _, _⟩ := entry_loop_frame lines { st with line_num := 0, n_errors := 0 }
  apply refs_loop_operand
  rw [e2]
  exact ho
/-- C28: after the first and the second pass (started with the code counter
at `MEM_START_ADDRESS` and no stored reference) have ended with the error
counter at zero, `write_ext_file` writes, in the order in which the first
pass stored the deferred references, exactly one line (label, address) for
each reference whose label resolves to a symbol with location EXTERNAL, and
leaves the state unchanged; the address is the one stored with the
reference, which is the address of an operand word of the code image; a label
that resolves to an EXTERNAL symbol has as many lines as references, and a
label that does not has no line. -/
theorem C28_ext_file_entries (st0 : AsmState) (lines : List ParsedLine)
    (hic : st0.IC = MEM_START_ADDRESS) (hrefs : st0.symbol_references = [])
    (herr : (second_pass (first_pass st0 lines) lines).n_errors = 0) :
    write_ext_file (second_pass (first_pass st0 lines) lines) true =
      (some (((first_pass st0 lines).symbol_references.filter
          (fun r => is_external (second_pass (first_pass st0 lines) lines).symbol_table
            r.label)).map
          (fun r => { label := r.label, address := (r.IC : Int) })),
        second_pass (first_pass st0 lines) lines) ∧
    (∀ r ∈ (first_pass st0 lines).symbol_references,
      MEM_START_ADDRESS ≤ r.IC ∧ r.IC < (second_pass (first_pass st0 lines) lines).IC ∧
      ∃ o, (second_pass (first_pass st0 lines) lines).code_image (r.IC - MEM_START_ADDRESS) =
        some (.operand o)) ∧
    (∀ (ext : List LabelLine) (X : Str),
      (write_ext_file (second_pass (first_pass st0 lines) lines) true).1 = some ext →
      (is_external (second_pass (first_pass st0 lines) lines).symbol_table X = true →
        ext.countP (fun e => decide (e.label = X)) =
          (first_pass st0 lines).symbol_references.countP (fun r => decide (r.label = X))) ∧
      (is_external (second_pass (first_pass st0 lines) lines).symbol_table X = false →
        ∀ e ∈ ext, e.label ≠ X)) := by
  obtain ⟨f1, f2, f3⟩ := second_pass_frame (first_pass st0 lines) lines
  have hr := refsok_second_pass _ lines
    (refsok_first_pass st0 lines (by rw [hic]) hrefs)
  have he := second_pass_errors (first_pass st0 lines) lines
  rw [herr] at he
  have hnone : unresolved_refs (first_pass st0 lines) = [] := by
    apply List.eq_nil_of_length_eq_zero
    omega
  have hfound : ∀ r ∈ (second_pass (first_pass st0 lines) lines).symbol_references,
      (_get_symbol (second_pass (first_pass st0 lines) lines).symbol_table r.label).isNone =
        false := by
    intro r hrm
    rw [f2] at hrm
    rw [get_symbol_isNone_congr _ _ _ f3]
    cases hc : (_get_symbol (first_pass st0 lines).symbol_table r.label).isNone with
    | false => rfl
    | true =>
      have : r ∈ unresolved_refs (first_pass st0 lines) := by
        unfold unresolved_refs
        exact List.mem_filter.mpr ⟨hrm, hc⟩
      rw [hnone] at this
      simp at this
  have hfile : write_ext_file (second_pass (first_pass st0 lines) lines) true =
      (some (((first_pass st0 lines).symbol_references.filter
          (fun r => is_external (second_pass (first_pass st0 lines) lines).symbol_table
            r.label)).map
          (fun r => { label := r.label, address := (r.IC : Int) })),
        second_pass (first_pass st0 lines) lines) := by
    unfold write_ext_file
    simp only [if_true]
    rw [(ext_loop_lines _ _).1, ext_loop_state _ _ hfound, f2]
    simp
  refine ⟨hfile, ?_, ?_⟩
  · intro r hrm
    rw [← f2] at hrm
    exact hr.2.1 r hrm
  · intro ext X hext
    rw [hfile] at hext
    simp only [Option.some.injEq] at hext
    subst hext
    constructor
    · intro hX
      rw [List.countP_map, List.countP_filter]
      apply List.countP_congr
      intro r _
      simp only [Function.comp, Bool.and_eq_true, decide_eq_true_eq]
      constructor
      · intro h
        exact h.1
      · intro h
        exact ⟨h, by rw [h]; exact hX⟩
    · intro hX e hem
      obtain ⟨r, hrm, hre⟩ := List.mem_map.mp hem
      have hrx := (List.mem_filter.mp hrm).2
      intro hlab
      rw [← hre] at hlab
      simp only at hlab
      rw [hlab, hX] at hrx
      exact absurd hrx (by decide)

/-- Witness of C28: in `.extern X`, `A: prn X`, `jmp &A`, `prn A` only the
reference of the first `prn`, at address 101, resolves to an EXTERNAL
symbol. -/
theorem C28_ext_file_entries_witness :
    (write_ext_file (second_pass (first_pass init_state example_flags) example_flags)
      true).1 = some [⟨"X".toList, 101⟩] := by
  rw [(C28_ext_file_entries init_state example_flags rfl rfl (by decide)).1]
  decide

/-! ### The entry file -/

theorem entry_lines_eq (t : List Symbol) :
    entry_lines t =
      (t.filter (fun s => decide (s.loc = .LOC_ENTRY))).map
        (fun s => { label := s.label, address := s.address }) := by
  induction t with
  | nil => rfl
  | cons s rest ih =>
    unfold entry_lines
    rw [List.filter_cons]
    by_cases h : s.loc = .LOC_ENTRY
    · simp only [h, if_true, decide_True, List.map_cons, ih]
    · simp only [h, if_false, decide_False, Bool.false_eq_true, ih]

/-- In a table with pairwise distinct labels, the write through the pointer
returned by `_get_symbol` changes every symbol with that label. -/
theorem update_first_eq_map (label : Str) (f : Symbol → Symbol) (t : List Symbol)
    (hnd : (t.map (fun s => s.label)).Nodup) :
    update_first (fun s => decide (s.label = label)) f t =
      t.map (fun s => if s.label = label then f s else s) := by
  induction t with
  | nil => rfl
  | cons s rest ih =>
    rw [List.map_cons, List.nodup_cons] at hnd
    unfold update_first
    by_cases h : s.label = label
    · simp only [h, decide_True, if_true, List.map_cons]
      congr 1
      symm
      have : ∀ x ∈ rest, (if x.label = label then f x else x) = x := by
        intro x hx
        rw [if_neg]
        intro hxl
        apply hnd.1
        rw [h, ← hxl]
        exact List.mem_map.mpr ⟨x, hx, rfl⟩
      rw [List.map_congr_left this, List.map_id']
    · simp only [h, decide_False, Bool.false_eq_true, if_false, List.map_cons]
      rw [ih hnd.2]

/-- What `update_entry_symbol` does to a table with pairwise distinct
labels. -/
theorem update_entry_symbol_map (st : AsmState) (label : Str)
    (hnd : (st.symbol_table.map (fun s => s.label)).Nodup) :
    (update_entry_symbol st label).symbol_table = st.symbol_table.map (mark_entry [label]) := by
  have hm : mark_entry [label] =
      fun s => if s.label = label then { s with loc := .LOC_ENTRY } else s := by
    funext s
    simp [mark_entry]
  cases h : _get_symbol st.symbol_table label with
  | none =>
    rw [update_entry_symbol_absent st label h]
    have habs := (get_symbol_none_iff _ _).mp h
    have : ∀ x ∈ st.symbol_table, mark_entry [label] x = x := by
      intro x hx
      rw [hm]
      simp only
      rw [if_neg (habs x hx)]
    simp only
    rw [List.map_congr_left this, List.map_id']
  | some s =>
    rw [update_entry_symbol_present st label s h]
    simp only
    rw [update_first_eq_map label _ _ hnd, hm]

theorem mark_entry_label (labels : List Str) (s : Symbol) :
    (mark_entry labels s).label = s.label := by
  unfold mark_entry
  split <;> rfl

theorem mark_entry_cons (label : Str) (labels : List Str) (s : Symbol) :
    mark_entry labels (mark_entry [label] s) = mark_entry (label :: labels) s := by
  unfold mark_entry
  by_cases h1 : s.label = label <;> by_cases h2 : s.label ∈ labels <;>
    simp [h1, h2]

/-- The `.entry` loop sets to ENTRY the location of the symbols named by the
`.entry` records, whatever the order of the records. -/
theorem entry_loop_table (lines : List ParsedLine) :
    ∀ st : AsmState, (st.symbol_table.map (fun s => s.label)).Nodup →
      (lines.foldl second_pass_entry st).symbol_table =
        st.symbol_table.map (mark_entry (entry_labels lines)) := by
  induction lines with
  | nil =>
    intro st _
    have : ∀ x ∈ st.symbol_table, mark_entry (entry_labels []) x = x := by
      intro x _
      simp [mark_entry, entry_labels]
    rw [List.map_congr_left this, List.map_id']
    rfl
  | cons pl rest ih =>
    intro st hnd
    rw [List.foldl_cons]
    have hl := (second_pass_entry_frame st pl).2.2.2
    rw [ih (second_pass_entry st pl) (by rw [hl]; exact hnd)]
    unfold second_pass_entry
    simp only
    by_cases hd : pl.directive = some ".entry".toList
    · rw [if_pos hd, update_entry_symbol_map { st with line_num := pl.line_num } _ hnd]
      simp only [List.map_map]
      apply List.map_congr_left
      intro s _
      simp only [Function.comp]
      rw [mark_entry_cons]
      unfold entry_labels
      rw [List.filter_cons, if_pos (by simpa using hd), List.map_cons]
    · rw [if_neg hd]
      unfold entry_labels
      rw [List.filter_cons, if_neg (by simpa using hd)]

theorem symreach_add_label_symbol (st : AsmState) (label : Option Str) (type : SymType)
    (h : SymReach st.symbol_table) :
    SymReach (add_label_symbol st label type).symbol_table := by
  cases label with
  | none => exact h
  | some l => exact SymReach.add st l type .LOC_UNK h

theorem symreach_first_pass_line (st : AsmState) (pl : ParsedLine)
    (h : SymReach st.symbol_table) : SymReach (first_pass_line st pl).symbol_table := by
  have h0 : SymReach ({ st with line_num := pl.line_num } : AsmState).symbol_table := h
  unfold first_pass_line
  simp only
  split
  · rw [handle_op_symbol_table]
    exact symreach_add_label_symbol _ _ _ h0
  · split
    · rw [handle_directive_symbol_table]
      split
      · exact symreach_add_label_symbol _ _ _ h0
      · split
        · exact SymReach.add _ _ _ _ h0
        · exact h0
    · exact h0

/-- The table the first pass builds from a table the program can build is
one the program can build; its labels are pairwise distinct. -/
theorem symreach_first_pass (st : AsmState) (lines : List ParsedLine)
    (h : SymReach st.symbol_table) : SymReach (first_pass st lines).symbol_table := by
  have hloop : ∀ (l : List ParsedLine) (s : AsmState), SymReach s.symbol_table →
      SymReach (l.foldl first_pass_line s).symbol_table := by
    intro l
    induction l with
    | nil =>
      intro s hs
      exact hs
    | cons pl rest ih =>
      intro s hs
      exact ih _ (symreach_first_pass_line s pl hs)
  unfold first_pass
  exact SymReach.shift _ (hloop lines _ h)
theorem add_symbol_locs (st : AsmState) (label : Str) (type : SymType) (loc : SymLoc) :
    ∀ s ∈ (add_symbol st label type loc).2.symbol_table, s ∈ st.symbol_table ∨ s.loc = loc := by
  intro s hs
  by_cases hp : ∃ x ∈ st.symbol_table, x.label = label
  · rw [add_symbol_present st label type loc hp] at hs
    exact Or.inl hs
  · have ha : ∀ x ∈ st.symbol_table, x.label ≠ label := fun x hx hl => hp ⟨x, hx, hl⟩
    rw [add_symbol_absent st label type loc ha] at hs
    simp only [List.mem_append, List.mem_singleton] at hs
    rcases hs with hs | hs
    · exact Or.inl hs
    · exact Or.inr (by rw [hs])

/-- A round of the first pass adds no symbol with location ENTRY. -/
theorem no_entry_first_pass_line (st : AsmState) (pl : ParsedLine)
    (h : ∀ s ∈ st.symbol_table, s.loc ≠ .LOC_ENTRY) :
    ∀ s ∈ (first_pass_line st pl).symbol_table, s.loc ≠ .LOC_ENTRY := by
  have hlab : ∀ (label : Option Str) (type : SymType),
      ∀ s ∈ (add_label_symbol { st with line_num := pl.line_num } label type).symbol_table,
        s.loc ≠ .LOC_ENTRY := by
    intro label type s hs
    cases label with
    | none => exact h s hs
    | some l =>
      rcases add_symbol_locs { st with line_num := pl.line_num } l type .LOC_UNK s hs
        with hm | hm
      · exact h s hm
      · rw [hm]
        decide
  unfold first_pass_line
  simp only
  split
  · rw [handle_op_symbol_table]
    exact hlab _ _
  · split
    · rw [handle_directive_symbol_table]
      split
      · exact hlab _ _
      · split
        · intro s hs
          rcases add_symbol_locs { st with line_num := pl.line_num } _ .TYPE_UNK
            .LOC_EXTERNAL s hs with hm | hm
          · exact h s hm
          · rw [hm]
            decide
        · exact h
    · exact h

/-- The first pass, started with no symbol of location ENTRY, leaves none. -/
theorem no_entry_first_pass (st : AsmState) (lines : List ParsedLine)
    (h : ∀ s ∈ st.symbol_table, s.loc ≠ .LOC_ENTRY) :
    ∀ s ∈ (first_pass st lines).symbol_table, s.loc ≠ .LOC_ENTRY := by
  have hloop : ∀ (l : List ParsedLine) (s : AsmState),
      (∀ x ∈ s.symbol_table, x.loc ≠ .LOC_ENTRY) →
      ∀ x ∈ (l.foldl first_pass_line s).symbol_table, x.loc ≠ .LOC_ENTRY := by
    intro l
    induction l with
    | nil =>
      intro s hs
      exact hs
    | cons pl rest ih =>
      intro s hs
      exact ih _ (no_entry_first_pass_line s pl hs)
  intro s hs
  unfold first_pass shift_data_addresses at hs
  simp only [List.mem_map] at hs
  obtain ⟨x, hx, hxs⟩ := hs
  have := hloop lines { st with n_errors := 0, line_num := 0 } h x hx
  rw [← hxs]
  split
  · exact this
  · exact this

/-- The lines of the entry file after the second pass, in terms of the table
the second pass starts from. -/
theorem second_pass_entries (st : AsmState) (lines : List ParsedLine)
    (hnd : (st.symbol_table.map (fun s => s.label)).Nodup)
    (hno : ∀ s ∈ st.symbol_table, s.loc ≠ .LOC_ENTRY) :
    entry_lines (second_pass st lines).symbol_table =
      (st.symbol_table.filter (fun s => decide (s.label ∈ entry_labels lines))).map
        (fun s => { label := s.label, address := s.address }) := by
  have ht : (second_pass st lines).symbol_table =
      st.symbol_table.map (mark_entry (entry_labels lines)) := by
    unfold second_pass
    simp only
    rw [(refs_loop_frame _ _).1,
      entry_loop_table lines { st with line_num := 0, n_errors := 0 } hnd]
  rw [ht, entry_lines_eq, List.filter_map, List.map_map]
  have hf : List.filter ((fun s : Symbol => decide (s.loc = .LOC_ENTRY)) ∘
        mark_entry (entry_labels lines)) st.symbol_table =
      List.filter (fun s => decide (s.label ∈ entry_labels lines)) st.symbol_table := by
    apply List.filter_congr
    intro s hs
    simp only [Function.comp, mark_entry]
    by_cases hm : s.label ∈ entry_labels lines
    · simp [hm]
    · simp [hm, hno s hs]
  rw [hf]
  apply List.map_congr_left
  intro s _
  simp only [Function.comp, mark_entry]
  split <;> rfl

/-- C29: `export_entry_symbols`, when the file can be opened, writes one line
(label, address) for each symbol of the table whose location is ENTRY, in
table order, and leaves the state unchanged. After the two passes of a
program, started with an empty symbol table, these are exactly the symbols of
the table built by the first pass that an `.entry` record names, each once
(the labels of the table are pairwise distinct), with the address the first
pass left after its shift of the data addresses, in the order of the table,
which is the order of insertion; the lines depend on the set of labels named
by `.entry` records only, not on the order of these records. -/
theorem C29_entry_file_order (st0 : AsmState) (lines : List ParsedLine)
    (htab : st0.symbol_table = []) :
    export_entry_symbols (second_pass (first_pass st0 lines) lines) true =
      (some (((second_pass (first_pass st0 lines) lines).symbol_table.filter
          (fun s => decide (s.loc = .LOC_ENTRY))).map
          (fun s => { label := s.label, address := s.address })),
        second_pass (first_pass st0 lines) lines) ∧
    (export_entry_symbols (second_pass (first_pass st0 lines) lines) true).1 =
      some (((first_pass st0 lines).symbol_table.filter
          (fun s => decide (s.label ∈ entry_labels lines))).map
          (fun s => { label := s.label, address := s.address })) ∧
    ((first_pass st0 lines).symbol_table.map (fun s => s.label)).Nodup ∧
    ((((first_pass st0 lines).symbol_table.filter
        (fun s => decide (s.label ∈ entry_labels lines))).map
        (fun s => ({ label := s.label, address := s.address } : LabelLine))).map
      (fun e => e.label)).Nodup ∧
    (∀ lines2 : List ParsedLine,
      (∀ L, L ∈ entry_labels lines2 ↔ L ∈ entry_labels lines) →
      (export_entry_symbols (second_pass (first_pass st0 lines) lines2) true).1 =
        (export_entry_symbols (second_pass (first_pass st0 lines) lines) true).1) := by
  have hreach : SymReach (first_pass st0 lines).symbol_table :=
    symreach_first_pass st0 lines (by rw [htab]; exact SymReach.empty)
  have hnd := symreach_nodup _ hreach
  have hno := no_entry_first_pass st0 lines (by
    intro s hs
    rw [htab] at hs
    simp at hs)
  have hexp : ∀ st : AsmState,
      export_entry_symbols st true = (some (entry_lines st.symbol_table), st) := fun _ => rfl
  refine ⟨?_, ?_, hnd, ?_, ?_⟩
  · rw [hexp, entry_lines_eq]
  · rw [hexp]
    simp only
    rw [second_pass_entries _ lines hnd hno]
  · rw [List.map_map]
    exact List.Nodup.sublist
      (List.Sublist.map _ (List.filter_sublist _)) hnd
  · intro lines2 hsame
    rw [hexp, hexp]
    simp only
    rw [second_pass_entries _ lines hnd hno, second_pass_entries _ lines2 hnd hno]
    congr 2
    apply List.filter_congr
    intro s _
    simp only [hsame]

/-- Witness of C29: in `.entry B`, `.entry A`, `A: stop`, `X: .data 5`,
`B: stop` the entry file lists `A` at 100 before `B` at 101, the order of the
declarations, not of the `.entry` directives. -/
theorem C29_entry_file_order_witness :
    (export_entry_symbols (second_pass (first_pass init_state example_entries)
      example_entries) true).1 =
      some [⟨"A".toList, 100⟩, ⟨"B".toList, 101⟩] := by
  rw [(C29_entry_file_order init_state example_entries rfl).2.1]
  decide

/-! ### External symbols -/

theorem get_symbol_map (f : Symbol → Symbol) (hf : ∀ s, (f s).label = s.label)
    (t : List Symbol) (label : Str) :
    _get_symbol (t.map f) label = (_get_symbol t label).map f := by
  unfold _get_symbol
  rw [List.find?_map]
  congr 2
  funext s
  simp only [Function.comp, hf]

theorem get_symbol_update_first (l : Str) (f : Symbol → Symbol)
    (hf : ∀ s, (f s).label = s.label) (label : Str) (t : List Symbol) :
    _get_symbol (update_first (fun s => decide (s.label = l)) f t) label =
      (_get_symbol t label).map (fun s => if l = label then f s else s) := by
  induction t with
  | nil => rfl
  | cons s rest ih =>
    unfold update_first
    by_cases h1 : s.label = l
    · simp only [h1, decide_True, if_true]
      by_cases h2 : l = label
      · have h3 : s.label = label := h1.trans h2
        simp [_get_symbol, List.find?_cons, hf, h3, h2]
      · have h3 : ¬ s.label = label := fun h => h2 (h1.symm.trans h)
        simp only [_get_symbol, List.find?_cons, hf, h3, decide_False, h2, if_false]
        simp
    · simp only [h1, decide_False, Bool.false_eq_true, if_false]
      by_cases h3 : s.label = label
      · have h2 : ¬ l = label := fun h => h1 (h3.trans h.symm)
        simp [_get_symbol, List.find?_cons, h3, h2]
      · unfold _get_symbol at ih ⊢
        simp only [List.find?_cons, h3, decide_False]
        exact ih

/-- A call of `shift_data_addresses` or `update_entry_symbol` keeps the
address and the type of a symbol of type UNKNOWN that a label resolves to. -/
theorem table_call_keeps (st : AsmState) (c : TableCall) (label : Str) (s : Symbol)
    (hs : _get_symbol st.symbol_table label = some s) (ht : s.type = .TYPE_UNK) :
    ∃ s2, _get_symbol (c.run st).symbol_table label = some s2 ∧
      s2.address = s.address ∧ s2.type = .TYPE_UNK := by
  cases c with
  | shift ic dc =>
    unfold TableCall.run shift_data_addresses
    simp only
    rw [get_symbol_map _ (by intro x; split <;> rfl), hs]
    refine ⟨s, ?_, rfl, ht⟩
    simp only [Option.map_some', ht]
    rw [if_neg (by decide)]
  | entry ic dc l =>
    simp only [TableCall.run]
    cases hl : _get_symbol st.symbol_table l with
    | none =>
      rw [update_entry_symbol_absent { st with IC := ic, DC := dc } l hl]
      exact ⟨s, hs, rfl, ht⟩
    | some x =>
      rw [update_entry_symbol_present { st with IC := ic, DC := dc } l x hl]
      simp only
      rw [get_symbol_update_first l
        (fun x => { label := x.label, address := x.address, type := x.type,
                    loc := .LOC_ENTRY }) (fun _ => rfl), hs]
      simp only [Option.map_some']
      by_cases h : l = label
      · exact ⟨{ s with loc := .LOC_ENTRY }, by rw [if_pos h], rfl, ht⟩
      · exact ⟨s, by rw [if_neg h], rfl, ht⟩

theorem table_calls_keep (calls : List TableCall) :
    ∀ (st : AsmState) (label : Str) (s : Symbol),
      _get_symbol st.symbol_table label = some s → s.type = .TYPE_UNK →
      ∃ s2, _get_symbol (calls.foldl TableCall.run st).symbol_table label = some s2 ∧
        s2.address = s.address ∧ s2.type = .TYPE_UNK := by
  induction calls with
  | nil =>
    intro st label s hs ht
    exact ⟨s, hs, rfl, ht⟩
  | cons c rest ih =>
    intro st label s hs ht
    obtain ⟨s1, h1, ha, ht1⟩ := table_call_keeps st c label s hs ht
    obtain ⟨s2, h2, hb, ht2⟩ := ih (c.run st) label s1 h1 ht1
    exact ⟨s2, h2, by rw [hb, ha], ht2⟩

theorem add_symbol_mem_cases (st : AsmState) (label : Str) (type : SymType) (loc : SymLoc) :
    ∀ s ∈ (add_symbol st label type loc).2.symbol_table,
      s ∈ st.symbol_table ∨
        (s.type = type ∧ s.loc = loc ∧ (loc = .LOC_EXTERNAL → s.address = 0)) := by
  intro s hs
  by_cases hp : ∃ x ∈ st.symbol_table, x.label = label
  · rw [add_symbol_present st label type loc hp] at hs
    exact Or.inl hs
  · have ha : ∀ x ∈ st.symbol_table, x.label ≠ label := fun x hx hl => hp ⟨x, hx, hl⟩
    rw [add_symbol_absent st label type loc ha] at hs
    simp only [List.mem_append, List.mem_singleton] at hs
    rcases hs with hs | hs
    · exact Or.inl hs
    · refine Or.inr ?_
      rw [hs]
      refine ⟨rfl, rfl, ?_⟩
      intro hl
      simp [hl]

theorem externzero_first_pass_line (st : AsmState) (pl : ParsedLine)
    (h : ExternZero st.symbol_table) : ExternZero (first_pass_line st pl).symbol_table := by
  have hlab : ∀ (label : Option Str) (type : SymType), type ≠ .TYPE_UNK →
      ExternZero (add_label_symbol { st with line_num := pl.line_num } label type).symbol_table := by
    intro label type hty s hs
    cases label with
    | none => exact h s hs
    | some l =>
      rcases add_symbol_mem_cases { st with line_num := pl.line_num } l type .LOC_UNK s hs
        with hm | ⟨h1, h2, _⟩
      · exact h s hm
      · refine ⟨?_, ?_⟩
        · intro hl
          rw [h2] at hl
          exact absurd hl (by decide)
        · intro ht
          rw [h1] at ht
          exact absurd ht hty
  unfold first_pass_line
  simp only
  split
  · rw [handle_op_symbol_table]
    exact hlab _ _ (by decide)
  · split
    · rw [handle_directive_symbol_table]
      split
      · exact hlab _ _ (by decide)
      · split
        · intro s hs
          rcases add_symbol_mem_cases { st with line_num := pl.line_num } _ .TYPE_UNK
            .LOC_EXTERNAL s hs with hm | ⟨h1, _, h3⟩
          · exact h s hm
          · exact ⟨fun _ => h1, fun _ => h3 rfl⟩
        · exact h
    · exact h

theorem externzero_first_pass (st : AsmState) (lines : List ParsedLine)
    (h : ExternZero st.symbol_table) : ExternZero (first_pass st lines).symbol_table := by
  have hloop : ∀ (l : List ParsedLine) (s : AsmState), ExternZero s.symbol_table →
      ExternZero (l.foldl first_pass_line s).symbol_table := by
    intro l
    induction l with
    | nil =>
      intro s hs
      exact hs
    | cons pl rest ih =>
      intro s hs
      exact ih _ (externzero_first_pass_line s pl hs)
  intro s hs
  unfold first_pass shift_data_addresses at hs
  simp only [List.mem_map] at hs
  obtain ⟨x, hx, hxs⟩ := hs
  have hx2 := hloop lines { st with n_errors := 0, line_num := 0 } h x hx
  by_cases hd : x.type.toInt = WordType.DATA.toInt
  · rw [if_pos hd] at hxs
    rw [← hxs]
    refine ⟨hx2.1, ?_⟩
    intro ht
    simp only at ht
    rw [ht] at hd
    exact absurd hd (by decide)
  · rw [if_neg hd] at hxs
    rw [← hxs]
    exact hx2

theorem update_first_mem (p : Symbol → Bool) (f : Symbol → Symbol) (t : List Symbol) :
    ∀ s ∈ update_first p f t, s ∈ t ∨ ∃ x ∈ t, s = f x := by
  induction t with
  | nil =>
    intro s hs
    simp [update_first] at hs
  | cons a rest ih =>
    intro s hs
    unfold update_first at hs
    split at hs
    · rcases List.mem_cons.mp hs with h | h
      · exact Or.inr ⟨a, List.mem_cons_self _ _, h⟩
      · exact Or.inl (List.mem_cons_of_mem _ h)
    · rcases List.mem_cons.mp hs with h | h
      · exact Or.inl (by rw [h]; exact List.mem_cons_self _ _)
      · rcases ih s h with h2 | ⟨x, hx, hxs⟩
        · exact Or.inl (List.mem_cons_of_mem _ h2)
        · exact Or.inr ⟨x, List.mem_cons_of_mem _ hx, hxs⟩

theorem externzero_update_entry_symbol (st : AsmState) (label : Str)
    (h : ExternZero st.symbol_table) :
    ExternZero (update_entry_symbol st label).symbol_table := by
  cases hl : _get_symbol st.symbol_table label with
  | none =>
    rw [update_entry_symbol_absent st label hl]
    exact h
  | some x =>
    rw [update_entry_symbol_present st label x hl]
    intro s hs
    rcases update_first_mem _ _ _ s hs with hm | ⟨y, hy, hys⟩
    · exact h s hm
    · rw [hys]
      exact ⟨fun hc => SymLoc.noConfusion hc, (h y hy).2⟩

theorem externzero_second_pass (st : AsmState) (lines : List ParsedLine)
    (h : ExternZero st.symbol_table) : ExternZero (second_pass st lines).symbol_table := by
  have hloop : ∀ (l : List ParsedLine) (s : AsmState), ExternZero s.symbol_table →
      ExternZero (l.foldl second_pass_entry s).symbol_table := by
    intro l
    induction l with
    | nil =>
      intro s hs
      exact hs
    | cons pl rest ih =>
      intro s hs
      apply ih
      unfold second_pass_entry
      simp only
      split
      · exact externzero_update_entry_symbol { s with line_num := pl.line_num } _ hs
      · exact hs
  unfold second_pass
  simp only
  rw [(refs_loop_frame _ _).1]
  exact hloop lines { st with line_num := 0, n_errors := 0 } h
/-- C30: a symbol added with location EXTERNAL has address 0 immediately
after `add_symbol`, whatever its type and whatever the code and data counters
are. The program adds such symbols in one place, the `.extern` branch of
`handle_directive`, with the type UNKNOWN: after the round of the first pass
for an `.extern` record whose argument is not yet in the table, the argument
resolves to a symbol with address 0, type UNKNOWN and location EXTERNAL, and
after any sequence of `shift_data_addresses` and `update_entry_symbol` calls,
made at any values of the two counters, it still resolves to a symbol with
address 0. For a whole program, started with an empty table, every symbol
with location EXTERNAL or type UNKNOWN has address 0 after the first pass and
after the second pass. -/
theorem C30_external_address_zero :
    (∀ (st : AsmState) (label : Str) (type : SymType),
      _get_symbol st.symbol_table label = none →
      _get_symbol (add_symbol st label type .LOC_EXTERNAL).2.symbol_table label =
        some ⟨label, 0, type, .LOC_EXTERNAL⟩) ∧
    (∀ (st : AsmState) (pl : ParsedLine) (calls : List TableCall),
      pl.op = none → pl.directive = some ".extern".toList →
      _get_symbol st.symbol_table (pl.args.getD 0 []) = none →
      _get_symbol (first_pass_line st pl).symbol_table (pl.args.getD 0 []) =
        some ⟨pl.args.getD 0 [], 0, .TYPE_UNK, .LOC_EXTERNAL⟩ ∧
      ∃ s, _get_symbol (calls.foldl TableCall.run (first_pass_line st pl)).symbol_table
          (pl.args.getD 0 []) = some s ∧ s.address = 0) ∧
    (∀ (st0 : AsmState) (lines : List ParsedLine), st0.symbol_table = [] →
      (∀ s ∈ (first_pass st0 lines).symbol_table,
        s.loc = .LOC_EXTERNAL ∨ s.type = .TYPE_UNK → s.address = 0) ∧
      (∀ s ∈ (second_pass (first_pass st0 lines) lines).symbol_table,
        s.loc = .LOC_EXTERNAL ∨ s.type = .TYPE_UNK → s.address = 0)) := by
  have hadd : ∀ (st : AsmState) (label : Str) (type : SymType),
      _get_symbol st.symbol_table label = none →
      _get_symbol (add_symbol st label type .LOC_EXTERNAL).2.symbol_table label =
        some ⟨label, 0, type, .LOC_EXTERNAL⟩ := by
    intro st label type hnone
    rw [add_symbol_absent st label type .LOC_EXTERNAL ((get_symbol_none_iff _ _).mp hnone)]
    simp only [if_true]
    exact get_symbol_split label st.symbol_table _ [] ((get_symbol_none_iff _ _).mp hnone) rfl
  refine ⟨hadd, ?_, ?_⟩
  · intro st pl calls hop hd hnone
    have hstep : first_pass_line st pl =
        (add_symbol { st with line_num := pl.line_num } (pl.args.getD 0 []) .TYPE_UNK
          .LOC_EXTERNAL).2 := by
      unfold first_pass_line handle_directive
      simp only [hop, hd, Option.isSome_none, Bool.false_eq_true, if_false,
        Option.isSome_some, if_true, Option.getD_some]
      rw [if_neg (by decide)]
    have h1 := hadd { st with line_num := pl.line_num } (pl.args.getD 0 []) .TYPE_UNK hnone
    rw [← hstep] at h1
    refine ⟨h1, ?_⟩
    obtain ⟨s2, h2, ha, _⟩ := table_calls_keep calls (first_pass_line st pl)
      (pl.args.getD 0 []) _ h1 rfl
    exact ⟨s2, h2, ha⟩
  · intro st0 lines htab
    have h0 : ExternZero st0.symbol_table := by
      intro s hs
      rw [htab] at hs
      simp at hs
    have h1 := externzero_first_pass st0 lines h0
    have h2 := externzero_second_pass _ lines h1
    constructor
    · intro s hs hc
      rcases hc with hc | hc
      · exact (h1 s hs).2 ((h1 s hs).1 hc)
      · exact (h1 s hs).2 hc
    · intro s hs hc
      rcases hc with hc | hc
      · exact (h2 s hs).2 ((h2 s hs).1 hc)
      · exact (h2 s hs).2 hc

/-- Witness of C30: `.extern X` at code counter 103 and data counter 4, then
a shift at counters 150 and 7, `.entry X`, and another shift: `X` still has
address 0. -/
theorem C30_external_address_zero_witness :
    ∃ s, _get_symbol
        ([TableCall.shift 150 7, TableCall.entry 150 7 "X".toList,
          TableCall.shift 3 3].foldl TableCall.run
          (first_pass_line { init_state with IC := 103, DC := 4 }
            ⟨1, none, none, some ".extern".toList, 1, ["X".toList]⟩)).symbol_table
        "X".toList = some s ∧ s.address = 0 :=
  (C30_external_address_zero.2.1 { init_state with IC := 103, DC := 4 }
    ⟨1, none, none, some ".extern".toList, 1, ["X".toList]⟩
    [TableCall.shift 150 7, TableCall.entry 150 7 "X".toList, TableCall.shift 3 3]
    rfl rfl (by decide)).2

/-! ### The operation table -/

theorem arg_reg_range (a : Str) : 0 ≤ arg_reg a ∧ arg_reg a ≤ 7 := by
  unfold arg_reg
  split
  · rename_i h
    unfold get_addr_mode at h
    unfold get_register at h ⊢
    cases hf : registers.find? (fun r => decide (a = r.name)) with
    | none =>
      exfalso
      simp only [hf] at h
      split_ifs at h with h1 h2 h3
      exact h3 rfl
    | some r =>
      have hm := List.mem_of_find?_eq_some hf
      simp only
      have : ∀ x ∈ registers, 0 ≤ x.id ∧ x.id ≤ 7 := by decide
      exact this r hm
  · decide

theorem op_instruction_fields (op : Op) (args : List Str) :
    (op_instruction op args).opcode = op.opcode ∧ (op_instruction op args).funct = op.funct ∧
    0 ≤ (op_instruction op args).reg_1 ∧ (op_instruction op args).reg_1 ≤ 7 ∧
    0 ≤ (op_instruction op args).reg_2 ∧ (op_instruction op args).reg_2 ≤ 7 := by
  unfold op_instruction
  rcases args with _ | ⟨a, _ | ⟨b, _ | ⟨c, rest⟩⟩⟩
  · simp
  · have := arg_reg_range a
    exact ⟨rfl, rfl, Int.le_refl 0, (by omega : (0 : Int) ≤ 7), this.1, this.2⟩
  · have h1 := arg_reg_range a
    have h2 := arg_reg_range b
    exact ⟨rfl, rfl, h1.1, h1.2, h2.1, h2.2⟩
  · simp

/-- C38: the operation table has 16 entries with pairwise distinct names and
pairwise distinct (opcode, funct) pairs, every opcode in 0..15 and every funct
in 0..31. So two entries with different names differ in opcode or funct, the
instruction words built for them differ in these fields and their encodings
are different numbers; `get_op` returns, for the name of an entry, that
entry, and whatever it returns is the only entry of the table with the name
asked for. -/
theorem C38_ops_table :
    ops.length = 16 ∧
    (ops.map (fun o => o.name)).Nodup ∧
    (ops.map (fun o => (o.opcode, o.funct))).Nodup ∧
    (∀ o ∈ ops, 0 ≤ o.opcode ∧ o.opcode ≤ 15 ∧ 0 ≤ o.funct ∧ o.funct ≤ 31) ∧
    (∀ o1 ∈ ops, ∀ o2 ∈ ops, o1.name ≠ o2.name →
      ¬ (o1.opcode = o2.opcode ∧ o1.funct = o2.funct)) ∧
    (∀ o1 ∈ ops, ∀ o2 ∈ ops, o1.name ≠ o2.name → ∀ args1 args2 : List Str,
      ¬ ((op_instruction o1 args1).opcode = (op_instruction o2 args2).opcode ∧
          (op_instruction o1 args1).funct = (op_instruction o2 args2).funct) ∧
      encode_instruction (op_instruction o1 args1) ≠
        encode_instruction (op_instruction o2 args2)) ∧
    (∀ o ∈ ops, get_op o.name = some o) ∧
    (∀ (name : Str) (o : Op), get_op name = some o →
      o ∈ ops ∧ o.name = name ∧ ∀ o2 ∈ ops, o2.name = name → o2 = o) := by
  have hrange : ∀ o ∈ ops, 0 ≤ o.opcode ∧ o.opcode ≤ 15 ∧ 0 ≤ o.funct ∧ o.funct ≤ 31 := by
    decide
  have hpair : ∀ o1 ∈ ops, ∀ o2 ∈ ops, o1.name ≠ o2.name →
      ¬ (o1.opcode = o2.opcode ∧ o1.funct = o2.funct) := by
    decide
  have huniq : ∀ o1 ∈ ops, ∀ o2 ∈ ops, o1.name = o2.name → o1 = o2 := by
    decide
  refine ⟨rfl, by decide, by decide, hrange, hpair, ?_, get_op_of_mem, ?_⟩
  · intro o1 h1 o2 h2 hne args1 args2
    obtain ⟨a1, a2, a3, a4, a5, a6⟩ := op_instruction_fields o1 args1
    obtain ⟨b1, b2, b3, b4, b5, b6⟩ := op_instruction_fields o2 args2
    have hp := hpair o1 h1 o2 h2 hne
    have r1 := hrange o1 h1
    have r2 := hrange o2 h2
    refine ⟨by rw [a1, a2, b1, b2]; exact hp, ?_⟩
    rw [encode_instruction_eq _ (by rw [a1]; exact ⟨r1.1, r1.2.1⟩) ⟨a3, a4⟩ ⟨a5, a6⟩
        (by rw [a2]; exact ⟨r1.2.2.1, r1.2.2.2⟩),
      encode_instruction_eq _ (by rw [b1]; exact ⟨r2.1, r2.2.1⟩) ⟨b3, b4⟩ ⟨b5, b6⟩
        (by rw [b2]; exact ⟨r2.2.2.1, r2.2.2.2⟩), a1, a2, b1, b2]
    have m1 := AddrMode.toInt_range (op_instruction o1 args1).arg_1_mode
    have m2 := AddrMode.toInt_range (op_instruction o1 args1).arg_2_mode
    have m3 := AddrMode.toInt_range (op_instruction o2 args2).arg_1_mode
    have m4 := AddrMode.toInt_range (op_instruction o2 args2).arg_2_mode
    have l1 := LinkerInfo.toInt_cases (op_instruction o1 args1).linker_info
    have l2 := LinkerInfo.toInt_cases (op_instruction o2 args2).linker_info
    intro heq
    apply hp
    constructor <;> omega
  · intro name o h
    obtain ⟨hn, hm⟩ := get_op_name name o h
    refine ⟨hm, hn, ?_⟩
    intro o2 h2 hn2
    exact huniq o2 h2 o hm (by rw [hn2, hn])

/-! ### Decoding an operand word -/

/-- C40: for every operand value `v` with `-2^20 ≤ v < 2^20` and every flag
`f` (A, R, E or unknown: 4, 2, 1 or 0), decoding `encode_operand (v, f)` by
the documented layout, the low 3 bits as the flag and bits 3..23 as a 21-bit
two's-complement number, returns `(v, f)`; hence `encode_operand` is
injective on that domain. -/
theorem C40_operand_decode :
    (∀ (v : Int) (f : LinkerInfo), -(2 : Int) ^ 20 ≤ v → v < (2 : Int) ^ 20 →
      decode_operand (encode_operand ⟨v, f⟩) = (v, f.toInt)) ∧
    (∀ (v1 v2 : Int) (f1 f2 : LinkerInfo),
      -(2 : Int) ^ 20 ≤ v1 → v1 < (2 : Int) ^ 20 →
      -(2 : Int) ^ 20 ≤ v2 → v2 < (2 : Int) ^ 20 →
      encode_operand ⟨v1, f1⟩ = encode_operand ⟨v2, f2⟩ → v1 = v2 ∧ f1 = f2) := by
  have hdec : ∀ (v : Int) (f : LinkerInfo), -(2 : Int) ^ 20 ≤ v → v < (2 : Int) ^ 20 →
      decode_operand (encode_operand ⟨v, f⟩) = (v, f.toInt) := by
    intro v f hlo hhi
    have hl := LinkerInfo.toInt_cases f
    norm_num at hlo hhi
    have h := encode_operand_eq ⟨v, f⟩ hlo hhi
    simp only at h
    unfold decode_operand
    rw [h]
    norm_num
    refine ⟨?_, ?_⟩
    · split <;> omega
    · omega
  refine ⟨hdec, ?_⟩
  intro v1 v2 f1 f2 a1 a2 b1 b2 heq
  have d1 := hdec v1 f1 a1 a2
  have d2 := hdec v2 f2 b1 b2
  rw [heq, d2] at d1
  have hv : v2 = v1 := congrArg Prod.fst d1
  have hf : f2.toInt = f1.toInt := congrArg Prod.snd d1
  refine ⟨hv.symm, ?_⟩
  cases f1 <;> cases f2 <;> simp [LinkerInfo.toInt] at hf ⊢

/-- An instance of C40: the word of the value -3 with flag R decodes to
`(-3, 2)`. -/
theorem C40_operand_decode_witness :
    decode_operand (encode_operand ⟨-3, .Linker_R⟩) = (-3, 2) :=
  C40_operand_decode.1 (-3) .Linker_R (by decide) (by decide)

/-! ### The frame of `edit_operand` -/

/-- C36: `edit_operand ic label mode`, for an address `ic` at or above
`MEM_START_ADDRESS`, changes at most the slot of the code image at index
`ic - 100`, the slot of address `ic`; it leaves every other slot, the tag of
every slot, the code counter, the data counter, the data image, the stored
references and the symbol table unchanged. It leaves the whole code image
unchanged when that slot holds no operand word, and also when the label is
not in the symbol table, in which case one error is counted; a placeholder
(value 0, flag unknown) in the slot is then still there. -/
theorem C36_edit_operand_frame (st : AsmState) (ic : Nat) (label : Str) (mode : AddrMode)
    (hic : MEM_START_ADDRESS ≤ ic) :
    MEM_START_ADDRESS + (ic - MEM_START_ADDRESS) = ic ∧
    (∀ j, j ≠ ic - MEM_START_ADDRESS →
      (edit_operand st ic label mode).code_image j = st.code_image j) ∧
    (∀ j, ((edit_operand st ic label mode).code_image j).map Code.word_type =
      (st.code_image j).map Code.word_type) ∧
    (edit_operand st ic label mode).IC = st.IC ∧
    (edit_operand st ic label mode).DC = st.DC ∧
    (edit_operand st ic label mode).data_image = st.data_image ∧
    (edit_operand st ic label mode).symbol_references = st.symbol_references ∧
    (edit_operand st ic label mode).symbol_table = st.symbol_table ∧
    ((∀ o, st.code_image (ic - MEM_START_ADDRESS) ≠ some (.operand o)) →
      (edit_operand st ic label mode).code_image = st.code_image) ∧
    (_get_symbol st.symbol_table label = none →
      (edit_operand st ic label mode).code_image = st.code_image ∧
      (edit_operand st ic label mode).n_errors = st.n_errors + 1 ∧
      (st.code_image (ic - MEM_START_ADDRESS) = some (.operand ⟨0, .Linker_UNK⟩) →
        (edit_operand st ic label mode).code_image (ic - MEM_START_ADDRESS) =
          some (.operand ⟨0, .Linker_UNK⟩))) := by
  obtain ⟨f1, f2, f3⟩ := edit_operand_frame st ic label mode
  obtain ⟨s1, s2⟩ := edit_operand_slots st ic label mode
  have hdata : (edit_operand st ic label mode).DC = st.DC ∧
      (edit_operand st ic label mode).data_image = st.data_image := by
    unfold edit_operand lookup_symbol
    cases _get_symbol st.symbol_table label with
    | none => exact ⟨rfl, rfl⟩
    | some s =>
      simp only
      cases hc : st.code_image (ic - MEM_START_ADDRESS) with
      | none => exact ⟨rfl, rfl⟩
      | some w =>
        cases w with
        | instruction i => exact ⟨rfl, rfl⟩
        | operand o => cases mode <;> exact ⟨rfl, rfl⟩
  have hnoop : (∀ o, st.code_image (ic - MEM_START_ADDRESS) ≠ some (.operand o)) →
      (edit_operand st ic label mode).code_image = st.code_image := by
    intro hno
    unfold edit_operand lookup_symbol
    cases _get_symbol st.symbol_table label with
    | none => rfl
    | some s =>
      simp only
  refine ⟨by omega, s1, ?_, f2, hdata.1, hdata.2, f3, f1, hnoop, ?_⟩
  · intro j
    by_cases hj : j = ic - MEM_START_ADDRESS
    · by_cases hop : ∃ o, st.code_image j = some (.operand o)
      · obtain ⟨o, ho⟩ := hop
        obtain ⟨o2, ho2⟩ := s2 j ⟨o, ho⟩
        rw [ho, ho2]
        rfl
      · rw [hnoop (by
          intro o ho
          rw [← hj] at ho
          exact hop ⟨o, ho⟩)]
    · rw [s1 j hj]
  · intro hnone
    rw [edit_operand_absent st ic label mode hnone]
    exact ⟨rfl, rfl, fun h => h⟩

/-- Witness of C36: after `prn X`, whose placeholder is at address 101, an
`edit_operand` for a label that is not in the table leaves the placeholder
in place and counts an error. -/
theorem C36_edit_operand_frame_witness :
    (edit_operand
      (first_pass init_state [⟨1, none, some "prn".toList, none, 1, ["X".toList]⟩])
      101 "X".toList .DIRECT).code_image 1 = some (.operand ⟨0, .Linker_UNK⟩) ∧
    (edit_operand
      (first_pass init_state [⟨1, none, some "prn".toList, none, 1, ["X".toList]⟩])
      101 "X".toList .DIRECT).n_errors = 1 := by
  have h := (C36_edit_operand_frame
    (first_pass init_state [⟨1, none, some "prn".toList, none, 1, ["X".toList]⟩])
    101 "X".toList .DIRECT (by decide)).2.2.2.2.2.2.2.2.2 (by decide)
  exact ⟨h.2.2 (by decide), by rw [h.2.1]; decide⟩

/-! ### Lines that give no record -/

/-- The first `strtok` call of `parse_line` finds a token: the line is
trimmed and not empty, so it starts with a character that is no blank. -/
theorem strtok_trim_isSome (s : Str) (h : trim s ≠ []) :
    ∃ p, strtok (trim s) " \t".toList = some p := by
  unfold trim at h ⊢
  cases hd : s.dropWhile isspace with
  | nil =>
    rw [hd] at h
    exact absurd rfl h
  | cons c cs =>
    have hc := dropWhile_head_false isspace s c cs hd
    have hnot : (" \t".toList).contains c = false := by
      cases hcont : (" \t".toList).contains c with
      | false => rfl
      | true =>
        have hmem : c = ' ' ∨ c = '\t' := by simpa using hcont
        rcases hmem with hm | hm <;> rw [hm] at hc <;> exact absurd hc (by decide)
    unfold trim_end
    simp only
    rw [strtok_cons_tok c _ _ hnot]
    exact ⟨_, rfl⟩

/-- When the first half of `parse_line` returns NULL for a line that is not
blank and no comment, it has counted an error. -/
theorem parse_head_failed (line : Str) (e0 e1 : Int) (h : parse_head line e0 = .failed e1) :
    e0 + 1 ≤ e1 := by
  unfold parse_head at h
  simp only at h
  split at h
  · simp at h
  · rename_i hblank
    split at h
    · rename_i hs
      exfalso
      have hne : trim (line.takeWhile (fun c => c ≠ '\n')) ≠ [] := by
        intro he
        apply hblank
        rw [he]
        rfl
      obtain ⟨p, hp⟩ := strtok_trim_isSome _ hne
      rw [hp] at hs
      simp at hs
    · split at h
      · rename_i tk rs hs hcol
        have hsnd := validate_label_snd
          (get_substr tk 0 (tk.length - 1))
          (if (trim (List.takeWhile (fun c => decide (c ≠ '\n')) line)).length > MAX_LINE_LEN
            then e0 + 1 else e0)
        split at h
        · rename_i e2 hv
          rw [hv] at hsnd
          simp only [Bool.false_eq_true, if_false] at hsnd
          simp only [LineHead.failed.injEq] at h
          rw [← h, hsnd]
          split_ifs <;> omega
        · rename_i e2 hv
          rw [hv] at hsnd
          simp only [if_true] at hsnd
          split at h
          · simp only [LineHead.failed.injEq] at h
            rw [← h, hsnd]
            split_ifs <;> omega
          · simp at h
      · simp at h

/-- When the second half of `parse_line` returns NULL, the validator of the
command has counted one error. -/
theorem parse_command_none (line_num : Int) (label : Option Str) (token rest : Str)
    (e e3 : Int) (h : parse_command line_num label token rest e = (none, e3)) :
    e3 = e + 1 := by
  unfold parse_command at h
  rcases hr : read_args token (get_arg_input rest) with ⟨args, c, bad⟩
  rw [hr] at h
  simp only at h
  have hu := validate_command_uniform token args e
  cases hv : (validate_command token args 0).1 with
  | true =>
    rw [hv] at hu
    simp only [if_true] at hu
    rw [hu] at h
    simp at h
  | false =>
    rw [hv] at hu
    simp only [Bool.false_eq_true, if_false] at hu
    rw [hu] at h
    simp only [Prod.mk.injEq, true_and] at h
    exact h.symm

/-- Every argument token takes at least one character of the argument
text. -/
theorem split_args_length_le (n : Nat) :
    ∀ s : Str, s.length ≤ n → (split_args s).length ≤ s.length := by
  induction n with
  | zero =>
    intro s h
    have hs : s = [] := List.length_eq_zero.mp (by omega)
    subst hs
    rw [split_args_nil]
    exact Nat.le_refl _
  | succ n ih =>
    intro s h
    rw [split_args_step]
    cases hs : strtok s ", \t".toList with
    | none => simp
    | some p =>
      obtain ⟨tok, rest⟩ := p
      have hlt := strtok_rest_lt ", \t".toList s tok rest hs
      have hrec := ih rest (by omega)
      simp only [List.length_cons]
      omega

theorem trim_length_le (s : Str) : (trim s).length ≤ s.length := by
  rw [trim_eq, List.length_reverse]
  have h1 := (List.dropWhile_sublist (l := (s.dropWhile isspace).reverse) isspace).length_le
  have h2 := (List.dropWhile_sublist (l := s) isspace).length_le
  rw [List.length_reverse] at h1
  omega

theorem get_arg_input_length (rest t : Str) (h : get_arg_input rest = some t) :
    t.length ≤ rest.length := by
  unfold get_arg_input strtok at h
  have hd : rest.dropWhile (fun c => ([] : Str).contains c) = rest := by
    cases rest with
    | nil => rfl
    | cons c cs => simp [List.dropWhile_cons]
  rw [hd] at h
  cases rest with
  | nil => simp at h
  | cons c cs =>
    simp only [Option.map_some', Option.some.injEq] at h
    rw [← h]
    have h1 := trim_length_le ((c :: cs).takeWhile (fun x => !([] : Str).contains x))
    have h2 := (List.takeWhile_sublist (l := c :: cs)
      (fun x => !([] : Str).contains x)).length_le
    omega

/-- The arguments read from a text of at most `MAX_LINE_LEN` characters fit
the buffer `args`. -/
theorem read_args_fit (token rest : Str) (h : rest.length ≤ MAX_LINE_LEN) :
    (read_args token (get_arg_input rest)).1.length ≤ MAX_LINE_LEN := by
  unfold read_args
  cases hg : get_arg_input rest with
  | none => exact Nat.zero_le _
  | some a =>
    simp only
    split
    · exact (by decide : 1 ≤ MAX_LINE_LEN)
    · have h1 := get_arg_input_length rest a hg
      have h2 := split_args_length_le a.length a (Nat.le_refl _)
      simp only
      omega

/-- The text left after the command token is shorter than the stripped
line. -/
theorem parse_head_rest_length (line : Str) (e0 : Int) (label : Option Str)
    (token rest : Str) (e1 : Int) (h : parse_head line e0 = .command label token rest e1) :
    rest.length ≤ (strip_line line).length := by
  unfold strip_line
  rw [← trim_eq]
  unfold parse_head at h
  simp only at h
  split at h
  · simp at h
  · split at h
    · simp at h
    · rename_i tk rs hs
      have hlt := strtok_rest_lt " \t".toList _ tk rs hs
      split at h
      · split at h
        · simp at h
        · split at h
          · simp at h
          · rename_i tk2 rs2 hs2
            have hlt2 := strtok_rest_lt " \t".toList _ tk2 rs2 hs2
            simp only [LineHead.command.injEq] at h
            rw [← h.2.2.1]
            omega
      · simp only [LineHead.command.injEq] at h
        rw [← h.2.2.1]
        omega

/-- On a line longer than `MAX_LINE_LEN` the first half of `parse_line` has
counted the length error when it hands a command to the second half. -/
theorem parse_head_long (line : Str) (e0 : Int) (label : Option Str) (token rest : Str)
    (e1 : Int) (h : parse_head line e0 = .command label token rest e1)
    (hlong : MAX_LINE_LEN < (strip_line line).length) : e1 = e0 + 1 := by
  unfold strip_line at hlong
  rw [← trim_eq] at hlong
  unfold parse_head at h
  simp only at h
  split at h
  · simp at h
  · split at h
    · simp at h
    · split at h
      · rename_i tk rs hs hcol
        split at h
        · simp at h
        · rename_i e2 hv
          have hsnd := validate_label_snd (get_substr tk 0 (tk.length - 1)) (e0 + 1)
          rw [hv] at hsnd
          simp only [if_true] at hsnd
          split at h
          · simp at h
          · simp only [LineHead.command.injEq] at h
            rw [← h.2.2.2, hsnd]
      · simp only [LineHead.command.injEq] at h
        exact h.2.2.2.symm

/-- On a line whose stripped text has at most `MAX_LINE_LEN` characters the
arguments fit the buffer `args`, and `parse_line` returns. -/
theorem parse_line_defined (line_num : Int) (line : Str) (n_errors : Int)
    (h : (strip_line line).length ≤ MAX_LINE_LEN) :
    ∃ r, parse_line line_num line n_errors = some r := by
  unfold parse_line
  cases hh : parse_head line n_errors with
  | blank => exact ⟨_, rfl⟩
  | failed e => exact ⟨_, rfl⟩
  | command label token rest e =>
    have hlen := parse_head_rest_length line n_errors label token rest e hh
    simp only
    rw [if_pos (read_args_fit token rest (by omega))]
    exact ⟨_, rfl⟩

/-- The result of `parse_line` on a line with a command token whose
arguments fit the buffer. -/
theorem parse_line_some (line_num : Int) (line : Str) (n_errors : Int)
    (r : Option ParsedLine × Int) (h : parse_line line_num line n_errors = some r) :
    (parse_head line n_errors = .blank ∧ r = (none, n_errors)) ∨
    (∃ e, parse_head line n_errors = .failed e ∧ r = (none, e)) ∨
    (∃ label token rest e, parse_head line n_errors = .command label token rest e ∧
      (read_args token (get_arg_input rest)).1.length ≤ MAX_LINE_LEN ∧
      r = parse_command line_num label token rest e) := by
  unfold parse_line at h
  cases hh : parse_head line n_errors with
  | blank =>
    rw [hh] at h
    exact Or.inl ⟨rfl, (Option.some.inj h).symm⟩
  | failed e =>
    rw [hh] at h
    exact Or.inr (Or.inl ⟨e, rfl, (Option.some.inj h).symm⟩)
  | command label token rest e =>
    rw [hh] at h
    simp only at h
    split at h
    · rename_i hfit
      exact Or.inr (Or.inr ⟨label, token, rest, e, rfl, hfit, (Option.some.inj h).symm⟩)
    · simp at h

/-- C39: for every raw line that, after its newline is cut and it is
trimmed, is neither empty nor starts with `;`, if `parse_line` returns no
record then the error counter it returns is at least one above the one it was
given: such a line is never dropped silently. `parse_line` returns on every
such line with at most `MAX_LINE_LEN` characters; a line on which it stores
past the end of `args` and does not return is longer, so that its length
error has been counted before the arguments are read. -/
theorem C39_no_silent_drop (line_num : Int) (line : Str) (n_errors : Int)
    (hne : strip_line line ≠ []) (hcom : (strip_line line).head? ≠ some ';') :
    (∀ e : Int, parse_line line_num line n_errors = some (none, e) → n_errors + 1 ≤ e) ∧
    ((strip_line line).length ≤ MAX_LINE_LEN →
      ∃ r, parse_line line_num line n_errors = some r) ∧
    (parse_line line_num line n_errors = none →
      MAX_LINE_LEN < (strip_line line).length ∧
      ∃ label token rest e, parse_head line n_errors = .command label token rest e ∧
        n_errors + 1 ≤ e) := by
  refine ⟨?_, parse_line_defined line_num line n_errors, ?_⟩
  · intro e3 hnone
    rcases parse_line_some line_num line n_errors _ hnone with
      ⟨hh, _⟩ | ⟨e, hh, hr⟩ | ⟨label, token, rest, e, hh, _, hr⟩
    · exfalso
      unfold parse_head at hh
      simp only at hh
      unfold strip_line at hne hcom
      rw [← trim_eq] at hne hcom
      split at hh
      · rename_i hb
        simp only [Bool.or_eq_true, decide_eq_true_eq] at hb
        rcases hb with hb | hb
        · exact hne (List.length_eq_zero.mp hb)
        · exact hcom hb
      · split at hh
        · simp at hh
        · split at hh
          · split at hh
            · simp at hh
            · split at hh <;> simp at hh
          · simp at hh
    · have he : e3 = e := (Prod.mk.inj hr).2
      rw [he]
      exact parse_head_failed line n_errors e hh
    · have hc := parse_head_counter line n_errors label token rest e hh
      have hp := parse_command_none line_num label token rest e e3 hr.symm
      omega
  · intro hundef
    have hlong : MAX_LINE_LEN < (strip_line line).length := by
      by_contra hle
      obtain ⟨r, hr⟩ := parse_line_defined line_num line n_errors (by omega)
      rw [hr] at hundef
      simp at hundef
    refine ⟨hlong, ?_⟩
    unfold parse_line at hundef
    cases hh : parse_head line n_errors with
    | blank =>
      rw [hh] at hundef
      simp at hundef
    | failed e =>
      rw [hh] at hundef
      simp at hundef
    | command label token rest e =>
      exact ⟨label, token, rest, e, rfl,
        by rw [parse_head_long line n_errors label token rest e hh hlong]⟩

/-- Witness of C39: `mov r1` lacks an argument, and `1x: stop` has a bad
label: no record, one error each. -/
theorem C39_no_silent_drop_witness :
    parse_line 5 "mov r1\n".toList 3 = some (none, 4) ∧ (3 : Int) + 1 ≤ 4 ∧
    parse_line 6 "1x: stop\n".toList 3 = some (none, 4) :=
  ⟨by decide,
    (C39_no_silent_drop 5 "mov r1\n".toList 3 (by decide) (by decide)).1 4 (by decide),
    by decide⟩

/-! ### The stages of `main` -/

theorem fgets_loop_cons {σ : Type} (body : σ → Str → Option σ) (s : σ) (line : Str)
    (rest : List Str) :
    fgets_loop body s (line :: rest) =
      match body s line with
      | none => none
      | some s2 => fgets_loop body s2 rest := by
  rw [fgets_loop]

theorem add_parsed_line_defined (l : List ParsedLine) (pl : ParsedLine)
    (h : l.length < INPUT_BATCH_SIZE) : add_parsed_line l pl = some (l ++ [pl]) := by
  unfold add_parsed_line
  by_cases h0 : l.length = 0
  · rw [if_pos h0]
  · rw [if_neg h0, if_neg (by rw [Nat.mod_eq_of_lt h]; exact h0)]

theorem add_parsed_line_some (l l2 : List ParsedLine) (pl : ParsedLine)
    (h : add_parsed_line l pl = some l2) : l2 = l ++ [pl] := by
  unfold add_parsed_line at h
  split_ifs at h <;> exact (Option.some.inj h).symm

/-- One round of the pre-processing loop on all the globals does to the error
counter, the line number and the parsed lines what the round on these alone
does. -/
theorem main_read_step_proj (g : Globals) (line : Str) :
    (main_read_step g line).map Globals.to_parse = main_parse_step g.to_parse line := by
  unfold main_read_step main_parse_step Globals.to_parse
  simp only
  rcases parse_line (g.line_num + 1) line g.n_errors with _ | ⟨_ | r, e⟩
  · rfl
  · rfl
  · simp only
    cases add_parsed_line g.parsed_lines r <;> rfl

/-- The pre-processing loop on all the globals reads the same records and
counts the same errors as the loop on the error counter, the line number and
the parsed lines alone, and is undefined on the same files. -/
theorem main_read_loop_proj (lines : List Str) :
    ∀ g : Globals,
      (fgets_loop main_read_step g lines).map Globals.to_parse =
        fgets_loop main_parse_step g.to_parse lines := by
  induction lines with
  | nil =>
    intro g
    rfl
  | cons l rest ih =>
    intro g
    have hstep := main_read_step_proj g l
    rw [fgets_loop_cons, fgets_loop_cons]
    cases hm : main_read_step g l with
    | none =>
      rw [hm] at hstep
      simp only [Option.map_none'] at hstep
      rw [← hstep]
      rfl
    | some g2 =>
      rw [hm] at hstep
      simp only [Option.map_some'] at hstep
      rw [← hstep]
      exact ih g2

theorem main_read_loop_preprocess (g0 : Globals) (lines : List Str) :
    (fgets_loop main_read_step (reset_counters g0) lines).map Globals.to_parse =
      preprocess lines :=
  main_read_loop_proj lines (reset_counters g0)

theorem sum_over_append (f : ParsedLine → Int) (l : List ParsedLine) (pl : ParsedLine) :
    sum_over f (l ++ [pl]) = sum_over f l + f pl := by
  unfold sum_over
  simp

/-- A round of the pre-processing loop adds to each of the four counts the
count of the record it stores, and leaves `i_symbol_ref` alone. -/
theorem read_step_counts (g g2 : Globals) (line : Str) (b1 b2 b3 b4 : Int)
    (h : main_read_step g line = some g2)
    (h1 : g.n_symbols = b1 + sum_over get_num_symbols g.parsed_lines)
    (h2 : g.n_code_words = b2 + sum_over get_num_code_words g.parsed_lines)
    (h3 : g.n_data_words = b3 + sum_over get_num_data_words g.parsed_lines)
    (h4 : g.n_symbol_refs = b4 + sum_over get_num_symbol_refs g.parsed_lines) :
    g2.n_symbols = b1 + sum_over get_num_symbols g2.parsed_lines ∧
    g2.n_code_words = b2 + sum_over get_num_code_words g2.parsed_lines ∧
    g2.n_data_words = b3 + sum_over get_num_data_words g2.parsed_lines ∧
    g2.n_symbol_refs = b4 + sum_over get_num_symbol_refs g2.parsed_lines ∧
    g2.i_symbol_ref = g.i_symbol_ref := by
  unfold main_read_step at h
  rcases hp : parse_line (g.line_num + 1) line g.n_errors with _ | ⟨_ | r, e⟩
  · rw [hp] at h
    simp at h
  · rw [hp] at h
    simp only [Option.some.injEq] at h
    rw [← h]
    exact ⟨h1, h2, h3, h4, rfl⟩
  · rw [hp] at h
    simp only at h
    cases ha : add_parsed_line g.parsed_lines r with
    | none =>
      rw [ha] at h
      simp at h
    | some l2 =>
      rw [ha] at h
      simp only [Option.some.injEq] at h
      have hl := add_parsed_line_some _ _ _ ha
      rw [← h, hl]
      simp only [sum_over_append]
      refine ⟨?_, ?_, ?_, ?_, trivial⟩ <;> omega

/-- The pre-processing loop adds to each of the four counts the count of
every record it stores, and leaves `i_symbol_ref` alone. -/
theorem read_loop_counts (lines : List Str) :
    ∀ (g g2 : Globals) (b1 b2 b3 b4 : Int),
      fgets_loop main_read_step g lines = some g2 →
      g.n_symbols = b1 + sum_over get_num_symbols g.parsed_lines →
      g.n_code_words = b2 + sum_over get_num_code_words g.parsed_lines →
      g.n_data_words = b3 + sum_over get_num_data_words g.parsed_lines →
      g.n_symbol_refs = b4 + sum_over get_num_symbol_refs g.parsed_lines →
      g2.n_symbols = b1 + sum_over get_num_symbols g2.parsed_lines ∧
      g2.n_code_words = b2 + sum_over get_num_code_words g2.parsed_lines ∧
      g2.n_data_words = b3 + sum_over get_num_data_words g2.parsed_lines ∧
      g2.n_symbol_refs = b4 + sum_over get_num_symbol_refs g2.parsed_lines ∧
      g2.i_symbol_ref = g.i_symbol_ref := by
  induction lines with
  | nil =>
    intro g g2 b1 b2 b3 b4 h h1 h2 h3 h4
    have hg : g = g2 := Option.some.inj h
    rw [← hg]
    exact ⟨h1, h2, h3, h4, rfl⟩
  | cons l rest ih =>
    intro g g2 b1 b2 b3 b4 h h1 h2 h3 h4
    rw [fgets_loop_cons] at h
    cases hm : main_read_step g l with
    | none =>
      rw [hm] at h
      simp at h
    | some g1 =>
      rw [hm] at h
      simp only at h
      obtain ⟨s1, s2, s3, s4, s5⟩ := read_step_counts g g1 l b1 b2 b3 b4 hm h1 h2 h3 h4
      obtain ⟨r1, r2, r3, r4, r5⟩ := ih g1 g2 b1 b2 b3 b4 h s1 s2 s3 s4
      exact ⟨r1, r2, r3, r4, by rw [r5, s5]⟩

/-- The counts after the pre-processing loop of a file: the symbol, code-word
and data-word counts are those of the file's records; the reference count is
the one left by the file before plus that of the file's records. -/
theorem read_loop_counts_reset (g0 g : Globals) (lines : List Str)
    (h : fgets_loop main_read_step (reset_counters g0) lines = some g) :
    g.n_symbols = sum_over get_num_symbols g.parsed_lines ∧
    g.n_code_words = sum_over get_num_code_words g.parsed_lines ∧
    g.n_data_words = sum_over get_num_data_words g.parsed_lines ∧
    g.n_symbol_refs = g0.n_symbol_refs + sum_over get_num_symbol_refs g.parsed_lines := by
  obtain ⟨r1, r2, r3, r4, _⟩ := read_loop_counts lines (reset_counters g0) g 0 0 0
    g0.n_symbol_refs h (by simp [reset_counters, sum_over])
    (by simp [reset_counters, sum_over]) (by simp [reset_counters, sum_over])
    (by simp [reset_counters, sum_over])
  refine ⟨?_, ?_, ?_, r4⟩ <;> omega

/-- C32 does not hold for the count of deferred references. `reset_counters`
assigns seven globals and not `n_symbol_refs`, which only `free_symbol_refs`
sets to 0, and after a syntax error `main` calls `free_parsed_lines` alone.
For a first file with the lines `jmp X` and `mov` (the second is rejected)
the count is 1 when `main` moves on, still 1 after `reset_counters`, and 1
after the pre-processing of a second file `stop`, which has no reference. In
general, wherever the round of `main` for a file is defined, the seven other
counters are 0 after `reset_counters` whatever the file before did, and the
reference count that the next file starts with is 0 after a file whose
pre-processing counted no error, and otherwise the count that file started
with plus the count of its records. -/
theorem C32_symbol_refs_count_not_reset :
    main_iteration (fun _ => true) "first".toList Globals.start
      ["jmp X\n".toList, "mov\n".toList] =
      some ({ n_errors := 1, line_num := 2, parsed_lines := [], n_symbols := 0
              n_code_words := 2, n_data_words := 0, i_symbol_ref := 0
              n_symbol_refs := 1 }, none) ∧
    (main_iteration (fun _ => true) "first".toList Globals.start
      ["jmp X\n".toList, "mov\n".toList]).map
        (fun r => (reset_counters r.1).n_symbol_refs) = some 1 ∧
    ((main_iteration (fun _ => true) "first".toList Globals.start
      ["jmp X\n".toList, "mov\n".toList]).bind
        (fun r => fgets_loop main_read_step (reset_counters r.1) ["stop\n".toList])).map
        (fun g => g.n_symbol_refs) = some 1 ∧
    (preprocess ["stop\n".toList]).map
      (fun p => sum_over get_num_symbol_refs p.parsed_lines) = some 0 ∧
    ¬ (∀ (fopen : Str → Bool) (output_path : Str) (g0 : Globals) (lines : List Str)
        (r : Globals × Option OutputFiles),
        main_iteration fopen output_path g0 lines = some r →
        (reset_counters r.1).n_symbol_refs = 0) ∧
    (∀ (fopen : Str → Bool) (output_path : Str) (g0 : Globals) (lines : List Str)
        (r : Globals × Option OutputFiles),
      main_iteration fopen output_path g0 lines = some r →
      (reset_counters r.1).n_errors = 0 ∧
      (reset_counters r.1).line_num = 0 ∧
      (reset_counters r.1).n_lines = 0 ∧
      (reset_counters r.1).n_symbols = 0 ∧
      (reset_counters r.1).n_code_words = 0 ∧
      (reset_counters r.1).n_data_words = 0 ∧
      (reset_counters r.1).i_symbol_ref = 0 ∧
      ∃ p, preprocess lines = some p ∧
        (p.n_errors = 0 → (reset_counters r.1).n_symbol_refs = 0) ∧
        (p.n_errors ≠ 0 →
          (reset_counters r.1).n_symbol_refs =
            g0.n_symbol_refs + sum_over get_num_symbol_refs p.parsed_lines)) := by
  refine ⟨by decide, by decide, by decide, by decide, ?_, ?_⟩
  · intro h
    exact absurd (h (fun _ => true) "first".toList Globals.start
      ["jmp X\n".toList, "mov\n".toList]
      ({ n_errors := 1, line_num := 2, parsed_lines := [], n_symbols := 0
         n_code_words := 2, n_data_words := 0, i_symbol_ref := 0
         n_symbol_refs := 1 }, none) (by decide)) (by decide)
  · intro fopen output_path g0 lines r hr
    refine ⟨rfl, rfl, rfl, rfl, rfl, rfl, rfl, ?_⟩
    have hproj := main_read_loop_preprocess g0 lines
    unfold main_iteration at hr
    cases hg : fgets_loop main_read_step (reset_counters g0) lines with
    | none =>
      rw [hg] at hr
      simp at hr
    | some g =>
      rw [hg] at hr hproj
      simp only [Option.map_some'] at hproj
      refine ⟨g.to_parse, hproj.symm, ?_, ?_⟩
      · intro h0
        have h0g : g.n_errors = 0 := h0
        simp only at hr
        rw [if_neg (by rw [h0g]; simp)] at hr
        split_ifs at hr <;> rw [← Option.some.inj hr] <;> rfl
      · intro h0
        have h0g : g.n_errors ≠ 0 := h0
        simp only at hr
        rw [if_pos h0g] at hr
        rw [← Option.some.inj hr]
        exact (read_loop_counts_reset g0 g lines hg).2.2.2

/-! ### A label before `.extern` or `.entry` -/

/-- C31: for every record `L: .entry X`, the round of the first pass changes
nothing but the line number (no symbol is added, no error counted), and
`get_num_symbols` returns 0. For every record `L: .extern X`, the round of the
first pass is the same as for the record without its label, so `L` is not
looked at: if `X` is not yet in the table, exactly the symbol `X` with address
0, type UNKNOWN and location EXTERNAL is appended and no error is counted
(also when `L` is already declared); if `X` is already in the table, the
table is unchanged and the one error counted is that of `X`; a label `L`
other than `X` that is not in the table before is not in it after; and
`get_num_symbols` returns 1. The counting functions do not touch the error
counter: a round of the pre-processing loop is defined when `parse_line`
returns and fewer than `INPUT_BATCH_SIZE` records are stored, and after a
round it is the one `parse_line` returned. -/
theorem C31_label_before_extern_or_entry :
    (∀ (st : AsmState) (pl : ParsedLine) (L : Str),
      pl.op = none → pl.directive = some ".entry".toList → pl.label = some L →
      first_pass_line st pl = { st with line_num := pl.line_num } ∧
      get_num_symbols pl = 0) ∧
    (∀ (st : AsmState) (pl : ParsedLine) (L : Str),
      pl.op = none → pl.directive = some ".extern".toList → pl.label = some L →
      first_pass_line st pl = first_pass_line st { pl with label := none } ∧
      (_get_symbol st.symbol_table (pl.args.getD 0 []) = none →
        (first_pass_line st pl).symbol_table =
          st.symbol_table ++ [⟨pl.args.getD 0 [], 0, .TYPE_UNK, .LOC_EXTERNAL⟩] ∧
        (first_pass_line st pl).n_errors = st.n_errors) ∧
      ((_get_symbol st.symbol_table (pl.args.getD 0 [])).isSome = true →
        (first_pass_line st pl).symbol_table = st.symbol_table ∧
        (first_pass_line st pl).n_errors = st.n_errors + 1) ∧
      (L ≠ pl.args.getD 0 [] → _get_symbol st.symbol_table L = none →
        _get_symbol (first_pass_line st pl).symbol_table L = none) ∧
      get_num_symbols pl = 1) ∧
    (∀ (g : Globals) (line : Str) (r : Option ParsedLine × Int),
      parse_line (g.line_num + 1) line g.n_errors = some r →
      g.parsed_lines.length < INPUT_BATCH_SIZE →
      ∃ g2, main_read_step g line = some g2 ∧ g2.n_errors = r.2) ∧
    (∀ (g g2 : Globals) (line : Str), main_read_step g line = some g2 →
      ∃ r, parse_line (g.line_num + 1) line g.n_errors = some r ∧ g2.n_errors = r.2) := by
  refine ⟨?_, ?_, ?_, ?_⟩
  · intro st pl L hop hd hl
    constructor
    · unfold first_pass_line handle_directive
      simp only [hop, hd, Option.isSome_none, Bool.false_eq_true, if_false,
        Option.isSome_some, if_true, Option.getD_some]
      rw [if_neg (by decide), if_neg (by decide)]
    · unfold get_num_symbols
      simp only [hop, hd, hl]
      rfl
  · intro st pl L hop hd hl
    have hstep : ∀ q : ParsedLine, q.op = none → q.directive = some ".extern".toList →
        first_pass_line st q =
          (add_symbol { st with line_num := q.line_num } (q.args.getD 0 []) .TYPE_UNK
            .LOC_EXTERNAL).2 := by
      intro q hqop hqd
      unfold first_pass_line handle_directive
      simp only [hqop, hqd, Option.isSome_none, Bool.false_eq_true, if_false,
        Option.isSome_some, if_true, Option.getD_some]
      rw [if_neg (by decide)]
    refine ⟨?_, ?_, ?_, ?_, ?_⟩
    · rw [hstep pl hop hd, hstep { pl with label := none } hop hd]
    · intro hnone
      rw [hstep pl hop hd,
        add_symbol_absent { st with line_num := pl.line_num } _ .TYPE_UNK .LOC_EXTERNAL
          ((get_symbol_none_iff _ _).mp hnone)]
      simp
    · intro hsome
      rw [hstep pl hop hd,
        add_symbol_present { st with line_num := pl.line_num } _ .TYPE_UNK .LOC_EXTERNAL
          ((get_symbol_isSome_iff _ _).mp hsome)]
      exact ⟨rfl, rfl⟩
    · intro hne hnone
      rw [hstep pl hop hd, get_symbol_none_iff]
      intro s hs
      rcases add_symbol_mem_cases { st with line_num := pl.line_num } (pl.args.getD 0 [])
        .TYPE_UNK .LOC_EXTERNAL s hs with hm | _
      · exact (get_symbol_none_iff _ _).mp hnone s hm
      · by_cases hp : ∃ x ∈ st.symbol_table, x.label = pl.args.getD 0 []
        · rw [add_symbol_present { st with line_num := pl.line_num } _ .TYPE_UNK
            .LOC_EXTERNAL hp] at hs
          exact (get_symbol_none_iff _ _).mp hnone s hs
        · have ha : ∀ x ∈ st.symbol_table, x.label ≠ pl.args.getD 0 [] :=
            fun x hx hxl => hp ⟨x, hx, hxl⟩
          rw [add_symbol_absent { st with line_num := pl.line_num } _ .TYPE_UNK
            .LOC_EXTERNAL ha] at hs
          simp only [List.mem_append, List.mem_singleton] at hs
          rcases hs with hs | hs
          · exact (get_symbol_none_iff _ _).mp hnone s hs
          · rw [hs]
            exact fun h => hne h.symm
    · unfold get_num_symbols
      simp only [hop, hd, hl]
      rfl
  · intro g line r hr hlen
    unfold main_read_step
    rw [hr]
    rcases r with ⟨_ | pl, e⟩
    · exact ⟨_, rfl, rfl⟩
    · simp only
      rw [add_parsed_line_defined g.parsed_lines pl hlen]
      exact ⟨_, rfl, rfl⟩
  · intro g g2 line h
    unfold main_read_step at h
    rcases hp : parse_line (g.line_num + 1) line g.n_errors with _ | ⟨_ | pl, e⟩
    · rw [hp] at h
      simp at h
    · rw [hp] at h
      simp only [Option.some.injEq] at h
      exact ⟨_, rfl, by rw [← h]⟩
    · rw [hp] at h
      simp only at h
      cases ha : add_parsed_line g.parsed_lines pl with
      | none =>
        rw [ha] at h
        simp at h
      | some l2 =>
        rw [ha] at h
        simp only [Option.some.injEq] at h
        exact ⟨_, rfl, by rw [← h]⟩

/-- Witness of C31: after `L: stop` the source lines `L: .extern X` and
`L: .entry L` are accepted, and the first pass over the three records counts
no error and leaves `L` as the code symbol of the first line and `X` as an
external symbol. -/
theorem C31_label_before_extern_or_entry_witness :
    preprocess ["L: stop\n".toList, "L: .extern X\n".toList, "L: .entry L\n".toList] =
      some ⟨0, 3, [⟨1, some "L".toList, some "stop".toList, none, 0, []⟩,
                   ⟨2, some "L".toList, none, some ".extern".toList, 1, ["X".toList]⟩,
                   ⟨3, some "L".toList, none, some ".entry".toList, 1, ["L".toList]⟩]⟩ ∧
    (first_pass_line
      (first_pass_line init_state ⟨1, some "L".toList, some "stop".toList, none, 0, []⟩)
      ⟨2, some "L".toList, none, some ".extern".toList, 1, ["X".toList]⟩).symbol_table =
      (first_pass_line init_state
        ⟨1, some "L".toList, some "stop".toList, none, 0, []⟩).symbol_table ++
        [⟨"X".toList, 0, .TYPE_UNK, .LOC_EXTERNAL⟩] ∧
    (first_pass_line
      (first_pass_line init_state ⟨1, some "L".toList, some "stop".toList, none, 0, []⟩)
      ⟨2, some "L".toList, none, some ".extern".toList, 1, ["X".toList]⟩).n_errors = 0 ∧
    get_num_symbols ⟨3, some "L".toList, none, some ".entry".toList, 1, ["L".toList]⟩ = 0 := by
  have h := C31_label_before_extern_or_entry.2.1
    (first_pass_line init_state ⟨1, some "L".toList, some "stop".toList, none, 0, []⟩)
    ⟨2, some "L".toList, none, some ".extern".toList, 1, ["X".toList]⟩ "L".toList rfl rfl rfl
  have h2 := C31_label_before_extern_or_entry.1 init_state
    ⟨3, some "L".toList, none, some ".entry".toList, 1, ["L".toList]⟩ "L".toList rfl rfl rfl
  refine ⟨by decide, (h.2.1 (by decide)).1, ?_, h2.2⟩
  rw [(h.2.1 (by decide)).2]
  decide

/-! ### The counts made ahead of the passes -/

theorem get_addr_mode_register_iff (a : Str) :
    get_addr_mode a = .REGISTER ↔ get_register a ≠ -1 := by
  constructor
  · intro h
    unfold get_addr_mode at h
    split_ifs at h with h1 h2 h3
    exact h3
  · intro h
    have hm : a ∈ register_names := by
      by_contra hc
      exact h ((get_register_eq_iff a).mpr hc)
    have hh := register_names_head a hm
    unfold get_addr_mode
    rw [if_neg (by rw [hh]; decide), if_neg (by rw [hh]; decide), if_pos h]

/-- A counting loop returns its start value plus the number of elements
counted. -/
theorem foldl_count (p : Str → Bool) (l : List Str) :
    ∀ k : Int, l.foldl (fun n a => if p a = true then n + 1 else n) k =
      k + (l.countP p : Int) := by
  induction l with
  | nil =>
    intro k
    simp
  | cons a rest ih =>
    intro k
    rw [List.foldl_cons, ih, List.countP_cons]
    by_cases h : p a = true
    · simp only [h, if_true]
      push_cast
      omega
    · simp only [h, if_false, Bool.false_eq_true]
      push_cast
      omega

theorem get_num_code_words_op (pl : ParsedLine) (h : pl.op.isSome = true) :
    get_num_code_words pl =
      1 + (pl.args.countP (fun a => decide (get_register a = -1)) : Int) := by
  unfold get_num_code_words
  rw [if_pos h]
  have := foldl_count (fun a => decide (get_register a = -1)) pl.args (0 + 1)
  simp only [decide_eq_true_eq] at this
  rw [this]
  omega

theorem get_num_symbol_refs_op (pl : ParsedLine) (h : pl.op.isSome = true) :
    get_num_symbol_refs pl =
      (pl.args.countP (fun a =>
        decide (get_addr_mode a = .DIRECT ∨ get_addr_mode a = .RELATIVE)) : Int) := by
  unfold get_num_symbol_refs
  rw [if_pos h]
  have := foldl_count
    (fun a => decide (get_addr_mode a = .DIRECT ∨ get_addr_mode a = .RELATIVE)) pl.args 0
  simp only [decide_eq_true_eq] at this
  rw [this]
  omega

theorem args_words_length (l : List Str) :
    (args_words l).length = l.countP (fun a => decide (get_register a = -1)) := by
  unfold args_words
  induction l with
  | nil => rfl
  | cons a rest ih =>
    rw [List.filterMap_cons, List.countP_cons]
    by_cases h : get_register a = -1
    · have hm : get_addr_mode a ≠ .REGISTER := fun hc =>
        (get_addr_mode_register_iff a).mp hc h
      have : ∃ w, operand_word a = some w := by
        unfold operand_word
        cases hmode : get_addr_mode a
        · exact ⟨_, rfl⟩
        · exact ⟨_, rfl⟩
        · exact ⟨_, rfl⟩
        · exact absurd hmode hm
      obtain ⟨w, hw⟩ := this
      simp only [hw, List.length_cons, ih, h, decide_True, if_true]
    · have hm : get_addr_mode a = .REGISTER := (get_addr_mode_register_iff a).mpr h
      have hw : operand_word a = none := by
        unfold operand_word
        rw [hm]
      simp only [hw, ih, h, decide_False, Bool.false_eq_true, if_false, Nat.add_zero]

theorem args_refs_length (line_num : Int) (l : List Str) :
    ∀ addr : Nat, (args_refs line_num addr l).length =
      l.countP (fun a => decide (get_addr_mode a = .DIRECT ∨ get_addr_mode a = .RELATIVE)) := by
  induction l with
  | nil =>
    intro addr
    rfl
  | cons a rest ih =>
    intro addr
    unfold args_refs
    rw [List.length_append, ih, List.countP_cons]
    unfold operand_ref
    cases hmode : get_addr_mode a <;> simp [hmode] <;> omega

theorem write_words_ge (ws : List Code) :
    ∀ (img : Arr Code) (i k : Nat), i + ws.length ≤ k → write_words img i ws k = img k := by
  induction ws with
  | nil =>
    intro img i k _
    rfl
  | cons w rest ih =>
    intro img i k hk
    unfold write_words
    simp only [List.length_cons] at hk
    rw [ih (img.set i w) (i + 1) k (by omega)]
    simp only [Arr.set]
    rw [if_neg (by omega)]

theorem add_data_loop_ge {α : Type} (f : α → Int) (l : List α) :
    ∀ (st : AsmState) (k : Nat), st.DC + l.length ≤ k →
      (l.foldl (fun s x => add_data s (f x)) st).data_image k = st.data_image k := by
  induction l with
  | nil =>
    intro st k _
    rfl
  | cons a rest ih =>
    intro st k hk
    simp only [List.length_cons] at hk
    rw [List.foldl_cons, ih (add_data st (f a)) k (by simp only [add_data]; omega)]
    simp only [add_data, Arr.set]
    rw [if_neg (by omega)]

/-- Every record `parse_line` returns is a validated record. -/
theorem parse_line_validated (line_num : Int) (line : Str) (e e2 : Int) (pl : ParsedLine)
    (h0 : parse_line line_num line e = some (some pl, e2)) : Validated pl := by
  rcases parse_line_some line_num line e _ h0 with
    ⟨_, hr⟩ | ⟨e1, _, hr⟩ | ⟨label, token, rest, e1, _, _, hr⟩
  · simp at hr
  · simp at hr
  · have h : (parse_command line_num label token rest e1).1 = some pl := by
      rw [← hr]
    unfold parse_command at h
    rcases hr : read_args token (get_arg_input rest) with ⟨args, c, bad⟩
    rw [hr] at h
    simp only at h
    have hu := validate_command_uniform token args e1
    cases hv : (validate_command token args 0).1 with
    | false =>
      rw [hv] at hu
      simp only [Bool.false_eq_true, if_false] at hu
      rw [hu] at h
      simp at h
    | true =>
      rw [hv] at hu
      simp only [if_true] at hu
      rw [hu] at h
      simp only [Option.some.injEq] at h
      subst h
      refine ⟨rfl, ?_⟩
      unfold validate_command at hv
      by_cases hd : token.head? = some '.'
      · rw [if_pos hd] at hv
        right
        exact ⟨token, by simp [hd], by simp [hd], hv⟩
      · rw [if_neg hd] at hv
        left
        exact ⟨token, by simp [hd], by simp [hd], hv⟩
/-- The shape of the arguments `_validate_directive` accepts. -/
theorem validate_directive_shape (name : Str) (args : List Str)
    (h : (_validate_directive name args 0).1 = true) :
    (name = ".string".toList ∧ ∃ s, args = [s] ∧ 2 ≤ s.length) ∨
    (name = ".data".toList ∧ args ≠ []) ∨
    (name = ".entry".toList ∧ ∃ a, args = [a]) ∨
    (name = ".extern".toList ∧ ∃ a, args = [a]) := by
  unfold _validate_directive at h
  cases hg : get_directive name with
  | none =>
    rw [hg] at h
    simp at h
  | some d =>
    rw [hg] at h
    simp only at h
    have hm : d ∈ directives := List.mem_of_find?_eq_some hg
    have hn : d.name = name := by
      have := List.find?_some hg
      simpa using this
    by_cases hc : ((args.length : Int) = 0 || (args.length : Int) > d.n_args) = true
    · rw [if_pos hc] at h
      simp at h
    · rw [if_neg hc] at h
      simp only [Bool.or_eq_true, decide_eq_true_eq, not_or, not_lt] at hc
      have hlen : args.length ≠ 0 := fun h0 => hc.1 (by rw [h0]; rfl)
      have hone : d.n_args = 1 → ∃ a, args = [a] := by
        intro h1
        have h2 := hc.2
        rw [h1] at h2
        rcases args with _ | ⟨a, _ | ⟨b, rest⟩⟩
        · exact absurd rfl hlen
        · exact ⟨a, rfl⟩
        · simp only [List.length_cons] at h2
          omega
      simp only [directives, List.mem_cons, List.mem_singleton, List.not_mem_nil,
        or_false] at hm
      rcases hm with hd | hd | hd | hd
      · left
        rw [hd] at hn hone h
        obtain ⟨s, hs⟩ := hone rfl
        refine ⟨hn.symm, s, hs, ?_⟩
        rw [hs] at h
        simp only [validate_directive_args, validate_directive_arg] at h
        have hv : (_validate_string s 0).1 = true := by
          rcases hvs : _validate_string s 0 with ⟨b, e⟩
          rw [hvs] at h
          cases b
          · simp at h
          · rfl
        exact ((validate_string_fst s 0).mp hv).1
      · right
        left
        rw [hd] at hn
        exact ⟨hn.symm, fun h0 => hlen (by rw [h0]; rfl)⟩
      · right
        right
        left
        rw [hd] at hn hone
        exact ⟨hn.symm, hone rfl⟩
      · right
        right
        right
        rw [hd] at hn hone
        exact ⟨hn.symm, hone rfl⟩

theorem add_data_image (st : AsmState) (v : Int) (k : Nat) :
    (add_data st v).data_image k = if k = st.DC then some v else st.data_image k := rfl

/-- What a round of the first pass adds, for a validated record: as many
code words, data words and stored references as the counting functions
return, and nothing at or above the new counters. -/
theorem first_pass_line_counts (st : AsmState) (pl : ParsedLine) (hv : Validated pl)
    (hic : MEM_START_ADDRESS ≤ st.IC) :
    ((first_pass_line st pl).IC : Int) = (st.IC : Int) + get_num_code_words pl ∧
    ((first_pass_line st pl).DC : Int) = (st.DC : Int) + get_num_data_words pl ∧
    ((first_pass_line st pl).symbol_references.length : Int) =
      (st.symbol_references.length : Int) + get_num_symbol_refs pl ∧
    st.IC ≤ (first_pass_line st pl).IC ∧
    st.DC ≤ (first_pass_line st pl).DC ∧
    (∀ k, (first_pass_line st pl).IC - MEM_START_ADDRESS ≤ k →
      (first_pass_line st pl).code_image k = st.code_image k) ∧
    (∀ k, (first_pass_line st pl).DC ≤ k →
      (first_pass_line st pl).data_image k = st.data_image k) := by
  obtain ⟨hn, hcase⟩ := hv
  rcases hcase with ⟨name, hop, hd, hval⟩ | ⟨name, hop, hd, hval⟩
  · obtain ⟨op, hget, hlen⟩ := validate_op_accept name pl.args 0 hval
    have hsome : pl.op.isSome = true := by rw [hop]; rfl
    have hstep : first_pass_line st pl = handle_op { st with line_num := pl.line_num } pl := by
      unfold first_pass_line
      simp only [hsome, if_true]
    have hspec := handle_op_spec { st with line_num := pl.line_num } pl op
      (by rw [hop]; exact hget) hlen hic
    obtain ⟨f1, f2, f3, f4, f5, f6⟩ :=
      add_label_symbol_frame { st with line_num := pl.line_num } pl.label .TYPE_CODE
    rw [hstep, hspec]
    simp only
    have hnd : get_num_data_words pl = 0 := by
      unfold get_num_data_words
      rw [hd]
      simp
    rw [get_num_code_words_op pl hsome, get_num_symbol_refs_op pl hsome, hnd,
      ← args_words_length, List.length_append, args_refs_length, f2]
    refine ⟨by push_cast; omega, by simp, by push_cast; omega, by omega, Nat.le_refl _,
      ?_, ?_⟩
    · intro k hk
      rw [write_words_ge _ _ _ k (by simp only [List.length_cons]; omega)]
    · intro k _
      rw [f4]
  · have hnone : pl.op.isSome = false := by rw [hop]; rfl
    have hdsome : pl.directive.isSome = true := by rw [hd]; rfl
    have hstep : first_pass_line st pl =
        handle_directive { st with line_num := pl.line_num } pl := by
      unfold first_pass_line
      simp only [hnone, hdsome, Bool.false_eq_true, if_false, if_true]
    obtain ⟨g1, g2, g3⟩ := handle_directive_frame { st with line_num := pl.line_num } pl
    have hnc : get_num_code_words pl = 0 := by
      unfold get_num_code_words
      rw [if_neg (by rw [hnone]; simp)]
    have hnr : get_num_symbol_refs pl = 0 := by
      unfold get_num_symbol_refs
      rw [if_neg (by rw [hnone]; simp)]
    have hfr := add_label_symbol_frame { st with line_num := pl.line_num } pl.label .TYPE_DATA
    have f2 : (add_label_symbol { st with line_num := pl.line_num } pl.label
        .TYPE_DATA).DC = st.DC := hfr.2.1
    have f4 : (add_label_symbol { st with line_num := pl.line_num } pl.label
        .TYPE_DATA).data_image = st.data_image := hfr.2.2.2.1
    have hdata : ((handle_directive { st with line_num := pl.line_num } pl).DC : Int) =
          (st.DC : Int) + get_num_data_words pl ∧
        st.DC ≤ (handle_directive { st with line_num := pl.line_num } pl).DC ∧
        (∀ k, (handle_directive { st with line_num := pl.line_num } pl).DC ≤ k →
          (handle_directive { st with line_num := pl.line_num } pl).data_image k =
            st.data_image k) := by
      rcases validate_directive_shape name pl.args hval with
        ⟨hname, s, hs, hslen⟩ | ⟨hname, _⟩ | ⟨hname, _⟩ | ⟨hname, _⟩
      · have hchars : ((s.drop 1).take (s.length - 1 - 1)).length = s.length - 2 := by
          simp only [List.length_take, List.length_drop]
          omega
        have hdir : handle_directive { st with line_num := pl.line_num } pl =
            add_data
              (((s.drop 1).take (s.length - 1 - 1)).foldl
                (fun s1 (c : Char) => add_data s1 (c.toNat : Int))
                (add_label_symbol { st with line_num := pl.line_num } pl.label .TYPE_DATA))
              0 := by
          unfold handle_directive
          simp only [hd, hname, hs, Option.getD_some]
          rw [if_pos (Or.inr trivial), if_neg (by decide)]
          simp only [List.getD_cons_zero]
        obtain ⟨_, a2, _, _⟩ := add_data_loop (fun c : Char => (c.toNat : Int))
          ((s.drop 1).take (s.length - 1 - 1))
          (add_label_symbol { st with line_num := pl.line_num } pl.label .TYPE_DATA)
        have hgnd : get_num_data_words pl = (s.length : Int) - 2 + 1 := by
          unfold get_num_data_words
          rw [hd, hname, hs]
          rw [if_neg (by decide), if_pos rfl]
          simp only [List.getD_cons_zero]
        rw [hdir, hgnd]
        have hDC : (add_data
            (((s.drop 1).take (s.length - 1 - 1)).foldl
              (fun s1 (c : Char) => add_data s1 (c.toNat : Int))
              (add_label_symbol { st with line_num := pl.line_num } pl.label .TYPE_DATA))
            0).DC = st.DC + (s.length - 2) + 1 := by
          rw [(add_data_frame _ _).1, a2, f2, hchars]
        rw [hDC]
        refine ⟨by push_cast; omega, by omega, ?_⟩
        intro k hk
        rw [add_data_image, if_neg (by rw [a2, f2, hchars]; omega)]
        rw [add_data_loop_ge (fun c : Char => (c.toNat : Int)) _ _ k
          (by rw [f2, hchars]; omega), f4]
      · have hdir : handle_directive { st with line_num := pl.line_num } pl =
            pl.args.foldl (fun s1 arg => add_data s1 (get_int_value arg 0))
              (add_label_symbol { st with line_num := pl.line_num } pl.label .TYPE_DATA) := by
          unfold handle_directive
          simp only [hd, hname, Option.getD_some]
          rw [if_pos (Or.inl trivial), if_pos trivial]
        obtain ⟨_, a2, _, _⟩ := add_data_loop (fun arg => get_int_value arg 0) pl.args
          (add_label_symbol { st with line_num := pl.line_num } pl.label .TYPE_DATA)
        have hgnd : get_num_data_words pl = (pl.args.length : Int) := by
          unfold get_num_data_words
          rw [hd, hname, if_pos rfl, hn]
        rw [hdir, hgnd, a2, f2]
        refine ⟨by push_cast; omega, by omega, ?_⟩
        intro k hk
        rw [add_data_loop_ge (fun arg => get_int_value arg 0) _ _ k (by rw [f2]; exact hk), f4]
      · have hdir : handle_directive { st with line_num := pl.line_num } pl =
            { st with line_num := pl.line_num } := by
          unfold handle_directive
          simp only [hd, hname, Option.getD_some]
          rw [if_neg (by decide), if_neg (by decide)]
        have hgnd : get_num_data_words pl = 0 := by
          unfold get_num_data_words
          rw [hd, hname, if_neg (by decide), if_neg (by decide)]
        rw [hdir, hgnd]
        exact ⟨by simp, Nat.le_refl _, fun _ _ => rfl⟩
      · have hdir : handle_directive { st with line_num := pl.line_num } pl =
            (add_symbol { st with line_num := pl.line_num } (pl.args.getD 0 []) .TYPE_UNK
              .LOC_EXTERNAL).2 := by
          unfold handle_directive
          simp only [hd, hname, Option.getD_some]
          rw [if_neg (by decide), if_pos trivial]
        have hgnd : get_num_data_words pl = 0 := by
          unfold get_num_data_words
          rw [hd, hname, if_neg (by decide), if_neg (by decide)]
        have hfr : (add_symbol { st with line_num := pl.line_num } (pl.args.getD 0 [])
              .TYPE_UNK .LOC_EXTERNAL).2.DC = st.DC ∧
            (add_symbol { st with line_num := pl.line_num } (pl.args.getD 0 []) .TYPE_UNK
              .LOC_EXTERNAL).2.data_image = st.data_image := by
          unfold add_symbol
          split <;> exact ⟨rfl, rfl⟩
        rw [hdir, hgnd, hfr.1, hfr.2]
        exact ⟨by simp, Nat.le_refl _, fun _ _ => rfl⟩
    rw [hstep, g1, g2, g3, hnc, hnr]
    exact ⟨by simp, hdata.1, by simp, Nat.le_refl _, hdata.2.1, fun _ _ => rfl, hdata.2.2⟩
theorem sum_over_cons (f : ParsedLine → Int) (pl : ParsedLine) (l : List ParsedLine) :
    sum_over f (pl :: l) = f pl + sum_over f l := by
  unfold sum_over
  simp

/-- What the line loop of the first pass adds, for validated records. -/
theorem first_pass_loop_counts (lines : List ParsedLine) :
    ∀ st : AsmState, (∀ pl ∈ lines, Validated pl) → MEM_START_ADDRESS ≤ st.IC →
      ((lines.foldl first_pass_line st).IC : Int) =
        (st.IC : Int) + sum_over get_num_code_words lines ∧
      ((lines.foldl first_pass_line st).DC : Int) =
        (st.DC : Int) + sum_over get_num_data_words lines ∧
      ((lines.foldl first_pass_line st).symbol_references.length : Int) =
        (st.symbol_references.length : Int) + sum_over get_num_symbol_refs lines ∧
      st.IC ≤ (lines.foldl first_pass_line st).IC ∧
      st.DC ≤ (lines.foldl first_pass_line st).DC ∧
      (∀ k, (lines.foldl first_pass_line st).IC - MEM_START_ADDRESS ≤ k →
        (lines.foldl first_pass_line st).code_image k = st.code_image k) ∧
      (∀ k, (lines.foldl first_pass_line st).DC ≤ k →
        (lines.foldl first_pass_line st).data_image k = st.data_image k) := by
  induction lines with
  | nil =>
    intro st _ _
    simp [sum_over]
  | cons pl rest ih =>
    intro st hv hic
    obtain ⟨a1, a2, a3, a4, a5, a6, a7⟩ :=
      first_pass_line_counts st pl (hv pl (List.mem_cons_self _ _)) hic
    obtain ⟨b1, b2, b3, b4, b5, b6, b7⟩ := ih (first_pass_line st pl)
      (fun x hx => hv x (List.mem_cons_of_mem _ hx)) (by omega)
    rw [List.foldl_cons]
    simp only [sum_over_cons]
    refine ⟨by omega, by omega, by omega, by omega, by omega, ?_, ?_⟩
    · intro k hk
      rw [b6 k hk, a6 k (by omega)]
    · intro k hk
      rw [b7 k hk, a7 k (by omega)]

/-- The records stored by the pre-processing loop are validated records. -/
theorem main_parse_step_validated (p p2 : ParseState) (line : Str)
    (h : main_parse_step p line = some p2) (hp : ∀ pl ∈ p.parsed_lines, Validated pl) :
    ∀ pl ∈ p2.parsed_lines, Validated pl := by
  unfold main_parse_step at h
  rcases hr : parse_line (p.line_num + 1) line p.n_errors with _ | ⟨_ | r, e⟩
  · rw [hr] at h
    simp at h
  · rw [hr] at h
    simp only [Option.some.injEq] at h
    rw [← h]
    exact hp
  · rw [hr] at h
    simp only at h
    cases ha : add_parsed_line p.parsed_lines r with
    | none =>
      rw [ha] at h
      simp at h
    | some l2 =>
      rw [ha] at h
      simp only [Option.some.injEq] at h
      rw [← h, add_parsed_line_some _ _ _ ha]
      intro pl hpl
      simp only [List.mem_append, List.mem_singleton] at hpl
      rcases hpl with hpl | hpl
      · exact hp pl hpl
      · rw [hpl]
        exact parse_line_validated (p.line_num + 1) line p.n_errors e r hr

theorem parse_loop_validated (lines : List Str) :
    ∀ p p2 : ParseState, fgets_loop main_parse_step p lines = some p2 →
      (∀ pl ∈ p.parsed_lines, Validated pl) → ∀ pl ∈ p2.parsed_lines, Validated pl := by
  induction lines with
  | nil =>
    intro p p2 h hp
    rw [← Option.some.inj h]
    exact hp
  | cons a rest ih =>
    intro p p2 h hp
    rw [fgets_loop_cons] at h
    cases hm : main_parse_step p a with
    | none =>
      rw [hm] at h
      simp at h
    | some p1 =>
      rw [hm] at h
      exact ih p1 p2 h (main_parse_step_validated p p1 a hm hp)

/-- The records the pre-processing of a file stores are validated records. -/
theorem preprocess_validated (lines : List Str) (p : ParseState)
    (h : preprocess lines = some p) : ∀ pl ∈ p.parsed_lines, Validated pl :=
  parse_loop_validated lines _ p h (by intro pl hpl; simp at hpl)

/-- C35: for every sequence of validated records, after the first pass,
started with the code counter at `MEM_START_ADDRESS`, the data counter at 0
and no stored reference, the number of code words emitted, `IC - 100`, is
the sum of `get_num_code_words` over the records, the number of data words
emitted, `DC`, the sum of `get_num_data_words`, and the number of stored
references the sum of `get_num_symbol_refs`; no slot of the code image or of
the data image at or above these sums has been written, and at no point of
the pass are the counters above their final values. For a source file on
which the pre-processing loop of `main` is defined these sums are the counts
`main` has made before it allocates the images (for the references, on top of
the count left by the file before), and the records it has stored are
validated records. -/
theorem C35_counts_match (st0 : AsmState) (lines : List ParsedLine)
    (hic : st0.IC = MEM_START_ADDRESS) (hdc : st0.DC = 0) (hrefs : st0.symbol_references = [])
    (hv : ∀ pl ∈ lines, Validated pl) :
    ((first_pass st0 lines).IC : Int) - (MEM_START_ADDRESS : Int) =
      sum_over get_num_code_words lines ∧
    ((first_pass st0 lines).DC : Int) = sum_over get_num_data_words lines ∧
    ((first_pass st0 lines).symbol_references.length : Int) =
      sum_over get_num_symbol_refs lines ∧
    (∀ k : Nat, sum_over get_num_code_words lines ≤ (k : Int) →
      (first_pass st0 lines).code_image k = st0.code_image k) ∧
    (∀ k : Nat, sum_over get_num_data_words lines ≤ (k : Int) →
      (first_pass st0 lines).data_image k = st0.data_image k) ∧
    (∀ pre post : List ParsedLine, lines = pre ++ post →
      (pre.foldl first_pass_line { st0 with n_errors := 0, line_num := 0 }).IC ≤
        (first_pass st0 lines).IC ∧
      (pre.foldl first_pass_line { st0 with n_errors := 0, line_num := 0 }).DC ≤
        (first_pass st0 lines).DC) ∧
    (∀ (g0 g : Globals) (raw : List Str),
      fgets_loop main_read_step (reset_counters g0) raw = some g →
      (∀ pl ∈ g.parsed_lines, Validated pl) ∧
      g.n_code_words = sum_over get_num_code_words g.parsed_lines ∧
      g.n_data_words = sum_over get_num_data_words g.parsed_lines ∧
      g.n_symbol_refs = g0.n_symbol_refs + sum_over get_num_symbol_refs g.parsed_lines) := by
  obtain ⟨a1, a2, a3, _, _, a6, a7⟩ :=
    first_pass_loop_counts lines { st0 with n_errors := 0, line_num := 0 } hv
      (by simp only [hic]; exact Nat.le_refl _)
  have b1 : ((first_pass st0 lines).IC : Int) =
      (st0.IC : Int) + sum_over get_num_code_words lines := a1
  have b2 : ((first_pass st0 lines).DC : Int) =
      (st0.DC : Int) + sum_over get_num_data_words lines := a2
  have b3 : ((first_pass st0 lines).symbol_references.length : Int) =
      (st0.symbol_references.length : Int) + sum_over get_num_symbol_refs lines := a3
  have b6 : ∀ k, (first_pass st0 lines).IC - MEM_START_ADDRESS ≤ k →
      (first_pass st0 lines).code_image k = st0.code_image k := a6
  have b7 : ∀ k, (first_pass st0 lines).DC ≤ k →
      (first_pass st0 lines).data_image k = st0.data_image k := a7
  have e1 : (first_pass st0 lines).IC =
      (lines.foldl first_pass_line { st0 with n_errors := 0, line_num := 0 }).IC := rfl
  have e2 : (first_pass st0 lines).DC =
      (lines.foldl first_pass_line { st0 with n_errors := 0, line_num := 0 }).DC := rfl
  rw [hrefs] at b3
  simp only [List.length_nil] at b3
  refine ⟨by omega, by omega, by omega, ?_, ?_, ?_, ?_⟩
  · intro k hk
    exact b6 k (by omega)
  · intro k hk
    exact b7 k (by omega)
  · intro pre post hsplit
    have hvpost : ∀ pl ∈ post, Validated pl := by
      intro pl hpl
      exact hv pl (by rw [hsplit]; exact List.mem_append_right _ hpl)
    have hvpre : ∀ pl ∈ pre, Validated pl := by
      intro pl hpl
      exact hv pl (by rw [hsplit]; exact List.mem_append_left _ hpl)
    obtain ⟨_, _, _, p4, _, _, _⟩ :=
      first_pass_loop_counts pre { st0 with n_errors := 0, line_num := 0 } hvpre
        (by simp only [hic]; exact Nat.le_refl _)
    obtain ⟨_, _, _, q4, q5, _, _⟩ :=
      first_pass_loop_counts post
        (pre.foldl first_pass_line { st0 with n_errors := 0, line_num := 0 }) hvpost
        (by
          have p4b : st0.IC ≤
              (pre.foldl first_pass_line { st0 with n_errors := 0, line_num := 0 }).IC := p4
          omega)
    rw [e1, e2, hsplit, List.foldl_append]
    exact ⟨q4, q5⟩
  · intro g0 g raw hg
    obtain ⟨_, r2, r3, r4⟩ := read_loop_counts_reset g0 g raw hg
    have hproj := main_read_loop_preprocess g0 raw
    rw [hg] at hproj
    exact ⟨preprocess_validated raw g.to_parse hproj.symm, r2, r3, r4⟩

/-- Witness of C35: for `X: jmp X`, `S: .string "ab"`, `mov r1, A`,
`A: .data 7, 8` the first pass emits 4 code words, 5 data words and 2
references. -/
theorem C35_counts_match_witness :
    preprocess example_counts = some ⟨0, 4, example_counts_parsed⟩ ∧
    ((first_pass init_state example_counts_parsed).IC : Int) -
      (MEM_START_ADDRESS : Int) = 4 ∧
    ((first_pass init_state example_counts_parsed).DC : Int) = 5 ∧
    ((first_pass init_state example_counts_parsed).symbol_references.length : Int) = 2 := by
  have hp : preprocess example_counts = some ⟨0, 4, example_counts_parsed⟩ := by decide
  obtain ⟨h1, h2, h3, _⟩ := C35_counts_match init_state example_counts_parsed rfl rfl rfl
    (preprocess_validated example_counts _ hp)
  refine ⟨hp, ?_, ?_, ?_⟩
  · rw [h1]
    decide
  · rw [h2]
    decide
  · rw [h3]
    decide

/-! ### Data labels and the object file -/

theorem add_data_loop_lt {α : Type} (f : α → Int) (l : List α) :
    ∀ (st : AsmState) (k : Nat), k < st.DC →
      (l.foldl (fun s x => add_data s (f x)) st).data_image k = st.data_image k := by
  induction l with
  | nil =>
    intro st k _
    rfl
  | cons a rest ih =>
    intro st k hk
    rw [List.foldl_cons, ih (add_data st (f a)) k (by simp only [add_data]; omega),
      add_data_image, if_neg (by omega)]

/-- A round of the first pass for a validated record keeps the data words
already written. -/
theorem first_pass_line_data_below (st : AsmState) (pl : ParsedLine) (hv : Validated pl)
    (hic : MEM_START_ADDRESS ≤ st.IC) :
    ∀ k, k < st.DC → (first_pass_line st pl).data_image k = st.data_image k := by
  intro k hk
  obtain ⟨_, hcase⟩ := hv
  rcases hcase with ⟨name, hop, hd, hval⟩ | ⟨name, hop, hd, hval⟩
  · obtain ⟨op, hget, hlen⟩ := validate_op_accept name pl.args 0 hval
    have hsome : pl.op.isSome = true := by rw [hop]; rfl
    have hstep : first_pass_line st pl = handle_op { st with line_num := pl.line_num } pl := by
      unfold first_pass_line
      simp only [hsome, if_true]
    have hspec := handle_op_spec { st with line_num := pl.line_num } pl op
      (by rw [hop]; exact hget) hlen hic
    have hfr := add_label_symbol_frame { st with line_num := pl.line_num } pl.label .TYPE_CODE
    rw [hstep, hspec]
    simp only
    rw [hfr.2.2.2.1]
  · have hnone : pl.op.isSome = false := by rw [hop]; rfl
    have hdsome : pl.directive.isSome = true := by rw [hd]; rfl
    have hstep : first_pass_line st pl =
        handle_directive { st with line_num := pl.line_num } pl := by
      unfold first_pass_line
      simp only [hnone, hdsome, Bool.false_eq_true, if_false, if_true]
    have hfr := add_label_symbol_frame { st with line_num := pl.line_num } pl.label .TYPE_DATA
    have f2 : (add_label_symbol { st with line_num := pl.line_num } pl.label
        .TYPE_DATA).DC = st.DC := hfr.2.1
    have f4 : (add_label_symbol { st with line_num := pl.line_num } pl.label
        .TYPE_DATA).data_image = st.data_image := hfr.2.2.2.1
    rw [hstep]
    unfold handle_directive
    simp only
    split
    · split
      · rw [add_data_loop_lt (fun arg => get_int_value arg 0) _ _ k (by rw [f2]; exact hk), f4]
      · have hDC := (add_data_loop (fun c : Char => (c.toNat : Int))
          (((pl.args.getD 0 []).drop 1).take ((pl.args.getD 0 []).length - 1 - 1))
          (add_label_symbol { st with line_num := pl.line_num } pl.label .TYPE_DATA)).2.1
        rw [add_data_image, if_neg (by rw [hDC, f2]; omega),
          add_data_loop_lt (fun c : Char => (c.toNat : Int)) _ _ k (by rw [f2]; exact hk), f4]
    · split
      · unfold add_symbol
        split <;> rfl
      · rfl

/-- The line loop of the first pass over validated records keeps the data
words already written and never lowers the data counter. -/
theorem first_pass_loop_data_below (lines : List ParsedLine) :
    ∀ st : AsmState, (∀ pl ∈ lines, Validated pl) → MEM_START_ADDRESS ≤ st.IC →
      st.DC ≤ (lines.foldl first_pass_line st).DC ∧
      ∀ k, k < st.DC → (lines.foldl first_pass_line st).data_image k = st.data_image k := by
  induction lines with
  | nil =>
    intro st _ _
    exact ⟨Nat.le_refl _, fun _ _ => rfl⟩
  | cons pl rest ih =>
    intro st hv hic
    obtain ⟨_, _, _, a4, a5, _, _⟩ :=
      first_pass_line_counts st pl (hv pl (List.mem_cons_self _ _)) hic
    obtain ⟨b1, b2⟩ := ih (first_pass_line st pl)
      (fun x hx => hv x (List.mem_cons_of_mem _ hx)) (by omega)
    rw [List.foldl_cons]
    refine ⟨by omega, ?_⟩
    intro k hk
    rw [b2 k (by omega),
      first_pass_line_data_below st pl (hv pl (List.mem_cons_self _ _)) hic k hk]

/-- The line `write_object_file` writes for data word `k`. -/
theorem write_object_file_data_line (st : AsmState) (hic : MEM_START_ADDRESS ≤ st.IC)
    (k : Nat) (hk : k < st.DC) :
    ∃ ob : ObjectFile, write_object_file st true = (some ob, st) ∧
      ob.lines[st.IC - MEM_START_ADDRESS + k]? =
        some { address := ((st.IC + k : Nat) : Int)
               val := (st.data_image k).map twos_comp } := by
  refine ⟨_, write_object_file_lines st, ?_⟩
  simp only
  rw [List.getElem?_append_right (by simp)]
  simp only [List.length_map, List.length_range, Nat.add_sub_cancel_left]
  rw [List.getElem?_map, List.getElem?_range hk]
  simp only [Option.map_some']
  congr 2
  push_cast
  omega

/-- C34: for every sequence of validated records, if a `.data` or `.string`
record declares a label `L` that is not yet in the table, at a point of the
first pass where the data counter is `d`, then after the first pass (started
with the code counter at `MEM_START_ADDRESS` and no stored reference) `L`
resolves to a symbol of type DATA with address `IC + d`, where `IC` is the
final code counter, 100 plus the number of code words. The record has at
least one data word; its first one is still in slot `d` of the data image
after the pass, and `write_object_file` writes that slot at address `IC + d`:
the label points at its own first data word. -/
theorem C34_data_label_address (st0 : AsmState) (pre post : List ParsedLine)
    (pl : ParsedLine) (L : Str)
    (hic : st0.IC = MEM_START_ADDRESS) (hrefs : st0.symbol_references = [])
    (hv : ∀ x ∈ pre ++ pl :: post, Validated x)
    (hop : pl.op = none)
    (hd : pl.directive = some ".data".toList ∨ pl.directive = some ".string".toList)
    (hl : pl.label = some L)
    (hnew : _get_symbol
      (pre.foldl first_pass_line { st0 with n_errors := 0, line_num := 0 }).symbol_table L =
        none) :
    _get_symbol (first_pass st0 (pre ++ pl :: post)).symbol_table L =
      some ⟨L,
        ((pre.foldl first_pass_line { st0 with n_errors := 0, line_num := 0 }).DC : Int) +
          ((first_pass st0 (pre ++ pl :: post)).IC : Int),
        .TYPE_DATA, .LOC_UNK⟩ ∧
    (first_pass st0 (pre ++ pl :: post)).IC =
      MEM_START_ADDRESS + (code_words (first_pass st0 (pre ++ pl :: post))).length ∧
    (pre.foldl first_pass_line { st0 with n_errors := 0, line_num := 0 }).DC <
      (first_pass st0 (pre ++ pl :: post)).DC ∧
    (first_pass st0 (pre ++ pl :: post)).data_image
        (pre.foldl first_pass_line { st0 with n_errors := 0, line_num := 0 }).DC =
      (first_pass_line (pre.foldl first_pass_line { st0 with n_errors := 0, line_num := 0 })
        pl).data_image
        (pre.foldl first_pass_line { st0 with n_errors := 0, line_num := 0 }).DC ∧
    (∃ ob : ObjectFile,
      write_object_file (first_pass st0 (pre ++ pl :: post)) true =
        (some ob, first_pass st0 (pre ++ pl :: post)) ∧
      ob.lines[(first_pass st0 (pre ++ pl :: post)).IC - MEM_START_ADDRESS +
          (pre.foldl first_pass_line { st0 with n_errors := 0, line_num := 0 }).DC]? =
        some { address :=
                 (((first_pass st0 (pre ++ pl :: post)).IC +
                   (pre.foldl first_pass_line
                     { st0 with n_errors := 0, line_num := 0 }).DC : Nat) : Int)
               val := ((first_pass st0 (pre ++ pl :: post)).data_image
                 (pre.foldl first_pass_line
                   { st0 with n_errors := 0, line_num := 0 }).DC).map twos_comp }) := by
  have hvpre : ∀ x ∈ pre, Validated x := fun x hx => hv x (List.mem_append_left _ hx)
  have hvpl : Validated pl := hv pl (List.mem_append_right _ (List.mem_cons_self _ _))
  have hvpost : ∀ x ∈ post, Validated x :=
    fun x hx => hv x (List.mem_append_right _ (List.mem_cons_of_mem _ hx))
  have hic0 : MEM_START_ADDRESS ≤
      ({ st0 with n_errors := 0, line_num := 0 } : AsmState).IC := by
    simp only [hic]
    exact Nat.le_refl _
  obtain ⟨_, _, _, p4, _, _, _⟩ :=
    first_pass_loop_counts pre { st0 with n_errors := 0, line_num := 0 } hvpre hic0
  generalize hstp : pre.foldl first_pass_line { st0 with n_errors := 0, line_num := 0 } = stp
    at *
  have hicp : MEM_START_ADDRESS ≤ stp.IC := Nat.le_trans hic0 p4
  obtain ⟨_, c2, _, c4, _, _, _⟩ := first_pass_line_counts stp pl hvpl hicp
  obtain ⟨q1, q2⟩ := first_pass_loop_data_below post (first_pass_line stp pl) hvpost
    (by omega)
  have hfin : first_pass st0 (pre ++ pl :: post) =
      shift_data_addresses (post.foldl first_pass_line (first_pass_line stp pl)) := by
    unfold first_pass
    rw [List.foldl_append, List.foldl_cons, hstp]
  -- the record has at least one data word
  have hwords : 1 ≤ get_num_data_words pl := by
    obtain ⟨hn, hcase⟩ := hvpl
    rcases hcase with ⟨name, hop2, _, _⟩ | ⟨name, _, hd2, hval⟩
    · rw [hop] at hop2
      simp at hop2
    · rcases validate_directive_shape name pl.args hval with
        ⟨hname, s, hs, hslen⟩ | ⟨hname, hne⟩ | ⟨hname, _⟩ | ⟨hname, _⟩
      · unfold get_num_data_words
        rw [hd2, hname, hs, if_neg (by decide), if_pos rfl]
        simp only [List.getD_cons_zero]
        omega
      · unfold get_num_data_words
        rw [hd2, hname, if_pos rfl, hn]
        have : 0 < pl.args.length := List.length_pos.mpr hne
        omega
      · rw [hd2, hname] at hd
        rcases hd with hd | hd <;> exact absurd hd (by decide)
      · rw [hd2, hname] at hd
        rcases hd with hd | hd <;> exact absurd hd (by decide)
  have hlt : stp.DC < (first_pass_line stp pl).DC := by omega
  -- the symbol added by the record
  have hdsome : pl.directive.isSome = true := by
    rcases hd with hd | hd <;> rw [hd] <;> rfl
  have htab : (first_pass_line stp pl).symbol_table =
      stp.symbol_table ++ [⟨L, (stp.DC : Int), .TYPE_DATA, .LOC_UNK⟩] := by
    unfold first_pass_line
    simp only [hop, Option.isSome_none, Bool.false_eq_true, if_false, hdsome, if_true]
    rw [handle_directive_symbol_table]
    have hc : pl.directive.getD [] = ".data".toList ∨
        pl.directive.getD [] = ".string".toList := by
      rcases hd with hd | hd
      · left
        rw [hd]
        rfl
      · right
        rw [hd]
        rfl
    rw [if_pos hc, hl]
    unfold add_label_symbol
    simp only
    rw [add_symbol_absent { stp with line_num := pl.line_num } L .TYPE_DATA .LOC_UNK
      ((get_symbol_none_iff _ _).mp hnew)]
    simp [get_DC]
  obtain ⟨ext, hext⟩ := first_pass_loop_prefix post (first_pass_line stp pl)
  have hfound : _get_symbol (post.foldl first_pass_line (first_pass_line stp pl)).symbol_table
      L = some ⟨L, (stp.DC : Int), .TYPE_DATA, .LOC_UNK⟩ := by
    rw [← hext, htab, List.append_assoc]
    exact get_symbol_split L stp.symbol_table _ _ ((get_symbol_none_iff _ _).mp hnew) rfl
  have hIC : (first_pass st0 (pre ++ pl :: post)).IC =
      (post.foldl first_pass_line (first_pass_line stp pl)).IC := by
    rw [hfin]
    rfl
  have hDC : (first_pass st0 (pre ++ pl :: post)).DC =
      (post.foldl first_pass_line (first_pass_line stp pl)).DC := by
    rw [hfin]
    rfl
  have hdi : (first_pass st0 (pre ++ pl :: post)).data_image =
      (post.foldl first_pass_line (first_pass_line stp pl)).data_image := by
    rw [hfin]
    rfl
  have hge : MEM_START_ADDRESS ≤ (first_pass st0 (pre ++ pl :: post)).IC :=
    (refsok_first_pass st0 (pre ++ pl :: post) (by rw [hic]) hrefs).1
  refine ⟨?_, ?_, by rw [hDC]; omega, ?_, ?_⟩
  · rw [hIC, hfin]
    unfold shift_data_addresses
    simp only
    rw [get_symbol_map _ (by intro x; split <;> rfl), hfound]
    simp [get_IC, SymType.toInt, WordType.toInt]
  · unfold code_words
    simp only [List.length_map, List.length_range]
    omega
  · rw [hdi]
    exact q2 stp.DC hlt
  · exact write_object_file_data_line _ hge stp.DC (by rw [hDC]; omega)

/-- Witness of C34: in `mov r1, A`, `A: .data 7, 8`, `stop` the label `A` is
declared at data counter 0 and three code words are emitted, so `A` has
address 103, which is the address of the fourth line of the object file,
holding the word 7. -/
theorem C34_data_label_address_witness :
    preprocess ["mov r1, A\n".toList, "A: .data 7, 8\n".toList, "stop\n".toList] =
      some ⟨0, 3, example_label_pre ++ example_label_line :: example_label_post⟩ ∧
    _get_symbol (first_pass init_state
      (example_label_pre ++ example_label_line :: example_label_post)).symbol_table
      "A".toList = some ⟨"A".toList, 103, .TYPE_DATA, .LOC_UNK⟩ ∧
    (∃ ob : ObjectFile,
      write_object_file (first_pass init_state
        (example_label_pre ++ example_label_line :: example_label_post)) true =
        (some ob, first_pass init_state
          (example_label_pre ++ example_label_line :: example_label_post)) ∧
      ob.lines[3]? = some { address := 103, val := some 7 }) := by
  have hv : ∀ x ∈ example_label_pre ++ example_label_line :: example_label_post,
      Validated x := by
    intro x hx
    simp only [example_label_pre, example_label_post, List.cons_append, List.nil_append,
      List.mem_cons, List.mem_singleton, List.not_mem_nil, or_false] at hx
    rcases hx with hx | hx | hx
    · rw [hx]
      exact ⟨rfl, Or.inl ⟨_, rfl, rfl, by decide⟩⟩
    · rw [hx]
      exact ⟨rfl, Or.inr ⟨_, rfl, rfl, by decide⟩⟩
    · rw [hx]
      exact ⟨rfl, Or.inl ⟨_, rfl, rfl, by decide⟩⟩
  obtain ⟨h1, _, _, _, ob, h5, h6⟩ := C34_data_label_address init_state example_label_pre
    example_label_post example_label_line "A".toList rfl rfl hv rfl (Or.inl rfl) rfl
    (by decide)
  refine ⟨by decide, h1.trans (by decide), ob, h5, ?_⟩
  have e1 : (first_pass init_state
      (example_label_pre ++ example_label_line :: example_label_post)).IC -
      MEM_START_ADDRESS + (example_label_pre.foldl first_pass_line
        { init_state with n_errors := 0, line_num := 0 }).DC = 3 := by decide
  rw [e1] at h6
  rw [h6]
  decide

/-! ### Relative operands -/

/-- In the table of operations no first-operand mode array admits RELATIVE,
and the second-operand mode array admits it only for the one-argument
operations `jmp`, `bne` and `jsr`, of opcode 9. -/
theorem ops_relative :
    ∀ op ∈ ops, mode_allowed op.arg_1_modes .RELATIVE = false ∧
      (mode_allowed op.arg_2_modes .RELATIVE = true →
        op.n_args = 1 ∧ op.opcode = 9 ∧
          (op.name = "jmp".toList ∨ op.name = "bne".toList ∨ op.name = "jsr".toList)) := by
  decide

theorem validate_operand_allowed (operand : Str) (modes : List Int) (e : Int)
    (h : (_validate_operand operand modes e).1 = true) :
    mode_allowed modes (get_addr_mode operand) = true := by
  unfold _validate_operand at h
  simp only at h
  by_cases hm : mode_allowed modes (get_addr_mode operand) = true
  · exact hm
  · rw [Bool.not_eq_true] at hm
    rw [hm] at h
    simp at h

/-- An accepted op with a RELATIVE argument is `jmp`, `bne` or `jsr`, and the
argument is its only one. -/
theorem validate_op_relative (name : Str) (args : List Str) (e : Int)
    (h : (_validate_op name args e).1 = true) (a : Str) (ha : a ∈ args)
    (hm : get_addr_mode a = .RELATIVE) :
    args = [a] ∧ (name = "jmp".toList ∨ name = "bne".toList ∨ name = "jsr".toList) ∧
      ∃ op, get_op name = some op ∧ op.opcode = 9 := by
  unfold _validate_op at h
  cases hg : get_op name with
  | none =>
    rw [hg] at h
    simp at h
  | some op =>
    rw [hg] at h
    simp only at h
    have hmem : op ∈ ops := List.mem_of_find?_eq_some hg
    have hname : op.name = name := (get_op_name name op hg).1
    obtain ⟨r1, r2⟩ := ops_relative op hmem
    have hle := op_n_args_le op hmem
    by_cases hn : (args.length : Int) ≠ op.n_args
    · rw [if_pos hn] at h
      simp at h
    · rw [if_neg hn] at h
      rw [not_not] at hn
      rcases hargs : args with _ | ⟨x, _ | ⟨y, _ | ⟨z, rest⟩⟩⟩
      · rw [hargs] at ha
        simp at ha
      · rw [hargs] at ha h
        simp only [List.mem_singleton] at ha
        subst ha
        simp only [List.length_singleton, ge_iff_le, le_refl, if_true, Nat.sub_self,
          List.getD_cons_zero] at h
        have hal : mode_allowed op.arg_2_modes (get_addr_mode a) = true := by
          apply validate_operand_allowed a op.arg_2_modes e
          revert h
          rcases _validate_operand a op.arg_2_modes e with ⟨_ | _, e2⟩
          · intro h
            simp at h
          · intro _
            rfl
        rw [hm] at hal
        obtain ⟨_, h9, hnm⟩ := r2 hal
        rw [hname] at hnm
        exact ⟨rfl, hnm, op, rfl, h9⟩
      · exfalso
        rw [hargs] at ha h hn
        simp only [List.length_cons, List.length_nil, Nat.zero_add, Nat.reduceAdd,
          ge_iff_le, Nat.one_le_ofNat, if_true, Nat.add_one_sub_one, List.getD_cons_succ,
          List.getD_cons_zero] at h
        rcases hv2 : _validate_operand y op.arg_2_modes e with ⟨_ | _, e2⟩
        · rw [hv2] at h
          simp at h
        · have hal2 := validate_operand_allowed y op.arg_2_modes e (by rw [hv2])
          rw [hv2] at h
          simp only at h
          rcases hv1 : _validate_operand x op.arg_1_modes e2 with ⟨_ | _, e3⟩
          · rw [hv1] at h
            simp at h
          · have hal1 := validate_operand_allowed x op.arg_1_modes e2 (by rw [hv1])
            simp only [List.mem_cons, List.mem_singleton, List.not_mem_nil, or_false] at ha
            rcases ha with ha | ha
            · subst ha
              rw [hm, r1] at hal1
              exact Bool.false_ne_true hal1
            · subst ha
              rw [hm] at hal2
              have := (r2 hal2).1
              simp only [List.length_cons, List.length_nil] at hn
              omega
      · exfalso
        rw [hargs] at hn
        simp only [List.length_cons] at hn
        omega

/-- A round of the first pass for a validated record keeps the code words
already written and the references already stored. -/
theorem first_pass_line_code_below (st : AsmState) (pl : ParsedLine) (hv : Validated pl)
    (hic : MEM_START_ADDRESS ≤ st.IC) :
    (∀ k, k < st.IC - MEM_START_ADDRESS →
      (first_pass_line st pl).code_image k = st.code_image k) ∧
    ∃ ext, (first_pass_line st pl).symbol_references = st.symbol_references ++ ext := by
  obtain ⟨_, hcase⟩ := hv
  rcases hcase with ⟨name, hop, hd, hval⟩ | ⟨name, hop, hd, hval⟩
  · obtain ⟨op, hget, hlen⟩ := validate_op_accept name pl.args 0 hval
    have hsome : pl.op.isSome = true := by rw [hop]; rfl
    have hstep : first_pass_line st pl = handle_op { st with line_num := pl.line_num } pl := by
      unfold first_pass_line
      simp only [hsome, if_true]
    have hspec := handle_op_spec { st with line_num := pl.line_num } pl op
      (by rw [hop]; exact hget) hlen hic
    rw [hstep, hspec]
    exact ⟨fun k hk => write_words_lt _ _ _ k hk, _, rfl⟩
  · have hnone : pl.op.isSome = false := by rw [hop]; rfl
    have hdsome : pl.directive.isSome = true := by rw [hd]; rfl
    have hstep : first_pass_line st pl =
        handle_directive { st with line_num := pl.line_num } pl := by
      unfold first_pass_line
      simp only [hnone, hdsome, Bool.false_eq_true, if_false, if_true]
    obtain ⟨_, h2, h3⟩ := handle_directive_frame { st with line_num := pl.line_num } pl
    rw [hstep, h2, h3]
    exact ⟨fun _ _ => rfl, [], (List.append_nil _).symm⟩

theorem first_pass_loop_code_below (lines : List ParsedLine) :
    ∀ st : AsmState, (∀ pl ∈ lines, Validated pl) → MEM_START_ADDRESS ≤ st.IC →
      (∀ k, k < st.IC - MEM_START_ADDRESS →
        (lines.foldl first_pass_line st).code_image k = st.code_image k) ∧
      ∃ ext, (lines.foldl first_pass_line st).symbol_references =
        st.symbol_references ++ ext := by
  induction lines with
  | nil =>
    intro st _ _
    exact ⟨fun _ _ => rfl, [], (List.append_nil _).symm⟩
  | cons pl rest ih =>
    intro st hv hic
    obtain ⟨_, _, _, a4, _, _, _⟩ :=
      first_pass_line_counts st pl (hv pl (List.mem_cons_self _ _)) hic
    obtain ⟨b1, ext1, b2⟩ :=
      first_pass_line_code_below st pl (hv pl (List.mem_cons_self _ _)) hic
    obtain ⟨c1, ext2, c2⟩ := ih (first_pass_line st pl)
      (fun x hx => hv x (List.mem_cons_of_mem _ hx)) (by omega)
    rw [List.foldl_cons]
    refine ⟨?_, ext1 ++ ext2, ?_⟩
    · intro k hk
      rw [c1 k (by omega), b1 k hk]
    · rw [c2, b2, List.append_assoc]

/-- C37: for every sequence of validated records, started with the code
counter at `MEM_START_ADDRESS` and no stored reference: a record of an op
with an argument `a` of mode RELATIVE is a `jmp`, `bne` or `jsr` record whose
only argument is `a`. If its instruction word is written at address `A` (the
code counter before the record) and the label of `a`, without the `&`, is in
the symbol table after the two passes with address `s.address`, then after
the two passes slot `A - 100` holds the instruction word of the record, of
opcode 9, and slot `A + 1 - 100` holds the operand word with value
`s.address - A` and flag A: the distance from the instruction word to the
label. -/
theorem C37_relative_distance (st0 : AsmState) (pre post : List ParsedLine)
    (pl : ParsedLine) (name a : Str) (s : Symbol)
    (hic : st0.IC = MEM_START_ADDRESS) (hrefs : st0.symbol_references = [])
    (hv : ∀ x ∈ pre ++ pl :: post, Validated x)
    (hop : pl.op = some name) (ha : a ∈ pl.args) (hm : get_addr_mode a = .RELATIVE)
    (hs : _get_symbol
      (second_pass (first_pass st0 (pre ++ pl :: post)) (pre ++ pl :: post)).symbol_table
      (get_substr a 1 a.length) = some s) :
    pl.args = [a] ∧
    (name = "jmp".toList ∨ name = "bne".toList ∨ name = "jsr".toList) ∧
    (∃ op, get_op name = some op ∧ op.opcode = 9 ∧
      (second_pass (first_pass st0 (pre ++ pl :: post)) (pre ++ pl :: post)).code_image
        ((pre.foldl first_pass_line { st0 with n_errors := 0, line_num := 0 }).IC -
          MEM_START_ADDRESS) =
        some (.instruction (op_instruction op [a])) ∧
      (op_instruction op [a]).arg_2_mode = .RELATIVE) ∧
    (second_pass (first_pass st0 (pre ++ pl :: post)) (pre ++ pl :: post)).code_image
        ((pre.foldl first_pass_line { st0 with n_errors := 0, line_num := 0 }).IC + 1 -
          MEM_START_ADDRESS) =
      some (.operand
        { value := s.address -
            ((pre.foldl first_pass_line { st0 with n_errors := 0, line_num := 0 }).IC : Int)
          linker_info := .Linker_A }) := by
  have hvpre : ∀ x ∈ pre, Validated x := fun x hx => hv x (List.mem_append_left _ hx)
  have hvpl : Validated pl := hv pl (List.mem_append_right _ (List.mem_cons_self _ _))
  have hvpost : ∀ x ∈ post, Validated x :=
    fun x hx => hv x (List.mem_append_right _ (List.mem_cons_of_mem _ hx))
  have hic0 : MEM_START_ADDRESS ≤
      ({ st0 with n_errors := 0, line_num := 0 } : AsmState).IC := by
    simp only [hic]
    exact Nat.le_refl _
  obtain ⟨_, _, _, p4, _, _, _⟩ :=
    first_pass_loop_counts pre { st0 with n_errors := 0, line_num := 0 } hvpre hic0
  have hR : RefsOk (first_pass st0 (pre ++ pl :: post)) :=
    refsok_first_pass st0 (pre ++ pl :: post) (by rw [hic]) hrefs
  have hfin : first_pass st0 (pre ++ pl :: post) =
      shift_data_addresses (post.foldl first_pass_line (first_pass_line
        (pre.foldl first_pass_line { st0 with n_errors := 0, line_num := 0 }) pl)) := by
    unfold first_pass
    rw [List.foldl_append, List.foldl_cons]
  generalize pre.foldl first_pass_line { st0 with n_errors := 0, line_num := 0 } = stp at *
  have hicp : MEM_START_ADDRESS ≤ stp.IC := Nat.le_trans hic0 p4
  -- the record is a one-argument jump
  have hval : (_validate_op name pl.args 0).1 = true := by
    obtain ⟨_, hcase⟩ := hvpl
    rcases hcase with ⟨n2, hop2, _, hval⟩ | ⟨n2, hop2, _, _⟩
    · rw [hop] at hop2
      cases hop2
      exact hval
    · rw [hop] at hop2
      simp at hop2
  obtain ⟨hargs, hname, op, hget, h9⟩ := validate_op_relative name pl.args 0 hval a ha hm
  -- the round of the record
  have hsome : pl.op.isSome = true := by rw [hop]; rfl
  have hstep : first_pass_line stp pl = handle_op { stp with line_num := pl.line_num } pl := by
    unfold first_pass_line
    simp only [hsome, if_true]
  have hspec := handle_op_spec { stp with line_num := pl.line_num } pl op
    (by rw [hop]; exact hget) (by rw [hargs]; simp) hicp
  rw [← hstep, hargs] at hspec
  have hw : args_words [a] = [.operand { value := 0, linker_info := .Linker_UNK }] := by
    simp [args_words, operand_word, hm]
  have hr : args_refs pl.line_num (stp.IC + 1) [a] =
      [{ line_num := pl.line_num, IC := stp.IC + 1, label := a.drop 1,
         addrMode := .RELATIVE }] := by
    simp [args_refs, operand_ref, hm]
  have hlIC : (first_pass_line stp pl).IC = stp.IC + 1 + 1 := by
    rw [hspec, hw]
    rfl
  have hlcode : (first_pass_line stp pl).code_image (stp.IC - MEM_START_ADDRESS) =
      some (.instruction (op_instruction op [a])) := by
    have hw0 : write_words stp.code_image (stp.IC - MEM_START_ADDRESS)
        (.instruction (op_instruction op [a]) :: args_words [a])
        (stp.IC - MEM_START_ADDRESS) = some (.instruction (op_instruction op [a])) := by
      have hw1 := write_words_at (.instruction (op_instruction op [a]) :: args_words [a])
        stp.code_image (stp.IC - MEM_START_ADDRESS) 0 (by simp)
      rw [Nat.add_zero, List.getElem?_cons_zero] at hw1
      exact hw1
    rw [hspec]
    exact hw0
  have hlrefs : (first_pass_line stp pl).symbol_references = stp.symbol_references ++
      [{ line_num := pl.line_num, IC := stp.IC + 1, label := a.drop 1,
         addrMode := .RELATIVE }] := by
    rw [hspec]
    exact congrArg (fun l => stp.symbol_references ++ l) hr
  -- the rounds after it
  obtain ⟨q1, ext, q2⟩ := first_pass_loop_code_below post (first_pass_line stp pl) hvpost
    (by omega)
  have h1code : (first_pass st0 (pre ++ pl :: post)).code_image
      (stp.IC - MEM_START_ADDRESS) = some (.instruction (op_instruction op [a])) := by
    rw [hfin]
    exact (q1 _ (by omega)).trans hlcode
  have h1refs : (first_pass st0 (pre ++ pl :: post)).symbol_references =
      (stp.symbol_references ++
        [{ line_num := pl.line_num, IC := stp.IC + 1, label := a.drop 1,
           addrMode := .RELATIVE }]) ++ ext := by
    rw [hfin]
    exact q2.trans (by rw [hlrefs])
  generalize first_pass st0 (pre ++ pl :: post) = st1 at *
  have hmem : (⟨pl.line_num, stp.IC + 1, a.drop 1, .RELATIVE⟩ : SymbolInfo) ∈
      st1.symbol_references := by
    rw [h1refs]
    simp
  rw [get_substr_tail] at hs
  have hres := (second_pass_resolves st1 (pre ++ pl :: post) hR _ hmem s hs).2 rfl
  refine ⟨hargs, hname, ⟨op, hget, h9, ?_, ?_⟩, ?_⟩
  · rw [second_pass_other st1 (pre ++ pl :: post) (stp.IC - MEM_START_ADDRESS)]
    · exact h1code
    · intro r hr2 heq
      obtain ⟨_, _, o, ho⟩ := hR.2.1 r hr2
      rw [heq, h1code] at ho
      cases ho
  · simp [op_instruction, hm]
  · rw [hres]
    congr 3
    push_cast
    omega

/-- Witness of C37: in `mov r1, r2`, `jmp &END`, `END: stop` the `jmp` word
is at 101 and `END` at 103, so the operand word at 102 holds the value 2. -/
theorem C37_relative_distance_witness :
    preprocess ["mov r1, r2\n".toList, "jmp &END\n".toList, "END: stop\n".toList] =
      some ⟨0, 3,
        example_relative_pre ++ example_relative_line :: example_relative_post⟩ ∧
    (second_pass (first_pass init_state
        (example_relative_pre ++ example_relative_line :: example_relative_post))
      (example_relative_pre ++ example_relative_line :: example_relative_post)).code_image 2 =
      some (.operand { value := 2, linker_info := .Linker_A }) := by
  have hv : ∀ x ∈ example_relative_pre ++ example_relative_line :: example_relative_post,
      Validated x := by
    intro x hx
    simp only [example_relative_pre, example_relative_post, List.cons_append,
      List.nil_append, List.mem_cons, List.mem_singleton, List.not_mem_nil, or_false] at hx
    rcases hx with hx | hx | hx
    · rw [hx]
      exact ⟨rfl, Or.inl ⟨_, rfl, rfl, by decide⟩⟩
    · rw [hx]
      exact ⟨rfl, Or.inl ⟨_, rfl, rfl, by decide⟩⟩
    · rw [hx]
      exact ⟨rfl, Or.inl ⟨_, rfl, rfl, by decide⟩⟩
  have h := (C37_relative_distance init_state example_relative_pre example_relative_post
    example_relative_line "jmp".toList "&END".toList
    ⟨"END".toList, 103, .TYPE_CODE, .LOC_UNK⟩ rfl rfl hv rfl (by decide) (by decide)
    (by decide)).2.2.2
  exact ⟨by decide, h⟩

end Assembler
